import Mathlib

/-!
# DIAPASOM: data-set partitioning and batch training of the lattice

A shallow embedding of the data-set loader (`src/src/dataset.cpp`,
`src/src/dataset.hpp`), of the arithmetic helper `som::parallel::distribute`
(`src/include/parallel.hpp`), of the training state (`src/src/trainstate.hpp`),
of the training functions of `src/src/trainfuncs.hpp` and of the training loop
`Lattice::train` (`src/src/lattice.cpp`), followed by the properties proved
about them.

Modelling conventions.

* `unsigned` values are natural numbers.  Every intermediate value of
  `distribute`, `global_to_local` and of the cursor `bidx` is bounded by one of
  its operands, so these are written with the operations of `Nat`; the places
  where a value can leave the 32-bit range (the line counter `trecords`, the
  narrowing of `values.size()` to `unsigned`, the differences and sums of grid
  coordinates in `batch_fraction_accumulate`, the bounds of `batch_present`)
  are reduced modulo `2^32` with `u32` and `usub`.
* `double` values are rational numbers: arithmetic is exact.  A quotient by
  zero, which is a NaN or an infinity in the source, has no value: the
  functions that divide return an `Option`.
* `std::exp` is a parameter `exp` of the functions that call it.
* The process-wide `som::parallel::state` is passed explicitly as a
  `parallel.State`.
* A `const double*` is a `Ptr`: a memory block together with an offset.
* An input file is the list of its lines, each line the list of the numeric
  fields that `iss >> value` can extract from it.
* A collective sum is the exact sum of what every rank contributes; where a
  function runs a collective, it takes the list of the states of all ranks
  and the index of the rank that runs it.
* The values of `std::rand` are a sequence `rand`, the same on every rank.
* `Lattice::train` is run by all ranks at once on the list of their states.
  Each loop takes a bound `fuel` on the number of its tests.  A run ends with
  an error when a fuel is used up, when a rank holds a value that is not a
  number, or when the ranks do not take the same branch of a test; what the
  ranks do is recorded, with their states, in a trace of events.
-/

namespace som

/-- The constant `UINT_MAX` of `<climits>` for a 32-bit `unsigned`. -/
def UINT_MAX : Nat := 4294967295

/-- Reduction of a value to the range of a 32-bit `unsigned`. -/
def u32 (x : Nat) : Nat := x % 4294967296

/-- A `const double*`: a block of memory and a position inside it. -/
structure Ptr where
  mem : List ℚ
  off : Nat

/-- Reads `p[i]`; a read outside the block yields `0`. -/
def Ptr.read (p : Ptr) (i : Nat) : ℚ := p.mem.getD (p.off + i) 0

/-- The `count` values `p[0], ..., p[count-1]`. -/
def Ptr.slice (p : Ptr) (count : Nat) : List ℚ := (List.range count).map p.read

namespace parallel

/-- The fields `mrank` and `mranks` of `som::parallel::State`. -/
structure State where
  mrank : Nat
  mranks : Nat

/-- The function `som::parallel::distribute(total, rank)`. -/
def distribute (st : State) (total rank : Nat) : Nat :=
  let perrank := total / st.mranks
  let remainder := total - perrank * st.mranks
  if rank < remainder then perrank + 1 else perrank

/-- The overload `som::parallel::distribute(total)`, for the current rank. -/
def distributeSelf (st : State) (total : Nat) : Nat :=
  distribute st total st.mrank

/-- The collective `sum_all` on one double: the sum over all ranks of the value
each rank contributes. -/
def sum_all (ranks : Nat) (contribution : Nat → ℚ) : ℚ :=
  ((List.range ranks).map contribution).sum

end parallel

/-- One line of the input file: its numeric fields, in order. -/
abbrev Line := List ℚ

/-- The helper `dataset_dimensions`: the number of fields of the first line;
`none` when one of its assertions fails. -/
def dataset_dimensions (file : List Line) : Option Nat :=
  match file with
  | [] => none
  | first :: _ => if first.length > 0 then some first.length else none

/-- The local variables of `Dataset::Dataset` that its reading loop updates. -/
structure LoadState where
  trecords : Nat
  bidx : Nat
  value : ℚ
  values : List ℚ
  ranksum : ℚ

/-- The loop `for (d = 0; d < dimensions; ++d)` of the constructor, on the
fields still unread in the line: an extraction from an exhausted line leaves
`value` as it was, and `value` is pushed and summed in either case. -/
def parseLine : Nat → Line → LoadState → LoadState
  | 0, _, s => s
  | d + 1, [], s =>
      parseLine d [] { s with values := s.values ++ [s.value], ranksum := s.ranksum + s.value }
  | d + 1, x :: rest, s =>
      parseLine d rest { s with value := x, values := s.values ++ [x], ranksum := s.ranksum + x }

/-- The update `bidx = (bidx < batchsize - 1)? bidx + 1 : 0`. -/
def nextBidx (batchsize bidx : Nat) : Nat :=
  if bidx < batchsize - 1 then bidx + 1 else 0

/-- One iteration of the loop over the lines of the file. -/
def loadStep (dimensions batchsize rank ranks : Nat) (s : LoadState) (line : Line) : LoadState :=
  let s1 := if s.bidx % ranks = rank then parseLine dimensions line s else s
  { s1 with bidx := nextBidx batchsize s1.bidx, trecords := u32 (s1.trecords + 1) }

/-- The state of the constructor before the first line is read (`value` is not
initialised by the source; it is taken as `0`). -/
def loadInit : LoadState :=
  { trecords := 0, bidx := 0, value := 0, values := [], ranksum := 0 }

/-- The batch size the reading loop works with:
`if (batchsize < ranks) batchsize = UINT_MAX`. -/
def loopBatchsize (batchsize ranks : Nat) : Nat :=
  if batchsize < ranks then UINT_MAX else batchsize

/-- The whole reading loop of the constructor as run by rank `rank`, with the
batch size already rewritten. -/
def loadLoop (dimensions batchsize rank ranks : Nat) (file : List Line) : LoadState :=
  file.foldl (loadStep dimensions batchsize rank ranks) loadInit

/-- The helper `valuesSum`: the sum of `ranksum` over all ranks, each rank
having run the same loop on the same file. -/
def valuesSum (dimensions batchsize ranks : Nat) (file : List Line) : ℚ :=
  parallel.sum_all ranks (fun r => (loadLoop dimensions batchsize r ranks file).ranksum)

/-- The fields of the class `Dataset`. -/
structure Dataset where
  mbatchsize : Nat
  mrbatchsize : Nat
  mtrecords : Nat
  mrrecords : Nat
  mdimensions : Nat
  mvalmean : ℚ
  mdata : List ℚ

namespace Dataset

/-- The constructor `Dataset::Dataset(fname, batchsize)` on the rank described
by `st`, for the file whose lines are `file`. -/
def ctor (st : parallel.State) (file : List Line) (batchsize : Nat) : Option Dataset :=
  match dataset_dimensions file with
  | none => none
  | some dimensions =>
    let batchsize := loopBatchsize batchsize st.mranks
    let s := loadLoop dimensions batchsize st.mrank st.mranks file
    let mvalmean := valuesSum dimensions batchsize st.mranks file / (s.trecords : ℚ)
    let mtrecords := s.trecords
    let mrrecords := u32 (s.values.length / dimensions)
    let mbatchsize := if batchsize < UINT_MAX then batchsize else mtrecords
    some {
      mbatchsize := mbatchsize
      mrbatchsize := parallel.distributeSelf st mbatchsize
      mtrecords := mtrecords
      mrrecords := mrrecords
      mdimensions := dimensions
      mvalmean := mvalmean
      mdata := s.values }

/-- The method `rrecord(idx)`: a pointer to the local record `idx`. -/
def rrecord (self : Dataset) (idx : Nat) : Ptr :=
  { mem := self.mdata, off := idx * self.mdimensions }

/-- The method `global_to_local(gidx, &rank, &lidx)`; the result is the pair
`(rank, lidx)`. -/
def global_to_local (st : parallel.State) (self : Dataset) (gidx : Nat) : Nat × Nat :=
  let batch := gidx / self.mbatchsize
  let bidx := gidx - batch * self.mbatchsize
  let rank := bidx % st.mranks
  let rbatchsize := parallel.distribute st self.mbatchsize rank
  let lidx := batch * rbatchsize + bidx / st.mranks
  (rank, lidx)

/-- The method `grecord(idx)`; `none` stands for `nullptr`. -/
def grecord (st : parallel.State) (self : Dataset) (idx : Nat) : Option Ptr :=
  let p := global_to_local st self idx
  if st.mrank = p.1 then some (self.rrecord p.2) else none

end Dataset

/-- An input file is well formed when its first line has at least one field and
every line has as many numeric fields as the first one. -/
def wellFormed (file : List Line) : Bool :=
  match dataset_dimensions file with
  | none => false
  | some dimensions => file.all (fun line => line.length == dimensions)

/-- The sum of all scalars of the file. -/
def scalarSum (file : List Line) : ℚ := (file.map List.sum).sum

/-- The number of scalars of the file. -/
def scalarCount (file : List Line) : Nat := (file.map List.length).sum

/-- The share `distribute(T, r)` in the words of the specification:
`⌊T/R⌋ + (1 if r < T mod R else 0)`. -/
def spec_distribute (R T r : Nat) : Nat :=
  T / R + (if r < T % R then 1 else 0)

/-- The partitioning function `G ↦ (rank, local)` in the words of the
specification, for `R` ranks and batch size `B`. -/
def spec_partition (R B G : Nat) : Nat × Nat :=
  let batch := G / B
  let bidx := G % B
  let rank := bidx % R
  let Br := spec_distribute R B rank
  (rank, batch * Br + bidx / R)

/-! ### The weights and the search of the best-matching unit -/

/-- The class `Weights<Memory>`: the shape of the grid and its block of
`rows * cols * dimensions` doubles. -/
structure Weights where
  mrows : Nat
  mcols : Nat
  mdimensions : Nat
  mem : List ℚ

namespace Weights

/-- The method `size2()`. -/
def size2 (self : Weights) : Nat := self.mrows * self.mcols

/-- The method `size3()`. -/
def size3 (self : Weights) : Nat := self.size2 * self.mdimensions

/-- The method `index(row, col)`. -/
def index (self : Weights) (row col : Nat) : Nat := row * self.mcols + col

/-- The method `offset(index)`. -/
def offset (self : Weights) (index : Nat) : Nat := index * self.mdimensions

/-- The method `entry(index)`: a pointer to the weight vector of a cell. -/
def entry (self : Weights) (index : Nat) : Ptr :=
  { mem := self.mem, off := self.offset index }

end Weights

/-- The function `square`. -/
def square (a : ℚ) : ℚ := a * a

/-- The function `squared_distance(a, b, size)`. -/
def squared_distance (a b : Ptr) (size : Nat) : ℚ :=
  (List.range size).foldl
    (fun distance idx => distance + square (a.read idx - b.read idx)) 0

/-- The local variables `row`, `col` and `mindist` of `bmu_find`. -/
structure BmuState where
  row : Nat
  col : Nat
  mindist : ℚ

/-- The body of the inner loop of `bmu_find` for the loop indices `r`, `c`:
the distance is measured at `weights.index(row, col)`, as in the source. -/
def bmu_step (weights : Weights) (record : Ptr) (r c : Nat) (s : BmuState) : BmuState :=
  let distance :=
    squared_distance (weights.entry (weights.index s.row s.col)) record weights.mdimensions
  if distance < s.mindist then { row := r, col := c, mindist := distance } else s

/-- The function `bmu_find(weights, record, &brow, &bcol)`; the result is the
pair `(brow, bcol)`. -/
def bmu_find (weights : Weights) (record : Ptr) : Nat × Nat :=
  let init : BmuState :=
    { row := 0, col := 0,
      mindist := squared_distance (weights.entry (weights.index 0 0)) record weights.mdimensions }
  let final := (List.range weights.mrows).foldl
    (fun s r => (List.range weights.mcols).foldl (fun s c => bmu_step weights record r c s) s)
    init
  (final.row, final.col)

/-- The squared distance between a record and the weight vector of the cell
`(r, c)`. -/
def cellDistance (weights : Weights) (record : Ptr) (r c : Nat) : ℚ :=
  squared_distance (weights.entry (weights.index r c)) record weights.mdimensions

/-- The cell `(br, bc)` is the best-matching unit the specification asks for:
a cell of the lattice at minimum squared distance from the record, the first
such cell in row-major order. -/
def isBestMatch (weights : Weights) (record : Ptr) (br bc : Nat) : Prop :=
  br < weights.mrows ∧ bc < weights.mcols ∧
  ∀ r c, r < weights.mrows → c < weights.mcols →
    cellDistance weights record br bc ≤ cellDistance weights record r c ∧
    (cellDistance weights record r c = cellDistance weights record br bc →
      weights.index br bc ≤ weights.index r c)

/-! ### The batch fraction and the training state -/

/-- The difference `a - b` of two `unsigned` values: it wraps modulo `2^32`. -/
def usub (a b : Nat) : Nat := (u32 a + 4294967296 - u32 b) % 4294967296

/-- The conversion `static_cast<unsigned>(x)` of a double: the integer part of
`x`, for `0 ≤ x < 2^32` (outside this range the source has no defined
result; the model reduces the integer part of a larger value modulo `2^32`
and gives 0 for a negative one). -/
def toUnsigned (x : ℚ) : Nat := u32 ⌊x⌋₊

/-- The function `squared_hypot`. -/
def squared_hypot (a b : ℚ) : ℚ := square a + square b

/-- The struct `BatchFraction`; the one-element blocks `denominator` and
`denbuffer` are the values they hold. -/
structure BatchFraction where
  numerator : Weights
  numbuffer : Weights
  denominator : ℚ
  denbuffer : ℚ

/-- The struct `TrainState::Constants`. -/
structure Constants where
  rank : Nat
  ranks : Nat
  dataset : Dataset
  rrecords : Nat
  epochs : Nat
  diffmin : ℚ
  batchsize : Nat
  rbatchsize : Nat
  batches : Nat
  nradius : ℚ
  rdecay : ℚ
  rseed : Nat
  valmean : ℚ

/-- The struct `TrainState` (without its timer). -/
structure TrainState where
  constants : Constants
  weights : Weights
  bfraction : BatchFraction
  epoch : Nat
  batch : Nat
  nradius : ℚ
  diff : ℚ

/-- The parallel state that the code of a rank reads through
`som::parallel::rank()` and `ranks()`. -/
def TrainState.parallelState (state : TrainState) : parallel.State :=
  { mrank := state.constants.rank, mranks := state.constants.ranks }

/-- The method `Weights::swap`: the two grids exchange their blocks of memory. -/
def Weights.swap (self rhs : Weights) : Weights × Weights :=
  ({ self with mem := rhs.mem }, { rhs with mem := self.mem })

/-- The call `std::memset(p, 0, count * sizeof(double))` on the block `mem`,
from its first element. -/
def memsetZero (mem : List ℚ) (count : Nat) : List ℚ :=
  (mem.take count).map (fun _ => 0) ++ mem.drop count

/-- The method `BatchFraction::init`. -/
def BatchFraction.init (self : BatchFraction) : BatchFraction :=
  { self with
    numerator := { self.numerator with mem := memsetZero self.numerator.mem self.numerator.size3 }
    denominator := 0 }

/-- The quotient `a / b` of two doubles; `none` when the divisor is zero, where
the quotient of the source is a NaN or an infinity and not a number of the
model. -/
def ddiv (a b : ℚ) : Option ℚ :=
  if b = 0 then none else some (a / b)

/-- The weight `std::exp( -sqdist / (2.0 * nradius) )` of a cell, for the
exponential function `exp`. -/
def distfunc (exp : ℚ → ℚ) (sqdist nradius : ℚ) : Option ℚ :=
  (ddiv (-sqdist) (2 * nradius)).map exp

/-- The loop `for (d = 0; d < dimensions; ++d)
numerator[ d ] += distfunc * ( record[ d ] - entry[ d ] )` on the block of the
numerator, whose cell starts at `off`. -/
def accumulate_dims (h : ℚ) (record entry : Ptr) (off dimensions : Nat) (mem : List ℚ) :
    List ℚ :=
  (List.range dimensions).foldl
    (fun mem d => mem.set (off + d) (mem.getD (off + d) 0 + h * (record.read d - entry.read d)))
    mem

/-- The squared distance that `batch_fraction_accumulate` measures between the
cell `(row, col)` and the best-matching unit: the differences are taken on
`unsigned` values and then converted to doubles. -/
def grid_sqdist (brow bcol row col : Nat) : ℚ :=
  squared_hypot (usub row brow : ℚ) (usub col bcol : ℚ)

/-- The body of the inner loop of `batch_fraction_accumulate` for the cell
`(row, col)`, once its weight `h` is known. -/
def accumulate_cell (weights : Weights) (dimensions : Nat) (record : Ptr) (row col : Nat)
    (h : ℚ) (frac : BatchFraction) : BatchFraction :=
  let index := weights.index row col
  let entry := weights.entry index
  { frac with
    denominator := frac.denominator + h
    numerator := { frac.numerator with
      mem := accumulate_dims h record entry (frac.numerator.offset index) dimensions
        frac.numerator.mem } }

/-- The two nested loops of `batch_fraction_accumulate` over the rows
`[r1, r2)` and the columns `[c1, c2)`, where `weight row col` is the weight of
a cell (`none` when it is not a number of the model). -/
def accumulate_loop (weights : Weights) (dimensions : Nat) (record : Ptr)
    (weight : Nat → Nat → Option ℚ) (r1 r2 c1 c2 : Nat) (frac : BatchFraction) :
    Option BatchFraction :=
  (List.range' r1 (r2 - r1)).foldl
    (fun f row => (List.range' c1 (c2 - c1)).foldl
      (fun f col => f.bind (fun frac =>
        (weight row col).map (fun h => accumulate_cell weights dimensions record row col h frac)))
      f)
    (some frac)

/-- The bounds `(r1, r2, c1, c2)` of the loops of `batch_fraction_accumulate`;
the sums `brow + share + 1` and `bcol + share + 1` wrap modulo `2^32`. -/
def accumulate_bounds (share brow bcol rows cols : Nat) : Nat × Nat × Nat × Nat :=
  let r1 := if share > brow then 0 else brow - share
  let c1 := if share > bcol then 0 else bcol - share
  let r2 := min (u32 (brow + share + 1)) rows
  let c2 := min (u32 (bcol + share + 1)) cols
  (r1, r2, c1, c2)

/-- The function `batch_fraction_accumulate(state, record, brow, bcol)`, for the
exponential function `exp`. -/
def batch_fraction_accumulate (exp : ℚ → ℚ) (state : TrainState) (record : Ptr)
    (brow bcol : Nat) : Option TrainState :=
  let share := toUnsigned state.nradius
  let b := accumulate_bounds share brow bcol state.weights.mrows state.weights.mcols
  let dimensions := state.weights.mdimensions
  let nradius := state.nradius
  (accumulate_loop state.weights dimensions record
      (fun row col => distfunc exp (grid_sqdist brow bcol row col) nradius)
      b.1 b.2.1 b.2.2.1 b.2.2.2 state.bfraction).map
    (fun frac => { state with bfraction := frac })

/-- The function `batch_fraction_commit(fraction, weights)`: the new weights
and the returned `diff`. -/
def batch_fraction_commit (fraction : BatchFraction) (weights : Weights) :
    Option (Weights × ℚ) :=
  let numerator := fraction.numerator.entry 0
  let denominator := fraction.denominator
  let state := weights.entry 0
  let size := fraction.numerator.size3
  ((List.range size).foldl
    (fun acc idx => acc.bind (fun md =>
      (ddiv (numerator.read idx) denominator).map (fun update =>
        (md.1.set (state.off + idx) (md.1.getD (state.off + idx) 0 + update),
          md.2 + |update|))))
    (some (weights.mem, 0))).map
    (fun md => ({ weights with mem := md.1 }, md.2))

namespace parallel

/-- The collective `sum_all` on blocks of `count` doubles: the block `dst`
receives, element by element, the sum of the blocks `srcs` that the ranks
contribute. -/
def sum_all_double (srcs : List (List ℚ)) (dst : List ℚ) (count : Nat) : List ℚ :=
  (List.range count).map (fun i => (srcs.map (fun src => src.getD i 0)).sum) ++ dst.drop count

end parallel

/-- The method `BatchFraction::reduce` on one rank, where `all` lists the
fractions that the ranks hold when they enter the collective (this rank
included). -/
def BatchFraction.reduce (all : List BatchFraction) (self : BatchFraction) : BatchFraction :=
  let summed : Weights :=
    { self.numbuffer with
      mem := parallel.sum_all_double (all.map (fun f => f.numerator.mem)) self.numbuffer.mem
        self.numerator.size3 }
  let swapped := self.numerator.swap summed
  let densum := (all.map (fun f => f.denominator)).sum
  { numerator := swapped.1
    numbuffer := swapped.2
    denominator := densum
    denbuffer := self.denominator }

/-- What `batch_present` does, step by step. -/
inductive BatchEvent where
  | init
  | present (lidx : Nat)
  | reduce
  | commit
  deriving DecidableEq, Repr

/-- The body of the loop of `batch_present` for the local record `lidx`:
`bmu_find` and then `batch_fraction_accumulate`. -/
def present_record (exp : ℚ → ℚ) (lidx : Nat) (state : TrainState) : Option TrainState :=
  let record := state.constants.dataset.rrecord lidx
  let b := bmu_find state.weights record
  batch_fraction_accumulate exp state record b.1 b.2

/-- The bounds `first` and `end` of the loop of `batch_present`. -/
def batch_bounds (state : TrainState) : Nat × Nat :=
  let first := u32 (usub state.batch 1 * state.constants.rbatchsize)
  let last := min state.constants.dataset.mrrecords (u32 (first + state.constants.rbatchsize))
  (first, last)

/-- The part of `batch_present` that precedes the collective: the fraction is
zeroed and the records `[first, end)` of the rank are presented.  The state is
`none` once a value is not a number of the model. -/
def batch_local (exp : ℚ → ℚ) (state : TrainState) : Option TrainState × List BatchEvent :=
  let b := batch_bounds state
  (List.range' b.1 (b.2 - b.1)).foldl
    (fun acc lidx => (acc.1.bind (present_record exp lidx), acc.2 ++ [BatchEvent.present lidx]))
    (some { state with bfraction := state.bfraction.init }, [BatchEvent.init])

/-- All the values of a list, when none is missing. -/
def allSome {α : Type} : List (Option α) → Option (List α)
  | [] => some []
  | none :: _ => none
  | some a :: rest => (allSome rest).map (fun l => a :: l)

/-- The end of `batch_present`, after the collective: the fraction is committed
to the weights and `state.diff` receives the returned difference divided by
`valmean * size3()`. -/
def batch_finish (state : TrainState) : Option TrainState :=
  (batch_fraction_commit state.bfraction state.weights).bind (fun wd =>
    (ddiv wd.2 (state.constants.valmean * (state.weights.size3 : ℚ))).map (fun diff =>
      { state with weights := wd.1, diff := diff }))

/-- The fractions that the ranks of `world` hold when they enter the collective
of a batch, each rank having run the part of `batch_present` that precedes it;
`none` when one of them holds a value that is not a number of the model. -/
def batch_fractions (exp : ℚ → ℚ) (world : List TrainState) : Option (List BatchFraction) :=
  allSome (world.map (fun s => ((batch_local exp s).1).map (fun t => t.bfraction)))

/-- The state of a rank after the call `state.bfraction.reduce()` of
`batch_present`: the rank has run the part before the collective on its own
state, and its fraction is reduced with the fractions of all ranks. -/
def batch_reduced (exp : ℚ → ℚ) (world : List TrainState) (state : TrainState) :
    Option TrainState :=
  (batch_local exp state).1.bind (fun s => (batch_fractions exp world).map (fun fracs =>
    { s with bfraction := s.bfraction.reduce fracs }))

/-- The function `batch_present(state)` as run by the rank `rank`, where
`world` lists the states of all ranks when they enter the batch: every rank
runs the part before the collective on its own state, the fractions are
reduced, and the reduced fraction is committed to the weights. -/
def batch_present (exp : ℚ → ℚ) (world : List TrainState) (rank : Nat) :
    Option TrainState × List BatchEvent :=
  match world[rank]? with
  | none => (none, [])
  | some state =>
    ((batch_reduced exp world state).bind batch_finish,
      (batch_local exp state).2 ++ [BatchEvent.reduce, BatchEvent.commit])

/-- The call `std::copy(buf.cbegin(), buf.cend(), mem + off)` for a buffer of
`count` doubles. -/
def copyInto (mem : List ℚ) (off : Nat) (buf : List ℚ) (count : Nat) : List ℚ :=
  (List.range count).foldl (fun mem d => mem.set (off + d) (buf.getD d 0)) mem

/-- The variables that the loops of `weights_random_init` update: the block of
the weights, the send buffer, and the number of calls of `rand` made so far. -/
structure InitState where
  mem : List ℚ
  sendbuff : List ℚ
  calls : Nat

/-- The block that the rank `root` holds in its send buffer when it enters the
broadcast of an iteration of `weights_random_init`: the record it has just
copied there, having drawn the same random number. -/
def rootBuffer (world : List TrainState) (root g : Nat) (fallback : List ℚ) : List ℚ :=
  match world[root]? with
  | none => fallback
  | some rs =>
    let dataset := rs.constants.dataset
    let p := Dataset.global_to_local rs.parallelState dataset (g % dataset.mtrecords)
    (dataset.rrecord p.2).slice dataset.mdimensions

/-- The body of the inner loop of `weights_random_init` for the cell
`(row, col)`; `rand k` is the value of the `k`-th call of `std::rand`. -/
def init_cell (rand : Nat → Nat) (world : List TrainState) (state : TrainState)
    (row col : Nat) (s : InitState) : InitState :=
  let dataset := state.constants.dataset
  let index := state.weights.index row col
  let g := rand s.calls
  let gidx := g % dataset.mtrecords
  let p := Dataset.global_to_local state.parallelState dataset gidx
  let copied :=
    if state.constants.rank = p.1 then (dataset.rrecord p.2).slice dataset.mdimensions
    else s.sendbuff
  let received := rootBuffer world p.1 g copied
  { mem := copyInto s.mem (state.weights.offset index) received dataset.mdimensions
    sendbuff := received
    calls := s.calls + 1 }

/-- The function `weights_random_init(state)` as run by the rank `rank`, where
`world` lists the states of all ranks and `rand` is the sequence of values
that `std::rand` returns after the seeding. -/
def weights_random_init (rand : Nat → Nat) (world : List TrainState) (rank : Nat) :
    Option TrainState :=
  match world[rank]? with
  | none => none
  | some state =>
    let init : InitState :=
      { mem := state.weights.mem
        sendbuff := List.replicate state.constants.dataset.mdimensions 0
        calls := 0 }
    let final := (List.range state.weights.mrows).foldl
      (fun s row => (List.range state.weights.mcols).foldl
        (fun s col => init_cell rand world state row col s) s)
      init
    some { state with weights := { state.weights with mem := final.mem } }

/-- The cells that two nested loops over the rows `[r1, r2)` and the columns
`[c1, c2)` visit, in the order of the visits. -/
def loop_cells (r1 r2 c1 c2 : Nat) : List (Nat × Nat) :=
  (List.range' r1 (r2 - r1)).flatMap
    (fun row => (List.range' c1 (c2 - c1)).map (fun col => (row, col)))

/-- The cells that `batch_fraction_accumulate` visits for the best-matching
unit `(brow, bcol)`, in the order of the visits. -/
def accumulate_cells (state : TrainState) (brow bcol : Nat) : List (Nat × Nat) :=
  let b := accumulate_bounds (toUnsigned state.nradius) brow bcol
    state.weights.mrows state.weights.mcols
  loop_cells b.1 b.2.1 b.2.2.1 b.2.2.2

/-- The weight that `batch_fraction_accumulate` gives to the cell `(row, col)`
when the radius is not zero. -/
def cell_weight (exp : ℚ → ℚ) (nradius : ℚ) (brow bcol row col : Nat) : ℚ :=
  exp (-(grid_sqdist brow bcol row col) / (2 * nradius))

/-- The fraction after the cells of `cells` have been accumulated in turn, the
cell `(row, col)` with the weight `w row col`. -/
def accumulate_list (weights : Weights) (dimensions : Nat) (record : Ptr) (w : Nat → Nat → ℚ)
    (cells : List (Nat × Nat)) (frac : BatchFraction) : BatchFraction :=
  cells.foldl (fun f rc => accumulate_cell weights dimensions record rc.1 rc.2 (w rc.1 rc.2) f)
    frac

/-- The contribution of the cell `(row, col)`, accumulated with the weight `h`,
to the scalar at position `p` of the block of the numerator. -/
def cell_term (weights numerator : Weights) (dimensions : Nat) (record : Ptr)
    (row col : Nat) (h : ℚ) (p : Nat) : ℚ :=
  let off := numerator.offset (weights.index row col)
  if off ≤ p ∧ p < off + dimensions ∧ p < numerator.mem.length
  then h * (record.read (p - off) - (weights.entry (weights.index row col)).read (p - off))
  else 0

/-- The cell `(r, c)` lies in the lattice and in the box
`[brow - ⌊ρ⌋, brow + ⌊ρ⌋] × [bcol - ⌊ρ⌋, bcol + ⌊ρ⌋]` around the best-matching
unit, `ρ` being the radius of the state. -/
def in_box (state : TrainState) (brow bcol r c : Nat) : Prop :=
  r < state.weights.mrows ∧ c < state.weights.mcols ∧
  |(r : ℤ) - (brow : ℤ)| ≤ ⌊state.nradius⌋ ∧ |(c : ℤ) - (bcol : ℤ)| ≤ ⌊state.nradius⌋

/-- The position `p` of the block of the numerator belongs to no cell of the
box around the best-matching unit. -/
def outside_box (state : TrainState) (brow bcol p : Nat) : Prop :=
  ∀ r c d, in_box state brow bcol r c → d < state.bfraction.numerator.mdimensions →
    p ≠ state.bfraction.numerator.offset (state.bfraction.numerator.index r c) + d

/-- An empty data set, for states whose records are given apart. -/
def Dataset.empty : Dataset :=
  { mbatchsize := 0, mrbatchsize := 0, mtrecords := 0, mrrecords := 0, mdimensions := 0,
    mvalmean := 0, mdata := [] }

/-- A state of a single rank for a lattice of `rows` by `cols` cells of one
scalar each, with all weights and the whole fraction at zero and the radius
`nradius`. -/
def gridState (rows cols : Nat) (nradius : ℚ) : TrainState :=
  { constants :=
      { rank := 0, ranks := 1, dataset := Dataset.empty, rrecords := 0, epochs := 1,
        diffmin := 0, batchsize := 0, rbatchsize := 0, batches := 1, nradius := nradius,
        rdecay := 0, rseed := 1, valmean := 1 }
    weights := { mrows := rows, mcols := cols, mdimensions := 1,
                 mem := List.replicate (rows * cols) 0 }
    bfraction :=
      { numerator := { mrows := rows, mcols := cols, mdimensions := 1,
                       mem := List.replicate (rows * cols) 0 }
        numbuffer := { mrows := rows, mcols := cols, mdimensions := 1,
                       mem := List.replicate (rows * cols) 0 }
        denominator := 0
        denbuffer := 0 }
    epoch := 1
    batch := 1
    nradius := nradius
    diff := 1 }

/-- The weight of the cell `(row, col)` in the words of the specification:
`exp(−d² / (2ρ))` with `d² = (r − b_r)² + (c − b_c)²` for the signed offsets. -/
def spec_cell_weight (exp : ℚ → ℚ) (nradius : ℚ) (brow bcol row col : Nat) : ℚ :=
  exp (-((((row : ℤ) - (brow : ℤ)) ^ 2 + ((col : ℤ) - (bcol : ℤ)) ^ 2 : ℤ) : ℚ) / (2 * nradius))

/-- A function that is 0 below −746, as `std::exp` is on doubles by underflow,
and 1 elsewhere. -/
def expUnderflow (x : ℚ) : ℚ := if x < -746 then 0 else 1

/-- A fraction on a lattice of one cell of one scalar, with the numerator `n`
and the denominator `d`, and with both back-buffers at zero. -/
def unitFraction (n d : ℚ) : BatchFraction :=
  { numerator := { mrows := 1, mcols := 1, mdimensions := 1, mem := [n] }
    numbuffer := { mrows := 1, mcols := 1, mdimensions := 1, mem := [0] }
    denominator := d
    denbuffer := 0 }

/-- A state of a single rank for a lattice of one cell of one scalar whose data
set holds the one-field records `data`, with the local batch size
`rbatchsize` and the batch cursor `batch`. -/
def sampleState (data : List ℚ) (rbatchsize batch : Nat) : TrainState :=
  { gridState 1 1 1 with
    constants :=
      { (gridState 1 1 1).constants with
        dataset :=
          { mbatchsize := rbatchsize, mrbatchsize := rbatchsize, mtrecords := data.length,
            mrrecords := data.length, mdimensions := 1, mvalmean := 1, mdata := data }
        rrecords := data.length
        batchsize := rbatchsize
        rbatchsize := rbatchsize }
    batch := batch }

/-- The states `world` of the ranks `0, ..., R-1` are those of a run on the
file `file` with the requested batch size `batchsize`: the rank `q` knows its
rank and the number of ranks, holds the data set that the constructor builds
on that rank, and its weights have the dimension of the data set and a block
of `size3()` scalars. -/
def loadedWorld (file : List Line) (batchsize : Nat) (world : List TrainState) : Prop :=
  ∀ q (h : q < world.length),
    world[q].constants.rank = q ∧
    world[q].constants.ranks = world.length ∧
    Dataset.ctor ⟨q, world.length⟩ file batchsize = some world[q].constants.dataset ∧
    world[q].weights.mdimensions = world[q].constants.dataset.mdimensions ∧
    world[q].weights.mem.length = world[q].weights.size3

/-- The class `TrainSettings`; `mdataset` holds the lines of the file that the
setting `dataset` names, and `mepcall` tells whether a callback is set. -/
structure TrainSettings where
  mdataset : List Line
  mlatticedim : Nat
  mrows : Nat
  mcols : Nat
  mepochs : Nat
  mdiffmin : ℚ
  mbatchsize : Nat
  mbatches : Nat
  mnradius : ℚ
  mrdecay : ℚ
  mrseed : Nat
  mepcall : Bool

/-- The fields `mrows` and `mcols` of the class `Lattice`. -/
structure Lattice where
  mrows : Nat
  mcols : Nat

/-- The constructor `Weights(rows, cols, dimensions)`; the block that the
allocation returns is taken as filled with zeros. -/
def Weights.ctor (rows cols dimensions : Nat) : Weights :=
  { mrows := rows, mcols := cols, mdimensions := dimensions,
    mem := List.replicate (rows * cols * dimensions) 0 }

/-- The constructor `BatchFraction(rows, cols, dimensions)`. -/
def BatchFraction.ctor (rows cols dimensions : Nat) : BatchFraction :=
  { numerator := Weights.ctor rows cols dimensions
    numbuffer := Weights.ctor rows cols dimensions
    denominator := 0
    denbuffer := 0 }

/-- The constructor `TrainState::Constants::Constants(lattice, settings)` on the
rank described by `st`. -/
def Constants.ctor (st : parallel.State) (lattice : Lattice) (settings : TrainSettings) :
    Option Constants :=
  (Dataset.ctor st settings.mdataset settings.mbatchsize).map (fun dataset =>
    { rank := st.mrank
      ranks := st.mranks
      dataset := dataset
      rrecords := dataset.mrrecords
      epochs := if settings.mepochs > 0 then settings.mepochs else dataset.mtrecords
      diffmin := if settings.mdiffmin > 1 / 1000000 then settings.mdiffmin else 0
      batchsize := dataset.mbatchsize
      rbatchsize := dataset.mrbatchsize
      batches := toUnsigned (⌈(dataset.mtrecords : ℚ) / (dataset.mbatchsize : ℚ)⌉₊ : ℚ)
      nradius :=
        if settings.mnradius > 1 / 1000000 then settings.mnradius
        else (1 / 2) * ((min lattice.mrows lattice.mcols : ℕ) : ℚ)
      rdecay := settings.mrdecay
      rseed := settings.mrseed
      valmean := dataset.mvalmean })

/-- The constructor `TrainState::TrainState(lattice, settings)` on the rank
described by `st`. -/
def TrainState.ctor (st : parallel.State) (lattice : Lattice) (settings : TrainSettings) :
    Option TrainState :=
  (Constants.ctor st lattice settings).map (fun constants =>
    { constants := constants
      weights := Weights.ctor lattice.mrows lattice.mcols constants.dataset.mdimensions
      bfraction := BatchFraction.ctor lattice.mrows lattice.mcols constants.dataset.mdimensions
      epoch := 0
      batch := 0
      nradius := constants.nradius
      diff := 1 })

/-- The states that the ranks `0, ..., ranks - 1` build at the start of
`Lattice::train`. -/
def initialWorld (ranks : Nat) (lattice : Lattice) (settings : TrainSettings) :
    Option (List TrainState) :=
  allSome ((List.range ranks).map (fun q => TrainState.ctor ⟨q, ranks⟩ lattice settings))

/-- Settings of a run on a file of three records of two fields, with batches
of two records and a lattice of one row and two columns. -/
def initSettings : TrainSettings :=
  { mdataset := [[1, 2], [3, 4], [5, 6]]
    mlatticedim := 2
    mrows := 1
    mcols := 2
    mepochs := 1
    mdiffmin := 0
    mbatchsize := 2
    mbatches := 0
    mnradius := 1
    mrdecay := 1
    mrseed := 0
    mepcall := false }

/-- The states of the two ranks of a run with the settings `initSettings`,
as the constructors leave them. -/
def initWorld : List TrainState :=
  (initialWorld 2 ⟨1, 2⟩ initSettings).getD []

/-- The call `weights_random_init(state)` as all ranks of `world` run it; `none`
when it fails on some rank. -/
def world_init (rand : Nat → Nat) (world : List TrainState) : Option (List TrainState) :=
  allSome ((List.range world.length).map (fun q => weights_random_init rand world q))

/-- The call `batch_present(state)` as all ranks of `world` run it; `none` when
some rank ends with a value that is not a number of the model. -/
def world_batch (exp : ℚ → ℚ) (world : List TrainState) : Option (List TrainState) :=
  allSome ((List.range world.length).map (fun q => (batch_present exp world q).1))

/-- The states of the ranks in the course of `Lattice::train`, from the states
`world0` that the constructors build: the ranks run `weights_random_init`; then
each rank assigns its cursors `state.epoch`, `state.batch` and its radius
`state.nradius` (here to any values), and all ranks run `batch_present`, any
number of times. -/
inductive trainRun (exp : ℚ → ℚ) (rand : Nat → Nat) (world0 : List TrainState) :
    List TrainState → Prop where
  | init (world : List TrainState) :
      world_init rand world0 = some world → trainRun exp rand world0 world
  | cursor (world next : List TrainState) :
      trainRun exp rand world0 world →
      next.length = world.length →
      (∀ q (h : q < world.length) (hn : q < next.length),
        ∃ epoch batch nradius,
          next[q] = { world[q] with epoch := epoch, batch := batch, nradius := nradius }) →
      trainRun exp rand world0 next
  | present (world next : List TrainState) :
      trainRun exp rand world0 world →
      world_batch exp world = some next →
      trainRun exp rand world0 next

/-- The ranks of `world` hold the same weights. -/
def sameWeights (world : List TrainState) : Prop :=
  ∀ p q (hp : p < world.length) (hq : q < world.length), world[p].weights = world[q].weights

/-- The ranks of `world` hold the same mean value of the data set, and the
numerators of their fractions have the same number of scalars, as in the
states of one run. -/
def sameRun (world : List TrainState) : Prop :=
  ∀ p q (hp : p < world.length) (hq : q < world.length),
    world[p].constants.valmean = world[q].constants.valmean ∧
    world[p].bfraction.numerator.size3 = world[q].bfraction.numerator.size3

/-- Why a run of the model of `Lattice::train` ends without a result: the fuel
of a loop is used up; a rank holds a value that is not a number of the model;
the ranks do not take the same branch, so that they leave the common sequence
of collectives; or the data set cannot be built. -/
inductive TrainError where
  | fuel
  | nan
  | split
  | format
  deriving DecidableEq, Repr

/-- What `Lattice::train` does, in order, with the states of all ranks at that
point: `init` after `weights_random_init` and `state.epoch = 0`; `print` at a
call of `self.print()`; `epcall` at a call of the callback; `batch` at a call of
`batch_present`, with the states before and after it; `update` after the
assignment of `state.nradius` at the end of an epoch. -/
inductive TrainEvent where
  | init (world : List TrainState)
  | print (world : List TrainState)
  | epcall (world : List TrainState)
  | batch (before after : List TrainState)
  | update (world : List TrainState)

/-- The states of all ranks in the course of `Lattice::train`, and what the
ranks have done so far. -/
structure Run where
  world : List TrainState
  trace : List TrainEvent

/-- The branch that all ranks take at a test `cond` of their own state;
`split` when they do not take the same one. -/
def unanimous (world : List TrainState) (cond : TrainState → Bool) : Except TrainError Bool :=
  if world.all cond then Except.ok true
  else if world.all (fun s => !cond s) then Except.ok false
  else Except.error TrainError.split

/-- The assignment `state.epoch = epoch` on every rank. -/
def setEpoch (epoch : Nat) (world : List TrainState) : List TrainState :=
  world.map (fun s => { s with epoch := epoch })

/-- The assignment `state.batch = batch` on every rank. -/
def setBatch (batch : Nat) (world : List TrainState) : List TrainState :=
  world.map (fun s => { s with batch := batch })

/-- The increment `++state.epoch` of an `unsigned` on every rank. -/
def nextEpoch (world : List TrainState) : List TrainState :=
  world.map (fun s => { s with epoch := u32 (s.epoch + 1) })

/-- The increment `++state.batch` of an `unsigned` on every rank. -/
def nextBatch (world : List TrainState) : List TrainState :=
  world.map (fun s => { s with batch := u32 (s.batch + 1) })

/-- The assignment
`state.nradius = state.constants.nradius * std::exp(epoch * state.constants.rdecay)`
on every rank. -/
def updateRadius (exp : ℚ → ℚ) (world : List TrainState) : List TrainState :=
  world.map (fun s =>
    { s with nradius := s.constants.nradius * exp ((s.epoch : ℚ) * s.constants.rdecay) })

/-- The loop `for (...; state.batch <= state.constants.batches; ++state.batch)
batch_present(state)` of `Lattice::train`, from the test on, with `fuel`
iterations at most. -/
def run_batches (exp : ℚ → ℚ) : Nat → Run → Except TrainError Run
  | 0, _ => Except.error TrainError.fuel
  | fuel + 1, r =>
    match unanimous r.world (fun s => decide (s.batch ≤ s.constants.batches)) with
    | Except.error e => Except.error e
    | Except.ok false => Except.ok r
    | Except.ok true =>
      match world_batch exp r.world with
      | none => Except.error TrainError.nan
      | some after =>
        run_batches exp fuel
          { world := nextBatch after
            trace := r.trace ++ [TrainEvent.batch r.world after] }

/-- The loop `for (...; state.epoch <= state.constants.epochs; ++state.epoch)`
of `Lattice::train`, from the test on, with `fuel` iterations at most, each with
`fuelB` iterations of the loop of the batches at most; `epcall` tells whether a
callback is set. -/
def run_epochs (exp : ℚ → ℚ) (epcall : Bool) (fuelB : Nat) : Nat → Run → Except TrainError Run
  | 0, _ => Except.error TrainError.fuel
  | fuel + 1, r =>
    match unanimous r.world (fun s => decide (s.epoch ≤ s.constants.epochs)) with
    | Except.error e => Except.error e
    | Except.ok false => Except.ok r
    | Except.ok true =>
      match run_batches exp fuelB { world := setBatch 1 r.world, trace := r.trace } with
      | Except.error e => Except.error e
      | Except.ok r1 =>
        match unanimous (updateRadius exp r1.world)
            (fun s => decide (s.diff < s.constants.diffmin)) with
        | Except.error e => Except.error e
        | Except.ok true =>
          Except.ok
            { world := updateRadius exp r1.world
              trace := r1.trace ++ [TrainEvent.update (updateRadius exp r1.world)] }
        | Except.ok false =>
          run_epochs exp epcall fuelB fuel
            { world := nextEpoch (updateRadius exp r1.world)
              trace := r1.trace ++ [TrainEvent.update (updateRadius exp r1.world)]
                ++ (if epcall then [TrainEvent.epcall (updateRadius exp r1.world)] else []) }

/-- The method `Lattice::train(settings)` as the `ranks` ranks of a run execute
it, for the exponential function `exp` and the sequence `rand` of the values of
`std::rand`; the loops over the epochs and over the batches make `fuelE` and
`fuelB` iterations at most. -/
def Lattice.train (exp : ℚ → ℚ) (rand : Nat → Nat) (fuelE fuelB : Nat) (ranks : Nat)
    (self : Lattice) (settings : TrainSettings) : Except TrainError Run :=
  match initialWorld ranks self settings with
  | none => Except.error TrainError.format
  | some world0 =>
    match world_init rand world0 with
    | none => Except.error TrainError.split
    | some world1 =>
      match run_epochs exp settings.mepcall fuelB fuelE
          { world := setEpoch 1 (setEpoch 0 world1)
            trace := [TrainEvent.init (setEpoch 0 world1), TrainEvent.print (setEpoch 0 world1)]
              ++ (if settings.mepcall then [TrainEvent.epcall (setEpoch 0 world1)] else []) } with
      | Except.error e => Except.error e
      | Except.ok r => Except.ok { r with trace := r.trace ++ [TrainEvent.print r.world] }

/-- The states of the rank `q` before and after each call of `batch_present`
of a trace, in the order of the calls. -/
def batchStates (q : Nat) (trace : List TrainEvent) : List (TrainState × TrainState) :=
  trace.filterMap (fun ev =>
    match ev with
    | TrainEvent.batch before after =>
      (before[q]?).bind (fun s => (after[q]?).map (fun t => (s, t)))
    | _ => none)

/-- The states of the rank `q` after each end-of-epoch assignment of the radius
of a trace. -/
def updateStates (q : Nat) (trace : List TrainEvent) : List TrainState :=
  trace.filterMap (fun ev =>
    match ev with
    | TrainEvent.update world => world[q]?
    | _ => none)

/-- The states of the rank `q` at each call of the callback of a trace. -/
def epcallStates (q : Nat) (trace : List TrainEvent) : List TrainState :=
  trace.filterMap (fun ev =>
    match ev with
    | TrainEvent.epcall world => world[q]?
    | _ => none)

/-- The states of the rank `q` at each call of `print` of a trace. -/
def printStates (q : Nat) (trace : List TrainEvent) : List TrainState :=
  trace.filterMap (fun ev =>
    match ev with
    | TrainEvent.print world => world[q]?
    | _ => none)

/-- One step of `diffTests`: a call of `batch_present` replaces the `diff` that
the rank `q` holds from its latest batch, and an end of epoch records this
`diff` with the `diff` of the state that the convergence test reads. -/
def diffStep (q : Nat) (acc : Option ℚ × List (Option ℚ × ℚ)) (ev : TrainEvent) :
    Option ℚ × List (Option ℚ × ℚ) :=
  match ev with
  | TrainEvent.batch _ after => ((after[q]?).map (fun t => t.diff), acc.2)
  | TrainEvent.update world =>
    (acc.1, acc.2 ++ ((world[q]?).map (fun s => (acc.1, s.diff))).toList)
  | _ => acc

/-- For each end of epoch of a trace: the `diff` that the latest call of
`batch_present` left on the rank `q`, and the `diff` of the state on which the
convergence test is made. -/
def diffTests (q : Nat) (trace : List TrainEvent) : List (Option ℚ × ℚ) :=
  (trace.foldl (diffStep q) (none, [])).2

/-- The radius `ρ₀ · exp(e · λ)` for the constants `c`. -/
def radiusAfter (exp : ℚ → ℚ) (c : Constants) (e : Nat) : ℚ :=
  c.nradius * exp ((e : ℚ) * c.rdecay)

/-- The radius with which the batches of the epoch `e` are presented: the
initial radius in the epoch 1, and then the radius that the update at the end
of the epoch `e - 1` has set. -/
def radiusDuring (exp : ℚ → ℚ) (c : Constants) (e : Nat) : ℚ :=
  if e ≤ 1 then c.nradius else radiusAfter exp c (e - 1)

/-- The cursors `(epoch, batch)` and the radius of the calls of `batch_present`
of `n` full epochs of `c.batches` batches each. -/
def epochGrid (exp : ℚ → ℚ) (c : Constants) (n : Nat) : List (Nat × Nat × ℚ) :=
  (List.range' 1 n).flatMap (fun e =>
    (List.range' 1 c.batches).map (fun t => (e, t, radiusDuring exp c e)))

/-- The shape of a trace of the rank `q` with the constants `c` after `n` full
epochs, followed by the calls `extra` of `batch_present`, and `calls` calls of
the callback made at the end of an epoch. -/
def traceShape (exp : ℚ → ℚ) (epcall : Bool) (q : Nat) (c : Constants) (n : Nat)
    (extra : List (Nat × Nat × ℚ)) (calls : Nat) (trace : List TrainEvent) : Prop :=
  (batchStates q trace).map (fun p => (p.1.epoch, p.1.batch, p.1.nradius))
    = epochGrid exp c n ++ extra ∧
  (updateStates q trace).map (fun s => (s.epoch, s.nradius))
    = (List.range' 1 n).map (fun e => (e, radiusAfter exp c e)) ∧
  (epcallStates q trace).map (fun s => s.epoch)
    = (if epcall then 0 :: List.range' 1 calls else []) ∧
  (printStates q trace).map (fun s => s.epoch) = [0] ∧
  (1 ≤ c.batches → ∀ p ∈ diffTests q trace, p.1 = some p.2)

/-- What holds of the rank `q` with the constants `c` at the test of the loop
of the epochs of `Lattice::train`. -/
def EpochHead (exp : ℚ → ℚ) (epcall : Bool) (q : Nat) (c : Constants) (r : Run) : Prop :=
  ∃ n s, r.world[q]? = some s ∧ s.constants = c ∧ s.epoch = n + 1 ∧ n ≤ c.epochs ∧
    s.nradius = radiusDuring exp c (n + 1) ∧
    traceShape exp epcall q c n [] n r.trace ∧
    ∀ st ∈ updateStates q r.trace, ¬ st.diff < c.diffmin

/-- What holds of the rank `q` with the constants `c` at the test of the loop
of the batches of `Lattice::train`. -/
def BatchHead (exp : ℚ → ℚ) (epcall : Bool) (q : Nat) (c : Constants) (r : Run) : Prop :=
  ∃ n m s, r.world[q]? = some s ∧ s.constants = c ∧ s.epoch = n + 1 ∧ n + 1 ≤ c.epochs ∧
    s.batch = m + 1 ∧ m ≤ c.batches ∧
    s.nradius = radiusDuring exp c (n + 1) ∧
    traceShape exp epcall q c n
      ((List.range' 1 m).map (fun t => (n + 1, t, radiusDuring exp c (n + 1)))) n r.trace ∧
    (∀ st ∈ updateStates q r.trace, ¬ st.diff < c.diffmin) ∧
    (1 ≤ m → (r.trace.foldl (diffStep q) (none, [])).1 = some s.diff)

/-- What holds of the rank `q` with the constants `c` when the loop of the
epochs of `Lattice::train` is left, after `n` epochs, by the convergence test
(`conv`) or at the cap. -/
def TrainEnd (exp : ℚ → ℚ) (epcall : Bool) (q : Nat) (c : Constants) (n : Nat) (conv : Bool)
    (r : Run) : Prop :=
  ∃ s, r.world[q]? = some s ∧ s.constants = c ∧ n ≤ c.epochs ∧
    (conv = true → 1 ≤ n ∧ s.epoch = n) ∧
    (conv = false → n = c.epochs ∧ s.epoch = c.epochs + 1) ∧
    s.nradius = radiusDuring exp c (n + 1) ∧
    traceShape exp epcall q c n [] (if conv then n - 1 else n) r.trace ∧
    (∀ st ∈ (updateStates q r.trace).dropLast, ¬ st.diff < c.diffmin) ∧
    (conv = true →
      ∃ st, (updateStates q r.trace).getLast? = some st ∧ st.diff < c.diffmin) ∧
    (conv = false → ∀ st ∈ updateStates q r.trace, ¬ st.diff < c.diffmin)

/-- The sum of the weights `h` that `batch_fraction_accumulate` adds to the
denominator for one record, around the best-matching unit `(0, 0)` that
`bmu_find` returns. -/
def recordWeight (exp : ℚ → ℚ) (state : TrainState) : ℚ :=
  ((accumulate_cells state 0 0).map
    (fun rc => cell_weight exp state.nradius 0 0 rc.1 rc.2)).sum

/-- What the states `world0` that the constructors build must satisfy for the
model of `Lattice::train` to return: the ranks hold the constants `c` of the
loops and a lattice of `rows` by `cols` cells of dimension `D`, the counters
of the loops do not wrap, `valmean` is not zero, the rank 0 presents a record
in every batch, and the radius of every epoch is positive and has a floor
below `2^32 - 1`. -/
def runReady (exp : ℚ → ℚ) (c : Constants) (rows cols D : Nat) (world0 : List TrainState) :
    Prop :=
  world0 ≠ [] ∧ c.epochs < UINT_MAX ∧ c.batches < UINT_MAX ∧ c.valmean ≠ 0 ∧
  1 ≤ rows ∧ 1 ≤ cols ∧ 1 ≤ D ∧
  (∀ s ∈ world0,
    s.constants.epochs = c.epochs ∧ s.constants.batches = c.batches ∧
    s.constants.diffmin = c.diffmin ∧ s.constants.nradius = c.nradius ∧
    s.constants.rdecay = c.rdecay ∧ s.constants.valmean = c.valmean) ∧
  (∀ s : TrainState, (∃ s0, world0[0]? = some s0 ∧ s.constants = s0.constants) →
    1 ≤ s.batch → s.batch ≤ c.batches → (batch_bounds s).1 < (batch_bounds s).2) ∧
  (∀ e, 1 ≤ e → e ≤ c.epochs →
    0 < radiusDuring exp c e ∧ radiusDuring exp c e < 4294967295)

/-- The states `world` of a run from the states `world0` in the epoch `epoch`,
with the radius `rho`: the ranks hold the constants they were built with, the
same cursors, radius, weights and `diff`, and weights and numerators for a
lattice of `rows` by `cols` cells of dimension `D`. -/
def inRun (rows cols D : Nat) (world0 : List TrainState) (epoch batch : Nat) (rho : ℚ)
    (world : List TrainState) : Prop :=
  world.length = world0.length ∧
  (∀ (q : Nat) (s : TrainState), world[q]? = some s →
    ∃ s0 : TrainState, world0[q]? = some s0 ∧ s.constants = s0.constants ∧ s.epoch = epoch ∧
      s.batch = batch ∧ s.nradius = rho ∧
      s.weights.mrows = rows ∧ s.weights.mcols = cols ∧ s.weights.mdimensions = D ∧
      s.bfraction.numerator.size3 = rows * cols * D) ∧
  sameWeights world ∧
  (∀ p q (hp : p < world.length) (hq : q < world.length), world[p].diff = world[q].diff)

/-- The epoch cap that `Constants::Constants` captures:
`(settings.epochs() > 0) ? settings.epochs() : dataset.trecords()`, for a data
set that holds all the lines of the file. -/
def epochCap (settings : TrainSettings) : Nat :=
  if settings.mepochs > 0 then settings.mepochs else settings.mdataset.length

/-- The initial radius that `Constants::Constants` captures:
`(settings.nradius() > 1e-6) ? settings.nradius() : 0.5 * std::min(rows, cols)`. -/
def startRadius (lattice : Lattice) (settings : TrainSettings) : ℚ :=
  if settings.mnradius > 1 / 1000000 then settings.mnradius
  else (1 / 2) * ((min lattice.mrows lattice.mcols : ℕ) : ℚ)

/-- Settings of a run of two epochs on a file of three records of two fields,
with batches of two records, a lattice of one row and two columns, the
convergence threshold at its default, and a callback. -/
def callSettings : TrainSettings :=
  { mdataset := [[1, 2], [3, 4], [5, 6]]
    mlatticedim := 2
    mrows := 1
    mcols := 2
    mepochs := 2
    mdiffmin := 0
    mbatchsize := 2
    mbatches := 0
    mnradius := 1
    mrdecay := 1 / 10
    mrseed := 1
    mepcall := true }

/-- A stand-in for the exponential in examples: positive, 1 at 0, and growing
slowly enough for the radius of a short run to stay small. -/
def expLinear (x : ℚ) : ℚ := if 0 ≤ x then 1 + x else 1 / (1 - x)

/-- The test `epoch == 1 or epoch == 20` under which the callback `epcall` of
`src/tests/epcall.cpp` prints the lattice. -/
def epcallPrints (epoch : Nat) : Bool :=
  epoch == 1 || epoch == 20

/-- No rank holds a negative radius, in the states of a run and in the states
of the calls of `batch_present` and of the assignments of the radius of its
trace. -/
def radiusNonneg (r : Run) : Prop :=
  (∀ s ∈ r.world, 0 ≤ s.constants.nradius ∧ 0 ≤ s.nradius) ∧
  (∀ q, ∀ s ∈ updateStates q r.trace, 0 ≤ s.nradius) ∧
  (∀ q, ∀ p ∈ batchStates q r.trace, 0 ≤ p.1.nradius)

/-- The method `size2()` in the arithmetic of `unsigned`. -/
def Weights.size2_u32 (self : Weights) : Nat := u32 (self.mrows * self.mcols)

/-- The method `size3()` in the arithmetic of `unsigned`. -/
def Weights.size3_u32 (self : Weights) : Nat := u32 (self.size2_u32 * self.mdimensions)

/-- The method `index(row, col)` in the arithmetic of `unsigned`. -/
def Weights.index_u32 (self : Weights) (row col : Nat) : Nat := u32 (row * self.mcols + col)

/-- The method `offset(index)` in the arithmetic of `unsigned`. -/
def Weights.offset_u32 (self : Weights) (index : Nat) : Nat := u32 (index * self.mdimensions)

/-- The method `entry(index)` with the offset computed in the arithmetic of
`unsigned`. -/
def Weights.entry_u32 (self : Weights) (index : Nat) : Ptr :=
  { mem := self.mem, off := self.offset_u32 index }

/-- The state of the single rank of a run on the file of the two one-field
records `-1` and `-3` with a lattice of one cell, when it enters the only batch
of the first epoch: the mean value is `(-1 - 3) / 2 = -2`, and the cell holds
the record `-1` that `weights_random_init` has copied there. -/
def negativeMeanState : TrainState :=
  { sampleState [-1, -3] 2 1 with
    constants :=
      { (sampleState [-1, -3] 2 1).constants with
        valmean := -2
        dataset := { (sampleState [-1, -3] 2 1).constants.dataset with mvalmean := -2 } }
    weights := { mrows := 1, mcols := 1, mdimensions := 1, mem := [-1] } }

/-- The settings `callSettings` with a requested batch size of 1. -/
def singleSettings : TrainSettings := { callSettings with mbatchsize := 1 }

/-- What the presentation of the local record `lidx` of a rank adds to the
scalar at position `p` of its numerator: the contributions of the cells that
`batch_fraction_accumulate` visits around the cell `(0, 0)` that `bmu_find`
returns. -/
def recordTerm (exp : ℚ → ℚ) (s : TrainState) (lidx p : Nat) : ℚ :=
  ((accumulate_cells s 0 0).map (fun rc =>
    cell_term s.weights s.bfraction.numerator s.weights.mdimensions
      (s.constants.dataset.rrecord lidx) rc.1 rc.2
      (cell_weight exp s.nradius 0 0 rc.1 rc.2) p)).sum

/-- The scalar at position `p` of the numerator of a rank when it enters the
collective of a batch: the sum of what its records of the batch have added. -/
def localNumerator (exp : ℚ → ℚ) (s : TrainState) (p : Nat) : ℚ :=
  ((List.range' (batch_bounds s).1 ((batch_bounds s).2 - (batch_bounds s).1)).map
    (fun lidx => recordTerm exp s lidx p)).sum

/-- The scalar at position `p` of the reduced numerator of a batch. -/
def batchNumerator (exp : ℚ → ℚ) (world : List TrainState) (p : Nat) : ℚ :=
  (world.map (fun s => localNumerator exp s p)).sum

/-- The reduced denominator of a batch. -/
def batchDenominator (exp : ℚ → ℚ) (world : List TrainState) : ℚ :=
  (world.map (fun s =>
    (((batch_bounds s).2 - (batch_bounds s).1 : ℕ) : ℚ) * recordWeight exp s)).sum

/-- The weights, the numerator and the back-buffer of the numerator of a state
are shaped for a lattice of `rows` by `cols` cells of dimension `D`, and their
blocks hold `rows * cols * D` scalars. -/
def shaped (rows cols D : Nat) (s : TrainState) : Prop :=
  (s.weights.mrows = rows ∧ s.weights.mcols = cols ∧ s.weights.mdimensions = D ∧
    s.weights.mem.length = rows * cols * D) ∧
  (s.bfraction.numerator.mrows = rows ∧ s.bfraction.numerator.mcols = cols ∧
    s.bfraction.numerator.mdimensions = D ∧
    s.bfraction.numerator.mem.length = rows * cols * D) ∧
  (s.bfraction.numbuffer.mrows = rows ∧ s.bfraction.numbuffer.mcols = cols ∧
    s.bfraction.numbuffer.mdimensions = D ∧
    s.bfraction.numbuffer.mem.length = rows * cols * D)

/-- Every cell of the weights of the state and every local record of its data
set hold the fields `x`, for a lattice of `rows` by `cols` cells of dimension
`D`. -/
def constantState (x : List ℚ) (rows cols D : Nat) (s : TrainState) : Prop :=
  (∀ p, p < rows * cols * D → s.weights.mem.getD p 0 = x.getD (p % D) 0) ∧
  (∀ lidx k, lidx < s.constants.dataset.mrrecords → k < D →
    (s.constants.dataset.rrecord lidx).read k = x.getD k 0)

/-- The settings `callSettings` on a file of three lines that all hold the
record `(2, 3)`, with the tolerance `diffmin = 1e-5`. -/
def constantSettings : TrainSettings :=
  { callSettings with mdataset := [[2, 3], [2, 3], [2, 3]], mdiffmin := 1 / 100000 }

/-- The settings `callSettings` on a file of three lines that all hold the
record `(1, -1)`, whose fields sum to zero, with the tolerance
`diffmin = 1e-5`. -/
def zeroSettings : TrainSettings :=
  { callSettings with mdataset := [[1, -1], [1, -1], [1, -1]], mdiffmin := 1 / 100000 }

/-- The settings of a run on the file of the four records `(0, 0)`, `(1, 0)`,
`(0, 1)`, `(1, 1)` with a lattice of two rows and two columns: one epoch,
batches of four records, and the radius `nradius = 0` and the decay
`rdecay = 0` as given by the user. -/
def squareSettings : TrainSettings :=
  { mdataset := [[0, 0], [1, 0], [0, 1], [1, 1]], mlatticedim := 2, mrows := 2, mcols := 2,
    mepochs := 1, mdiffmin := 0, mbatchsize := 4, mbatches := 0, mnradius := 0, mrdecay := 0,
    mrseed := 1, mepcall := false }

/-- The sum of the weights of the four cells of a lattice of two rows and two
columns around the cell `(0, 0)`, for the radius 1. -/
def squareWeight (exp : ℚ → ℚ) : ℚ :=
  cell_weight exp 1 0 0 0 0 + cell_weight exp 1 0 0 0 1 + cell_weight exp 1 0 0 1 0
    + cell_weight exp 1 0 0 1 1

/-- The scalar at position `p` of the weights after `weights_random_init` in
the run on the square: the cell `p / 2` holds the record `rand (p / 2) mod 4`
of the file. -/
def squareInit (rand : Nat → Nat) (p : Nat) : ℚ :=
  (squareSettings.mdataset.getD (rand (p / 2) % 4) []).getD (p % 2) 0

/-- The scalar at position `p` of the weights after the batch of the run on
the square: the cell `(p / 4, p / 2 mod 2)` has moved towards the mean
`(1/2, 1/2)` of the four records by its share of the weights. -/
def squareFinal (exp : ℚ → ℚ) (rand : Nat → Nat) (p : Nat) : ℚ :=
  squareInit rand p
    + cell_weight exp 1 0 0 (p / 4) (p / 2 % 2) * (1 / 2 - squareInit rand p) / squareWeight exp

/-- The default name of the file that `Lattice::print` writes:
`"lattice" + std::to_string(state->epoch) + ".out"`. -/
def Lattice.printName (epoch : Nat) : String :=
  "lattice" ++ toString epoch ++ ".out"

/-- The names of the files that the calls of `Lattice::print` of a trace write
with the default name, in the order of the calls; only the rank 0 writes. -/
def dumpNames (trace : List TrainEvent) : List String :=
  (printStates 0 trace).map (fun s => Lattice.printName s.epoch)

/-- Every rank holds a positive mean value and a `diff` that is not negative,
in the states of a run and in the states of the end-of-epoch tests of its
trace. -/
def diffNonneg (r : Run) : Prop :=
  (∀ s ∈ r.world, 0 < s.constants.valmean ∧ 0 ≤ s.diff) ∧
  (∀ q, ∀ s ∈ updateStates q r.trace, 0 ≤ s.diff)

/-- The number of records that the loops of `batch_present` present in one
batch over all the ranks of `world`: the rank of state `s` presents the local
records `[first, end)` of `batch_bounds s`. -/
def presentedCount (world : List TrainState) : Nat :=
  (world.map (fun s => (batch_bounds s).2 - (batch_bounds s).1)).sum

/-- A state of a single rank with the two records `3` and `5` in its first
batch, a lattice of one row and two columns of dimension 1, and the radius
`1 / 2`. -/
def cornerState : TrainState :=
  { sampleState [3, 5] 2 1 with
    weights := { mrows := 1, mcols := 2, mdimensions := 1, mem := [0, 0] }
    bfraction :=
      { numerator := { mrows := 1, mcols := 2, mdimensions := 1, mem := [0, 0] }
        numbuffer := { mrows := 1, mcols := 2, mdimensions := 1, mem := [0, 0] }
        denominator := 0
        denbuffer := 0 }
    nradius := 1 / 2 }

/-- The loop of `Dataset::print` on the rank described by `st`, from the value
`idx` of its counter, with the lines `out` printed so far: a rank prints at
the indices with `rank == idx % ranks`, where the body first assigns
`idx = idx / ranks` to the counter of the loop and prints the `dimensions()`
values at `rrecord(idx)`; then `++idx`.  `fuel` bounds the number of
iterations, and the result is `none` when they do not suffice. -/
def Dataset.print_loop (st : parallel.State) (self : Dataset) :
    Nat → Nat → List (List ℚ) → Option (List (List ℚ))
  | 0, _, _ => none
  | fuel + 1, idx, out =>
    if idx < self.mtrecords then
      if st.mrank = idx % st.mranks then
        Dataset.print_loop st self fuel (u32 (idx / st.mranks + 1))
          (out ++ [(self.rrecord (idx / st.mranks)).slice self.mdimensions])
      else Dataset.print_loop st self fuel (u32 (idx + 1)) out
    else some out

/-- The method `Dataset::print(fname)` on the rank described by `st`: the lines
that it prints, each the list of the values of the line. -/
def Dataset.print (st : parallel.State) (self : Dataset) (fuel : Nat) :
    Option (List (List ℚ)) :=
  Dataset.print_loop st self fuel 0 []

/-- The invariant of the loop of the batches in the first epoch of a run on a
file whose lines are all the record `x`: the ranks are in a batch `b ≥ 1` of
the epoch 1 with the radius `rho`, every cell and every local record holds
the fields `x`, the `diff` is 0 once a batch has been presented, and every
batch presented so far has left the weights as they were and stored the
`diff` 0. -/
def constantLoop (x : List ℚ) (rows cols D : Nat) (world0 : List TrainState) (rho : ℚ)
    (r : Run) : Prop :=
  ∃ b, 1 ≤ b ∧ inRun rows cols D world0 1 b rho r.world ∧
    (∀ s ∈ r.world, shaped rows cols D s ∧ constantState x rows cols D s) ∧
    (2 ≤ b → ∀ s ∈ r.world, s.diff = 0) ∧
    (∀ q, ∀ p ∈ batchStates q r.trace,
      p.1.epoch = 1 ∧ p.2.weights = p.1.weights ∧ p.2.diff = 0)

end som

/-! ## Auxiliary lemmas -/
namespace som

theorem parseLine_trecords (d : Nat) (line : Line) (s : LoadState) :
    (parseLine d line s).trecords = s.trecords := by
  induction d generalizing line s with
  | zero => rfl
  | succ d ih => cases line <;> simp [parseLine, ih]

theorem parseLine_bidx (d : Nat) (line : Line) (s : LoadState) :
    (parseLine d line s).bidx = s.bidx := by
  induction d generalizing line s with
  | zero => rfl
  | succ d ih => cases line <;> simp [parseLine, ih]

theorem parseLine_values_length (d : Nat) (line : Line) (s : LoadState) :
    (parseLine d line s).values.length = s.values.length + d := by
  induction d generalizing line s with
  | zero => rfl
  | succ d ih => cases line <;> simp [parseLine, ih] <;> omega

theorem parseLine_values_prefix (d : Nat) (line : Line) (s : LoadState) :
    ∃ t, (parseLine d line s).values = s.values ++ t := by
  induction d generalizing line s with
  | zero => exact ⟨[], by simp [parseLine]⟩
  | succ d ih =>
    cases line with
    | nil =>
      obtain ⟨t, ht⟩ := ih [] { s with values := s.values ++ [s.value], ranksum := s.ranksum + s.value }
      exact ⟨s.value :: t, by simp [parseLine, ht]⟩
    | cons x rest =>
      obtain ⟨t, ht⟩ := ih rest { s with value := x, values := s.values ++ [x], ranksum := s.ranksum + x }
      exact ⟨x :: t, by simp [parseLine, ht]⟩

theorem parseLine_wf_values (line : Line) (s : LoadState) :
    (parseLine line.length line s).values = s.values ++ line := by
  induction line generalizing s with
  | nil => simp [parseLine]
  | cons x rest ih => simp [parseLine, ih]

theorem parseLine_wf_ranksum (line : Line) (s : LoadState) :
    (parseLine line.length line s).ranksum = s.ranksum + line.sum := by
  induction line generalizing s with
  | nil => simp [parseLine]
  | cons x rest ih => simp [parseLine, ih, add_assoc]

theorem nextBidx_mod (B k : Nat) (hB : 1 ≤ B) : nextBidx B (k % B) = (k + 1) % B := by
  unfold nextBidx
  have hlt : k % B < B := Nat.mod_lt _ hB
  have hadd : (k + 1) % B = (k % B + 1 % B) % B := Nat.add_mod k 1 B
  rcases Nat.lt_or_ge 1 B with h2 | h2
  · have h1 : 1 % B = 1 := Nat.mod_eq_of_lt h2
    rw [h1] at hadd
    split_ifs with h
    · have h3 : (k % B + 1) % B = k % B + 1 := Nat.mod_eq_of_lt (by omega)
      omega
    · have hk : k % B + 1 = B := by omega
      rw [hk, Nat.mod_self] at hadd
      omega
  · have hB1 : B = 1 := by omega
    subst hB1
    simp [Nat.mod_one]

theorem loadLoop_snoc (D B r R : Nat) (pre : List Line) (x : Line) :
    loadLoop D B r R (pre ++ [x]) = loadStep D B r R (loadLoop D B r R pre) x := by
  simp [loadLoop, List.foldl_append]

theorem loadStep_trecords (D B r R : Nat) (s : LoadState) (x : Line) :
    (loadStep D B r R s x).trecords = u32 (s.trecords + 1) := by
  unfold loadStep
  split_ifs <;> simp [parseLine_trecords]

theorem loadStep_bidx (D B r R : Nat) (s : LoadState) (x : Line) :
    (loadStep D B r R s x).bidx = nextBidx B s.bidx := by
  unfold loadStep
  split_ifs <;> simp [parseLine_bidx]

theorem loadStep_values_length (D B r R : Nat) (s : LoadState) (x : Line) :
    (loadStep D B r R s x).values.length
      = s.values.length + (if s.bidx % R = r then D else 0) := by
  unfold loadStep
  split_ifs <;> simp [parseLine_values_length]

theorem loadStep_values_prefix (D B r R : Nat) (s : LoadState) (x : Line) :
    ∃ t, (loadStep D B r R s x).values = s.values ++ t := by
  unfold loadStep
  split_ifs
  · obtain ⟨t, ht⟩ := parseLine_values_prefix D x s
    exact ⟨t, by simp [ht]⟩
  · exact ⟨[], by simp⟩

theorem loadStep_wf_values (B r R : Nat) (s : LoadState) (x : Line) :
    (loadStep x.length B r R s x).values
      = s.values ++ (if s.bidx % R = r then x else []) := by
  unfold loadStep
  split_ifs <;> simp [parseLine_wf_values]

theorem loadStep_wf_ranksum (B r R : Nat) (s : LoadState) (x : Line) :
    (loadStep x.length B r R s x).ranksum
      = s.ranksum + (if s.bidx % R = r then x.sum else 0) := by
  unfold loadStep
  split_ifs <;> simp [parseLine_wf_ranksum]

theorem loadLoop_trecords (D B r R : Nat) (pre : List Line) :
    (loadLoop D B r R pre).trecords = u32 pre.length := by
  induction pre using List.reverseRecOn with
  | nil => rfl
  | append_singleton l a ih =>
    rw [loadLoop_snoc, loadStep_trecords, ih]
    simp only [u32, List.length_append, List.length_singleton]
    omega

theorem loadLoop_bidx (D B r R : Nat) (hB : 1 ≤ B) (pre : List Line) :
    (loadLoop D B r R pre).bidx = pre.length % B := by
  induction pre using List.reverseRecOn with
  | nil => simp [loadLoop, loadInit]
  | append_singleton l a ih =>
    rw [loadLoop_snoc, loadStep_bidx, ih, nextBidx_mod B l.length hB]
    simp

theorem loadLoop_values_length (D B r R : Nat) (hB : 1 ≤ B) (pre : List Line) :
    (loadLoop D B r R pre).values.length
      = D * Nat.count (fun i => (i % B) % R = r) pre.length := by
  induction pre using List.reverseRecOn with
  | nil => simp [loadLoop, loadInit]
  | append_singleton l a ih =>
    rw [loadLoop_snoc, loadStep_values_length, ih, loadLoop_bidx D B r R hB]
    simp only [List.length_append, List.length_singleton, Nat.count_succ]
    split_ifs <;> simp [Nat.mul_add]

theorem loadLoop_values_prefix (D B r R : Nat) (pre post : List Line) :
    ∃ t, (loadLoop D B r R (pre ++ post)).values = (loadLoop D B r R pre).values ++ t := by
  induction post using List.reverseRecOn with
  | nil => exact ⟨[], by simp⟩
  | append_singleton l a ih =>
    obtain ⟨t, ht⟩ := ih
    obtain ⟨u, hu⟩ := loadStep_values_prefix D B r R (loadLoop D B r R (pre ++ l)) a
    refine ⟨t ++ u, ?_⟩
    rw [← List.append_assoc, loadLoop_snoc, hu, ht, List.append_assoc]

theorem count_congr_lt (p q : Nat → Prop) [DecidablePred p] [DecidablePred q] (m : Nat)
    (h : ∀ i, i < m → (p i ↔ q i)) : Nat.count p m = Nat.count q m := by
  induction m with
  | zero => simp
  | succ m ih =>
    rw [Nat.count_succ, Nat.count_succ, ih (fun i hi => h i (Nat.lt_succ_of_lt hi))]
    have := h m (Nat.lt_succ_self m)
    by_cases hp : p m
    · simp [hp, this.mp hp]
    · have hq : ¬ q m := fun hq => hp (this.mpr hq)
      simp [hp, hq]

theorem count_mod_eq (R r m : Nat) (hR : 0 < R) (hr : r < R) :
    Nat.count (fun i => i % R = r) m = m / R + if r < m % R then 1 else 0 := by
  have h := Nat.count_modEq_card (b := m) hR r
  rw [Nat.mod_eq_of_lt hr] at h
  rw [← h]
  apply count_congr_lt
  intro i _
  simp [Nat.ModEq, Nat.mod_eq_of_lt hr]

theorem count_periodic (B R r q m : Nat) :
    Nat.count (fun i => (i % B) % R = r) (q * B + m)
      = q * Nat.count (fun i => i % R = r) B + Nat.count (fun i => (i % B) % R = r) m := by
  induction q with
  | zero =>
    simp
  | succ q ih =>
    have e : (q + 1) * B + m = B + (q * B + m) := by ring
    rw [e, Nat.count_add]
    have h1 : Nat.count (fun k => ((B + k) % B) % R = r) (q * B + m)
        = Nat.count (fun i => (i % B) % R = r) (q * B + m) := by
      apply count_congr_lt
      intro i _
      simp
    have h2 : Nat.count (fun i => (i % B) % R = r) B = Nat.count (fun i => i % R = r) B := by
      apply count_congr_lt
      intro i hi
      rw [Nat.mod_eq_of_lt hi]
    rw [h1, ih, h2]
    ring

theorem distribute_eq (st : parallel.State) (total rank : Nat) :
    parallel.distribute st total rank
      = total / st.mranks + if rank < total % st.mranks then 1 else 0 := by
  unfold parallel.distribute
  have h : total - total / st.mranks * st.mranks = total % st.mranks := by
    have := Nat.div_add_mod total st.mranks
    rw [Nat.mul_comm] at this
    omega
  simp only [h]
  split_ifs <;> rfl

/-- The number of lines before line `G` that the loop gives to the rank that
also gets line `G`. -/
theorem count_owner (B R G : Nat) (hB : 1 ≤ B) (hR : 1 ≤ R) (q : Nat) :
    Nat.count (fun i => (i % B) % R = (G % B) % R) G
      = (G / B) * parallel.distribute ⟨q, R⟩ B ((G % B) % R) + (G % B) / R := by
  have hr : (G % B) % R < R := Nat.mod_lt _ hR
  have hG : G = (G / B) * B + G % B := by
    have := Nat.div_add_mod G B
    rw [Nat.mul_comm] at this
    omega
  have h2 : Nat.count (fun i => (i % B) % R = (G % B) % R) (G % B)
      = Nat.count (fun i => i % R = (G % B) % R) (G % B) := by
    apply count_congr_lt
    intro i hi
    rw [Nat.mod_eq_of_lt (lt_trans hi (Nat.mod_lt _ hB))]
  have key := count_periodic B R ((G % B) % R) (G / B) (G % B)
  rw [← hG, h2, count_mod_eq R _ B hR hr, count_mod_eq R _ (G % B) hR hr] at key
  rw [key, distribute_eq]
  simp

theorem count_owned_lt (p : Nat → Prop) [DecidablePred p] (G N : Nat) (hG : G < N) (hp : p G) :
    Nat.count p G < Nat.count p N := by
  have h1 : Nat.count p (G + 1) = Nat.count p G + 1 := by simp [Nat.count_succ, hp]
  have h2 : Nat.count p (G + 1) ≤ Nat.count p N := Nat.count_monotone p hG
  omega

theorem loopBatchsize_pos (b R : Nat) (hR : 1 ≤ R) : 1 ≤ loopBatchsize b R := by
  unfold loopBatchsize UINT_MAX
  split_ifs <;> omega

theorem u32_of_le (n : Nat) (h : n ≤ UINT_MAX) : u32 n = n := by
  unfold UINT_MAX at h
  unfold u32
  omega

theorem dataset_dimensions_pos (file : List Line) (D : Nat)
    (hD : dataset_dimensions file = some D) : 0 < D ∧ 1 ≤ file.length := by
  cases file with
  | nil => simp [dataset_dimensions] at hD
  | cons first rest =>
    simp only [dataset_dimensions] at hD
    split_ifs at hD with h
    simp only [Option.some.injEq] at hD
    subst hD
    exact ⟨h, by simp⟩

/-- What the constructor stores, field by field, in terms of its reading loop. -/
theorem ctor_fields (st : parallel.State) (file : List Line) (b D : Nat)
    (hD : dataset_dimensions file = some D) (hR : 1 ≤ st.mranks)
    (hN : file.length ≤ UINT_MAX) :
    ∃ ds, Dataset.ctor st file b = some ds ∧
      ds.mdimensions = D ∧
      ds.mtrecords = file.length ∧
      ds.mrrecords
        = Nat.count (fun i => (i % loopBatchsize b st.mranks) % st.mranks = st.mrank)
            file.length ∧
      ds.mdata = (loadLoop D (loopBatchsize b st.mranks) st.mrank st.mranks file).values ∧
      ds.mbatchsize
        = (if loopBatchsize b st.mranks < UINT_MAX then loopBatchsize b st.mranks
            else file.length) ∧
      ds.mrbatchsize = parallel.distribute st ds.mbatchsize st.mrank ∧
      ds.mvalmean
        = valuesSum D (loopBatchsize b st.mranks) st.mranks file / (file.length : ℚ) := by
  have hB := loopBatchsize_pos b st.mranks hR
  have hDpos := (dataset_dimensions_pos file D hD).1
  have htr : (loadLoop D (loopBatchsize b st.mranks) st.mrank st.mranks file).trecords
      = file.length := by
    rw [loadLoop_trecords, u32_of_le _ hN]
  have hlen := loadLoop_values_length D (loopBatchsize b st.mranks) st.mrank st.mranks hB file
  have hcnt : Nat.count (fun i => (i % loopBatchsize b st.mranks) % st.mranks = st.mrank)
      file.length ≤ UINT_MAX := le_trans (Nat.count_le _) hN
  have hc : Dataset.ctor st file b = some
      { mbatchsize :=
          if loopBatchsize b st.mranks < UINT_MAX then loopBatchsize b st.mranks
          else (loadLoop D (loopBatchsize b st.mranks) st.mrank st.mranks file).trecords,
        mrbatchsize :=
          parallel.distributeSelf st
            (if loopBatchsize b st.mranks < UINT_MAX then loopBatchsize b st.mranks
            else (loadLoop D (loopBatchsize b st.mranks) st.mrank st.mranks file).trecords),
        mtrecords := (loadLoop D (loopBatchsize b st.mranks) st.mrank st.mranks file).trecords,
        mrrecords :=
          u32 ((loadLoop D (loopBatchsize b st.mranks) st.mrank st.mranks file).values.length / D),
        mdimensions := D,
        mvalmean :=
          valuesSum D (loopBatchsize b st.mranks) st.mranks file /
            ((loadLoop D (loopBatchsize b st.mranks) st.mrank st.mranks file).trecords : ℚ),
        mdata := (loadLoop D (loopBatchsize b st.mranks) st.mrank st.mranks file).values } := by
    simp only [Dataset.ctor, hD]
  refine ⟨_, hc, rfl, htr, ?_, rfl, ?_, rfl, ?_⟩
  · simp only [hlen, Nat.mul_div_cancel_left _ hDpos]
    exact u32_of_le _ hcnt
  · simp only [htr]
  · simp only [htr]

theorem wellFormed_iff (file : List Line) :
    wellFormed file = true ↔
      ∃ D, dataset_dimensions file = some D ∧ ∀ line ∈ file, line.length = D := by
  unfold wellFormed
  cases h : dataset_dimensions file with
  | none => simp
  | some D => simp [List.all_eq_true]

theorem loadStep_values_of_length (D B r R : Nat) (s : LoadState) (x : Line)
    (hx : x.length = D) :
    (loadStep D B r R s x).values = s.values ++ (if s.bidx % R = r then x else []) := by
  subst hx
  exact loadStep_wf_values B r R s x

theorem loadStep_ranksum_of_length (D B r R : Nat) (s : LoadState) (x : Line)
    (hx : x.length = D) :
    (loadStep D B r R s x).ranksum = s.ranksum + (if s.bidx % R = r then x.sum else 0) := by
  subst hx
  exact loadStep_wf_ranksum B r R s x

/-- In a file whose line `G` has `D` fields, the rank that the loop selects for
line `G` stores its fields right after the `D * k` values of the `k` lines it
took before. -/
theorem loadLoop_stores (D B R G : Nat) (file : List Line) (hB : 1 ≤ B)
    (hG : G < file.length) (hx : file[G].length = D) :
    ∃ a t, (loadLoop D B ((G % B) % R) R file).values = a ++ file[G] ++ t ∧
      a.length = D * Nat.count (fun i => (i % B) % R = (G % B) % R) G := by
  have hsplit : file = (file.take G ++ [file[G]]) ++ file.drop (G + 1) := by
    have h1 := List.take_concat_get file G hG
    rw [List.concat_eq_append] at h1
    rw [h1, List.take_append_drop]
  obtain ⟨t, ht⟩ := loadLoop_values_prefix D B ((G % B) % R) R
    (file.take G ++ [file[G]]) (file.drop (G + 1))
  rw [← hsplit] at ht
  have hlenG : (file.take G).length = G := by
    rw [List.length_take]; omega
  have hstep : (loadLoop D B ((G % B) % R) R (file.take G ++ [file[G]])).values
      = (loadLoop D B ((G % B) % R) R (file.take G)).values ++ file[G] := by
    rw [loadLoop_snoc, loadStep_values_of_length D B _ R _ _ hx,
      loadLoop_bidx D B _ R hB, hlenG]
    simp
  refine ⟨(loadLoop D B ((G % B) % R) R (file.take G)).values, t, ?_, ?_⟩
  · rw [ht, hstep]
  · rw [loadLoop_values_length D B _ R hB, hlenG]

theorem slice_middle (a x t : List ℚ) (off : Nat) (h : off = a.length) :
    Ptr.slice { mem := a ++ x ++ t, off := off } x.length = x := by
  subst h
  apply List.ext_getElem
  · simp [Ptr.slice]
  · intro i h1 h2
    simp only [Ptr.slice, List.getElem_map, List.getElem_range, Ptr.read]
    rw [List.getD_eq_getElem?_getD, List.append_assoc,
      List.getElem?_append_right (by omega)]
    simp only [Nat.add_sub_cancel_left]
    rw [List.getElem?_append_left h2, List.getElem?_eq_getElem h2]
    rfl

/-- The result of `global_to_local` on a data set whose batch size is the one
the constructor reports: the rank the reading loop selects for line `G`, and
the number of earlier lines the loop gave to that rank. -/
theorem global_to_local_count (st : parallel.State) (ds : Dataset) (b N G : Nat)
    (hR : 1 ≤ st.mranks) (hN : N ≤ UINT_MAX) (hG : G < N)
    (hbs : ds.mbatchsize
      = (if loopBatchsize b st.mranks < UINT_MAX then loopBatchsize b st.mranks else N)) :
    Dataset.global_to_local st ds G
      = ((G % loopBatchsize b st.mranks) % st.mranks,
          Nat.count (fun i => (i % loopBatchsize b st.mranks) % st.mranks
            = (G % loopBatchsize b st.mranks) % st.mranks) G) := by
  have hB := loopBatchsize_pos b st.mranks hR
  rw [count_owner _ _ _ hB hR st.mrank]
  unfold Dataset.global_to_local
  rw [hbs]
  split_ifs with h
  · have hmod : G - G / loopBatchsize b st.mranks * loopBatchsize b st.mranks
        = G % loopBatchsize b st.mranks := by
      have := Nat.div_add_mod G (loopBatchsize b st.mranks)
      rw [Nat.mul_comm] at this
      omega
    simp only [hmod]
  · have hGB : G < loopBatchsize b st.mranks := by omega
    have h1 : G / N = 0 := Nat.div_eq_of_lt hG
    have h2 : G / loopBatchsize b st.mranks = 0 := Nat.div_eq_of_lt hGB
    have h3 : G % loopBatchsize b st.mranks = G := Nat.mod_eq_of_lt hGB
    simp [h1, h2, h3]

theorem list_range_sum {M : Type} [AddCommMonoid M] (f : Nat → M) (n : Nat) :
    ((List.range n).map f).sum = ∑ i in Finset.range n, f i := by
  induction n with
  | zero => simp
  | succ n ih => rw [List.range_succ, List.map_append, List.sum_append, ih,
      Finset.sum_range_succ]; simp

/-- Every index below `N` is counted for exactly one rank. -/
theorem sum_counts (B R N : Nat) (hR : 1 ≤ R) :
    ∑ r in Finset.range R, Nat.count (fun i => (i % B) % R = r) N = N := by
  induction N with
  | zero => simp
  | succ N ih =>
    simp only [Nat.count_succ, Finset.sum_add_distrib, ih]
    rw [Finset.sum_ite_eq]
    simp [Nat.mod_lt _ hR]

theorem grecord_isSome_iff (st : parallel.State) (ds : Dataset) (G : Nat) :
    (Dataset.grecord st ds G).isSome ↔ st.mrank = (Dataset.global_to_local st ds G).1 := by
  simp only [Dataset.grecord]
  split_ifs with h <;> simp [h]

theorem count_mod_ceil (R r N : Nat) (hR : 0 < R) (hr : r < R) :
    (Nat.count (fun i => i % R = r) N : ℤ) = ⌈((N : ℚ) - r) / R⌉ := by
  have h := Nat.count_modEq_card_eq_ceil (b := N) hR r
  rw [Nat.mod_eq_of_lt hr] at h
  rw [← h]
  congr 1
  apply count_congr_lt
  intro i _
  simp [Nat.ModEq, Nat.mod_eq_of_lt hr]

/-- The number of lines among the first `N` that the loop gives to rank `r`. -/
theorem count_rank (B R r N : Nat) (hB : 1 ≤ B) (hR : 1 ≤ R) (hr : r < R) (q : Nat) :
    Nat.count (fun i => (i % B) % R = r) N
      = (N / B) * parallel.distribute ⟨q, R⟩ B r + parallel.distribute ⟨q, R⟩ (N % B) r := by
  have hN : N = (N / B) * B + N % B := by
    have := Nat.div_add_mod N B
    rw [Nat.mul_comm] at this
    omega
  have h2 : Nat.count (fun i => (i % B) % R = r) (N % B)
      = Nat.count (fun i => i % R = r) (N % B) := by
    apply count_congr_lt
    intro i hi
    rw [Nat.mod_eq_of_lt (lt_trans hi (Nat.mod_lt _ hB))]
  have key := count_periodic B R r (N / B) (N % B)
  rw [← hN, h2, count_mod_eq R _ B hR hr, count_mod_eq R _ (N % B) hR hr] at key
  rw [key, distribute_eq, distribute_eq]

/-- The constructor run on the rank that the loop selects for line `G` holds the
fields of that line at the local record whose index is the number of earlier
lines of that rank. -/
theorem ctor_stores (file : List Line) (b R G D : Nat)
    (hD : dataset_dimensions file = some D) (hR : 1 ≤ R) (hN : file.length ≤ UINT_MAX)
    (hG : G < file.length) (hx : file[G].length = D) :
    ∃ dso, Dataset.ctor ⟨(G % loopBatchsize b R) % R, R⟩ file b = some dso ∧
      Nat.count (fun i => (i % loopBatchsize b R) % R = (G % loopBatchsize b R) % R) G
        < dso.mrrecords ∧
      (dso.rrecord (Nat.count (fun i => (i % loopBatchsize b R) % R
        = (G % loopBatchsize b R) % R) G)).slice dso.mdimensions = file[G] := by
  have hB := loopBatchsize_pos b R hR
  obtain ⟨dso, ho, hod, -, hor, hom, -, -, -⟩ :=
    ctor_fields ⟨(G % loopBatchsize b R) % R, R⟩ file b D hD hR hN
  refine ⟨dso, ho, ?_, ?_⟩
  · rw [hor]
    exact count_owned_lt _ G file.length hG rfl
  · obtain ⟨a, t, hv, ha⟩ := loadLoop_stores D (loopBatchsize b R) R G file hB hG hx
    simp only [Dataset.rrecord, hom, hod]
    rw [hv, ← hx]
    exact slice_middle a file[G] t _ (by rw [ha, hx, Nat.mul_comm])

/-- On well-formed lines the sums `ranksum` of all ranks add up to the sum of
all scalars read so far. -/
theorem sum_ranksum (D B R : Nat) (hB : 1 ≤ B) (hR : 1 ≤ R) (pre : List Line)
    (hall : ∀ line ∈ pre, line.length = D) :
    ∑ r in Finset.range R, (loadLoop D B r R pre).ranksum = scalarSum pre := by
  induction pre using List.reverseRecOn with
  | nil => simp [loadLoop, loadInit, scalarSum]
  | append_singleton l a ih =>
    have hl : ∀ line ∈ l, line.length = D := fun line h => hall line (by simp [h])
    have ha : a.length = D := hall a (by simp)
    have hstep : ∀ r, (loadLoop D B r R (l ++ [a])).ranksum
        = (loadLoop D B r R l).ranksum + (if (l.length % B) % R = r then a.sum else 0) := by
      intro r
      rw [loadLoop_snoc, loadStep_ranksum_of_length D B r R _ a ha, loadLoop_bidx D B r R hB]
    simp only [hstep, Finset.sum_add_distrib, ih hl]
    rw [Finset.sum_ite_eq]
    simp [scalarSum, Nat.mod_lt _ hR]

/-- The mean stored by the constructor on a well-formed file. -/
theorem ctor_valmean (st : parallel.State) (file : List Line) (b : Nat)
    (hwf : wellFormed file = true) (hR : 1 ≤ st.mranks) (hN : file.length ≤ UINT_MAX) :
    ∃ ds, Dataset.ctor st file b = some ds ∧
      ds.mvalmean = scalarSum file / (file.length : ℚ) := by
  obtain ⟨D, hD, hall⟩ := (wellFormed_iff file).mp hwf
  obtain ⟨ds, hc, -, -, -, -, -, -, hm⟩ := ctor_fields st file b D hD hR hN
  refine ⟨ds, hc, ?_⟩
  rw [hm, valuesSum, parallel.sum_all, list_range_sum,
    sum_ranksum D _ _ (loopBatchsize_pos b st.mranks hR) hR file hall]

theorem foldl_fixed {α β : Type} (f : α → β → α) (a : α) (l : List β)
    (h : ∀ x, f a x = a) : l.foldl f a = a := by
  induction l with
  | nil => rfl
  | cons x l ih => rw [List.foldl_cons, h x, ih]

/-- From the state in which `bmu_find` enters its loops, no iteration changes
the state: the distance it measures is `mindist` itself. -/
theorem bmu_step_init (weights : Weights) (record : Ptr) (r c : Nat) :
    bmu_step weights record r c
        { row := 0, col := 0, mindist := cellDistance weights record 0 0 }
      = { row := 0, col := 0, mindist := cellDistance weights record 0 0 } := by
  simp [bmu_step, cellDistance]

theorem bmu_find_eq (weights : Weights) (record : Ptr) :
    bmu_find weights record = (0, 0) := by
  have hinner : ∀ r : Nat, (List.range weights.mcols).foldl
      (fun s c => bmu_step weights record r c s)
      { row := 0, col := 0, mindist := cellDistance weights record 0 0 }
      = { row := 0, col := 0, mindist := cellDistance weights record 0 0 } :=
    fun r => foldl_fixed _ _ _ (fun c => bmu_step_init weights record r c)
  have houter := foldl_fixed
    (fun (s : BmuState) (r : Nat) =>
      (List.range weights.mcols).foldl (fun s c => bmu_step weights record r c s) s)
    { row := 0, col := 0, mindist := cellDistance weights record 0 0 }
    (List.range weights.mrows) hinner
  unfold bmu_find
  simp only [cellDistance] at houter
  simp only [houter]

theorem getD_set_zero (mem : List ℚ) (i p : Nat) (v : ℚ) :
    (mem.set i v).getD p 0 = if p = i ∧ i < mem.length then v else mem.getD p 0 := by
  rw [List.getD_eq_getElem?_getD, List.getD_eq_getElem?_getD, List.getElem?_set]
  by_cases h : i = p
  · subst h
    by_cases h2 : i < mem.length
    · simp [h2]
    · simp [h2, List.getElem?_eq_none (Nat.le_of_not_lt h2)]
  · have h3 : ¬ (p = i ∧ i < mem.length) := fun hh => h hh.1.symm
    simp [h, h3]

theorem accumulate_dims_succ (h : ℚ) (record entry : Ptr) (off D : Nat) (mem : List ℚ) :
    accumulate_dims h record entry off (D + 1) mem
      = (accumulate_dims h record entry off D mem).set (off + D)
          ((accumulate_dims h record entry off D mem).getD (off + D) 0
            + h * (record.read D - entry.read D)) := by
  simp only [accumulate_dims, List.range_succ, List.foldl_append, List.foldl_cons,
    List.foldl_nil]

theorem accumulate_dims_length (h : ℚ) (record entry : Ptr) (off D : Nat) (mem : List ℚ) :
    (accumulate_dims h record entry off D mem).length = mem.length := by
  induction D with
  | zero => rfl
  | succ D ih => rw [accumulate_dims_succ, List.length_set, ih]

theorem accumulate_dims_getD (h : ℚ) (record entry : Ptr) (off D : Nat) (mem : List ℚ)
    (p : Nat) :
    (accumulate_dims h record entry off D mem).getD p 0
      = if off ≤ p ∧ p < off + D ∧ p < mem.length
        then mem.getD p 0 + h * (record.read (p - off) - entry.read (p - off))
        else mem.getD p 0 := by
  induction D generalizing p with
  | zero =>
    have hno : ¬ (off ≤ p ∧ p < off + 0 ∧ p < mem.length) := by omega
    rw [if_neg hno]
    rfl
  | succ D ih =>
    have hlen := accumulate_dims_length h record entry off D mem
    rw [accumulate_dims_succ, getD_set_zero, hlen, ih p, ih (off + D)]
    have hnoD : ¬ (off ≤ off + D ∧ off + D < off + D ∧ off + D < mem.length) := by omega
    rw [if_neg hnoD]
    by_cases hp : p = off + D
    · subst hp
      by_cases hl : off + D < mem.length
      · have h1 : off + D = off + D ∧ off + D < mem.length := ⟨rfl, hl⟩
        have h2 : off ≤ off + D ∧ off + D < off + (D + 1) ∧ off + D < mem.length :=
          ⟨by omega, by omega, hl⟩
        rw [if_pos h1, if_pos h2, Nat.add_sub_cancel_left]
      · have h1 : ¬ (off + D = off + D ∧ off + D < mem.length) := fun hh => hl hh.2
        have h2 : ¬ (off ≤ off + D ∧ off + D < off + (D + 1) ∧ off + D < mem.length) :=
          fun hh => hl hh.2.2
        rw [if_neg h1, if_neg h2, if_neg hnoD]
    · have h1 : ¬ (p = off + D ∧ off + D < mem.length) := fun hh => hp hh.1
      rw [if_neg h1]
      by_cases hin : off ≤ p ∧ p < off + D ∧ p < mem.length
      · have hin2 : off ≤ p ∧ p < off + (D + 1) ∧ p < mem.length := ⟨hin.1, by omega, hin.2.2⟩
        rw [if_pos hin, if_pos hin2]
      · have hin2 : ¬ (off ≤ p ∧ p < off + (D + 1) ∧ p < mem.length) := by
          intro hh; apply hin; exact ⟨hh.1, by omega, hh.2.2⟩
        rw [if_neg hin, if_neg hin2]

theorem foldl_flatMap_eq {α β γ : Type} (f : γ → β → γ) (g : α → List β) (l : List α) (c : γ) :
    (l.flatMap g).foldl f c = l.foldl (fun c a => (g a).foldl f c) c := by
  induction l generalizing c with
  | nil => rfl
  | cons a l ih => simp only [List.flatMap_cons, List.foldl_append, List.foldl_cons, ih]

theorem accumulate_loop_cells (weights : Weights) (D : Nat) (record : Ptr)
    (weight : Nat → Nat → Option ℚ) (r1 r2 c1 c2 : Nat) (frac : BatchFraction) :
    accumulate_loop weights D record weight r1 r2 c1 c2 frac
      = (loop_cells r1 r2 c1 c2).foldl
          (fun f rc => f.bind (fun frac =>
            (weight rc.1 rc.2).map (fun h => accumulate_cell weights D record rc.1 rc.2 h frac)))
          (some frac) := by
  unfold accumulate_loop loop_cells
  rw [foldl_flatMap_eq]
  congr 1
  funext f row
  rw [List.foldl_map]

theorem foldl_option_some (weights : Weights) (D : Nat) (record : Ptr)
    (weight : Nat → Nat → Option ℚ) (w : Nat → Nat → ℚ) (cells : List (Nat × Nat))
    (frac : BatchFraction) (hw : ∀ rc ∈ cells, weight rc.1 rc.2 = some (w rc.1 rc.2)) :
    cells.foldl
        (fun f rc => f.bind (fun frac =>
          (weight rc.1 rc.2).map (fun h => accumulate_cell weights D record rc.1 rc.2 h frac)))
        (some frac)
      = some (accumulate_list weights D record w cells frac) := by
  induction cells generalizing frac with
  | nil => rfl
  | cons rc cells ih =>
    have h1 := hw rc (by simp)
    simp only [List.foldl_cons, Option.some_bind, h1, Option.map_some', accumulate_list]
    exact ih _ (fun rc2 h2 => hw rc2 (by simp [h2]))

theorem foldl_option_none {α β : Type} (f : Option β → α → Option β)
    (hf : ∀ a, f none a = none) (l : List α) : l.foldl f none = none := by
  induction l with
  | nil => rfl
  | cons a l ih => rw [List.foldl_cons, hf, ih]

theorem cell_term_congr (weights n1 n2 : Weights) (D : Nat) (record : Ptr) (row col : Nat)
    (h : ℚ) (p : Nat) (hd : n1.mdimensions = n2.mdimensions)
    (hl : n1.mem.length = n2.mem.length) :
    cell_term weights n1 D record row col h p = cell_term weights n2 D record row col h p := by
  simp only [cell_term, Weights.offset, hd, hl]

theorem accumulate_cell_getD (weights : Weights) (D : Nat) (record : Ptr) (row col : Nat)
    (h : ℚ) (frac : BatchFraction) (p : Nat) :
    (accumulate_cell weights D record row col h frac).numerator.mem.getD p 0
      = frac.numerator.mem.getD p 0 + cell_term weights frac.numerator D record row col h p := by
  simp only [accumulate_cell, cell_term, accumulate_dims_getD]
  split_ifs <;> simp

/-- What the accumulation of a list of cells does to a fraction. -/
theorem accumulate_list_spec (weights : Weights) (D : Nat) (record : Ptr) (w : Nat → Nat → ℚ)
    (cells : List (Nat × Nat)) (frac : BatchFraction) :
    (accumulate_list weights D record w cells frac).numerator.mrows = frac.numerator.mrows ∧
    (accumulate_list weights D record w cells frac).numerator.mcols = frac.numerator.mcols ∧
    (accumulate_list weights D record w cells frac).numerator.mdimensions
      = frac.numerator.mdimensions ∧
    (accumulate_list weights D record w cells frac).numerator.mem.length
      = frac.numerator.mem.length ∧
    (accumulate_list weights D record w cells frac).numbuffer = frac.numbuffer ∧
    (accumulate_list weights D record w cells frac).denbuffer = frac.denbuffer ∧
    (accumulate_list weights D record w cells frac).denominator
      = frac.denominator + (cells.map (fun rc => w rc.1 rc.2)).sum ∧
    ∀ p, (accumulate_list weights D record w cells frac).numerator.mem.getD p 0
      = frac.numerator.mem.getD p 0
        + (cells.map (fun rc =>
            cell_term weights frac.numerator D record rc.1 rc.2 (w rc.1 rc.2) p)).sum := by
  induction cells generalizing frac with
  | nil => simp [accumulate_list]
  | cons rc cells ih =>
    obtain ⟨h1, h2, h3, h4, h5, h6, h7, h8⟩ :=
      ih (accumulate_cell weights D record rc.1 rc.2 (w rc.1 rc.2) frac)
    have hd : (accumulate_cell weights D record rc.1 rc.2 (w rc.1 rc.2) frac).numerator.mdimensions
        = frac.numerator.mdimensions := rfl
    have hl : (accumulate_cell weights D record rc.1 rc.2 (w rc.1 rc.2) frac).numerator.mem.length
        = frac.numerator.mem.length := by
      simp only [accumulate_cell, accumulate_dims_length]
    have hstep : accumulate_list weights D record w (rc :: cells) frac
        = accumulate_list weights D record w cells
            (accumulate_cell weights D record rc.1 rc.2 (w rc.1 rc.2) frac) := rfl
    rw [hstep]
    refine ⟨h1, h2, h3, h4.trans hl, h5, h6, ?_, ?_⟩
    · rw [h7]
      simp only [accumulate_cell, List.map_cons, List.sum_cons]
      ring
    · intro p
      rw [h8 p, accumulate_cell_getD]
      simp only [List.map_cons, List.sum_cons]
      have hc : ∀ rc2 : Nat × Nat,
          cell_term weights
            (accumulate_cell weights D record rc.1 rc.2 (w rc.1 rc.2) frac).numerator D record
            rc2.1 rc2.2 (w rc2.1 rc2.2) p
          = cell_term weights frac.numerator D record rc2.1 rc2.2 (w rc2.1 rc2.2) p :=
        fun rc2 => cell_term_congr _ _ _ _ _ _ _ _ _ hd hl
      simp only [hc]
      ring

theorem mem_loop_cells (r1 r2 c1 c2 : Nat) (rc : Nat × Nat) :
    rc ∈ loop_cells r1 r2 c1 c2 ↔ (r1 ≤ rc.1 ∧ rc.1 < r2) ∧ (c1 ≤ rc.2 ∧ rc.2 < c2) := by
  obtain ⟨r, c⟩ := rc
  simp only [loop_cells, List.mem_flatMap, List.mem_map, List.mem_range'_1, Prod.mk.injEq]
  constructor
  · rintro ⟨a, ha, b, hb, rfl, rfl⟩
    exact ⟨⟨ha.1, by omega⟩, ⟨hb.1, by omega⟩⟩
  · rintro ⟨hr, hc⟩
    exact ⟨r, ⟨hr.1, by omega⟩, c, ⟨hc.1, by omega⟩, rfl, rfl⟩

theorem distfunc_some (exp : ℚ → ℚ) (sqdist nradius : ℚ) (h : 2 * nradius ≠ 0) :
    distfunc exp sqdist nradius = some (exp (-sqdist / (2 * nradius))) := by
  simp [distfunc, ddiv, h]

theorem distfunc_none (exp : ℚ → ℚ) (sqdist nradius : ℚ) (h : 2 * nradius = 0) :
    distfunc exp sqdist nradius = none := by
  simp [distfunc, ddiv, h]

/-- With a radius that is not zero, `batch_fraction_accumulate` returns the
state whose fraction has accumulated the visited cells in turn, each with the
weight `cell_weight`. -/
theorem accumulate_eq (exp : ℚ → ℚ) (state : TrainState) (record : Ptr) (brow bcol : Nat)
    (h : 2 * state.nradius ≠ 0) :
    batch_fraction_accumulate exp state record brow bcol
      = some { state with
          bfraction := accumulate_list state.weights state.weights.mdimensions record
            (cell_weight exp state.nradius brow bcol) (accumulate_cells state brow bcol)
            state.bfraction } := by
  unfold batch_fraction_accumulate
  simp only [accumulate_loop_cells]
  have key := foldl_option_some state.weights state.weights.mdimensions record
    (fun row col => distfunc exp (grid_sqdist brow bcol row col) state.nradius)
    (cell_weight exp state.nradius brow bcol) (accumulate_cells state brow bcol) state.bfraction
    (fun rc _ => distfunc_some exp _ _ h)
  simp only [accumulate_cells] at key
  rw [key]
  rfl

theorem u32_le (x : Nat) : u32 x ≤ x := by
  unfold u32; exact Nat.mod_le _ _

/-- Every cell that `batch_fraction_accumulate` visits lies in the lattice and
within `share` rows and columns of the best-matching unit. -/
theorem accumulate_cells_box (state : TrainState) (brow bcol : Nat) (rc : Nat × Nat)
    (h : rc ∈ accumulate_cells state brow bcol) :
    rc.1 < state.weights.mrows ∧ rc.2 < state.weights.mcols ∧
    rc.1 ≤ brow + toUnsigned state.nradius ∧ brow ≤ rc.1 + toUnsigned state.nradius ∧
    rc.2 ≤ bcol + toUnsigned state.nradius ∧ bcol ≤ rc.2 + toUnsigned state.nradius := by
  simp only [accumulate_cells, accumulate_bounds, mem_loop_cells] at h
  obtain ⟨⟨h1, h2⟩, h3, h4⟩ := h
  have e1 := u32_le (brow + toUnsigned state.nradius + 1)
  have e2 := u32_le (bcol + toUnsigned state.nradius + 1)
  refine ⟨by omega, by omega, by omega, ?_, by omega, ?_⟩
  · split_ifs at h1 <;> omega
  · split_ifs at h3 <;> omega

theorem toUnsigned_le_floor (x : ℚ) (hx : 0 ≤ x) : (toUnsigned x : ℤ) ≤ ⌊x⌋ := by
  have h1 : toUnsigned x ≤ ⌊x⌋₊ := u32_le _
  have h2 : ((⌊x⌋₊ : ℕ) : ℤ) = ⌊x⌋ := Int.natCast_floor_eq_floor hx
  omega

theorem accumulate_cells_in_box (state : TrainState) (brow bcol : Nat) (rc : Nat × Nat)
    (hrho : 0 ≤ state.nradius) (h : rc ∈ accumulate_cells state brow bcol) :
    in_box state brow bcol rc.1 rc.2 := by
  obtain ⟨h1, h2, h3, h4, h5, h6⟩ := accumulate_cells_box state brow bcol rc h
  have hf := toUnsigned_le_floor state.nradius hrho
  refine ⟨h1, h2, ?_, ?_⟩
  · rw [abs_le]; constructor <;> omega
  · rw [abs_le]; constructor <;> omega

/-- Outside the cells of the box no accumulation of visited cells changes the
numerator, whatever the weights of the cells are. -/
theorem accumulate_list_outside (state : TrainState) (record : Ptr) (brow bcol : Nat)
    (w : Nat → Nat → ℚ) (p : Nat) (hrho : 0 ≤ state.nradius)
    (hcols : state.bfraction.numerator.mcols = state.weights.mcols)
    (hdims : state.bfraction.numerator.mdimensions = state.weights.mdimensions)
    (hp : outside_box state brow bcol p) :
    (accumulate_list state.weights state.weights.mdimensions record w
        (accumulate_cells state brow bcol) state.bfraction).numerator.mem.getD p 0
      = state.bfraction.numerator.mem.getD p 0 := by
  obtain ⟨-, -, -, -, -, -, -, h8⟩ := accumulate_list_spec state.weights
    state.weights.mdimensions record w (accumulate_cells state brow bcol) state.bfraction
  rw [h8 p]
  have hzero : (List.map (fun rc : Nat × Nat =>
      cell_term state.weights state.bfraction.numerator state.weights.mdimensions record
        rc.1 rc.2 (w rc.1 rc.2) p) (accumulate_cells state brow bcol)).sum = 0 := by
    apply List.sum_eq_zero
    intro x hx
    obtain ⟨rc, hrc, rfl⟩ := List.mem_map.mp hx
    have hbox := accumulate_cells_in_box state brow bcol rc hrho hrc
    simp only [cell_term]
    split_ifs with hcond
    · exfalso
      refine hp rc.1 rc.2 (p - state.bfraction.numerator.offset (state.weights.index rc.1 rc.2))
        hbox ?_ ?_
      · rw [hdims]; omega
      · have : state.bfraction.numerator.index rc.1 rc.2 = state.weights.index rc.1 rc.2 := by
          simp only [Weights.index, hcols]
        rw [this]; omega
    · rfl
  rw [hzero, add_zero]

theorem toUnsigned_one : toUnsigned 1 = 1 := by
  simp [toUnsigned, u32]

theorem toUnsigned_zero : toUnsigned 0 = 0 := by
  simp [toUnsigned, u32]

theorem toUnsigned_seven_fifths : toUnsigned (7 / 5) = 1 := by
  have : ⌊(7 / 5 : ℚ)⌋₊ = 1 := by
    rw [Nat.floor_eq_iff (by norm_num)]
    norm_num
  simp [toUnsigned, u32, this]

theorem grid_sqdist_self (r c : Nat) : grid_sqdist r c r c = 0 := by
  simp [grid_sqdist, squared_hypot, square, usub, u32]

theorem toUnsigned_lt_one (x : ℚ) (h1 : x < 1) : toUnsigned x = 0 := by
  have : ⌊x⌋₊ = 0 := Nat.floor_eq_zero.mpr h1
  simp [toUnsigned, u32, this]

/-- With a share of 0 the loops visit the best-matching unit only. -/
theorem accumulate_cells_share_zero (state : TrainState) (brow bcol : Nat)
    (hshare : toUnsigned state.nradius = 0)
    (hbrow : brow < state.weights.mrows) (hbcol : bcol < state.weights.mcols)
    (hrows : state.weights.mrows ≤ UINT_MAX) (hcols : state.weights.mcols ≤ UINT_MAX) :
    accumulate_cells state brow bcol = [(brow, bcol)] := by
  have h1 : u32 (brow + 1) = brow + 1 := u32_of_le _ (by omega)
  have h2 : u32 (bcol + 1) = bcol + 1 := u32_of_le _ (by omega)
  have h3 : min (brow + 1) state.weights.mrows = brow + 1 := by omega
  have h4 : min (bcol + 1) state.weights.mcols = bcol + 1 := by omega
  simp only [accumulate_cells, accumulate_bounds, hshare, Nat.add_zero, h1, h2, h3, h4,
    loop_cells, Nat.sub_zero, Nat.not_lt_zero, if_false, gt_iff_lt, Nat.add_sub_cancel_left]
  simp

/-- The scalar `d` of the cell `(r, c)` of a grid lies inside its block. -/
theorem cell_in_bounds (rows cols D r c d : Nat) (hr : r < rows) (hc : c < cols) (hd : d < D) :
    (r * cols + c) * D + d < rows * cols * D := by
  have h1 : r * cols + c + 1 ≤ rows * cols := by
    have : (r + 1) * cols ≤ rows * cols := Nat.mul_le_mul_right cols hr
    have h2 : (r + 1) * cols = r * cols + cols := by ring
    omega
  have h3 : (r * cols + c + 1) * D ≤ rows * cols * D := Nat.mul_le_mul_right D h1
  have h4 : (r * cols + c + 1) * D = (r * cols + c) * D + D := by ring
  omega

theorem cells_5x5 : accumulate_cells (gridState 5 5 (7 / 5)) 2 2
    = [(1, 1), (1, 2), (1, 3), (2, 1), (2, 2), (2, 3), (3, 1), (3, 2), (3, 3)] := by
  simp only [accumulate_cells, gridState, toUnsigned_seven_fifths]
  decide

theorem sqdists_5x5 :
    [(1, 1), (1, 2), (1, 3), (2, 1), (2, 2), (2, 3), (3, 1), (3, 2), (3, 3)].map
        (fun rc : Nat × Nat => grid_sqdist 2 2 rc.1 rc.2)
      = [36893488130239234050, 18446744065119617025, 18446744065119617026,
          18446744065119617025, 0, 1, 18446744065119617026, 1, 2] := by
  norm_num [grid_sqdist, squared_hypot, square, usub, u32]

theorem sum_all_double_getD (srcs : List (List ℚ)) (dst : List ℚ) (count i : Nat)
    (hi : i < count) :
    (parallel.sum_all_double srcs dst count).getD i 0
      = (srcs.map (fun src => src.getD i 0)).sum := by
  unfold parallel.sum_all_double
  rw [List.getD_eq_getElem?_getD, List.getElem?_append_left (by simpa using hi)]
  simp [hi]

theorem sum_all_double_length (srcs : List (List ℚ)) (dst : List ℚ) (count : Nat)
    (h : dst.length = count) :
    (parallel.sum_all_double srcs dst count).length = count := by
  simp [parallel.sum_all_double, h]

theorem reduce_numerator_getD (all : List BatchFraction) (f : BatchFraction) (i : Nat)
    (hi : i < f.numerator.size3) :
    (f.reduce all).numerator.mem.getD i 0 = (all.map (fun g => g.numerator.mem.getD i 0)).sum := by
  simp only [BatchFraction.reduce, Weights.swap]
  rw [sum_all_double_getD _ _ _ _ hi, List.map_map]
  rfl

theorem sum_map_const (l : List BatchFraction) (c : ℚ) :
    (l.map (fun _ => c)).sum = (l.length : ℚ) * c := by
  induction l with
  | nil => simp
  | cons a l ih => simp only [List.map_cons, List.sum_cons, ih, List.length_cons]; push_cast; ring

/-- The loop of `batch_fraction_commit` over the first `size` scalars with a
denominator that is not zero. -/
theorem commit_fold (num : Ptr) (den : ℚ) (off size : Nat) (mem : List ℚ) (hden : den ≠ 0) :
    ∃ mem2 : List ℚ,
      (List.range size).foldl
        (fun acc idx => acc.bind (fun md : List ℚ × ℚ =>
          (ddiv (num.read idx) den).map (fun update =>
            (md.1.set (off + idx) (md.1.getD (off + idx) 0 + update), md.2 + |update|))))
        (some (mem, 0))
        = some (mem2, ((List.range size).map (fun i => |num.read i / den|)).sum) ∧
      mem2.length = mem.length ∧
      ∀ p, mem2.getD p 0
        = if off ≤ p ∧ p < off + size ∧ p < mem.length
          then mem.getD p 0 + num.read (p - off) / den else mem.getD p 0 := by
  induction size with
  | zero =>
    refine ⟨mem, by simp, rfl, ?_⟩
    intro p
    have : ¬ (off ≤ p ∧ p < off + 0 ∧ p < mem.length) := by omega
    rw [if_neg this]
  | succ size ih =>
    obtain ⟨mem1, h1, hl, hg⟩ := ih
    refine ⟨mem1.set (off + size) (mem1.getD (off + size) 0 + num.read size / den), ?_, ?_, ?_⟩
    · rw [List.range_succ, List.foldl_append, h1]
      simp only [List.foldl_cons, List.foldl_nil, Option.some_bind, ddiv, if_neg hden,
        Option.map_some', List.map_append, List.map_cons, List.map_nil, List.sum_append,
        List.sum_cons, List.sum_nil, add_zero]
    · rw [List.length_set, hl]
    · intro p
      rw [getD_set_zero, hl, hg p, hg (off + size)]
      have hno : ¬ (off ≤ off + size ∧ off + size < off + size ∧ off + size < mem.length) := by
        omega
      rw [if_neg hno]
      by_cases hp : p = off + size
      · subst hp
        by_cases hlen : off + size < mem.length
        · rw [if_pos ⟨rfl, hlen⟩, if_pos ⟨by omega, by omega, hlen⟩, Nat.add_sub_cancel_left]
        · have h2 : ¬ (off + size = off + size ∧ off + size < mem.length) := fun hh => hlen hh.2
          have h3 : ¬ (off ≤ off + size ∧ off + size < off + (size + 1)
              ∧ off + size < mem.length) := fun hh => hlen hh.2.2
          rw [if_neg h2, if_neg h3, if_neg hno]
      · have h2 : ¬ (p = off + size ∧ off + size < mem.length) := fun hh => hp hh.1
        rw [if_neg h2]
        by_cases hin : off ≤ p ∧ p < off + size ∧ p < mem.length
        · rw [if_pos hin, if_pos ⟨hin.1, by omega, hin.2.2⟩]
        · have h3 : ¬ (off ≤ p ∧ p < off + (size + 1) ∧ p < mem.length) := by
            intro hh; apply hin; exact ⟨hh.1, by omega, hh.2.2⟩
          rw [if_neg hin, if_neg h3]

/-- What `batch_fraction_commit` returns for a denominator that is not zero. -/
theorem commit_spec (fraction : BatchFraction) (weights : Weights)
    (hden : fraction.denominator ≠ 0) :
    ∃ w : Weights,
      batch_fraction_commit fraction weights
        = some (w, ((List.range fraction.numerator.size3).map
            (fun i => |fraction.numerator.mem.getD i 0 / fraction.denominator|)).sum) ∧
      w.mrows = weights.mrows ∧ w.mcols = weights.mcols ∧ w.mdimensions = weights.mdimensions ∧
      w.mem.length = weights.mem.length ∧
      ∀ p, w.mem.getD p 0
        = if p < fraction.numerator.size3 ∧ p < weights.mem.length
          then weights.mem.getD p 0 + fraction.numerator.mem.getD p 0 / fraction.denominator
          else weights.mem.getD p 0 := by
  obtain ⟨mem2, h1, hl, hg⟩ := commit_fold (fraction.numerator.entry 0) fraction.denominator
    (weights.entry 0).off fraction.numerator.size3 weights.mem hden
  have hoff : (weights.entry 0).off = 0 := by simp [Weights.entry, Weights.offset]
  have hread : ∀ i, (fraction.numerator.entry 0).read i = fraction.numerator.mem.getD i 0 := by
    intro i
    simp [Weights.entry, Weights.offset, Ptr.read]
  simp only [hread] at h1 hg
  refine ⟨{ weights with mem := mem2 }, ?_, rfl, rfl, rfl, hl, ?_⟩
  · unfold batch_fraction_commit
    simp only [hread, h1, Option.map_some']
  · intro p
    rw [hg p, hoff]
    simp only [Nat.zero_le, true_and, Nat.zero_add, Nat.sub_zero]

theorem foldl_pair {α β γ : Type} (f : β → α → β) (g : α → γ) (l : List α) (b : β)
    (t : List γ) :
    l.foldl (fun acc x => (f acc.1 x, acc.2 ++ [g x])) (b, t) = (l.foldl f b, t ++ l.map g) := by
  induction l generalizing b t with
  | nil => simp
  | cons x l ih => simp only [List.foldl_cons, ih, List.map_cons, List.append_assoc,
      List.singleton_append]

theorem usub_one (t : Nat) (h1 : 1 ≤ t) (h2 : t ≤ UINT_MAX) : usub t 1 = t - 1 := by
  unfold UINT_MAX at h2
  unfold usub u32
  omega

theorem copyInto_succ (mem : List ℚ) (off : Nat) (buf : List ℚ) (count : Nat) :
    copyInto mem off buf (count + 1)
      = (copyInto mem off buf count).set (off + count) (buf.getD count 0) := by
  simp only [copyInto, List.range_succ, List.foldl_append, List.foldl_cons, List.foldl_nil]

theorem copyInto_length (mem : List ℚ) (off : Nat) (buf : List ℚ) (count : Nat) :
    (copyInto mem off buf count).length = mem.length := by
  induction count with
  | zero => rfl
  | succ count ih => rw [copyInto_succ, List.length_set, ih]

theorem copyInto_getD (mem : List ℚ) (off : Nat) (buf : List ℚ) (count p : Nat) :
    (copyInto mem off buf count).getD p 0
      = if off ≤ p ∧ p < off + count ∧ p < mem.length then buf.getD (p - off) 0
        else mem.getD p 0 := by
  induction count with
  | zero =>
    have hno : ¬ (off ≤ p ∧ p < off + 0 ∧ p < mem.length) := by omega
    rw [if_neg hno]; rfl
  | succ count ih =>
    rw [copyInto_succ, getD_set_zero, copyInto_length, ih]
    by_cases hp : p = off + count
    · subst hp
      by_cases hl : off + count < mem.length
      · rw [if_pos ⟨rfl, hl⟩, if_pos ⟨by omega, by omega, hl⟩, Nat.add_sub_cancel_left]
      · have h1 : ¬ (off + count = off + count ∧ off + count < mem.length) := fun hh => hl hh.2
        have h2 : ¬ (off ≤ off + count ∧ off + count < off + (count + 1)
            ∧ off + count < mem.length) := fun hh => hl hh.2.2
        have h3 : ¬ (off ≤ off + count ∧ off + count < off + count
            ∧ off + count < mem.length) := by omega
        rw [if_neg h1, if_neg h2, if_neg h3]
    · have h1 : ¬ (p = off + count ∧ off + count < mem.length) := fun hh => hp hh.1
      rw [if_neg h1]
      by_cases hin : off ≤ p ∧ p < off + count ∧ p < mem.length
      · rw [if_pos hin, if_pos ⟨hin.1, by omega, hin.2.2⟩]
      · have h3 : ¬ (off ≤ p ∧ p < off + (count + 1) ∧ p < mem.length) := by
          intro hh; apply hin; exact ⟨hh.1, by omega, hh.2.2⟩
        rw [if_neg hin, if_neg h3]

/-- The facts about the data set of a rank of a loaded world. -/
theorem loadedWorld_dataset (file : List Line) (b D : Nat) (world : List TrainState)
    (hload : loadedWorld file b world) (hD : dataset_dimensions file = some D)
    (hN : file.length ≤ UINT_MAX) (q : Nat) (hq : q < world.length) :
    world[q].parallelState = ⟨q, world.length⟩ ∧
    Dataset.ctor ⟨q, world.length⟩ file b = some world[q].constants.dataset ∧
    world[q].constants.dataset.mdimensions = D ∧
    world[q].constants.dataset.mtrecords = file.length ∧
    world[q].constants.dataset.mbatchsize
      = (if loopBatchsize b world.length < UINT_MAX then loopBatchsize b world.length
          else file.length) := by
  obtain ⟨h1, h2, h3, -, -⟩ := hload q hq
  obtain ⟨ds, hc, hd, ht, -, -, hb, -, -⟩ :=
    ctor_fields ⟨q, world.length⟩ file b D hD (by simp; omega) hN
  have hsame : world[q].constants.dataset = ds := by
    rw [h3] at hc
    exact Option.some.inj hc
  refine ⟨?_, h3, ?_, ?_, ?_⟩
  · simp only [TrainState.parallelState, h1, h2]
  · rw [hsame]; exact hd
  · rw [hsame]; exact ht
  · rw [hsame]; exact hb

/-- In a loaded world on a well-formed file, an iteration of
`weights_random_init` that makes the call number `k` of `rand` writes the
fields of the line `rand k mod N` into the cell. -/
theorem init_cell_loaded (file : List Line) (b D : Nat) (world : List TrainState)
    (rand : Nat → Nat) (hload : loadedWorld file b world)
    (hD : dataset_dimensions file = some D) (hall : ∀ line ∈ file, line.length = D)
    (hN : file.length ≤ UINT_MAX) (q : Nat) (hq : q < world.length) (row col : Nat)
    (s : InitState) :
    init_cell rand world world[q] row col s
      = { mem := copyInto s.mem (world[q].weights.offset (world[q].weights.index row col))
            (file.getD (rand s.calls % file.length) []) D
          sendbuff := file.getD (rand s.calls % file.length) []
          calls := s.calls + 1 } := by
  have hR : 1 ≤ world.length := by omega
  have hN1 : 1 ≤ file.length := (dataset_dimensions_pos file D hD).2
  obtain ⟨hps, -, hdim, htr, hbs⟩ := loadedWorld_dataset file b D world hload hD hN q hq
  have hG : rand s.calls % file.length < file.length := Nat.mod_lt _ (by omega)
  have hg := global_to_local_count ⟨q, world.length⟩ world[q].constants.dataset b file.length
    (rand s.calls % file.length) hR hN hG hbs
  have hx : file[rand s.calls % file.length].length = D := hall _ (List.getElem_mem hG)
  obtain ⟨dso, ho, -, hslice⟩ :=
    ctor_stores file b world.length (rand s.calls % file.length) D hD hR hN hG hx
  have hown : (rand s.calls % file.length % loopBatchsize b world.length) % world.length
      < world.length := Nat.mod_lt _ (by omega)
  obtain ⟨hps2, hc2, hdim2, htr2, hbs2⟩ := loadedWorld_dataset file b D world hload hD hN _ hown
  have hsame : world[(rand s.calls % file.length % loopBatchsize b world.length)
      % world.length].constants.dataset = dso := by
    rw [hc2] at ho
    exact Option.some.inj ho
  have hg2 := global_to_local_count
    ⟨(rand s.calls % file.length % loopBatchsize b world.length) % world.length, world.length⟩
    dso b file.length (rand s.calls % file.length) hR hN hG (by rw [← hsame]; exact hbs2)
  have hroot : ∀ fallback, rootBuffer world
      ((rand s.calls % file.length % loopBatchsize b world.length) % world.length)
      (rand s.calls) fallback = file[rand s.calls % file.length] := by
    intro fallback
    simp only [rootBuffer, List.getElem?_eq_getElem hown, hps2, hsame]
    rw [← hsame, htr2, hsame, hg2]
    exact hslice
  have hget : file.getD (rand s.calls % file.length) [] = file[rand s.calls % file.length] := by
    rw [List.getD_eq_getElem?_getD, List.getElem?_eq_getElem hG]
    rfl
  simp only [init_cell, hps, htr, hg, hroot, hdim, hget]

theorem block_div_mod (D m p : Nat) (h1 : m * D ≤ p) (h2 : p < m * D + D) :
    p / D = m ∧ p % D = p - m * D := by
  have hD : 0 < D := by omega
  have hdiv : p / D = m := by
    apply Nat.div_eq_of_lt_le
    · exact h1
    · have : (m + 1) * D = m * D + D := by ring
      show p < (m + 1) * D
      omega
  have hmod := Nat.div_add_mod p D
  rw [hdiv, Nat.mul_comm] at hmod
  exact ⟨hdiv, by omega⟩

/-- A loop whose iteration number `j` copies the block `B (k0 + j)` of `D`
scalars to the offset `(k0 + j) * D` leaves the blocks `B k0, ..., B (k0+n-1)`
one after the other in the memory. -/
theorem write_blocks (D k0 : Nat) (B : Nat → List ℚ) (f : Nat → InitState → InitState)
    (hf : ∀ j s, s.calls = k0 + j →
      f j s = { mem := copyInto s.mem (s.calls * D) (B s.calls) D
                sendbuff := B s.calls
                calls := s.calls + 1 })
    (n : Nat) (s0 : InitState) (h0 : s0.calls = k0) :
    ((List.range n).foldl (fun s j => f j s) s0).calls = k0 + n ∧
    ((List.range n).foldl (fun s j => f j s) s0).mem.length = s0.mem.length ∧
    ∀ p, ((List.range n).foldl (fun s j => f j s) s0).mem.getD p 0
      = if k0 * D ≤ p ∧ p < (k0 + n) * D ∧ p < s0.mem.length
        then (B (p / D)).getD (p % D) 0 else s0.mem.getD p 0 := by
  induction n with
  | zero =>
    refine ⟨h0, rfl, ?_⟩
    intro p
    have hno : ¬ (k0 * D ≤ p ∧ p < (k0 + 0) * D ∧ p < s0.mem.length) := by
      simp only [Nat.add_zero]; omega
    rw [if_neg hno]; rfl
  | succ n ih =>
    obtain ⟨hc, hl, hg⟩ := ih
    have hstep : (List.range (n + 1)).foldl (fun s j => f j s) s0
        = f n ((List.range n).foldl (fun s j => f j s) s0) := by
      simp only [List.range_succ, List.foldl_append, List.foldl_cons, List.foldl_nil]
    rw [hstep, hf n _ hc]
    refine ⟨by simp only [hc]; omega, by simp only [copyInto_length, hl], ?_⟩
    intro p
    simp only [copyInto_getD, hc, hl, hg p]
    have hmul : (k0 + (n + 1)) * D = (k0 + n) * D + D := by ring
    have hle : k0 * D ≤ (k0 + n) * D := Nat.mul_le_mul_right D (by omega)
    by_cases hin : (k0 + n) * D ≤ p ∧ p < (k0 + n) * D + D ∧ p < s0.mem.length
    · obtain ⟨hdiv, hmod⟩ := block_div_mod D (k0 + n) p hin.1 hin.2.1
      rw [if_pos hin, if_pos ⟨by omega, by omega, hin.2.2⟩, hdiv, hmod]
    · rw [if_neg hin]
      by_cases hin2 : k0 * D ≤ p ∧ p < (k0 + n) * D ∧ p < s0.mem.length
      · rw [if_pos hin2, if_pos ⟨hin2.1, by omega, hin2.2.2⟩]
      · have hin3 : ¬ (k0 * D ≤ p ∧ p < (k0 + (n + 1)) * D ∧ p < s0.mem.length) := by
          intro hh
          by_cases hlt : p < (k0 + n) * D
          · exact hin2 ⟨hh.1, hlt, hh.2.2⟩
          · exact hin ⟨by omega, by omega, hh.2.2⟩
        rw [if_neg hin2, if_neg hin3]

/-- The two nested loops of `weights_random_init`, when the iteration of the
cell `(row, col)` copies the block `B (row * cols + col)`. -/
theorem write_grid (D cols : Nat) (B : Nat → List ℚ)
    (f : Nat → Nat → InitState → InitState)
    (hf : ∀ row col s, s.calls = row * cols + col →
      f row col s = { mem := copyInto s.mem (s.calls * D) (B s.calls) D
                      sendbuff := B s.calls
                      calls := s.calls + 1 })
    (rows : Nat) (s0 : InitState) (h0 : s0.calls = 0) :
    ((List.range rows).foldl
        (fun s row => (List.range cols).foldl (fun s col => f row col s) s) s0).calls
      = rows * cols ∧
    ((List.range rows).foldl
        (fun s row => (List.range cols).foldl (fun s col => f row col s) s) s0).mem.length
      = s0.mem.length ∧
    ∀ p, ((List.range rows).foldl
        (fun s row => (List.range cols).foldl (fun s col => f row col s) s) s0).mem.getD p 0
      = if p < rows * cols * D ∧ p < s0.mem.length
        then (B (p / D)).getD (p % D) 0 else s0.mem.getD p 0 := by
  induction rows with
  | zero =>
    refine ⟨by simp [h0], rfl, ?_⟩
    intro p
    have hno : ¬ (p < 0 * cols * D ∧ p < s0.mem.length) := by simp
    rw [if_neg hno]; rfl
  | succ rows ih =>
    obtain ⟨hc, hl, hg⟩ := ih
    have hstep : (List.range (rows + 1)).foldl
          (fun s row => (List.range cols).foldl (fun s col => f row col s) s) s0
        = (List.range cols).foldl (fun s col => f rows col s)
            ((List.range rows).foldl
              (fun s row => (List.range cols).foldl (fun s col => f row col s) s) s0) := by
      simp only [List.range_succ, List.foldl_append, List.foldl_cons, List.foldl_nil]
    obtain ⟨hc2, hl2, hg2⟩ := write_blocks D (rows * cols) B (f rows)
      (fun j s hs => hf rows j s hs) cols _ hc
    rw [hstep]
    have hmul : (rows + 1) * cols = rows * cols + cols := by ring
    refine ⟨by rw [hc2, hmul], by rw [hl2, hl], ?_⟩
    intro p
    rw [hg2 p, hg p, hl, hmul]
    by_cases hin : rows * cols * D ≤ p ∧ p < (rows * cols + cols) * D ∧ p < s0.mem.length
    · rw [if_pos hin, if_pos ⟨hin.2.1, hin.2.2⟩]
    · rw [if_neg hin]
      have hle : rows * cols * D ≤ (rows * cols + cols) * D :=
        Nat.mul_le_mul_right D (by omega)
      by_cases hin2 : p < rows * cols * D ∧ p < s0.mem.length
      · rw [if_pos hin2, if_pos ⟨by omega, hin2.2⟩]
      · have hin3 : ¬ (p < (rows * cols + cols) * D ∧ p < s0.mem.length) := by
          intro hh
          by_cases hlt : p < rows * cols * D
          · exact hin2 ⟨hlt, hh.2⟩
          · exact hin ⟨by omega, hh.1, hh.2⟩
        rw [if_neg hin2, if_neg hin3]

/-- The state that `weights_random_init` returns on a rank of a loaded world on
a well-formed file: only the block of the weights changes, and it holds, cell
after cell in row-major order, the fields of the lines `rand k mod N`. -/
theorem init_spec (file : List Line) (b D : Nat) (world : List TrainState)
    (rand : Nat → Nat) (hload : loadedWorld file b world)
    (hD : dataset_dimensions file = some D) (hall : ∀ line ∈ file, line.length = D)
    (hN : file.length ≤ UINT_MAX) (q : Nat) (hq : q < world.length) :
    ∃ mem : List ℚ,
      weights_random_init rand world q
        = some { world[q] with weights := { world[q].weights with mem := mem } } ∧
      mem.length = world[q].weights.mem.length ∧
      ∀ p, mem.getD p 0
        = if p < world[q].weights.mrows * world[q].weights.mcols * D
              ∧ p < world[q].weights.mem.length
          then (file.getD (rand (p / D) % file.length) []).getD (p % D) 0
          else world[q].weights.mem.getD p 0 := by
  obtain ⟨-, -, hdim, -, -⟩ := loadedWorld_dataset file b D world hload hD hN q hq
  obtain ⟨-, -, -, hwd, -⟩ := hload q hq
  have hf : ∀ row col (s : InitState), s.calls = row * world[q].weights.mcols + col →
      init_cell rand world world[q] row col s
        = { mem := copyInto s.mem (s.calls * D)
              ((fun k => file.getD (rand k % file.length) []) s.calls) D
            sendbuff := (fun k => file.getD (rand k % file.length) []) s.calls
            calls := s.calls + 1 } := by
    intro row col s hs
    rw [init_cell_loaded file b D world rand hload hD hall hN q hq row col s]
    simp only [Weights.offset, Weights.index, hwd, hdim, hs]
  obtain ⟨-, hl, hg⟩ := write_grid D world[q].weights.mcols
    (fun k => file.getD (rand k % file.length) [])
    (fun row col s => init_cell rand world world[q] row col s) hf world[q].weights.mrows
    { mem := world[q].weights.mem
      sendbuff := List.replicate world[q].constants.dataset.mdimensions 0
      calls := 0 } rfl
  refine ⟨_, ?_, hl, hg⟩
  simp only [weights_random_init, List.getElem?_eq_getElem hq]

theorem range_map_getD (l : List ℚ) (D : Nat) (h : l.length = D) :
    (List.range D).map (fun i => l.getD i 0) = l := by
  apply List.ext_getElem
  · simp [h]
  · intro i h1 h2
    simp only [List.getElem_map, List.getElem_range]
    rw [List.getD_eq_getElem?_getD, List.getElem?_eq_getElem h2]
    rfl

theorem list_ext_getD (l1 l2 : List ℚ) (hl : l1.length = l2.length)
    (h : ∀ p, p < l1.length → l1.getD p 0 = l2.getD p 0) : l1 = l2 := by
  apply List.ext_getElem hl
  intro i h1 h2
  have := h i h1
  rw [List.getD_eq_getElem?_getD, List.getD_eq_getElem?_getD, List.getElem?_eq_getElem h1,
    List.getElem?_eq_getElem h2] at this
  exact this

/-- In a loaded world every rank names the same owner and local index for a
global record, and the owner stores the fields of that line of the file. -/
theorem owner_record (file : List Line) (b D : Nat) (world : List TrainState)
    (hload : loadedWorld file b world)
    (hD : dataset_dimensions file = some D) (hall : ∀ line ∈ file, line.length = D)
    (hN : file.length ≤ UINT_MAX) (q : Nat) (hq : q < world.length) (G : Nat)
    (hG : G < file.length) :
    ∃ root lidx, ∃ h : root < world.length,
      Dataset.global_to_local world[q].parallelState world[q].constants.dataset G
        = (root, lidx) ∧
      lidx < world[root].constants.dataset.mrrecords ∧
      (world[root].constants.dataset.rrecord lidx).slice
        world[root].constants.dataset.mdimensions = file[G] := by
  have hR : 1 ≤ world.length := by omega
  obtain ⟨hps, -, hdim, htr, hbs⟩ := loadedWorld_dataset file b D world hload hD hN q hq
  have hg := global_to_local_count ⟨q, world.length⟩ world[q].constants.dataset b file.length
    G hR hN hG hbs
  have hx : file[G].length = D := hall _ (List.getElem_mem hG)
  obtain ⟨dso, ho, hlt, hslice⟩ := ctor_stores file b world.length G D hD hR hN hG hx
  have hown : (G % loopBatchsize b world.length) % world.length < world.length :=
    Nat.mod_lt _ (by omega)
  obtain ⟨-, hc2, -, -, -⟩ := loadedWorld_dataset file b D world hload hD hN _ hown
  have hsame : world[(G % loopBatchsize b world.length) % world.length].constants.dataset
      = dso := by
    rw [hc2] at ho
    exact Option.some.inj ho
  refine ⟨(G % loopBatchsize b world.length) % world.length,
    Nat.count (fun i => (i % loopBatchsize b world.length) % world.length
      = (G % loopBatchsize b world.length) % world.length) G, hown, ?_, ?_, ?_⟩
  · rw [hps]; exact hg
  · rw [hsame]; exact hlt
  · rw [hsame]; exact hslice

theorem allSome_map {α β : Type} (f : α → Option β) (g : α → β) (l : List α)
    (h : ∀ x ∈ l, f x = some (g x)) : allSome (l.map f) = some (l.map g) := by
  induction l with
  | nil => rfl
  | cons a t ih =>
    have ha := h a (List.mem_cons_self a t)
    have ht := ih (fun x hx => h x (List.mem_cons_of_mem a hx))
    simp only [List.map_cons, ha, allSome, ht, Option.map_some']

/-- The states that the constructors build on the ranks of a run form a loaded
world whose weights have the shape of the lattice. -/
theorem initialWorld_loaded (R : Nat) (lattice : Lattice) (settings : TrainSettings) (D : Nat)
    (hD : dataset_dimensions settings.mdataset = some D)
    (hN : settings.mdataset.length ≤ UINT_MAX) (hR : 1 ≤ R) :
    ∃ world, initialWorld R lattice settings = some world ∧ world.length = R ∧
      loadedWorld settings.mdataset settings.mbatchsize world ∧
      ∀ q (h : q < world.length),
        world[q].weights = Weights.ctor lattice.mrows lattice.mcols D ∧
        world[q].bfraction = BatchFraction.ctor lattice.mrows lattice.mcols D ∧
        world[q].epoch = 0 ∧ world[q].batch = 0 ∧ world[q].diff = 1 ∧
        world[q].nradius = world[q].constants.nradius := by
  have hex : ∀ q, ∃ t, TrainState.ctor ⟨q, R⟩ lattice settings = some t ∧
      t.constants.rank = q ∧ t.constants.ranks = R ∧
      Dataset.ctor ⟨q, R⟩ settings.mdataset settings.mbatchsize = some t.constants.dataset ∧
      t.weights = Weights.ctor lattice.mrows lattice.mcols D ∧
      t.bfraction = BatchFraction.ctor lattice.mrows lattice.mcols D ∧
      t.epoch = 0 ∧ t.batch = 0 ∧ t.diff = 1 ∧ t.nradius = t.constants.nradius := by
    intro q
    obtain ⟨ds, hc, hd, -⟩ :=
      ctor_fields ⟨q, R⟩ settings.mdataset settings.mbatchsize D hD hR hN
    cases hts : TrainState.ctor ⟨q, R⟩ lattice settings with
    | none => simp [TrainState.ctor, Constants.ctor, hc] at hts
    | some t =>
      simp only [TrainState.ctor, Constants.ctor, hc, Option.map_some', Option.some.injEq] at hts
      subst hts
      subst hd
      exact ⟨_, rfl, rfl, rfl, hc, rfl, rfl, rfl, rfl, rfl, rfl⟩
  refine ⟨(List.range R).map (fun q => (hex q).choose), ?_, by simp, ?_, ?_⟩
  · exact allSome_map _ _ _ (fun q _ => (hex q).choose_spec.1)
  · intro q hq
    have hq2 : q < R := by simpa using hq
    obtain ⟨-, h1, h2, h3, h4, -⟩ := (hex q).choose_spec
    simp only [List.getElem_map, List.getElem_range, List.length_map, List.length_range]
    refine ⟨h1, h2, h3, ?_, ?_⟩
    · rw [h4]
      obtain ⟨ds, hc, hd, -⟩ :=
        ctor_fields ⟨q, R⟩ settings.mdataset settings.mbatchsize D hD hR hN
      have hds : (hex q).choose.constants.dataset = ds :=
        Option.some.inj (h3.symm.trans hc)
      rw [hds, hd]
      rfl
    · rw [h4]
      simp [Weights.ctor, Weights.size3, Weights.size2]
  · intro q hq
    obtain ⟨-, -, -, -, h4, h5, h6, h7, h8, h9⟩ := (hex q).choose_spec
    simp only [List.getElem_map, List.getElem_range]
    exact ⟨h4, h5, h6, h7, h8, h9⟩

theorem allSome_spec {α : Type} (l : List (Option α)) (ys : List α) (h : allSome l = some ys) :
    ys.length = l.length ∧
    ∀ i (h1 : i < l.length) (h2 : i < ys.length), l[i] = some ys[i] := by
  induction l generalizing ys with
  | nil =>
    simp only [allSome, Option.some.injEq] at h
    subst h
    exact ⟨rfl, fun i h1 _ => absurd h1 (Nat.not_lt_zero i)⟩
  | cons a t ih =>
    cases a with
    | none => simp [allSome] at h
    | some x =>
      cases ht : allSome t with
      | none => simp [allSome, ht] at h
      | some zs =>
        simp only [allSome, ht, Option.map_some', Option.some.injEq] at h
        subst h
        obtain ⟨hl, hg⟩ := ih zs ht
        refine ⟨by simp [hl], ?_⟩
        intro i h1 h2
        cases i with
        | zero => rfl
        | succ j =>
          simp only [List.getElem_cons_succ]
          exact hg j (by simpa using h1) (by simpa using h2)

/-- The cells that the loops of `batch_fraction_accumulate` accumulate leave the
shape of the numerator as it was. -/
theorem accumulate_fold_shape (weights : Weights) (D : Nat) (record : Ptr)
    (weight : Nat → Nat → Option ℚ) (cells : List (Nat × Nat)) (o : Option BatchFraction)
    (r : BatchFraction)
    (h : cells.foldl
        (fun f rc => f.bind (fun frac =>
          (weight rc.1 rc.2).map (fun h => accumulate_cell weights D record rc.1 rc.2 h frac)))
        o = some r) :
    ∃ f, o = some f ∧ r.numerator.mrows = f.numerator.mrows ∧
      r.numerator.mcols = f.numerator.mcols ∧
      r.numerator.mdimensions = f.numerator.mdimensions := by
  induction cells generalizing o with
  | nil => exact ⟨r, h, rfl, rfl, rfl⟩
  | cons rc t ih =>
    simp only [List.foldl_cons] at h
    obtain ⟨f1, hf1, h1, h2, h3⟩ := ih _ h
    cases o with
    | none => simp at hf1
    | some f =>
      cases hw : weight rc.1 rc.2 with
      | none => simp [hw] at hf1
      | some x =>
        simp only [Option.some_bind, hw, Option.map_some', Option.some.injEq] at hf1
        subst hf1
        exact ⟨f, rfl, h1, h2, h3⟩

/-- A call of `batch_fraction_accumulate` that returns leaves the weights, the
constants and the shape of the numerator as they were. -/
theorem accumulate_keeps (exp : ℚ → ℚ) (state t : TrainState) (record : Ptr) (brow bcol : Nat)
    (h : batch_fraction_accumulate exp state record brow bcol = some t) :
    t.weights = state.weights ∧ t.constants = state.constants ∧
    t.bfraction.numerator.size3 = state.bfraction.numerator.size3 := by
  unfold batch_fraction_accumulate at h
  simp only [accumulate_loop_cells] at h
  cases hl : (loop_cells
      (accumulate_bounds (toUnsigned state.nradius) brow bcol state.weights.mrows
        state.weights.mcols).1
      (accumulate_bounds (toUnsigned state.nradius) brow bcol state.weights.mrows
        state.weights.mcols).2.1
      (accumulate_bounds (toUnsigned state.nradius) brow bcol state.weights.mrows
        state.weights.mcols).2.2.1
      (accumulate_bounds (toUnsigned state.nradius) brow bcol state.weights.mrows
        state.weights.mcols).2.2.2).foldl
        (fun f rc => f.bind (fun frac =>
          (distfunc exp (grid_sqdist brow bcol rc.1 rc.2) state.nradius).map (fun h =>
            accumulate_cell state.weights state.weights.mdimensions record rc.1 rc.2 h frac)))
        (some state.bfraction) with
  | none => simp [hl] at h
  | some r =>
    simp only [hl, Option.map_some', Option.some.injEq] at h
    subst h
    obtain ⟨f, hf, h1, h2, h3⟩ := accumulate_fold_shape state.weights state.weights.mdimensions
      record (fun row col => distfunc exp (grid_sqdist brow bcol row col) state.nradius) _ _ r hl
    simp only [Option.some.injEq] at hf
    subst hf
    refine ⟨rfl, rfl, ?_⟩
    simp only [Weights.size3, Weights.size2, h1, h2, h3]

theorem batch_local_fst (exp : ℚ → ℚ) (state : TrainState) :
    (batch_local exp state).1
      = (List.range' (batch_bounds state).1 ((batch_bounds state).2 - (batch_bounds state).1)).foldl
          (fun (o : Option TrainState) (lidx : Nat) => o.bind (present_record exp lidx))
          (some { state with bfraction := state.bfraction.init }) := by
  have key := foldl_pair
    (fun (o : Option TrainState) (lidx : Nat) => o.bind (present_record exp lidx))
    (fun lidx => BatchEvent.present lidx)
    (List.range' (batch_bounds state).1 ((batch_bounds state).2 - (batch_bounds state).1))
    (some { state with bfraction := state.bfraction.init }) [BatchEvent.init]
  simp only [batch_local]
  rw [key]

theorem present_fold_keeps (exp : ℚ → ℚ) (l : List Nat) (o : Option TrainState) (t : TrainState)
    (h : l.foldl (fun (o : Option TrainState) (lidx : Nat) => o.bind (present_record exp lidx)) o
      = some t) :
    ∃ s, o = some s ∧ t.weights = s.weights ∧ t.constants = s.constants ∧
      t.bfraction.numerator.size3 = s.bfraction.numerator.size3 := by
  induction l generalizing o with
  | nil => exact ⟨t, h, rfl, rfl, rfl⟩
  | cons lidx rest ih =>
    simp only [List.foldl_cons] at h
    obtain ⟨s1, hs1, h1, h2, h3⟩ := ih _ h
    cases o with
    | none => simp at hs1
    | some s =>
      simp only [Option.some_bind, present_record] at hs1
      obtain ⟨k1, k2, k3⟩ := accumulate_keeps exp s s1 _ _ _ hs1
      exact ⟨s, rfl, h1.trans k1, h2.trans k2, h3.trans k3⟩

/-- The part of `batch_present` before the collective leaves the weights, the
constants and the shape of the numerator as they were. -/
theorem batch_local_keeps (exp : ℚ → ℚ) (state t : TrainState)
    (h : (batch_local exp state).1 = some t) :
    t.weights = state.weights ∧ t.constants = state.constants ∧
    t.bfraction.numerator.size3 = state.bfraction.numerator.size3 := by
  rw [batch_local_fst] at h
  obtain ⟨s, hs, h1, h2, h3⟩ := present_fold_keeps exp _ _ t h
  simp only [Option.some.injEq] at hs
  subst hs
  exact ⟨h1, h2, h3⟩

theorem foldl_congr_mem {α β : Type} (f g : β → α → β) (l : List α) (b : β)
    (h : ∀ acc, ∀ x ∈ l, f acc x = g acc x) : l.foldl f b = l.foldl g b := by
  induction l generalizing b with
  | nil => rfl
  | cons a t ih =>
    simp only [List.foldl_cons]
    rw [h b a (List.mem_cons_self a t)]
    exact ih _ (fun acc x hx => h acc x (List.mem_cons_of_mem a hx))

/-- The call `batch_fraction_commit` reads, of the fraction, only the number of
scalars of the numerator, that many scalars of its block, and the
denominator. -/
theorem commit_congr (f1 f2 : BatchFraction) (weights : Weights)
    (hsize : f1.numerator.size3 = f2.numerator.size3)
    (hread : ∀ i, i < f1.numerator.size3 →
      f1.numerator.mem.getD i 0 = f2.numerator.mem.getD i 0)
    (hden : f1.denominator = f2.denominator) :
    batch_fraction_commit f1 weights = batch_fraction_commit f2 weights := by
  unfold batch_fraction_commit
  simp only [← hsize, ← hden]
  congr 1
  apply foldl_congr_mem
  intro acc idx hidx
  have hi : idx < f1.numerator.size3 := List.mem_range.1 hidx
  have hr : (f1.numerator.entry 0).read idx = (f2.numerator.entry 0).read idx := by
    simp only [Weights.entry, Weights.offset, Ptr.read, Nat.zero_mul, Nat.zero_add]
    exact hread idx hi
  rw [hr]

/-- After the collective of a batch, two ranks that hold the same weights, the
same mean value and numerators of the same size commit the same weights and
store the same `diff`. -/
theorem finish_congr (fracs : List BatchFraction) (a b : TrainState)
    (hw : a.weights = b.weights) (hv : a.constants.valmean = b.constants.valmean)
    (hs : a.bfraction.numerator.size3 = b.bfraction.numerator.size3) :
    (batch_finish { a with bfraction := a.bfraction.reduce fracs }).map
        (fun s => (s.weights, s.diff))
      = (batch_finish { b with bfraction := b.bfraction.reduce fracs }).map
        (fun s => (s.weights, s.diff)) := by
  have hsa : (a.bfraction.reduce fracs).numerator.size3 = a.bfraction.numerator.size3 := rfl
  have hsb : (b.bfraction.reduce fracs).numerator.size3 = b.bfraction.numerator.size3 := rfl
  have hc : batch_fraction_commit (a.bfraction.reduce fracs) a.weights
      = batch_fraction_commit (b.bfraction.reduce fracs) a.weights := by
    apply commit_congr
    · rw [hsa, hsb, hs]
    · intro i hi
      rw [reduce_numerator_getD fracs a.bfraction i hi,
        reduce_numerator_getD fracs b.bfraction i (by rw [← hs]; exact hi)]
    · rfl
  simp only [batch_finish, hc, ← hw, ← hv]
  cases batch_fraction_commit (b.bfraction.reduce fracs) a.weights with
  | none => rfl
  | some wd =>
    simp only [Option.some_bind]
    cases ddiv wd.2 (a.constants.valmean * (a.weights.size3 : ℚ)) with
    | none => rfl
    | some d => rfl

/-- What a rank holds after `batch_present`, when the fractions of all ranks
are `fracs`. -/
theorem batch_present_some (exp : ℚ → ℚ) (world : List TrainState)
    (fracs : List BatchFraction) (hf : batch_fractions exp world = some fracs)
    (q : Nat) (hq : q < world.length) :
    ∃ lq, (batch_local exp world[q]).1 = some lq ∧
      (batch_present exp world q).1
        = batch_finish { lq with bfraction := lq.bfraction.reduce fracs } := by
  obtain ⟨hl, hg⟩ := allSome_spec _ _ hf
  have hq1 : q < (world.map (fun s => ((batch_local exp s).1).map (fun t => t.bfraction))).length := by
    simpa using hq
  have h1 := hg q hq1 (by rw [hl]; exact hq1)
  simp only [List.getElem_map] at h1
  cases hlq : (batch_local exp world[q]).1 with
  | none => simp [hlq] at h1
  | some lq =>
    refine ⟨lq, rfl, ?_⟩
    simp only [batch_present, List.getElem?_eq_getElem hq, batch_reduced, hlq, hf,
      Option.some_bind, Option.map_some']

theorem batch_present_none (exp : ℚ → ℚ) (world : List TrainState)
    (hf : batch_fractions exp world = none) (q : Nat) :
    (batch_present exp world q).1 = none := by
  unfold batch_present
  cases hw : world[q]? with
  | none => rfl
  | some state =>
    simp only [batch_reduced, hf, Option.map_none']
    cases (batch_local exp state).1 <;> rfl

/-- If the ranks of a run hold the same weights when they enter a batch, the
weights and the stored `diff` that `batch_present` leaves are the same on any
two ranks; the call leaves the constants and the size of the numerator as they
were. -/
theorem batch_step_uniform (exp : ℚ → ℚ) (world : List TrainState)
    (hrun : sameRun world) (hw : sameWeights world)
    (p q : Nat) (hp : p < world.length) (hq : q < world.length) :
    (batch_present exp world p).1.map (fun s => (s.weights, s.diff))
      = (batch_present exp world q).1.map (fun s => (s.weights, s.diff)) := by
  cases hf : batch_fractions exp world with
  | none => rw [batch_present_none exp world hf p, batch_present_none exp world hf q]
  | some fracs =>
    obtain ⟨lp, hlp, hpp⟩ := batch_present_some exp world fracs hf p hp
    obtain ⟨lq, hlq, hpq⟩ := batch_present_some exp world fracs hf q hq
    obtain ⟨p1, p2, p3⟩ := batch_local_keeps exp _ _ hlp
    obtain ⟨q1, q2, q3⟩ := batch_local_keeps exp _ _ hlq
    rw [hpp, hpq]
    apply finish_congr
    · rw [p1, q1]; exact hw p q hp hq
    · rw [p2, q2]; exact (hrun p q hp hq).1
    · rw [p3, q3]; exact (hrun p q hp hq).2

theorem batch_present_keeps (exp : ℚ → ℚ) (world : List TrainState) (q : Nat)
    (hq : q < world.length) (t : TrainState) (h : (batch_present exp world q).1 = some t) :
    t.constants = world[q].constants ∧
    t.bfraction.numerator.size3 = world[q].bfraction.numerator.size3 := by
  cases hf : batch_fractions exp world with
  | none => rw [batch_present_none exp world hf q] at h; simp at h
  | some fracs =>
    obtain ⟨lq, hlq, hpq⟩ := batch_present_some exp world fracs hf q hq
    obtain ⟨-, q2, q3⟩ := batch_local_keeps exp _ _ hlq
    rw [hpq] at h
    simp only [batch_finish] at h
    cases hc : batch_fraction_commit (lq.bfraction.reduce fracs) lq.weights with
    | none => simp [hc] at h
    | some wd =>
      simp only [hc, Option.some_bind] at h
      cases hd : ddiv wd.2 (lq.constants.valmean * (lq.weights.size3 : ℚ)) with
      | none => simp [hd] at h
      | some d =>
        simp only [hd, Option.map_some', Option.some.injEq] at h
        subst h
        exact ⟨q2, q3⟩

/-- The fields of the state that the constructor of `TrainState` builds. -/
theorem ctor_state_fields (st : parallel.State) (lattice : Lattice) (settings : TrainSettings)
    (t : TrainState) (h : TrainState.ctor st lattice settings = some t) :
    Dataset.ctor st settings.mdataset settings.mbatchsize = some t.constants.dataset ∧
    t.constants.rank = st.mrank ∧ t.constants.ranks = st.mranks ∧
    t.constants.valmean = t.constants.dataset.mvalmean ∧
    t.constants.nradius
      = (if settings.mnradius > 1 / 1000000 then settings.mnradius
          else (1 / 2) * ((min lattice.mrows lattice.mcols : ℕ) : ℚ)) ∧
    t.nradius = t.constants.nradius ∧
    t.weights = Weights.ctor lattice.mrows lattice.mcols t.constants.dataset.mdimensions ∧
    t.bfraction
      = BatchFraction.ctor lattice.mrows lattice.mcols t.constants.dataset.mdimensions ∧
    t.epoch = 0 ∧ t.batch = 0 ∧ t.diff = 1 := by
  cases hc : Dataset.ctor st settings.mdataset settings.mbatchsize with
  | none => simp [TrainState.ctor, Constants.ctor, hc] at h
  | some ds =>
    simp only [TrainState.ctor, Constants.ctor, hc, Option.map_some', Option.some.injEq] at h
    subst h
    exact ⟨rfl, rfl, rfl, rfl, rfl, rfl, rfl, rfl, rfl, rfl, rfl⟩

/-- The states of `initialWorld` are those that the constructor builds rank by
rank. -/
theorem initialWorld_spec (R : Nat) (lattice : Lattice) (settings : TrainSettings)
    (world0 : List TrainState) (h : initialWorld R lattice settings = some world0) :
    world0.length = R ∧
    ∀ q (hq : q < world0.length), TrainState.ctor ⟨q, R⟩ lattice settings = some world0[q] := by
  obtain ⟨hl, hg⟩ := allSome_spec _ _ h
  have hl2 : world0.length = R := by simpa using hl
  refine ⟨hl2, ?_⟩
  intro q hq
  have := hg q (by simpa using (hl2 ▸ hq)) hq
  simpa using this

/-- The states that the constructors build on a well-formed file form a loaded
world, with the same mean value on every rank, and weights and fractions of
the shape of the lattice. -/
theorem initialWorld_run (R : Nat) (lattice : Lattice) (settings : TrainSettings) (D : Nat)
    (world0 : List TrainState) (h : initialWorld R lattice settings = some world0)
    (hD : dataset_dimensions settings.mdataset = some D)
    (hN : settings.mdataset.length ≤ UINT_MAX) :
    loadedWorld settings.mdataset settings.mbatchsize world0 ∧
    ∀ q (hq : q < world0.length),
      world0[q].weights = Weights.ctor lattice.mrows lattice.mcols D ∧
      world0[q].bfraction = BatchFraction.ctor lattice.mrows lattice.mcols D ∧
      world0[q].constants.valmean
        = valuesSum D (loopBatchsize settings.mbatchsize R) R settings.mdataset
            / (settings.mdataset.length : ℚ) := by
  obtain ⟨hl, hg⟩ := initialWorld_spec R lattice settings world0 h
  have hall : ∀ q (hq : q < world0.length),
      Dataset.ctor ⟨q, R⟩ settings.mdataset settings.mbatchsize
        = some world0[q].constants.dataset ∧
      world0[q].constants.rank = q ∧ world0[q].constants.ranks = R ∧
      world0[q].constants.dataset.mdimensions = D ∧
      world0[q].weights = Weights.ctor lattice.mrows lattice.mcols D ∧
      world0[q].bfraction = BatchFraction.ctor lattice.mrows lattice.mcols D ∧
      world0[q].constants.valmean
        = valuesSum D (loopBatchsize settings.mbatchsize R) R settings.mdataset
            / (settings.mdataset.length : ℚ) := by
    intro q hq
    have hR : 1 ≤ R := by omega
    obtain ⟨h1, h2, h3, h4, -, -, h7, h8, -⟩ := ctor_state_fields _ _ _ _ (hg q hq)
    obtain ⟨ds, hc, hd, -, -, -, -, -, hv⟩ :=
      ctor_fields ⟨q, R⟩ settings.mdataset settings.mbatchsize D hD hR hN
    have hds : world0[q].constants.dataset = ds := Option.some.inj (h1.symm.trans hc)
    refine ⟨h1, h2, h3, ?_, ?_, ?_, ?_⟩
    · rw [hds]; exact hd
    · rw [h7, hds, hd]
    · rw [h8, hds, hd]
    · rw [h4, hds]; exact hv
  refine ⟨?_, fun q hq => ⟨(hall q hq).2.2.2.2.1, (hall q hq).2.2.2.2.2.1,
    (hall q hq).2.2.2.2.2.2⟩⟩
  intro q hq
  obtain ⟨h1, h2, h3, h4, h5, -, -⟩ := hall q hq
  refine ⟨h2, by rw [h3, hl], by rw [hl]; exact h1, ?_, ?_⟩
  · rw [h5, h4]; rfl
  · rw [h5]
    simp [Weights.ctor, Weights.size3, Weights.size2]

/-- In a loaded world on a well-formed file, two ranks whose lattices have the
same shape hold the same weights after `weights_random_init`, and the call
changes nothing but the block of the weights. -/
theorem init_uniform (file : List Line) (b D : Nat) (world : List TrainState)
    (rand : Nat → Nat) (hload : loadedWorld file b world)
    (hD : dataset_dimensions file = some D) (hall : ∀ line ∈ file, line.length = D)
    (hN : file.length ≤ UINT_MAX) (p q : Nat) (hp : p < world.length) (hq : q < world.length)
    (hrows : world[p].weights.mrows = world[q].weights.mrows)
    (hcols : world[p].weights.mcols = world[q].weights.mcols) :
    ∃ sp sq, weights_random_init rand world p = some sp ∧
      weights_random_init rand world q = some sq ∧
      sp.weights = sq.weights ∧
      sp.constants = world[p].constants ∧ sp.bfraction = world[p].bfraction := by
  obtain ⟨mem, hs, hl, hg⟩ := init_spec file b D world rand hload hD hall hN q hq
  obtain ⟨-, -, hdim, -, -⟩ := loadedWorld_dataset file b D world hload hD hN q hq
  obtain ⟨-, -, -, hwd, hwl⟩ := hload q hq
  have hwD : world[q].weights.mdimensions = D := by rw [hwd, hdim]
  obtain ⟨mem2, hs2, hl2, hg2⟩ := init_spec file b D world rand hload hD hall hN p hp
  obtain ⟨-, -, hdimp, -, -⟩ := loadedWorld_dataset file b D world hload hD hN p hp
  obtain ⟨-, -, -, hwdp, hwlp⟩ := hload p hp
  have hwDp : world[p].weights.mdimensions = D := by rw [hwdp, hdimp]
  have hlen : world[p].weights.mem.length = world[q].weights.mem.length := by
    rw [hwlp, hwl]
    simp only [Weights.size3, Weights.size2, hrows, hcols, hwD, hwDp]
  have hmem : mem2 = mem := by
    apply list_ext_getD
    · rw [hl2, hl, hlen]
    · intro i hi
      rw [hg2 i, hg i, hrows, hcols, hlen]
      have hi2 : i < world[q].weights.mem.length := by rw [← hlen, ← hl2]; exact hi
      have hi3 : i < world[q].weights.mrows * world[q].weights.mcols * D := by
        have := hwl
        simp only [Weights.size3, Weights.size2, hwD] at this
        omega
      rw [if_pos ⟨hi3, hi2⟩, if_pos ⟨hi3, hi2⟩]
  refine ⟨_, _, hs2, hs, ?_, rfl, rfl⟩
  cases hw : world[p].weights
  cases hv : world[q].weights
  simp only [hw, hv] at hrows hcols hwD hwDp
  simp only [hmem, hrows, hcols, hwD, hwDp]

/-- The states of `world_init` are those that `weights_random_init` returns
rank by rank. -/
theorem world_init_spec (rand : Nat → Nat) (world0 world : List TrainState)
    (h : world_init rand world0 = some world) :
    world.length = world0.length ∧
    ∀ q (hq : q < world.length), weights_random_init rand world0 q = some world[q] := by
  obtain ⟨hl, hg⟩ := allSome_spec _ _ h
  have hl2 : world.length = world0.length := by simpa using hl
  refine ⟨hl2, ?_⟩
  intro q hq
  have := hg q (by simpa using (hl2 ▸ hq)) hq
  simpa using this

/-- The states of `world_batch` are those that `batch_present` returns rank by
rank. -/
theorem world_batch_spec (exp : ℚ → ℚ) (world next : List TrainState)
    (h : world_batch exp world = some next) :
    next.length = world.length ∧
    ∀ q (hq : q < next.length), (batch_present exp world q).1 = some next[q] := by
  obtain ⟨hl, hg⟩ := allSome_spec _ _ h
  have hl2 : next.length = world.length := by simpa using hl
  refine ⟨hl2, ?_⟩
  intro q hq
  have := hg q (by simpa using (hl2 ▸ hq)) hq
  simpa using this

/-- A batch that all ranks of a run enter with the same weights leaves the
same weights and the same `diff` on all ranks, and the ranks are still those
of one run. -/
theorem world_batch_uniform (exp : ℚ → ℚ) (world next : List TrainState)
    (hrun : sameRun world) (hw : sameWeights world)
    (h : world_batch exp world = some next) :
    sameRun next ∧ sameWeights next ∧
    ∀ p q (hp : p < next.length) (hq : q < next.length), next[p].diff = next[q].diff := by
  obtain ⟨hl, hg⟩ := world_batch_spec exp world next h
  have key : ∀ p q (hp : p < next.length) (hq : q < next.length),
      (next[p].weights, next[p].diff) = (next[q].weights, next[q].diff) := by
    intro p q hp hq
    have := batch_step_uniform exp world hrun hw p q (hl ▸ hp) (hl ▸ hq)
    rw [hg p hp, hg q hq] at this
    simpa using this
  refine ⟨?_, ?_, ?_⟩
  · intro p q hp hq
    obtain ⟨p1, p2⟩ := batch_present_keeps exp world p (hl ▸ hp) _ (hg p hp)
    obtain ⟨q1, q2⟩ := batch_present_keeps exp world q (hl ▸ hq) _ (hg q hq)
    rw [p1, p2, q1, q2]
    exact hrun p q (hl ▸ hp) (hl ▸ hq)
  · intro p q hp hq
    exact (Prod.mk.inj (key p q hp hq)).1
  · intro p q hp hq
    exact (Prod.mk.inj (key p q hp hq)).2

/-- In every state of a training run on a well-formed file, the ranks hold the
same weights, the same mean value and numerators of the same size. -/
theorem trainRun_uniform (exp : ℚ → ℚ) (rand : Nat → Nat) (R : Nat) (lattice : Lattice)
    (settings : TrainSettings) (world0 world : List TrainState)
    (hwf : wellFormed settings.mdataset = true) (hN : settings.mdataset.length ≤ UINT_MAX)
    (h0 : initialWorld R lattice settings = some world0)
    (hrun : trainRun exp rand world0 world) :
    sameRun world ∧ sameWeights world := by
  obtain ⟨D, hD, hall⟩ := (wellFormed_iff settings.mdataset).1 hwf
  obtain ⟨hload, hfields⟩ := initialWorld_run R lattice settings D world0 h0 hD hN
  induction hrun with
  | init world hinit =>
    obtain ⟨hl, hg⟩ := world_init_spec rand world0 world hinit
    have hpair : ∀ p q (hp : p < world.length) (hq : q < world.length),
        world[p].weights = world[q].weights ∧ world[p].constants = world0[p].constants ∧
        world[p].bfraction = world0[p].bfraction := by
      intro p q hp hq
      have hp0 : p < world0.length := hl ▸ hp
      have hq0 : q < world0.length := hl ▸ hq
      obtain ⟨sp, sq, h1, h2, h3, h4, h5⟩ := init_uniform settings.mdataset settings.mbatchsize D
        world0 rand hload hD hall hN p q hp0 hq0
        (by rw [(hfields p hp0).1, (hfields q hq0).1])
        (by rw [(hfields p hp0).1, (hfields q hq0).1])
      have e1 : world[p] = sp := Option.some.inj ((hg p hp).symm.trans h1)
      have e2 : world[q] = sq := Option.some.inj ((hg q hq).symm.trans h2)
      rw [e1, e2]
      exact ⟨h3, h4, h5⟩
    refine ⟨?_, fun p q hp hq => (hpair p q hp hq).1⟩
    intro p q hp hq
    have hp0 : p < world0.length := hl ▸ hp
    have hq0 : q < world0.length := hl ▸ hq
    rw [(hpair p q hp hq).2.1, (hpair p q hp hq).2.2, (hpair q p hq hp).2.1,
      (hpair q p hq hp).2.2, (hfields p hp0).2.2, (hfields q hq0).2.2, (hfields p hp0).2.1,
      (hfields q hq0).2.1]
    exact ⟨rfl, rfl⟩
  | cursor world next _ hlen hcur ih =>
    obtain ⟨ih1, ih2⟩ := ih
    have hstep : ∀ q (hq : q < next.length),
        next[q].weights = (world[q]).weights ∧
        next[q].constants = (world[q]).constants ∧
        next[q].bfraction = (world[q]).bfraction := by
      intro q hq
      obtain ⟨e, b, r, heq⟩ := hcur q (hlen ▸ hq) hq
      rw [heq]
      exact ⟨rfl, rfl, rfl⟩
    constructor
    · intro p q hp hq
      rw [(hstep p hp).2.1, (hstep p hp).2.2, (hstep q hq).2.1, (hstep q hq).2.2]
      exact ih1 p q (hlen ▸ hp) (hlen ▸ hq)
    · intro p q hp hq
      rw [(hstep p hp).1, (hstep q hq).1]
      exact ih2 p q (hlen ▸ hp) (hlen ▸ hq)
  | present world next _ hb ih =>
    obtain ⟨ih1, ih2⟩ := ih
    obtain ⟨h1, h2, -⟩ := world_batch_uniform exp world next ih1 ih2 hb
    exact ⟨h1, h2⟩

theorem allSome_exists {α β : Type} (f : α → Option β) (l : List α)
    (h : ∀ x ∈ l, ∃ y, f x = some y) : ∃ ys, allSome (l.map f) = some ys := by
  induction l with
  | nil => exact ⟨[], rfl⟩
  | cons a t ih =>
    obtain ⟨y, hy⟩ := h a (List.mem_cons_self a t)
    obtain ⟨ys, hys⟩ := ih (fun x hx => h x (List.mem_cons_of_mem a hx))
    exact ⟨y :: ys, by simp only [List.map_cons, hy, allSome, hys, Option.map_some']⟩

/-- In a loaded world on a well-formed file, `weights_random_init` returns on
every rank. -/
theorem world_init_some (file : List Line) (b : Nat) (world : List TrainState)
    (rand : Nat → Nat) (hwf : wellFormed file = true) (hN : file.length ≤ UINT_MAX)
    (hload : loadedWorld file b world) :
    ∃ next, world_init rand world = some next := by
  obtain ⟨D, hD, hall⟩ := (wellFormed_iff file).1 hwf
  apply allSome_exists
  intro q hq
  have hq2 : q < world.length := List.mem_range.1 hq
  obtain ⟨mem, hs, -, -⟩ := init_spec file b D world rand hload hD hall hN q hq2
  exact ⟨_, hs⟩

/-- The part of `batch_present` before the collective, for a rank of one cell
that presents the record `x` to weights at zero with all weights `h = 1`. -/
theorem sample_local (x : ℚ) :
    (batch_local (fun _ => 1) (sampleState [x] 1 1)).1
      = some { sampleState [x] 1 1 with
          bfraction := { (gridState 1 1 1).bfraction with
            numerator := { mrows := 1, mcols := 1, mdimensions := 1, mem := [x] }
            denominator := 1 } } := by
  have hb : batch_bounds (sampleState [x] 1 1) = (0, 1) := by
    simp [batch_bounds, sampleState, gridState, usub, u32]
  rw [batch_local_fst, hb]
  simp only [Nat.sub_zero, List.range'_one, List.foldl_cons, List.foldl_nil, Option.some_bind,
    present_record, bmu_find_eq]
  rw [accumulate_eq]
  · simp [accumulate_cells, accumulate_bounds, sampleState, gridState, toUnsigned_one, u32,
      loop_cells, accumulate_list, accumulate_cell, cell_weight, BatchFraction.init, memsetZero,
      Weights.size3, Weights.size2, accumulate_dims, Weights.index, Weights.offset,
      Weights.entry, Ptr.read, Dataset.rrecord, List.range_succ]
  · simp [sampleState, gridState]

/-- Two ranks of one cell that present the records 1 and 3 to weights at zero
both end the batch with the weight 2 and the `diff` 2. -/
theorem sample_batch (q : Nat) (hq : q < 2) :
    (batch_present (fun _ => 1) [sampleState [1] 1 1, sampleState [3] 1 1] q).1.map
        (fun s => (s.weights, s.diff))
      = some ({ mrows := 1, mcols := 1, mdimensions := 1, mem := [2] }, 2) := by
  have hf : batch_fractions (fun _ => 1) [sampleState [1] 1 1, sampleState [3] 1 1]
      = some [{ (gridState 1 1 1).bfraction with
                numerator := { mrows := 1, mcols := 1, mdimensions := 1, mem := [1] }
                denominator := 1 },
              { (gridState 1 1 1).bfraction with
                numerator := { mrows := 1, mcols := 1, mdimensions := 1, mem := [3] }
                denominator := 1 }] := by
    simp only [batch_fractions, List.map_cons, List.map_nil, sample_local, Option.map_some',
      allSome]
  obtain ⟨lq, hlq, hpq⟩ := batch_present_some (fun _ => 1) _ _ hf q (by simpa using hq)
  rw [hpq]
  have hcases : q = 0 ∨ q = 1 := by omega
  rcases hcases with h | h
  · subst h
    simp only [List.getElem_cons_zero, sample_local, Option.some.injEq] at hlq
    subst hlq
    norm_num [batch_finish, batch_fraction_commit, BatchFraction.reduce, Weights.swap,
      parallel.sum_all_double, sampleState, gridState, Weights.size3, Weights.size2,
      Weights.entry, Weights.offset, Ptr.read, ddiv, List.range_succ]
  · subst h
    simp only [List.getElem_cons_succ, List.getElem_cons_zero, sample_local,
      Option.some.injEq] at hlq
    subst hlq
    norm_num [batch_finish, batch_fraction_commit, BatchFraction.reduce, Weights.swap,
      parallel.sum_all_double, sampleState, gridState, Weights.size3, Weights.size2,
      Weights.entry, Weights.offset, Ptr.read, ddiv, List.range_succ]

/-- A call of `batch_fraction_accumulate` that returns leaves the cursors and
the radius as they were. -/
theorem accumulate_cursor (exp : ℚ → ℚ) (state t : TrainState) (record : Ptr) (brow bcol : Nat)
    (h : batch_fraction_accumulate exp state record brow bcol = some t) :
    t.epoch = state.epoch ∧ t.batch = state.batch ∧ t.nradius = state.nradius ∧
    t.diff = state.diff := by
  unfold batch_fraction_accumulate at h
  cases hl : accumulate_loop state.weights state.weights.mdimensions record
      (fun row col => distfunc exp (grid_sqdist brow bcol row col) state.nradius)
      (accumulate_bounds (toUnsigned state.nradius) brow bcol state.weights.mrows
        state.weights.mcols).1
      (accumulate_bounds (toUnsigned state.nradius) brow bcol state.weights.mrows
        state.weights.mcols).2.1
      (accumulate_bounds (toUnsigned state.nradius) brow bcol state.weights.mrows
        state.weights.mcols).2.2.1
      (accumulate_bounds (toUnsigned state.nradius) brow bcol state.weights.mrows
        state.weights.mcols).2.2.2 state.bfraction with
  | none => simp [hl] at h
  | some r =>
    simp only [hl, Option.map_some', Option.some.injEq] at h
    subst h
    exact ⟨rfl, rfl, rfl, rfl⟩

theorem present_fold_cursor (exp : ℚ → ℚ) (l : List Nat) (o : Option TrainState) (t : TrainState)
    (h : l.foldl (fun (o : Option TrainState) (lidx : Nat) => o.bind (present_record exp lidx)) o
      = some t) :
    ∃ s, o = some s ∧ t.epoch = s.epoch ∧ t.batch = s.batch ∧ t.nradius = s.nradius ∧
      t.diff = s.diff := by
  induction l generalizing o with
  | nil => exact ⟨t, h, rfl, rfl, rfl, rfl⟩
  | cons lidx rest ih =>
    simp only [List.foldl_cons] at h
    obtain ⟨s1, hs1, h1, h2, h3, h4⟩ := ih _ h
    cases o with
    | none => simp at hs1
    | some s =>
      simp only [Option.some_bind, present_record] at hs1
      obtain ⟨k1, k2, k3, k4⟩ := accumulate_cursor exp s s1 _ _ _ hs1
      exact ⟨s, rfl, h1.trans k1, h2.trans k2, h3.trans k3, h4.trans k4⟩

/-- The part of `batch_present` before the collective leaves the cursors, the
radius and the stored `diff` as they were. -/
theorem batch_local_cursor (exp : ℚ → ℚ) (state t : TrainState)
    (h : (batch_local exp state).1 = some t) :
    t.epoch = state.epoch ∧ t.batch = state.batch ∧ t.nradius = state.nradius ∧
    t.diff = state.diff := by
  rw [batch_local_fst] at h
  obtain ⟨s, hs, h1, h2, h3, h4⟩ := present_fold_cursor exp _ _ t h
  simp only [Option.some.injEq] at hs
  subst hs
  exact ⟨h1, h2, h3, h4⟩

/-- A call of `batch_present` that returns leaves the constants, the cursors and
the radius of the rank as they were. -/
theorem batch_present_cursor (exp : ℚ → ℚ) (world : List TrainState) (q : Nat)
    (hq : q < world.length) (t : TrainState) (h : (batch_present exp world q).1 = some t) :
    t.constants = world[q].constants ∧ t.epoch = world[q].epoch ∧
    t.batch = world[q].batch ∧ t.nradius = world[q].nradius := by
  cases hf : batch_fractions exp world with
  | none => rw [batch_present_none exp world hf q] at h; simp at h
  | some fracs =>
    obtain ⟨lq, hlq, hpq⟩ := batch_present_some exp world fracs hf q hq
    obtain ⟨-, q2, -⟩ := batch_local_keeps exp _ _ hlq
    obtain ⟨c1, c2, c3, -⟩ := batch_local_cursor exp _ _ hlq
    rw [hpq] at h
    simp only [batch_finish] at h
    cases hc : batch_fraction_commit (lq.bfraction.reduce fracs) lq.weights with
    | none => simp [hc] at h
    | some wd =>
      simp only [hc, Option.some_bind] at h
      cases hd : ddiv wd.2 (lq.constants.valmean * (lq.weights.size3 : ℚ)) with
      | none => simp [hd] at h
      | some d =>
        simp only [hd, Option.map_some', Option.some.injEq] at h
        subst h
        exact ⟨q2, c1, c2, c3⟩

/-- A batch that all ranks run leaves the number of ranks, and on every rank
the constants, the cursors and the radius, as they were. -/
theorem world_batch_frame (exp : ℚ → ℚ) (world next : List TrainState)
    (h : world_batch exp world = some next) :
    next.length = world.length ∧
    ∀ q s, world[q]? = some s →
      ∃ t, next[q]? = some t ∧ (batch_present exp world q).1 = some t ∧
        t.constants = s.constants ∧ t.epoch = s.epoch ∧ t.batch = s.batch ∧
        t.nradius = s.nradius := by
  obtain ⟨hl, hg⟩ := world_batch_spec exp world next h
  refine ⟨hl, ?_⟩
  intro q s hs
  have hq : q < world.length := by
    by_contra hcon
    rw [List.getElem?_eq_none (by omega)] at hs
    exact Option.noConfusion hs
  have hq2 : q < next.length := hl ▸ hq
  rw [List.getElem?_eq_getElem hq, Option.some.injEq] at hs
  subst hs
  obtain ⟨k1, k2, k3, k4⟩ := batch_present_cursor exp world q hq _ (hg q hq2)
  exact ⟨next[q], List.getElem?_eq_getElem hq2, hg q hq2, k1, k2, k3, k4⟩

theorem unanimous_true (world : List TrainState) (cond : TrainState → Bool)
    (h : unanimous world cond = Except.ok true) : ∀ s ∈ world, cond s = true := by
  unfold unanimous at h
  by_cases h1 : world.all cond = true
  · exact List.all_eq_true.1 h1
  · rw [if_neg h1] at h
    by_cases h2 : world.all (fun s => !cond s) = true
    · rw [if_pos h2] at h
      cases h
    · rw [if_neg h2] at h
      cases h

theorem unanimous_false (world : List TrainState) (cond : TrainState → Bool)
    (h : unanimous world cond = Except.ok false) : ∀ s ∈ world, cond s = false := by
  unfold unanimous at h
  by_cases h1 : world.all cond = true
  · rw [if_pos h1] at h
    cases h
  · rw [if_neg h1] at h
    by_cases h2 : world.all (fun s => !cond s) = true
    · intro s hs
      have := List.all_eq_true.1 h2 s hs
      simpa using this
    · rw [if_neg h2] at h
      cases h

/-- When the ranks of a world that is not empty all get the same value of a
test, this value is the branch they take. -/
theorem unanimous_of_agree (world : List TrainState) (cond : TrainState → Bool) (b : Bool)
    (h : ∀ s ∈ world, cond s = b) (hne : world ≠ []) : unanimous world cond = Except.ok b := by
  unfold unanimous
  cases b with
  | true =>
    rw [if_pos (List.all_eq_true.2 h)]
  | false =>
    have h1 : ¬ world.all cond = true := by
      intro hall
      cases world with
      | nil => exact hne rfl
      | cons a t =>
        have := List.all_eq_true.1 hall a (List.mem_cons_self a t)
        rw [h a (List.mem_cons_self a t)] at this
        cases this
    rw [if_neg h1, if_pos]
    apply List.all_eq_true.2
    intro s hs
    simp [h s hs]

/-- The rule of the loop of the batches: a property of the run that every call
of `batch_present` made under the test of the loop preserves holds when the
loop is left, and then no rank passes the test. -/
theorem run_batches_rule (exp : ℚ → ℚ) (J : Run → Prop)
    (hstep : ∀ r after, J r → (∀ s ∈ r.world, s.batch ≤ s.constants.batches) →
      world_batch exp r.world = some after →
      J { world := nextBatch after, trace := r.trace ++ [TrainEvent.batch r.world after] })
    (fuel : Nat) (r r1 : Run) (hJ : J r) (h : run_batches exp fuel r = Except.ok r1) :
    J r1 ∧ ∀ s ∈ r1.world, ¬ s.batch ≤ s.constants.batches := by
  induction fuel generalizing r with
  | zero => simp [run_batches] at h
  | succ fuel ih =>
    unfold run_batches at h
    cases hu : unanimous r.world (fun s => decide (s.batch ≤ s.constants.batches)) with
    | error e => simp [hu] at h
    | ok b =>
      cases b with
      | false =>
        simp only [hu, Except.ok.injEq] at h
        subst h
        refine ⟨hJ, ?_⟩
        intro s hs
        have := unanimous_false _ _ hu s hs
        simpa using this
      | true =>
        have hall : ∀ s ∈ r.world, s.batch ≤ s.constants.batches := by
          intro s hs
          have := unanimous_true _ _ hu s hs
          simpa using this
        simp only [hu] at h
        cases hb : world_batch exp r.world with
        | none => simp [hb] at h
        | some after =>
          simp only [hb] at h
          exact ih _ (hstep r after hJ hall hb) h

/-- The rule of the loop of the epochs. -/
theorem run_epochs_rule (exp : ℚ → ℚ) (epcall : Bool) (fuelB : Nat) (I J Post : Run → Prop)
    (hhead : ∀ r, I r → (∀ s ∈ r.world, s.epoch ≤ s.constants.epochs) →
      J { world := setBatch 1 r.world, trace := r.trace })
    (hstep : ∀ r after, J r → (∀ s ∈ r.world, s.batch ≤ s.constants.batches) →
      world_batch exp r.world = some after →
      J { world := nextBatch after, trace := r.trace ++ [TrainEvent.batch r.world after] })
    (hbreak : ∀ r1, J r1 → (∀ s ∈ r1.world, ¬ s.batch ≤ s.constants.batches) →
      (∀ s ∈ updateRadius exp r1.world, s.diff < s.constants.diffmin) →
      Post { world := updateRadius exp r1.world
             trace := r1.trace ++ [TrainEvent.update (updateRadius exp r1.world)] })
    (hcont : ∀ r1, J r1 → (∀ s ∈ r1.world, ¬ s.batch ≤ s.constants.batches) →
      (∀ s ∈ updateRadius exp r1.world, ¬ s.diff < s.constants.diffmin) →
      I { world := nextEpoch (updateRadius exp r1.world)
          trace := r1.trace ++ [TrainEvent.update (updateRadius exp r1.world)]
            ++ (if epcall then [TrainEvent.epcall (updateRadius exp r1.world)] else []) })
    (hexit : ∀ r, I r → (∀ s ∈ r.world, ¬ s.epoch ≤ s.constants.epochs) → Post r)
    (fuel : Nat) (r r2 : Run) (hI : I r)
    (h : run_epochs exp epcall fuelB fuel r = Except.ok r2) : Post r2 := by
  induction fuel generalizing r with
  | zero => simp [run_epochs] at h
  | succ fuel ih =>
    unfold run_epochs at h
    cases hu : unanimous r.world (fun s => decide (s.epoch ≤ s.constants.epochs)) with
    | error e => simp [hu] at h
    | ok b =>
      cases b with
      | false =>
        simp only [hu, Except.ok.injEq] at h
        subst h
        apply hexit r hI
        intro s hs
        have := unanimous_false _ _ hu s hs
        simpa using this
      | true =>
        have hall : ∀ s ∈ r.world, s.epoch ≤ s.constants.epochs := by
          intro s hs
          have := unanimous_true _ _ hu s hs
          simpa using this
        simp only [hu] at h
        cases hb : run_batches exp fuelB { world := setBatch 1 r.world, trace := r.trace } with
        | error e => simp [hb] at h
        | ok r1 =>
          simp only [hb] at h
          obtain ⟨hJ1, hdone⟩ := run_batches_rule exp J hstep fuelB _ r1 (hhead r hI hall) hb
          cases hd : unanimous (updateRadius exp r1.world)
              (fun s => decide (s.diff < s.constants.diffmin)) with
          | error e => simp [hd] at h
          | ok c =>
            cases c with
            | true =>
              simp only [hd, Except.ok.injEq] at h
              subst h
              apply hbreak r1 hJ1 hdone
              intro s hs
              have := unanimous_true _ _ hd s hs
              simpa using this
            | false =>
              simp only [hd] at h
              refine ih _ (hcont r1 hJ1 hdone ?_) h
              intro s hs
              have := unanimous_false _ _ hd s hs
              simpa using this

/-- The rule of `Lattice::train`: a run that returns went through
`weights_random_init` on the states of the constructors and through the loop
of the epochs, and ends with a call of `print`. -/
theorem train_rule (exp : ℚ → ℚ) (rand : Nat → Nat) (fuelE fuelB ranks : Nat)
    (lattice : Lattice) (settings : TrainSettings) (r : Run)
    (h : Lattice.train exp rand fuelE fuelB ranks lattice settings = Except.ok r) :
    ∃ world0 world1 r2,
      initialWorld ranks lattice settings = some world0 ∧
      world_init rand world0 = some world1 ∧
      run_epochs exp settings.mepcall fuelB fuelE
          { world := setEpoch 1 (setEpoch 0 world1)
            trace := [TrainEvent.init (setEpoch 0 world1), TrainEvent.print (setEpoch 0 world1)]
              ++ (if settings.mepcall then [TrainEvent.epcall (setEpoch 0 world1)] else []) }
        = Except.ok r2 ∧
      r = { world := r2.world, trace := r2.trace ++ [TrainEvent.print r2.world] } := by
  unfold Lattice.train at h
  cases h0 : initialWorld ranks lattice settings with
  | none => rw [h0] at h; cases h
  | some world0 =>
    rw [h0] at h
    dsimp only at h
    cases h1 : world_init rand world0 with
    | none => rw [h1] at h; cases h
    | some world1 =>
      rw [h1] at h
      dsimp only at h
      cases h2 : run_epochs exp settings.mepcall fuelB fuelE
          { world := setEpoch 1 (setEpoch 0 world1)
            trace := [TrainEvent.init (setEpoch 0 world1), TrainEvent.print (setEpoch 0 world1)]
              ++ (if settings.mepcall then [TrainEvent.epcall (setEpoch 0 world1)] else []) } with
      | error e => rw [h2] at h; cases h
      | ok r2 =>
        rw [h2] at h
        dsimp only at h
        exact ⟨world0, world1, r2, rfl, h1, h2, (Except.ok.inj h).symm⟩

theorem batchStates_append (q : Nat) (l1 l2 : List TrainEvent) :
    batchStates q (l1 ++ l2) = batchStates q l1 ++ batchStates q l2 := by
  simp only [batchStates, List.filterMap_append]

theorem updateStates_append (q : Nat) (l1 l2 : List TrainEvent) :
    updateStates q (l1 ++ l2) = updateStates q l1 ++ updateStates q l2 := by
  simp only [updateStates, List.filterMap_append]

theorem epcallStates_append (q : Nat) (l1 l2 : List TrainEvent) :
    epcallStates q (l1 ++ l2) = epcallStates q l1 ++ epcallStates q l2 := by
  simp only [epcallStates, List.filterMap_append]

theorem printStates_append (q : Nat) (l1 l2 : List TrainEvent) :
    printStates q (l1 ++ l2) = printStates q l1 ++ printStates q l2 := by
  simp only [printStates, List.filterMap_append]

theorem mem_of_getElem? {α : Type} (l : List α) (q : Nat) (s : α) (h : l[q]? = some s) :
    s ∈ l := by
  obtain ⟨hq, rfl⟩ := List.getElem?_eq_some_iff.1 h
  exact List.getElem_mem hq

theorem epochGrid_succ (exp : ℚ → ℚ) (c : Constants) (n : Nat) :
    epochGrid exp c (n + 1)
      = epochGrid exp c n
        ++ (List.range' 1 c.batches).map (fun t => (n + 1, t, radiusDuring exp c (n + 1))) := by
  have h : 1 + 1 * n = n + 1 := by omega
  simp only [epochGrid, List.range'_concat, List.flatMap_append, List.flatMap_cons,
    List.flatMap_nil, List.append_nil, h]

theorem radiusDuring_succ (exp : ℚ → ℚ) (c : Constants) (n : Nat) :
    radiusDuring exp c (n + 2) = c.nradius * exp (((n + 1 : ℕ) : ℚ) * c.rdecay) := by
  have h : ¬ n + 2 ≤ 1 := by omega
  simp only [radiusDuring, if_neg h, radiusAfter, Nat.add_sub_cancel]
  rfl

theorem epochHead_batch (exp : ℚ → ℚ) (epcall : Bool) (q : Nat) (c : Constants) (r : Run)
    (hI : EpochHead exp epcall q c r)
    (hg : ∀ s ∈ r.world, s.epoch ≤ s.constants.epochs) :
    BatchHead exp epcall q c { world := setBatch 1 r.world, trace := r.trace } := by
  obtain ⟨n, s, hs, hc, he, hn, hr, hshape, hu⟩ := hI
  have hle := hg s (mem_of_getElem? _ _ _ hs)
  rw [hc, he] at hle
  refine ⟨n, 0, { s with batch := 1 }, ?_, hc, he, hle, rfl, Nat.zero_le _, hr, ?_, hu, ?_⟩
  · simp only [setBatch, List.getElem?_map, hs, Option.map_some']
  · simpa using hshape
  · intro h
    omega

theorem batchHead_step (exp : ℚ → ℚ) (epcall : Bool) (q : Nat) (c : Constants)
    (hK : c.batches < UINT_MAX) (r : Run) (after : List TrainState)
    (hJ : BatchHead exp epcall q c r)
    (hg : ∀ s ∈ r.world, s.batch ≤ s.constants.batches)
    (hb : world_batch exp r.world = some after) :
    BatchHead exp epcall q c
      { world := nextBatch after, trace := r.trace ++ [TrainEvent.batch r.world after] } := by
  obtain ⟨n, m, s, hs, hc, he, hn, hbt, hm, hr, hshape, hu, -⟩ := hJ
  have hle := hg s (mem_of_getElem? _ _ _ hs)
  rw [hc, hbt] at hle
  obtain ⟨-, hframe⟩ := world_batch_frame exp r.world after hb
  obtain ⟨t, ht, -, tc, te, tb, tr⟩ := hframe q s hs
  obtain ⟨h1, h2, h3, h4, h5⟩ := hshape
  have hwrap : u32 (t.batch + 1) = m + 2 := by
    rw [tb, hbt]
    apply u32_of_le
    omega
  refine ⟨n, m + 1, { t with batch := u32 (t.batch + 1) }, ?_, tc.trans hc, te.trans he, hn,
    hwrap, hle, tr.trans hr, ⟨?_, ?_, ?_, ?_, ?_⟩, ?_, ?_⟩
  · simp only [nextBatch, List.getElem?_map, ht, Option.map_some']
  · rw [batchStates_append, List.map_append, h1]
    simp only [batchStates, List.filterMap_cons, List.filterMap_nil, hs, ht, Option.some_bind,
      Option.map_some', List.map_cons, List.map_nil, he, hbt, hr, List.range'_concat,
      List.map_append, List.append_assoc]
    have h : 1 + 1 * m = m + 1 := by omega
    rw [h]
  · rw [updateStates_append, List.map_append, h2]
    simp [updateStates]
  · rw [epcallStates_append, List.map_append, h3]
    simp [epcallStates]
  · rw [printStates_append, List.map_append, h4]
    simp [printStates]
  · intro hk p hp
    apply h5 hk p
    simpa [diffTests, List.foldl_append, diffStep] using hp
  · intro st hst
    apply hu st
    simpa [updateStates_append, updateStates] using hst
  · intro _
    simp only [List.foldl_append, List.foldl_cons, List.foldl_nil, diffStep, ht, Option.map_some']

/-- The facts about the rank `q` when the loop of the batches is left and the
radius is assigned. -/
theorem batchHead_done (exp : ℚ → ℚ) (epcall : Bool) (q : Nat) (c : Constants) (r1 : Run)
    (hJ : BatchHead exp epcall q c r1)
    (hdone : ∀ s ∈ r1.world, ¬ s.batch ≤ s.constants.batches) :
    ∃ n s, r1.world[q]? = some s ∧ s.constants = c ∧ s.epoch = n + 1 ∧ n + 1 ≤ c.epochs ∧
      (updateRadius exp r1.world)[q]?
        = some { s with nradius := radiusDuring exp c (n + 2) } ∧
      traceShape exp epcall q c (n + 1) [] n
        (r1.trace ++ [TrainEvent.update (updateRadius exp r1.world)]) ∧
      updateStates q (r1.trace ++ [TrainEvent.update (updateRadius exp r1.world)])
        = updateStates q r1.trace ++ [{ s with nradius := radiusDuring exp c (n + 2) }] ∧
      ∀ st ∈ updateStates q r1.trace, ¬ st.diff < c.diffmin := by
  obtain ⟨n, m, s, hs, hc, he, hn, hbt, hm, hr, hshape, hu, hlast⟩ := hJ
  have hnot := hdone s (mem_of_getElem? _ _ _ hs)
  rw [hc, hbt] at hnot
  have hmK : m = c.batches := by omega
  subst hmK
  obtain ⟨h1, h2, h3, h4, h5⟩ := hshape
  have hw : (updateRadius exp r1.world)[q]?
      = some { s with nradius := radiusDuring exp c (n + 2) } := by
    simp only [updateRadius, List.getElem?_map, hs, Option.map_some', radiusDuring_succ, hc, he]
  have hupd : updateStates q (r1.trace ++ [TrainEvent.update (updateRadius exp r1.world)])
      = updateStates q r1.trace ++ [{ s with nradius := radiusDuring exp c (n + 2) }] := by
    rw [updateStates_append]
    simp only [updateStates, List.filterMap_cons, List.filterMap_nil, hw]
  refine ⟨n, s, hs, hc, he, hn, hw, ⟨?_, ?_, ?_, ?_, ?_⟩, hupd, hu⟩
  · rw [batchStates_append, List.map_append, h1, epochGrid_succ]
    simp [batchStates]
  · rw [hupd, List.map_append, h2, List.range'_concat, List.map_append]
    have h : 1 + 1 * n = n + 1 := by omega
    simp only [List.map_cons, List.map_nil, he, h, radiusDuring_succ, radiusAfter]
  · rw [epcallStates_append, List.map_append, h3]
    simp [epcallStates]
  · rw [printStates_append, List.map_append, h4]
    simp [printStates]
  · intro hk p hp
    simp only [diffTests, List.foldl_append, List.foldl_cons, List.foldl_nil, diffStep, hw,
      Option.map_some', Option.toList_some, List.mem_append, List.mem_singleton] at hp
    rcases hp with hp | hp
    · exact h5 hk p hp
    · rw [hp, hlast hk]

theorem batchHead_break (exp : ℚ → ℚ) (epcall : Bool) (q : Nat) (c : Constants) (r1 : Run)
    (hJ : BatchHead exp epcall q c r1)
    (hdone : ∀ s ∈ r1.world, ¬ s.batch ≤ s.constants.batches)
    (hconv : ∀ s ∈ updateRadius exp r1.world, s.diff < s.constants.diffmin) :
    ∃ n conv, TrainEnd exp epcall q c n conv
      { world := updateRadius exp r1.world
        trace := r1.trace ++ [TrainEvent.update (updateRadius exp r1.world)] } := by
  obtain ⟨n, s, hs, hc, he, hn, hw, hshape, hupd, hu⟩ := batchHead_done exp epcall q c r1 hJ hdone
  have hlt := hconv _ (mem_of_getElem? _ _ _ hw)
  refine ⟨n + 1, true, { s with nradius := radiusDuring exp c (n + 2) }, hw, hc, hn,
    fun _ => ⟨by omega, he⟩, (fun h => by cases h), rfl, ?_, ?_, ?_, (fun h => by cases h)⟩
  · simpa using hshape
  · rw [hupd, List.dropLast_concat]
    exact hu
  · intro _
    refine ⟨{ s with nradius := radiusDuring exp c (n + 2) }, ?_, ?_⟩
    · show (updateStates q (r1.trace ++ [TrainEvent.update (updateRadius exp r1.world)])).getLast?
        = _
      rw [hupd, List.getLast?_concat]
    · rw [← hc]; exact hlt

theorem batchHead_cont (exp : ℚ → ℚ) (epcall : Bool) (q : Nat) (c : Constants)
    (hE : c.epochs < UINT_MAX) (r1 : Run)
    (hJ : BatchHead exp epcall q c r1)
    (hdone : ∀ s ∈ r1.world, ¬ s.batch ≤ s.constants.batches)
    (hconv : ∀ s ∈ updateRadius exp r1.world, ¬ s.diff < s.constants.diffmin) :
    EpochHead exp epcall q c
      { world := nextEpoch (updateRadius exp r1.world)
        trace := r1.trace ++ [TrainEvent.update (updateRadius exp r1.world)]
          ++ (if epcall then [TrainEvent.epcall (updateRadius exp r1.world)] else []) } := by
  obtain ⟨n, s, hs, hc, he, hn, hw, hshape, hupd, hu⟩ := batchHead_done exp epcall q c r1 hJ hdone
  have hge := hconv _ (mem_of_getElem? _ _ _ hw)
  obtain ⟨h1, h2, h3, h4, h5⟩ := hshape
  have hwrap : u32 (s.epoch + 1) = n + 2 := by
    rw [he]
    apply u32_of_le
    omega
  refine ⟨n + 1, { s with nradius := radiusDuring exp c (n + 2), epoch := u32 (s.epoch + 1) },
    ?_, hc, hwrap, hn, rfl, ⟨?_, ?_, ?_, ?_, ?_⟩, ?_⟩
  · simp only [nextEpoch, List.getElem?_map, hw, Option.map_some']
  · rw [batchStates_append, List.map_append, h1]
    cases epcall <;> simp [batchStates]
  · rw [updateStates_append, List.map_append, h2]
    cases epcall <;> simp [updateStates]
  · rw [epcallStates_append, List.map_append, h3]
    cases epcall with
    | false => simp [epcallStates]
    | true =>
      simp only [if_true, epcallStates, List.filterMap_cons, List.filterMap_nil, hw, List.map_cons,
        List.map_nil, he, List.range'_concat, List.cons_append]
      have h : 1 + 1 * n = n + 1 := by omega
      rw [h]
  · rw [printStates_append, List.map_append, h4]
    cases epcall <;> simp [printStates]
  · intro hk p hp
    apply h5 hk p
    cases epcall <;> simpa [diffTests, List.foldl_append, diffStep] using hp
  · intro st hst
    have hst2 : st ∈ updateStates q (r1.trace ++ [TrainEvent.update (updateRadius exp r1.world)]) := by
      cases epcall <;> simpa [updateStates_append, updateStates] using hst
    rw [hupd, List.mem_append, List.mem_singleton] at hst2
    rcases hst2 with h | h
    · exact hu st h
    · rw [h, ← hc]; exact hge

theorem epochHead_exit (exp : ℚ → ℚ) (epcall : Bool) (q : Nat) (c : Constants) (r : Run)
    (hI : EpochHead exp epcall q c r)
    (hg : ∀ s ∈ r.world, ¬ s.epoch ≤ s.constants.epochs) :
    ∃ n conv, TrainEnd exp epcall q c n conv r := by
  obtain ⟨n, s, hs, hc, he, hn, hr, hshape, hu⟩ := hI
  have hnot := hg s (mem_of_getElem? _ _ _ hs)
  rw [hc, he] at hnot
  have hnE : n = c.epochs := by omega
  refine ⟨n, false, s, hs, hc, hn, (fun h => by cases h), fun _ => ⟨hnE, by rw [he, hnE]⟩, hr, ?_,
    ?_, (fun h => by cases h), fun _ => hu⟩
  · simpa using hshape
  · intro st hst
    exact hu st (List.mem_of_mem_dropLast hst)

/-- The loop of the epochs, seen from the rank `q` with the constants `c`: a
run that returns has made `n ≤ E` epochs of `K` batches each and has left the
loop by the convergence test or at the cap. -/
theorem run_epochs_shape (exp : ℚ → ℚ) (epcall : Bool) (fuelB fuel : Nat) (q : Nat)
    (c : Constants) (hE : c.epochs < UINT_MAX) (hK : c.batches < UINT_MAX) (r r2 : Run)
    (hI : EpochHead exp epcall q c r)
    (h : run_epochs exp epcall fuelB fuel r = Except.ok r2) :
    ∃ n conv, TrainEnd exp epcall q c n conv r2 :=
  run_epochs_rule exp epcall fuelB (EpochHead exp epcall q c) (BatchHead exp epcall q c)
    (fun r => ∃ n conv, TrainEnd exp epcall q c n conv r)
    (fun r hI hg => epochHead_batch exp epcall q c r hI hg)
    (fun r after hJ hg hb => batchHead_step exp epcall q c hK r after hJ hg hb)
    (fun r1 hJ hdone hconv => batchHead_break exp epcall q c r1 hJ hdone hconv)
    (fun r1 hJ hdone hconv => batchHead_cont exp epcall q c hE r1 hJ hdone hconv)
    (fun r hI hg => epochHead_exit exp epcall q c r hI hg)
    fuel r r2 hI h

/-- The function `weights_random_init` changes the weights of the rank only. -/
theorem init_keeps (rand : Nat → Nat) (world : List TrainState) (q : Nat) (t : TrainState)
    (h : weights_random_init rand world q = some t) :
    ∃ s, world[q]? = some s ∧ t.constants = s.constants ∧ t.bfraction = s.bfraction ∧
      t.epoch = s.epoch ∧ t.batch = s.batch ∧ t.nradius = s.nradius ∧ t.diff = s.diff ∧
      t.weights.mrows = s.weights.mrows ∧ t.weights.mcols = s.weights.mcols ∧
      t.weights.mdimensions = s.weights.mdimensions := by
  unfold weights_random_init at h
  cases hs : world[q]? with
  | none => rw [hs] at h; cases h
  | some s =>
    rw [hs] at h
    simp only [Option.some.injEq] at h
    subst h
    exact ⟨s, rfl, rfl, rfl, rfl, rfl, rfl, rfl, rfl, rfl, rfl⟩

/-- The states of the ranks after `weights_random_init`, rank by rank. -/
theorem world_init_frame (rand : Nat → Nat) (world0 world1 : List TrainState)
    (h : world_init rand world0 = some world1) :
    world1.length = world0.length ∧
    ∀ q s, world0[q]? = some s →
      ∃ t, world1[q]? = some t ∧ weights_random_init rand world0 q = some t ∧
        t.constants = s.constants ∧ t.bfraction = s.bfraction ∧
        t.epoch = s.epoch ∧ t.batch = s.batch ∧ t.nradius = s.nradius ∧ t.diff = s.diff := by
  obtain ⟨hl, hg⟩ := world_init_spec rand world0 world1 h
  refine ⟨hl, ?_⟩
  intro q s hs
  obtain ⟨hq, hs2⟩ := List.getElem?_eq_some_iff.1 hs
  have hq1 : q < world1.length := hl ▸ hq
  obtain ⟨s', hs', k1, k2, k3, k4, k5, k6, -⟩ := init_keeps rand world0 q _ (hg q hq1)
  rw [hs, Option.some.injEq] at hs'
  subst hs'
  exact ⟨world1[q], List.getElem?_eq_getElem hq1, hg q hq1, k1, k2, k3, k4, k5, k6⟩

/-- A run of `Lattice::train` that returns, seen from the rank `q`: the loop of
the epochs has made `n ≤ E` epochs of `K` batches each and was left by the
convergence test or at the cap, and then the lattice is printed. -/
theorem train_shape (exp : ℚ → ℚ) (rand : Nat → Nat) (fuelE fuelB ranks : Nat)
    (lattice : Lattice) (settings : TrainSettings) (r : Run)
    (h : Lattice.train exp rand fuelE fuelB ranks lattice settings = Except.ok r)
    (world0 : List TrainState) (h0 : initialWorld ranks lattice settings = some world0)
    (q : Nat) (hq : q < world0.length)
    (hE : world0[q].constants.epochs < UINT_MAX)
    (hK : world0[q].constants.batches < UINT_MAX) :
    ∃ n conv r2, TrainEnd exp settings.mepcall q world0[q].constants n conv r2 ∧
      r.world = r2.world ∧ r.trace = r2.trace ++ [TrainEvent.print r2.world] := by
  obtain ⟨w0, world1, r2, h0', h1, h2, hr⟩ :=
    train_rule exp rand fuelE fuelB ranks lattice settings r h
  rw [h0, Option.some.injEq] at h0'
  subst h0'
  obtain ⟨-, hfr⟩ := world_init_frame rand world0 world1 h1
  obtain ⟨t, ht, -, tc, -, -, -, tr, -⟩ := hfr q world0[q] (List.getElem?_eq_getElem hq)
  obtain ⟨-, hctor⟩ := initialWorld_spec ranks lattice settings world0 h0
  obtain ⟨-, -, -, -, -, hrad, -⟩ := ctor_state_fields _ _ _ _ (hctor q hq)
  have hI : EpochHead exp settings.mepcall q world0[q].constants
      { world := setEpoch 1 (setEpoch 0 world1)
        trace := [TrainEvent.init (setEpoch 0 world1), TrainEvent.print (setEpoch 0 world1)]
          ++ (if settings.mepcall then [TrainEvent.epcall (setEpoch 0 world1)] else []) } := by
    have hw0 : (setEpoch 0 world1)[q]? = some { t with epoch := 0 } := by
      simp only [setEpoch, List.getElem?_map, ht, Option.map_some']
    refine ⟨0, { t with epoch := 1 }, ?_, tc, rfl, Nat.zero_le _, ?_, ⟨?_, ?_, ?_, ?_, ?_⟩, ?_⟩
    · simp only [setEpoch, List.getElem?_map, ht, Option.map_some']
    · simp only [radiusDuring, Nat.zero_add, le_refl, if_true]
      rw [tr, hrad]
    · cases settings.mepcall <;> simp [batchStates, epochGrid]
    · cases settings.mepcall <;> simp [updateStates]
    · cases settings.mepcall <;> simp [epcallStates, hw0]
    · cases settings.mepcall <;> simp [printStates, hw0]
    · intro _ p hp
      cases hcall : settings.mepcall <;> simp [diffTests, diffStep, hcall] at hp
    · intro st hst
      cases hcall : settings.mepcall <;> simp [updateStates, hcall] at hst
  obtain ⟨n, conv, hend⟩ := run_epochs_shape exp settings.mepcall fuelB fuelE q
    world0[q].constants hE hK _ r2 hI h2
  exact ⟨n, conv, r2, hend, by rw [hr], by rw [hr]⟩

/-- The constants that the constructor of `TrainState` captures, in terms of
the settings and of the file. -/
theorem ctor_constants (st : parallel.State) (lattice : Lattice) (settings : TrainSettings)
    (t : TrainState) (D : Nat) (h : TrainState.ctor st lattice settings = some t)
    (hD : dataset_dimensions settings.mdataset = some D) (hR : 1 ≤ st.mranks)
    (hN : settings.mdataset.length ≤ UINT_MAX) :
    t.constants.epochs
      = (if settings.mepochs > 0 then settings.mepochs else settings.mdataset.length) ∧
    t.constants.diffmin
      = (if settings.mdiffmin > 1 / 1000000 then settings.mdiffmin else 0) ∧
    t.constants.rdecay = settings.mrdecay ∧
    t.constants.dataset.mbatchsize
      = (if loopBatchsize settings.mbatchsize st.mranks < UINT_MAX
          then loopBatchsize settings.mbatchsize st.mranks else settings.mdataset.length) ∧
    t.constants.batchsize = t.constants.dataset.mbatchsize ∧
    t.constants.rbatchsize
      = parallel.distribute st t.constants.dataset.mbatchsize st.mrank ∧
    t.constants.batches
      = toUnsigned (⌈(settings.mdataset.length : ℚ) / (t.constants.dataset.mbatchsize : ℚ)⌉₊ : ℚ) ∧
    t.constants.dataset.mrrecords
      = Nat.count (fun i => (i % loopBatchsize settings.mbatchsize st.mranks) % st.mranks
          = st.mrank) settings.mdataset.length ∧
    t.constants.dataset.mdimensions = D ∧
    t.constants.dataset.mtrecords = settings.mdataset.length := by
  obtain ⟨ds, hc, hd, ht, hr, -, hb, hrb, -⟩ :=
    ctor_fields st settings.mdataset settings.mbatchsize D hD hR hN
  simp only [TrainState.ctor, Constants.ctor, hc, Option.map_some', Option.some.injEq] at h
  subst h
  simp [ht, hb, hrb, hr, hd]

/-- The number of batches `static_cast<unsigned>(std::ceil(N / B))` is the
ceiling of the quotient. -/
theorem batches_ceil (N B : Nat) (hN : N ≤ UINT_MAX) (hB : 1 ≤ B) :
    toUnsigned ((⌈(N : ℚ) / (B : ℚ)⌉₊ : ℕ) : ℚ) = ⌈(N : ℚ) / (B : ℚ)⌉₊ ∧
    ⌈(N : ℚ) / (B : ℚ)⌉₊ ≤ N ∧
    ∀ t, 1 ≤ t → (t ≤ ⌈(N : ℚ) / (B : ℚ)⌉₊ ↔ (t - 1) * B < N) := by
  have hBq : (0 : ℚ) < (B : ℚ) := by exact_mod_cast hB
  have hle : ⌈(N : ℚ) / (B : ℚ)⌉₊ ≤ N := by
    apply Nat.ceil_le.2
    rw [div_le_iff₀ hBq]
    have : (1 : ℚ) ≤ (B : ℚ) := by exact_mod_cast hB
    have hN0 : (0 : ℚ) ≤ (N : ℚ) := by exact_mod_cast Nat.zero_le N
    nlinarith
  refine ⟨?_, hle, ?_⟩
  · simp only [toUnsigned, Nat.floor_natCast]
    exact u32_of_le _ (le_trans hle hN)
  · intro t ht
    obtain ⟨k, rfl⟩ : ∃ k, t = k + 1 := ⟨t - 1, by omega⟩
    rw [Nat.add_sub_cancel, Nat.add_one_le_iff, Nat.lt_ceil, lt_div_iff₀ hBq]
    exact_mod_cast Iff.rfl

theorem distribute_zero_pos (R B : Nat) (hR : 1 ≤ R) (hB : 1 ≤ B) :
    1 ≤ parallel.distribute ⟨0, R⟩ B 0 ∧ parallel.distribute ⟨0, R⟩ B 0 ≤ B := by
  rw [distribute_eq]
  show 1 ≤ B / R + (if 0 < B % R then 1 else 0) ∧ B / R + (if 0 < B % R then 1 else 0) ≤ B
  have hdm := Nat.div_add_mod B R
  have hmul : B / R ≤ R * (B / R) := Nat.le_mul_of_pos_left _ hR
  generalize B / R = d at hdm hmul ⊢
  generalize B % R = m at hdm ⊢
  by_cases h : 0 < m
  · rw [if_pos h]
    constructor <;> omega
  · rw [if_neg h]
    have hpos : 0 < d := by
      rcases Nat.eq_zero_or_pos d with h1 | h1
      · rw [h1] at hdm; omega
      · exact h1
    constructor <;> omega

/-- In every batch `t` whose first global index `(t−1)·B` is below `N`, the
rank 0 presents at least one record: the loop of `batch_present` is not
empty. -/
theorem rank0_bounds (s : TrainState) (b R N : Nat) (hR : 1 ≤ R) (hNB : N + b ≤ UINT_MAX)
    (hrb : s.constants.rbatchsize
      = parallel.distribute ⟨0, R⟩
          (if loopBatchsize b R < UINT_MAX then loopBatchsize b R else N) 0)
    (hrr : s.constants.dataset.mrrecords
      = Nat.count (fun i => (i % loopBatchsize b R) % R = 0) N)
    (ht1 : 1 ≤ s.batch)
    (ht : (s.batch - 1) * (if loopBatchsize b R < UINT_MAX then loopBatchsize b R else N) < N) :
    (batch_bounds s).1 < (batch_bounds s).2 := by
  have hU : UINT_MAX = 4294967295 := rfl
  have hBl := loopBatchsize_pos b R hR
  have hN1 : 1 ≤ N := by
    rcases Nat.eq_zero_or_pos N with h | h
    · rw [h] at ht; omega
    · exact h
  have hB1 : 1 ≤ (if loopBatchsize b R < UINT_MAX then loopBatchsize b R else N) := by
    split_ifs <;> omega
  obtain ⟨hd1, hd2⟩ := distribute_zero_pos R _ hR hB1
  -- the cursor
  have htN : s.batch - 1 < N := by
    calc s.batch - 1 = (s.batch - 1) * 1 := (Nat.mul_one _).symm
      _ ≤ (s.batch - 1) * _ := Nat.mul_le_mul_left _ hB1
      _ < N := ht
  have hus : usub s.batch 1 = s.batch - 1 := usub_one s.batch ht1 (by omega)
  -- first
  have hfirst_le : (s.batch - 1) * s.constants.rbatchsize < N := by
    rw [hrb]
    exact lt_of_le_of_lt (Nat.mul_le_mul_left _ hd2) ht
  have hfirst : (batch_bounds s).1 = (s.batch - 1) * s.constants.rbatchsize := by
    simp only [batch_bounds, hus]
    exact u32_of_le _ (by omega)
  -- the sum does not wrap
  have hsum : (s.batch - 1) * s.constants.rbatchsize + s.constants.rbatchsize ≤ UINT_MAX := by
    by_cases hcase : loopBatchsize b R < UINT_MAX
    · rw [if_pos hcase] at ht hrb hd2
      have hlb : loopBatchsize b R = b := by
        unfold loopBatchsize at hcase ⊢
        split_ifs at hcase ⊢ with h1
        · omega
        · rfl
      rw [hlb] at hd2 ht hrb
      have h1 : (s.batch - 1) * s.constants.rbatchsize ≤ (s.batch - 1) * b := by
        rw [hrb]; exact Nat.mul_le_mul_left _ hd2
      have h2 : s.constants.rbatchsize ≤ b := by rw [hrb]; exact hd2
      omega
    · rw [if_neg hcase] at ht hrb hd2
      have h0 : s.batch - 1 = 0 := by
        rcases Nat.eq_zero_or_pos (s.batch - 1) with h | h
        · exact h
        · have : N ≤ (s.batch - 1) * N := Nat.le_mul_of_pos_left _ h
          omega
      rw [h0, Nat.zero_mul, Nat.zero_add, hrb]
      omega
  have hlast : (batch_bounds s).2
      = min s.constants.dataset.mrrecords
          ((s.batch - 1) * s.constants.rbatchsize + s.constants.rbatchsize) := by
    have := hfirst
    simp only [batch_bounds] at this ⊢
    rw [this, u32_of_le _ hsum]
  -- the rank 0 owns the first record of the batch
  have hown : (s.batch - 1) * s.constants.rbatchsize < s.constants.dataset.mrrecords := by
    rw [hrr]
    by_cases hcase : loopBatchsize b R < UINT_MAX
    · rw [if_pos hcase] at ht hrb
      have hp : ((s.batch - 1) * loopBatchsize b R % loopBatchsize b R) % R = 0 := by
        rw [Nat.mul_mod_left, Nat.zero_mod]
      have hlt := count_owned_lt (fun i => (i % loopBatchsize b R) % R = 0) _ N ht hp
      have hcnt := count_periodic (loopBatchsize b R) R 0 (s.batch - 1) 0
      rw [Nat.add_zero, Nat.count_zero, Nat.add_zero,
        count_mod_eq R 0 (loopBatchsize b R) hR hR] at hcnt
      rw [hcnt] at hlt
      rw [hrb, distribute_eq]
      exact hlt
    · rw [if_neg hcase] at ht
      have h0 : s.batch - 1 = 0 := by
        rcases Nat.eq_zero_or_pos (s.batch - 1) with h | h
        · exact h
        · have : N ≤ (s.batch - 1) * N := Nat.le_mul_of_pos_left _ h
          omega
      rw [h0, Nat.zero_mul]
      have hp : (0 % loopBatchsize b R) % R = 0 := by simp
      have hlt := count_owned_lt (fun i => (i % loopBatchsize b R) % R = 0) 0 N hN1 hp
      rw [Nat.count_zero] at hlt
      exact hlt
  rw [hfirst, hlast]
  have hrb1 : 1 ≤ s.constants.rbatchsize := by rw [hrb]; exact hd1
  exact lt_min hown (by omega)

theorem present_record_eq (exp : ℚ → ℚ) (lidx : Nat) (st : TrainState) (hrho : st.nradius ≠ 0) :
    present_record exp lidx st
      = some { st with
          bfraction := accumulate_list st.weights st.weights.mdimensions
            (st.constants.dataset.rrecord lidx) (cell_weight exp st.nradius 0 0)
            (accumulate_cells st 0 0) st.bfraction } := by
  have h2 : 2 * st.nradius ≠ 0 := mul_ne_zero two_ne_zero hrho
  have hacc := accumulate_eq exp st (st.constants.dataset.rrecord lidx) 0 0 h2
  simp only [present_record, bmu_find_eq]
  exact hacc

theorem present_fold_den (exp : ℚ → ℚ) (l : List Nat) (st : TrainState)
    (hrho : st.nradius ≠ 0) :
    ∃ t, l.foldl (fun (o : Option TrainState) (lidx : Nat) => o.bind (present_record exp lidx))
        (some st) = some t ∧
      t.bfraction.denominator = st.bfraction.denominator + (l.length : ℚ) * recordWeight exp st ∧
      t.weights = st.weights ∧ t.nradius = st.nradius := by
  induction l generalizing st with
  | nil => exact ⟨st, rfl, by simp, rfl, rfl⟩
  | cons lidx rest ih =>
    have hden := (accumulate_list_spec st.weights st.weights.mdimensions
      (st.constants.dataset.rrecord lidx) (cell_weight exp st.nradius 0 0)
      (accumulate_cells st 0 0) st.bfraction).2.2.2.2.2.2.1
    obtain ⟨t, ht, hd, hw, hr⟩ := ih
      { st with
        bfraction := accumulate_list st.weights st.weights.mdimensions
          (st.constants.dataset.rrecord lidx) (cell_weight exp st.nradius 0 0)
          (accumulate_cells st 0 0) st.bfraction } hrho
    refine ⟨t, ?_, ?_, hw, hr⟩
    · rw [List.foldl_cons, Option.some_bind, present_record_eq exp lidx st hrho]
      exact ht
    · rw [hd]
      have hsame : recordWeight exp
          { st with
            bfraction := accumulate_list st.weights st.weights.mdimensions
              (st.constants.dataset.rrecord lidx) (cell_weight exp st.nradius 0 0)
              (accumulate_cells st 0 0) st.bfraction } = recordWeight exp st := rfl
      rw [hsame]
      show (accumulate_list st.weights st.weights.mdimensions
          (st.constants.dataset.rrecord lidx) (cell_weight exp st.nradius 0 0)
          (accumulate_cells st 0 0) st.bfraction).denominator + _ = _
      rw [hden]
      simp only [recordWeight, List.length_cons]
      push_cast
      ring

/-- The part of `batch_present` before the collective returns when the radius
is not zero, and leaves in the denominator the weight of one record times the
number of records of the batch on this rank. -/
theorem batch_local_denominator (exp : ℚ → ℚ) (s : TrainState) (hrho : s.nradius ≠ 0) :
    ∃ t, (batch_local exp s).1 = some t ∧
      t.bfraction.denominator
        = (((batch_bounds s).2 - (batch_bounds s).1 : ℕ) : ℚ) * recordWeight exp s := by
  obtain ⟨t, ht, hd, -, -⟩ := present_fold_den exp
    (List.range' (batch_bounds s).1 ((batch_bounds s).2 - (batch_bounds s).1))
    { s with bfraction := s.bfraction.init } hrho
  refine ⟨t, ?_, ?_⟩
  · rw [batch_local_fst]; exact ht
  · rw [hd]
    have hsame : recordWeight exp { s with bfraction := s.bfraction.init }
        = recordWeight exp s := rfl
    rw [hsame, List.length_range']
    simp [BatchFraction.init]

/-- The weight of one record is positive for a positive exponential, on a
lattice with a cell, when the share `⌊ρ⌋ + 1` does not wrap. -/
theorem recordWeight_pos (exp : ℚ → ℚ) (hexp : ∀ x, 0 < exp x) (s : TrainState)
    (hrows : 1 ≤ s.weights.mrows) (hcols : 1 ≤ s.weights.mcols)
    (h0 : 0 ≤ s.nradius) (hlt : s.nradius < 4294967295) :
    0 < recordWeight exp s := by
  unfold recordWeight
  apply List.sum_pos
  · intro x hx
    obtain ⟨rc, -, rfl⟩ := List.mem_map.1 hx
    exact hexp _
  · intro hnil
    have hmem : ((0 : Nat), (0 : Nat)) ∈ accumulate_cells s 0 0 := by
      have hfl : ⌊s.nradius⌋₊ < 4294967295 := by
        rw [Nat.floor_lt h0]
        exact_mod_cast hlt
      have hshare : toUnsigned s.nradius = ⌊s.nradius⌋₊ := by
        unfold toUnsigned
        exact u32_of_le _ (by simp only [UINT_MAX]; omega)
      simp only [accumulate_cells, accumulate_bounds, mem_loop_cells, hshare]
      have hu : u32 (0 + ⌊s.nradius⌋₊ + 1) = ⌊s.nradius⌋₊ + 1 := by
        rw [Nat.zero_add]
        exact u32_of_le _ (by simp only [UINT_MAX]; omega)
      rw [hu]
      refine ⟨⟨?_, ?_⟩, ⟨?_, ?_⟩⟩
      · split_ifs <;> omega
      · exact lt_min (by omega) (by omega)
      · split_ifs <;> omega
      · exact lt_min (by omega) (by omega)
    have := List.map_eq_nil_iff.1 hnil
    rw [this] at hmem
    cases hmem

theorem allSome_map_values {α β γ : Type} (f : α → Option β) (h : β → γ) (k : α → γ)
    (l : List α) (hall : ∀ x ∈ l, ∃ y, f x = some y ∧ h y = k x) :
    ∃ ys, allSome (l.map f) = some ys ∧ ys.map h = l.map k := by
  induction l with
  | nil => exact ⟨[], rfl, rfl⟩
  | cons a t ih =>
    obtain ⟨y, hy, hk⟩ := hall a (List.mem_cons_self a t)
    obtain ⟨ys, hys, hm⟩ := ih (fun x hx => hall x (List.mem_cons_of_mem a hx))
    refine ⟨y :: ys, ?_, ?_⟩
    · simp only [List.map_cons, hy, allSome, hys, Option.map_some']
    · simp only [List.map_cons, hk, hm]

/-- The end of `batch_present` returns when the reduced denominator and the
product `valmean * size3()` are not zero. -/
theorem batch_finish_some (state : TrainState) (hden : state.bfraction.denominator ≠ 0)
    (hnorm : state.constants.valmean * (state.weights.size3 : ℚ) ≠ 0) :
    ∃ t, batch_finish state = some t := by
  obtain ⟨w, hc, -⟩ := commit_spec state.bfraction state.weights hden
  simp only [batch_finish, hc, Option.some_bind, ddiv, if_neg hnorm, Option.map_some']
  exact ⟨_, rfl⟩

/-- A batch returns on every rank when no radius is zero, some rank presents a
record with a weight that is not zero in total, and `valmean * size3()` is not
zero. -/
theorem world_batch_some (exp : ℚ → ℚ) (world : List TrainState)
    (hrho : ∀ s ∈ world, s.nradius ≠ 0)
    (hden : (world.map (fun s =>
      (((batch_bounds s).2 - (batch_bounds s).1 : ℕ) : ℚ) * recordWeight exp s)).sum ≠ 0)
    (hnorm : ∀ s ∈ world, s.constants.valmean * (s.weights.size3 : ℚ) ≠ 0) :
    ∃ next, world_batch exp world = some next := by
  obtain ⟨fracs, hf, hmap⟩ := allSome_map_values
    (fun s => ((batch_local exp s).1).map (fun t => t.bfraction))
    (fun f : BatchFraction => f.denominator)
    (fun s => (((batch_bounds s).2 - (batch_bounds s).1 : ℕ) : ℚ) * recordWeight exp s)
    world (by
      intro s hs
      obtain ⟨t, ht, hd⟩ := batch_local_denominator exp s (hrho s hs)
      exact ⟨t.bfraction, by simp only [ht, Option.map_some'], hd⟩)
  have hf2 : batch_fractions exp world = some fracs := hf
  apply allSome_exists
  intro q hq
  have hq2 : q < world.length := List.mem_range.1 hq
  obtain ⟨lq, hlq, hpq⟩ := batch_present_some exp world fracs hf2 q hq2
  obtain ⟨k1, k2, -⟩ := batch_local_keeps exp _ _ hlq
  rw [hpq]
  apply batch_finish_some
  · show (fracs.map (fun f => f.denominator)).sum ≠ 0
    rw [hmap]
    exact hden
  · show lq.constants.valmean * (lq.weights.size3 : ℚ) ≠ 0
    rw [k1, k2]
    exact hnorm _ (List.getElem_mem hq2)

theorem commit_shape (fraction : BatchFraction) (weights w : Weights) (d : ℚ)
    (h : batch_fraction_commit fraction weights = some (w, d)) :
    w.mrows = weights.mrows ∧ w.mcols = weights.mcols ∧ w.mdimensions = weights.mdimensions := by
  unfold batch_fraction_commit at h
  simp only [Option.map_eq_some', Prod.mk.injEq] at h
  obtain ⟨md, -, hw, -⟩ := h
  subst hw
  exact ⟨rfl, rfl, rfl⟩

/-- A call of `batch_present` that returns leaves the shape of the weights of
the rank as it was. -/
theorem batch_present_shape (exp : ℚ → ℚ) (world : List TrainState) (q : Nat)
    (hq : q < world.length) (t : TrainState) (h : (batch_present exp world q).1 = some t) :
    t.weights.mrows = world[q].weights.mrows ∧ t.weights.mcols = world[q].weights.mcols ∧
    t.weights.mdimensions = world[q].weights.mdimensions := by
  cases hf : batch_fractions exp world with
  | none => rw [batch_present_none exp world hf q] at h; simp at h
  | some fracs =>
    obtain ⟨lq, hlq, hpq⟩ := batch_present_some exp world fracs hf q hq
    obtain ⟨q1, -, -⟩ := batch_local_keeps exp _ _ hlq
    rw [hpq] at h
    simp only [batch_finish] at h
    cases hc : batch_fraction_commit (lq.bfraction.reduce fracs) lq.weights with
    | none => simp [hc] at h
    | some wd =>
      simp only [hc, Option.some_bind] at h
      cases hd : ddiv wd.2 (lq.constants.valmean * (lq.weights.size3 : ℚ)) with
      | none => simp [hd] at h
      | some d =>
        simp only [hd, Option.map_some', Option.some.injEq] at h
        subst h
        have := commit_shape _ _ wd.1 wd.2 hc
        rw [q1] at this
        exact this

theorem sameWeights_map (f : TrainState → TrainState) (hf : ∀ s, (f s).weights = s.weights)
    (world : List TrainState) (h : sameWeights world) : sameWeights (world.map f) := by
  intro p q hp hq
  simp only [List.getElem_map, hf]
  exact h p q (by simpa using hp) (by simpa using hq)

theorem inRun_sameRun (rows cols D : Nat) (world0 : List TrainState) (c : Constants)
    (hval : ∀ s ∈ world0, s.constants.valmean = c.valmean)
    (e b : Nat) (rho : ℚ) (world : List TrainState)
    (hin : inRun rows cols D world0 e b rho world) : sameRun world := by
  obtain ⟨-, hst, -, -⟩ := hin
  intro p q hp hq
  obtain ⟨sp, hsp, cp, -, -, -, -, -, -, np⟩ := hst p _ (List.getElem?_eq_getElem hp)
  obtain ⟨sq, hsq, cq, -, -, -, -, -, -, nq⟩ := hst q _ (List.getElem?_eq_getElem hq)
  refine ⟨?_, by rw [np, nq]⟩
  rw [cp, cq, hval sp (mem_of_getElem? _ _ _ hsp), hval sq (mem_of_getElem? _ _ _ hsq)]

/-- In a run that is ready, a batch with a cursor `b ≤ K` returns on every
rank, and the ranks are in the same batch of the run afterwards. -/
theorem inRun_batch (exp : ℚ → ℚ) (hexp : ∀ x, 0 < exp x) (c : Constants) (rows cols D : Nat)
    (world0 : List TrainState) {exp2 : ℚ → ℚ} (hready : runReady exp2 c rows cols D world0)
    (e b : Nat) (rho : ℚ) (world : List TrainState)
    (hin : inRun rows cols D world0 e b rho world)
    (hb1 : 1 ≤ b) (hbK : b ≤ c.batches) (hrho0 : 0 < rho) (hrho1 : rho < 4294967295) :
    ∃ after, world_batch exp world = some after ∧
      inRun rows cols D world0 e (b + 1) rho (nextBatch after) := by
  obtain ⟨hne, hE, hK, hval, hrows, hcols, hD, hconst, hrank0, hrad⟩ := hready
  have hsr : sameRun world :=
    inRun_sameRun rows cols D world0 c (fun s hs => (hconst s hs).2.2.2.2.2) e b rho world hin
  obtain ⟨hlen, hst, hsw, hdiff⟩ := hin
  have hfacts : ∀ s ∈ world, s.nradius = rho ∧ s.weights.mrows = rows ∧ s.weights.mcols = cols ∧
      s.weights.mdimensions = D ∧ s.constants.valmean = c.valmean := by
    intro s hs
    obtain ⟨q, hq, rfl⟩ := List.getElem_of_mem hs
    obtain ⟨s0, hs0, cq, -, -, rq, r1, r2, r3, -⟩ := hst q _ (List.getElem?_eq_getElem hq)
    exact ⟨rq, r1, r2, r3, by rw [cq]; exact (hconst s0 (mem_of_getElem? _ _ _ hs0)).2.2.2.2.2⟩
  have hpos : ∀ s ∈ world, 0 < recordWeight exp s := by
    intro s hs
    obtain ⟨f1, f2, f3, -, -⟩ := hfacts s hs
    exact recordWeight_pos exp hexp s (by omega) (by omega) (by rw [f1]; exact le_of_lt hrho0)
      (by rw [f1]; exact hrho1)
  have hsome : ∃ after, world_batch exp world = some after := by
    apply world_batch_some
    · intro s hs
      rw [(hfacts s hs).1]
      exact ne_of_gt hrho0
    · apply ne_of_gt
      have hlen0 : 0 < world.length := by
        rw [hlen]
        exact List.length_pos.2 hne
      obtain ⟨s, rest, hw⟩ : ∃ s rest, world = s :: rest := by
        cases hwd : world with
        | nil => rw [hwd] at hlen0; simp at hlen0
        | cons s rest => exact ⟨s, rest, rfl⟩
      have hs0 : world[0]? = some s := by rw [hw]; simp
      obtain ⟨s0, hs0', cq, -, bq, -⟩ := hst 0 s hs0
      have hcnt := hrank0 s ⟨s0, hs0', cq⟩ (by omega) (by omega)
      have hmem : s ∈ world := by rw [hw]; exact List.mem_cons_self s rest
      rw [hw, List.map_cons, List.sum_cons]
      have hterm : 0 < (((batch_bounds s).2 - (batch_bounds s).1 : ℕ) : ℚ) * recordWeight exp s := by
        apply mul_pos _ (hpos s hmem)
        exact_mod_cast Nat.sub_pos_of_lt hcnt
      have hrest : 0 ≤ (rest.map (fun s =>
          (((batch_bounds s).2 - (batch_bounds s).1 : ℕ) : ℚ) * recordWeight exp s)).sum := by
        apply List.sum_nonneg
        intro x hx
        obtain ⟨s', hs', rfl⟩ := List.mem_map.1 hx
        apply mul_nonneg (Nat.cast_nonneg _)
        exact le_of_lt (hpos s' (by rw [hw]; exact List.mem_cons_of_mem s hs'))
      linarith
    · intro s hs
      obtain ⟨-, f2, f3, f4, f5⟩ := hfacts s hs
      rw [f5]
      apply mul_ne_zero hval
      simp only [Weights.size3, Weights.size2, f2, f3, f4]
      have : 0 < rows * cols * D := Nat.mul_pos (Nat.mul_pos (by omega) (by omega)) (by omega)
      exact_mod_cast ne_of_gt this
  obtain ⟨after, hafter⟩ := hsome
  obtain ⟨hal, hfr⟩ := world_batch_frame exp world after hafter
  obtain ⟨-, hsw2, hdiff2⟩ := world_batch_uniform exp world after hsr hsw hafter
  refine ⟨after, hafter, ?_, ?_, ?_, ?_⟩
  · simp only [nextBatch, List.length_map, hal, hlen]
  · intro q s hs
    simp only [nextBatch, List.getElem?_map, Option.map_eq_some'] at hs
    obtain ⟨t, ht, rfl⟩ := hs
    obtain ⟨hq2, ht2⟩ := List.getElem?_eq_some_iff.1 ht
    have hq : q < world.length := hal ▸ hq2
    obtain ⟨s0, hs0, cq, eq, bq, rq, r1, r2, r3, nq⟩ := hst q _ (List.getElem?_eq_getElem hq)
    obtain ⟨t', ht', hbp, tc, te, tb, tr⟩ := hfr q _ (List.getElem?_eq_getElem hq)
    rw [ht, Option.some.injEq] at ht'
    subst ht'
    obtain ⟨k1, k2, k3⟩ := batch_present_shape exp world q hq t hbp
    obtain ⟨-, k4⟩ := batch_present_keeps exp world q hq t hbp
    refine ⟨s0, hs0, tc.trans cq, te.trans eq, ?_, tr.trans rq, k1.trans r1, k2.trans r2,
      k3.trans r3, k4.trans nq⟩
    show u32 (t.batch + 1) = b + 1
    rw [tb, bq]
    exact u32_of_le _ (by omega)
  · exact sameWeights_map (fun s => { s with batch := u32 (s.batch + 1) }) (fun _ => rfl)
      after hsw2
  · intro p q hp hq
    simp only [nextBatch, List.getElem_map]
    exact hdiff2 p q (by simpa [nextBatch] using hp) (by simpa [nextBatch] using hq)

theorem inRun_mem (exp : ℚ → ℚ) (c : Constants) (rows cols D : Nat)
    (world0 : List TrainState) (hready : runReady exp c rows cols D world0)
    (e b : Nat) (rho : ℚ) (world : List TrainState)
    (hin : inRun rows cols D world0 e b rho world) :
    world ≠ [] ∧
    ∀ s ∈ world, s.epoch = e ∧ s.batch = b ∧ s.nradius = rho ∧
      s.constants.epochs = c.epochs ∧ s.constants.batches = c.batches ∧
      s.constants.diffmin = c.diffmin ∧ s.constants.nradius = c.nradius ∧
      s.constants.rdecay = c.rdecay := by
  obtain ⟨hne, -, -, -, -, -, -, hconst, -, -⟩ := hready
  obtain ⟨hlen, hst, -, -⟩ := hin
  constructor
  · intro h
    rw [h] at hlen
    exact hne (List.length_eq_zero.1 hlen.symm)
  · intro s hs
    obtain ⟨q, hq, rfl⟩ := List.getElem_of_mem hs
    obtain ⟨s0, hs0, cq, eq, bq, rq, -⟩ := hst q _ (List.getElem?_eq_getElem hq)
    obtain ⟨c1, c2, c3, c4, c5, -⟩ := hconst s0 (mem_of_getElem? _ _ _ hs0)
    rw [cq]
    exact ⟨eq, bq, rq, c1, c2, c3, c4, c5⟩

/-- In a run that is ready, the loop of the batches returns when it has fuel
for the batches that are left and one more test. -/
theorem run_batches_total (exp : ℚ → ℚ) (hexp : ∀ x, 0 < exp x) (c : Constants)
    (rows cols D : Nat) (world0 : List TrainState) {exp2 : ℚ → ℚ}
    (hready : runReady exp2 c rows cols D world0)
    (e : Nat) (rho : ℚ) (hrho0 : 0 < rho) (hrho1 : rho < 4294967295) (k : Nat) :
    ∀ (fuel : Nat) (r : Run) (b : Nat), b + k = c.batches + 1 → 1 ≤ b → k < fuel →
      inRun rows cols D world0 e b rho r.world →
      ∃ r1, run_batches exp fuel r = Except.ok r1 ∧
        inRun rows cols D world0 e (c.batches + 1) rho r1.world := by
  induction k with
  | zero =>
    intro fuel r b hb hb1 hfuel hin
    obtain ⟨f, rfl⟩ : ∃ f, fuel = f + 1 := ⟨fuel - 1, by omega⟩
    obtain ⟨hne, hmem⟩ := inRun_mem exp2 c rows cols D world0 hready e b rho r.world hin
    have hu : unanimous r.world (fun s => decide (s.batch ≤ s.constants.batches))
        = Except.ok false := by
      apply unanimous_of_agree _ _ _ _ hne
      intro s hs
      obtain ⟨-, h2, -, -, h5, -⟩ := hmem s hs
      simp only [decide_eq_false_iff_not, h2, h5]
      omega
    refine ⟨r, ?_, ?_⟩
    · unfold run_batches
      rw [hu]
    · have hbe : b = c.batches + 1 := by omega
      rw [← hbe]; exact hin
  | succ k ih =>
    intro fuel r b hb hb1 hfuel hin
    obtain ⟨f, rfl⟩ : ∃ f, fuel = f + 1 := ⟨fuel - 1, by omega⟩
    obtain ⟨hne, hmem⟩ := inRun_mem exp2 c rows cols D world0 hready e b rho r.world hin
    have hu : unanimous r.world (fun s => decide (s.batch ≤ s.constants.batches))
        = Except.ok true := by
      apply unanimous_of_agree _ _ _ _ hne
      intro s hs
      obtain ⟨-, h2, -, -, h5, -⟩ := hmem s hs
      simp only [decide_eq_true_eq, h2, h5]
      omega
    obtain ⟨after, hafter, hin2⟩ := inRun_batch exp hexp c rows cols D world0 hready e b rho
      r.world hin hb1 (by omega) hrho0 hrho1
    obtain ⟨r1, hr1, hin3⟩ := ih f
      { world := nextBatch after, trace := r.trace ++ [TrainEvent.batch r.world after] }
      (b + 1) (by omega) (by omega) (by omega) hin2
    refine ⟨r1, ?_, hin3⟩
    unfold run_batches
    rw [hu]
    simp only [hafter]
    exact hr1

/-- An assignment of cursors or of the radius on every rank keeps the ranks in
the run. -/
theorem inRun_map (rows cols D : Nat) (world0 : List TrainState) (f : TrainState → TrainState)
    (hc : ∀ s, (f s).constants = s.constants) (hw : ∀ s, (f s).weights = s.weights)
    (hb : ∀ s, (f s).bfraction = s.bfraction) (hd : ∀ s, (f s).diff = s.diff)
    (e b e2 b2 : Nat) (rho rho2 : ℚ) (world : List TrainState)
    (hcur : ∀ s ∈ world, (f s).epoch = e2 ∧ (f s).batch = b2 ∧ (f s).nradius = rho2)
    (hin : inRun rows cols D world0 e b rho world) :
    inRun rows cols D world0 e2 b2 rho2 (world.map f) := by
  obtain ⟨hlen, hst, hsw, hdiff⟩ := hin
  refine ⟨by simp [hlen], ?_, sameWeights_map f hw world hsw, ?_⟩
  · intro q s hs
    simp only [List.getElem?_map, Option.map_eq_some'] at hs
    obtain ⟨t, ht, rfl⟩ := hs
    obtain ⟨s0, hs0, cq, -, -, -, r1, r2, r3, nq⟩ := hst q t ht
    obtain ⟨k1, k2, k3⟩ := hcur t (mem_of_getElem? _ _ _ ht)
    refine ⟨s0, hs0, (hc t).trans cq, k1, k2, k3, ?_, ?_, ?_, ?_⟩
    · rw [hw]; exact r1
    · rw [hw]; exact r2
    · rw [hw]; exact r3
    · rw [hb]; exact nq
  · intro p q hp hq
    simp only [List.getElem_map, hd]
    exact hdiff p q (by simpa using hp) (by simpa using hq)

/-- In a run that is ready, the loop of the epochs returns when it has fuel for
the epochs that are left and one more test, and fuel for `K + 1` tests of the
loop of the batches. -/
theorem run_epochs_total (exp : ℚ → ℚ) (hexp : ∀ x, 0 < exp x) (epcall : Bool) (c : Constants)
    (rows cols D : Nat) (world0 : List TrainState) (hready : runReady exp c rows cols D world0)
    (fuelB : Nat) (hfuelB : c.batches < fuelB) (k : Nat) :
    ∀ (fuel : Nat) (r : Run) (e b : Nat), e + k = c.epochs + 1 → 1 ≤ e → k < fuel →
      inRun rows cols D world0 e b (radiusDuring exp c e) r.world →
      ∃ r2, run_epochs exp epcall fuelB fuel r = Except.ok r2 := by
  induction k with
  | zero =>
    intro fuel r e b he he1 hfuel hin
    obtain ⟨f, rfl⟩ : ∃ f, fuel = f + 1 := ⟨fuel - 1, by omega⟩
    obtain ⟨hne, hmem⟩ := inRun_mem exp c rows cols D world0 hready e b _ r.world hin
    have hu : unanimous r.world (fun s => decide (s.epoch ≤ s.constants.epochs))
        = Except.ok false := by
      apply unanimous_of_agree _ _ _ _ hne
      intro s hs
      obtain ⟨h1, -, -, h4, -⟩ := hmem s hs
      simp only [decide_eq_false_iff_not, h1, h4]
      omega
    refine ⟨r, ?_⟩
    unfold run_epochs
    rw [hu]
  | succ k ih =>
    intro fuel r e b he he1 hfuel hin
    obtain ⟨f, rfl⟩ : ∃ f, fuel = f + 1 := ⟨fuel - 1, by omega⟩
    have hready' := hready
    obtain ⟨-, hE, hK, -, -, -, -, -, -, hrad⟩ := hready'
    obtain ⟨hne, hmem⟩ := inRun_mem exp c rows cols D world0 hready e b _ r.world hin
    have hu : unanimous r.world (fun s => decide (s.epoch ≤ s.constants.epochs))
        = Except.ok true := by
      apply unanimous_of_agree _ _ _ _ hne
      intro s hs
      obtain ⟨h1, -, -, h4, -⟩ := hmem s hs
      simp only [decide_eq_true_eq, h1, h4]
      omega
    obtain ⟨hr0, hr1⟩ := hrad e he1 (by omega)
    -- the batches of the epoch
    have hin1 : inRun rows cols D world0 e 1 (radiusDuring exp c e) (setBatch 1 r.world) :=
      inRun_map rows cols D world0 (fun s => { s with batch := 1 }) (fun _ => rfl)
        (fun _ => rfl) (fun _ => rfl) (fun _ => rfl) e b e 1 _ _ r.world
        (fun s hs => ⟨(hmem s hs).1, rfl, (hmem s hs).2.2.1⟩) hin
    obtain ⟨r1, hr1eq, hin2⟩ := run_batches_total exp hexp c rows cols D world0 hready e
      (radiusDuring exp c e) hr0 hr1 c.batches fuelB
      { world := setBatch 1 r.world, trace := r.trace } 1 (by omega) (le_refl 1) hfuelB hin1
    obtain ⟨-, hmem2⟩ := inRun_mem exp c rows cols D world0 hready e _ _ r1.world hin2
    -- the radius of the next epoch
    have hin3 : inRun rows cols D world0 e (c.batches + 1) (radiusDuring exp c (e + 1))
        (updateRadius exp r1.world) := by
      apply inRun_map rows cols D world0
        (fun s => { s with nradius := s.constants.nradius * exp ((s.epoch : ℚ) * s.constants.rdecay) })
        (fun _ => rfl) (fun _ => rfl) (fun _ => rfl) (fun _ => rfl) e (c.batches + 1) e
        (c.batches + 1) (radiusDuring exp c e) _ r1.world _ hin2
      intro s hs
      obtain ⟨h1, h2, -, -, -, -, h7, h8⟩ := hmem2 s hs
      refine ⟨h1, h2, ?_⟩
      obtain ⟨j, rfl⟩ : ∃ j, e = j + 1 := ⟨e - 1, by omega⟩
      show s.constants.nradius * exp ((s.epoch : ℚ) * s.constants.rdecay) = _
      rw [radiusDuring_succ, h1, h7, h8]
    obtain ⟨hne3, hmem3⟩ := inRun_mem exp c rows cols D world0 hready e _ _ _ hin3
    -- the convergence test
    obtain ⟨s1, rest, hw⟩ : ∃ s1 rest, updateRadius exp r1.world = s1 :: rest := by
      cases hwd : updateRadius exp r1.world with
      | nil => exact absurd hwd hne3
      | cons s1 rest => exact ⟨s1, rest, rfl⟩
    have hconv : unanimous (updateRadius exp r1.world)
        (fun s => decide (s.diff < s.constants.diffmin))
        = Except.ok (decide (s1.diff < c.diffmin)) := by
      apply unanimous_of_agree _ _ _ _ hne3
      intro s hs
      obtain ⟨q, hq, rfl⟩ := List.getElem_of_mem hs
      have h0 : 0 < (updateRadius exp r1.world).length := by rw [hw]; simp
      have hd := hin3.2.2.2 q 0 hq h0
      have hs1 : (updateRadius exp r1.world)[0] = s1 := by simp [hw]
      rw [hs1] at hd
      rw [hd, (hmem3 _ hs).2.2.2.2.2.1]
    unfold run_epochs
    rw [hu]
    simp only [hr1eq, hconv]
    cases hdec : decide (s1.diff < c.diffmin) with
    | true => exact ⟨_, rfl⟩
    | false =>
      simp only []
      have hin4 : inRun rows cols D world0 (e + 1) (c.batches + 1) (radiusDuring exp c (e + 1))
          (nextEpoch (updateRadius exp r1.world)) := by
        apply inRun_map rows cols D world0 (fun s => { s with epoch := u32 (s.epoch + 1) })
          (fun _ => rfl) (fun _ => rfl) (fun _ => rfl) (fun _ => rfl) e (c.batches + 1) (e + 1)
          (c.batches + 1) _ _ _ _ hin3
        intro s hs
        obtain ⟨h1, h2, h3, -⟩ := hmem3 s hs
        refine ⟨?_, h2, h3⟩
        show u32 (s.epoch + 1) = e + 1
        rw [h1]
        exact u32_of_le _ (by omega)
      exact ih f _ (e + 1) (c.batches + 1) (by omega) (by omega) (by omega) hin4

/-- The states that the constructors build on a well-formed file are ready for
a run when the counters do not wrap, the lattice has a cell, the scalars of the
file do not sum to zero and the radius of every epoch has a floor below
`2^32 - 1`. -/
theorem initialWorld_ready (exp : ℚ → ℚ) (hexp : ∀ x, 0 < exp x) (R : Nat) (lattice : Lattice)
    (settings : TrainSettings) (D : Nat) (world0 : List TrainState)
    (h0 : initialWorld R lattice settings = some world0)
    (hD : dataset_dimensions settings.mdataset = some D)
    (hall : ∀ line ∈ settings.mdataset, line.length = D)
    (hNB : settings.mdataset.length + settings.mbatchsize < UINT_MAX) (hR : 1 ≤ R)
    (hrows : 1 ≤ lattice.mrows) (hcols : 1 ≤ lattice.mcols)
    (hsum : scalarSum settings.mdataset ≠ 0)
    (hE : epochCap settings < UINT_MAX)
    (hrad0 : startRadius lattice settings < 4294967295)
    (hrad : ∀ e, 1 ≤ e → e < epochCap settings →
      startRadius lattice settings * exp ((e : ℚ) * settings.mrdecay) < 4294967295) :
    ∃ s0, world0[0]? = some s0 ∧
      s0.constants.epochs = epochCap settings ∧
      s0.constants.nradius = startRadius lattice settings ∧
      s0.constants.rdecay = settings.mrdecay ∧
      s0.constants.batches ≤ settings.mdataset.length ∧
      runReady exp s0.constants lattice.mrows lattice.mcols D world0 := by
  have hU : UINT_MAX = 4294967295 := rfl
  have hN : settings.mdataset.length ≤ UINT_MAX := by omega
  have hwf : wellFormed settings.mdataset = true := (wellFormed_iff _).2 ⟨D, hD, hall⟩
  obtain ⟨hDpos, hN1⟩ := dataset_dimensions_pos _ D hD
  obtain ⟨hlen, hctor⟩ := initialWorld_spec R lattice settings world0 h0
  have hBl := loopBatchsize_pos settings.mbatchsize R hR
  have hB1 : 1 ≤ (if loopBatchsize settings.mbatchsize R < UINT_MAX
      then loopBatchsize settings.mbatchsize R else settings.mdataset.length) := by
    split_ifs <;> omega
  obtain ⟨hceil, hceil_le, hceil_iff⟩ := batches_ceil settings.mdataset.length _ hN hB1
  -- the constants of every rank
  have hconst : ∀ q (hq : q < world0.length),
      world0[q].constants.epochs = epochCap settings ∧
      world0[q].constants.batches
        = ⌈(settings.mdataset.length : ℚ)
            / ((if loopBatchsize settings.mbatchsize R < UINT_MAX
                then loopBatchsize settings.mbatchsize R else settings.mdataset.length : ℕ) : ℚ)⌉₊ ∧
      world0[q].constants.diffmin
        = (if settings.mdiffmin > 1 / 1000000 then settings.mdiffmin else 0) ∧
      world0[q].constants.nradius = startRadius lattice settings ∧
      world0[q].constants.rdecay = settings.mrdecay ∧
      world0[q].constants.valmean
        = scalarSum settings.mdataset / (settings.mdataset.length : ℚ) ∧
      world0[q].constants.rbatchsize
        = parallel.distribute ⟨q, R⟩
            (if loopBatchsize settings.mbatchsize R < UINT_MAX
              then loopBatchsize settings.mbatchsize R else settings.mdataset.length) q ∧
      world0[q].constants.dataset.mrrecords
        = Nat.count (fun i => (i % loopBatchsize settings.mbatchsize R) % R = q)
            settings.mdataset.length := by
    intro q hq
    obtain ⟨c1, c2, c3, c4, -, c6, c7, c8, -, -⟩ :=
      ctor_constants ⟨q, R⟩ lattice settings _ D (hctor q hq) hD hR hN
    obtain ⟨f1, -, -, f4, f5, -⟩ := ctor_state_fields _ _ _ _ (hctor q hq)
    obtain ⟨ds, hds, hv⟩ := ctor_valmean ⟨q, R⟩ settings.mdataset settings.mbatchsize hwf hR hN
    have hsame : world0[q].constants.dataset = ds := Option.some.inj (f1.symm.trans hds)
    refine ⟨c1, ?_, c2, f5, c3, ?_, ?_, c8⟩
    · rw [c7, c4]; exact hceil
    · rw [f4, hsame]; exact hv
    · rw [c6, c4]
  have hq0 : 0 < world0.length := by omega
  obtain ⟨e0, k0, d0, n0, r0, v0, b0, m0⟩ := hconst 0 hq0
  have hmem : ∀ s ∈ world0, ∃ q, ∃ hq : q < world0.length, s = world0[q] := by
    intro s hs
    obtain ⟨q, hq, rfl⟩ := List.getElem_of_mem hs
    exact ⟨q, hq, rfl⟩
  refine ⟨world0[0], List.getElem?_eq_getElem hq0, e0, n0, r0, by rw [k0]; exact hceil_le,
    ?_, ?_, ?_, ?_, hrows, hcols, hDpos, ?_, ?_, ?_⟩
  · intro h; rw [h] at hq0; simp at hq0
  · rw [e0]; exact hE
  · rw [k0]
    by_cases hcase : loopBatchsize settings.mbatchsize R < UINT_MAX
    · have : settings.mdataset.length < UINT_MAX := by omega
      omega
    · rw [if_neg hcase]
      have hNq : ((settings.mdataset.length : ℕ) : ℚ) ≠ 0 := by
        exact_mod_cast (by omega : settings.mdataset.length ≠ 0)
      rw [div_self hNq]
      simp only [Nat.ceil_one]
      omega
  · rw [v0]
    apply div_ne_zero hsum
    exact_mod_cast (by omega : settings.mdataset.length ≠ 0)
  · intro s hs
    obtain ⟨q, hq, rfl⟩ := hmem s hs
    obtain ⟨e1, k1, d1, n1, r1, v1, -, -⟩ := hconst q hq
    exact ⟨e1.trans e0.symm, k1.trans k0.symm, d1.trans d0.symm, n1.trans n0.symm,
      r1.trans r0.symm, v1.trans v0.symm⟩
  · rintro s ⟨s0, hs0, hc⟩ ht1 htK
    rw [List.getElem?_eq_getElem hq0, Option.some.injEq] at hs0
    subst hs0
    apply rank0_bounds s settings.mbatchsize R settings.mdataset.length hR (by omega)
    · rw [hc]; exact b0
    · rw [hc]; exact m0
    · exact ht1
    · rw [k0] at htK
      exact (hceil_iff s.batch ht1).1 htK
  · intro e he1 heE
    rw [e0] at heE
    have hpos0 : 0 < startRadius lattice settings := by
      unfold startRadius
      split_ifs with h
      · have : (0 : ℚ) < 1 / 1000000 := by norm_num
        linarith
      · have hmin : 1 ≤ min lattice.mrows lattice.mcols := le_min hrows hcols
        have : (1 : ℚ) ≤ ((min lattice.mrows lattice.mcols : ℕ) : ℚ) := by exact_mod_cast hmin
        linarith
    obtain ⟨j, rfl⟩ : ∃ j, e = j + 1 := ⟨e - 1, by omega⟩
    cases j with
    | zero =>
      simp only [radiusDuring, Nat.zero_add, le_refl, if_true, n0]
      exact ⟨hpos0, hrad0⟩
    | succ j =>
      rw [radiusDuring_succ, n0, r0]
      exact ⟨mul_pos hpos0 (hexp _), hrad (j + 1) (by omega) (by omega)⟩

/-- On a well-formed file, with a positive exponential, `Lattice::train`
returns: the model has a result when the counters do not wrap, the lattice has
a cell, the scalars of the file do not sum to zero, the radius of every epoch
has a floor below `2^32 - 1`, and the loops have fuel for `E + 1` and `K + 1`
tests. -/
theorem train_total (exp : ℚ → ℚ) (hexp : ∀ x, 0 < exp x) (rand : Nat → Nat)
    (fuelE fuelB R : Nat) (lattice : Lattice) (settings : TrainSettings)
    (hwf : wellFormed settings.mdataset = true)
    (hNB : settings.mdataset.length + settings.mbatchsize < UINT_MAX) (hR : 1 ≤ R)
    (hrows : 1 ≤ lattice.mrows) (hcols : 1 ≤ lattice.mcols)
    (hsum : scalarSum settings.mdataset ≠ 0)
    (hE : epochCap settings < UINT_MAX)
    (hrad0 : startRadius lattice settings < 4294967295)
    (hrad : ∀ e, 1 ≤ e → e < epochCap settings →
      startRadius lattice settings * exp ((e : ℚ) * settings.mrdecay) < 4294967295)
    (hfuelE : epochCap settings < fuelE) (hfuelB : settings.mdataset.length < fuelB) :
    ∃ r, Lattice.train exp rand fuelE fuelB R lattice settings = Except.ok r := by
  have hU : UINT_MAX = 4294967295 := rfl
  have hN : settings.mdataset.length ≤ UINT_MAX := by omega
  obtain ⟨D, hD, hall⟩ := (wellFormed_iff settings.mdataset).1 hwf
  obtain ⟨world0, h0, hlen0, hload, hfields⟩ :=
    initialWorld_loaded R lattice settings D hD hN hR
  obtain ⟨world1, h1⟩ := world_init_some settings.mdataset settings.mbatchsize world0 rand hwf hN
    hload
  obtain ⟨s0, hs0, e0, n0, r0, k0, hready⟩ := initialWorld_ready exp hexp R lattice settings D
    world0 h0 hD hall hNB hR hrows hcols hsum hE hrad0 hrad
  obtain ⟨hl1, hfr⟩ := world_init_frame rand world0 world1 h1
  obtain ⟨-, hsw1⟩ := trainRun_uniform exp rand R lattice settings world0 world1 hwf hN h0
    (trainRun.init world1 h1)
  have hready' := hready
  obtain ⟨-, -, -, -, -, -, -, hconst, -, -⟩ := hready'
  -- the states at the first test of the loop of the epochs
  have hin : inRun lattice.mrows lattice.mcols D world0 1 0 (radiusDuring exp s0.constants 1)
      (setEpoch 1 (setEpoch 0 world1)) := by
    refine ⟨by simp [setEpoch, hl1], ?_, ?_, ?_⟩
    · intro q s hs
      simp only [setEpoch, List.map_map, List.getElem?_map, Option.map_eq_some'] at hs
      obtain ⟨t, ht, rfl⟩ := hs
      obtain ⟨hq1, -⟩ := List.getElem?_eq_some_iff.1 ht
      have hq : q < world0.length := hl1 ▸ hq1
      obtain ⟨t', ht', hinit, tc, tb, -, tbt, tr, -⟩ := hfr q _ (List.getElem?_eq_getElem hq)
      rw [ht, Option.some.injEq] at ht'
      subst ht'
      obtain ⟨s', hs', -, -, -, -, -, -, w1, w2, w3⟩ := init_keeps rand world0 q t hinit
      rw [List.getElem?_eq_getElem hq, Option.some.injEq] at hs'
      subst hs'
      obtain ⟨f1, f2, -, f4, -, f6⟩ := hfields q hq
      refine ⟨world0[q], List.getElem?_eq_getElem hq, tc, rfl, ?_, ?_, ?_, ?_, ?_, ?_⟩
      · show t.batch = 0
        rw [tbt, f4]
      · show t.nradius = radiusDuring exp s0.constants 1
        rw [tr, f6, (hconst _ (List.getElem_mem hq)).2.2.2.1]
        simp [radiusDuring]
      · show t.weights.mrows = lattice.mrows
        rw [w1, f1]; rfl
      · show t.weights.mcols = lattice.mcols
        rw [w2, f1]; rfl
      · show t.weights.mdimensions = D
        rw [w3, f1]; rfl
      · show t.bfraction.numerator.size3 = lattice.mrows * lattice.mcols * D
        rw [tb, f2]; rfl
    · have := sameWeights_map (fun s => { s with epoch := 1 }) (fun _ => rfl) _
        (sameWeights_map (fun s => { s with epoch := 0 }) (fun _ => rfl) world1 hsw1)
      exact this
    · intro p q hp hq
      simp only [setEpoch, List.map_map, List.getElem_map, Function.comp]
      have hp1 : p < world1.length := by simpa [setEpoch] using hp
      have hq1 : q < world1.length := by simpa [setEpoch] using hq
      have hp0 : p < world0.length := hl1 ▸ hp1
      have hq0 : q < world0.length := hl1 ▸ hq1
      obtain ⟨tp, htp, -, -, -, -, -, -, dp⟩ := hfr p _ (List.getElem?_eq_getElem hp0)
      obtain ⟨tq, htq, -, -, -, -, -, -, dq⟩ := hfr q _ (List.getElem?_eq_getElem hq0)
      rw [List.getElem?_eq_getElem hp1, Option.some.injEq] at htp
      rw [List.getElem?_eq_getElem hq1, Option.some.injEq] at htq
      show world1[p].diff = world1[q].diff
      rw [htp, htq, dp, dq, (hfields p hp0).2.2.2.2.1, (hfields q hq0).2.2.2.2.1]
  obtain ⟨r2, hr2⟩ := run_epochs_total exp hexp settings.mepcall s0.constants lattice.mrows
    lattice.mcols D world0 hready fuelB (by omega) s0.constants.epochs fuelE
    { world := setEpoch 1 (setEpoch 0 world1)
      trace := [TrainEvent.init (setEpoch 0 world1), TrainEvent.print (setEpoch 0 world1)]
        ++ (if settings.mepcall then [TrainEvent.epcall (setEpoch 0 world1)] else []) }
    1 0 (by omega) (le_refl 1) (by omega) hin
  refine ⟨{ world := r2.world, trace := r2.trace ++ [TrainEvent.print r2.world] }, ?_⟩
  unfold Lattice.train
  rw [h0]
  dsimp only
  rw [h1]
  dsimp only
  rw [hr2]

theorem expLinear_pos (x : ℚ) : 0 < expLinear x := by
  unfold expLinear
  split_ifs with h
  · linarith
  · apply div_pos one_pos
    linarith

/-- The model of `Lattice::train` returns on the settings `callSettings`, on
two ranks. -/
theorem callSettings_run (rand : Nat → Nat) :
    ∃ r, Lattice.train expLinear rand 3 4 2 ⟨1, 2⟩ callSettings = Except.ok r := by
  apply train_total expLinear expLinear_pos rand 3 4 2 ⟨1, 2⟩ callSettings
  · decide
  · decide
  · decide
  · decide
  · decide
  · norm_num [scalarSum, callSettings]
  · decide
  · norm_num [startRadius, callSettings]
  · intro e he1 he2
    have he : e = 1 := by
      have : epochCap callSettings = 2 := by decide
      omega
    subst he
    norm_num [startRadius, callSettings, expLinear]
  · decide
  · decide

/-- A run of `Lattice::train` that returns, seen from the rank `q` whose
constants `c` have an epoch cap and a number of batches below `UINT_MAX`: the
calls of `batch_present`, the assignments of the radius, the calls of the
callback and of `print`, and the convergence tests of the whole run. -/
theorem train_end (exp : ℚ → ℚ) (rand : Nat → Nat) (fuelE fuelB ranks : Nat)
    (lattice : Lattice) (settings : TrainSettings) (r : Run)
    (h : Lattice.train exp rand fuelE fuelB ranks lattice settings = Except.ok r)
    (world0 : List TrainState) (h0 : initialWorld ranks lattice settings = some world0)
    (q : Nat) (hq : q < world0.length)
    (hE : world0[q].constants.epochs < UINT_MAX)
    (hK : world0[q].constants.batches < UINT_MAX) :
    ∃ n conv s, r.world[q]? = some s ∧ s.constants = world0[q].constants ∧
      n ≤ world0[q].constants.epochs ∧
      (conv = true → 1 ≤ n ∧ s.epoch = n) ∧
      (conv = false → n = world0[q].constants.epochs ∧
        s.epoch = world0[q].constants.epochs + 1) ∧
      s.nradius = radiusDuring exp world0[q].constants (n + 1) ∧
      (batchStates q r.trace).map (fun p => (p.1.epoch, p.1.batch, p.1.nradius))
        = epochGrid exp world0[q].constants n ∧
      (updateStates q r.trace).map (fun s => (s.epoch, s.nradius))
        = (List.range' 1 n).map (fun e => (e, radiusAfter exp world0[q].constants e)) ∧
      (epcallStates q r.trace).map (fun s => s.epoch)
        = (if settings.mepcall then 0 :: List.range' 1 (if conv then n - 1 else n) else []) ∧
      (printStates q r.trace).map (fun s => s.epoch) = [0, s.epoch] ∧
      (1 ≤ world0[q].constants.batches → ∀ p ∈ diffTests q r.trace, p.1 = some p.2) ∧
      (∀ st ∈ (updateStates q r.trace).dropLast, ¬ st.diff < world0[q].constants.diffmin) ∧
      (conv = true → ∃ st, (updateStates q r.trace).getLast? = some st ∧
        st.diff < world0[q].constants.diffmin) ∧
      (conv = false →
        ∀ st ∈ updateStates q r.trace, ¬ st.diff < world0[q].constants.diffmin) := by
  obtain ⟨n, conv, r2, hend, hw, htr⟩ := train_shape exp rand fuelE fuelB ranks lattice settings r
    h world0 h0 q hq hE hK
  obtain ⟨s, hs, hc, hn, hct, hcf, hr, ⟨h1, h2, h3, h4, h5⟩, hd, hlast, hall⟩ := hend
  have hb : batchStates q r.trace = batchStates q r2.trace := by
    rw [htr, batchStates_append]; simp [batchStates]
  have hu : updateStates q r.trace = updateStates q r2.trace := by
    rw [htr, updateStates_append]; simp [updateStates]
  have he : epcallStates q r.trace = epcallStates q r2.trace := by
    rw [htr, epcallStates_append]; simp [epcallStates]
  have hp : printStates q r.trace = printStates q r2.trace ++ [s] := by
    rw [htr, printStates_append]; simp [printStates, hs]
  have ht : diffTests q r.trace = diffTests q r2.trace := by
    rw [htr]; simp [diffTests, List.foldl_append, diffStep]
  refine ⟨n, conv, s, by rw [hw]; exact hs, hc, hn, hct, hcf, hr, by rw [hb, h1, List.append_nil],
    by rw [hu]; exact h2, by rw [he]; exact h3, ?_, by rw [ht]; exact h5, by rw [hu]; exact hd,
    by rw [hu]; exact hlast, by rw [hu]; exact hall⟩
  rw [hp, List.map_append, h4]
  rfl

/-- The states that the constructors build for `callSettings` on two ranks. -/
theorem callSettings_world :
    ∃ world0, initialWorld 2 ⟨1, 2⟩ callSettings = some world0 ∧
      ∃ hq : 0 < world0.length,
        world0[0].constants.epochs = 2 ∧ world0[0].constants.batches ≤ 3 ∧
        world0[0].constants.nradius = 1 ∧ world0[0].constants.rdecay = 1 / 10 := by
  obtain ⟨world0, h0, hlen, -, -⟩ := initialWorld_loaded 2 ⟨1, 2⟩ callSettings 2 (by decide)
    (by decide) (by decide)
  obtain ⟨s0, hs0, e0, n0, r0, k0, -⟩ := initialWorld_ready expLinear expLinear_pos 2 ⟨1, 2⟩
    callSettings 2 world0 h0 (by decide) (by decide) (by decide) (by decide) (by decide)
    (by decide) (by norm_num [scalarSum, callSettings]) (by decide)
    (by norm_num [startRadius, callSettings])
    (by
      intro e he1 he2
      have he : e = 1 := by
        have : epochCap callSettings = 2 := by decide
        omega
      subst he
      norm_num [startRadius, callSettings, expLinear])
  have hq : 0 < world0.length := by omega
  rw [List.getElem?_eq_getElem hq, Option.some.injEq] at hs0
  subst hs0
  refine ⟨world0, h0, hq, ?_, ?_, ?_, ?_⟩
  · rw [e0]; decide
  · exact k0
  · rw [n0]; norm_num [startRadius, callSettings]
  · rw [r0]; rfl

theorem epochGrid_cursors (exp : ℚ → ℚ) (c : Constants) (n : Nat) :
    (epochGrid exp c n).map (fun x => (x.1, x.2.1))
      = (List.range' 1 n).flatMap (fun e => (List.range' 1 c.batches).map (fun t => (e, t))) := by
  simp only [epochGrid, List.map_flatMap, List.map_map]
  rfl

theorem mem_epochGrid (exp : ℚ → ℚ) (c : Constants) (n : Nat) (x : Nat × Nat × ℚ)
    (h : x ∈ epochGrid exp c n) :
    1 ≤ x.1 ∧ x.1 ≤ n ∧ 1 ≤ x.2.1 ∧ x.2.1 ≤ c.batches ∧ x.2.2 = radiusDuring exp c x.1 := by
  simp only [epochGrid, List.mem_flatMap, List.mem_map, List.mem_range'_1] at h
  obtain ⟨e, ⟨he1, he2⟩, t, ⟨ht1, ht2⟩, rfl⟩ := h
  dsimp only
  exact ⟨he1, by omega, ht1, by omega, rfl⟩

theorem world_batch_mem (exp : ℚ → ℚ) (world next : List TrainState)
    (h : world_batch exp world = some next) :
    ∀ t ∈ next, ∃ s ∈ world, t.constants = s.constants ∧ t.epoch = s.epoch ∧
      t.batch = s.batch ∧ t.nradius = s.nradius := by
  obtain ⟨hl, hfr⟩ := world_batch_frame exp world next h
  intro t ht
  obtain ⟨q, hq, rfl⟩ := List.getElem_of_mem ht
  have hq0 : q < world.length := hl ▸ hq
  obtain ⟨t', ht', -, k1, k2, k3, k4⟩ := hfr q _ (List.getElem?_eq_getElem hq0)
  rw [List.getElem?_eq_getElem hq, Option.some.injEq] at ht'
  subst ht'
  exact ⟨world[q], List.getElem_mem hq0, k1, k2, k3, k4⟩

theorem world_init_mem (rand : Nat → Nat) (world0 world1 : List TrainState)
    (h : world_init rand world0 = some world1) :
    ∀ t ∈ world1, ∃ s ∈ world0, t.constants = s.constants ∧ t.nradius = s.nradius := by
  obtain ⟨hl, hfr⟩ := world_init_frame rand world0 world1 h
  intro t ht
  obtain ⟨q, hq, rfl⟩ := List.getElem_of_mem ht
  have hq0 : q < world0.length := hl ▸ hq
  obtain ⟨t', ht', -, k1, -, -, -, k5, -⟩ := hfr q _ (List.getElem?_eq_getElem hq0)
  rw [List.getElem?_eq_getElem hq, Option.some.injEq] at ht'
  subst ht'
  exact ⟨world0[q], List.getElem_mem hq0, k1, k5⟩

/-- The radius that the constructor captures is not negative. -/
theorem ctor_radius_nonneg (st : parallel.State) (lattice : Lattice) (settings : TrainSettings)
    (t : TrainState) (h : TrainState.ctor st lattice settings = some t) :
    0 ≤ t.constants.nradius ∧ t.nradius = t.constants.nradius := by
  obtain ⟨-, -, -, -, h5, h6, -⟩ := ctor_state_fields st lattice settings t h
  refine ⟨?_, h6⟩
  rw [h5]
  split_ifs with hgt
  · have : (0 : ℚ) < 1 / 1000000 := by norm_num
    linarith
  · have : (0 : ℚ) ≤ ((min lattice.mrows lattice.mcols : ℕ) : ℚ) := Nat.cast_nonneg _
    linarith

theorem initialWorld_mem (R : Nat) (lattice : Lattice) (settings : TrainSettings)
    (world0 : List TrainState) (h : initialWorld R lattice settings = some world0) :
    ∀ s ∈ world0, ∃ q, TrainState.ctor ⟨q, R⟩ lattice settings = some s := by
  obtain ⟨-, hg⟩ := initialWorld_spec R lattice settings world0 h
  intro s hs
  obtain ⟨q, hq, rfl⟩ := List.getElem_of_mem hs
  exact ⟨q, hg q hq⟩

theorem radiusNonneg_map (f : TrainState → TrainState)
    (hf : ∀ s, 0 ≤ s.constants.nradius → 0 ≤ s.nradius →
      0 ≤ (f s).constants.nradius ∧ 0 ≤ (f s).nradius)
    (r : Run) (h : radiusNonneg r) :
    radiusNonneg { world := r.world.map f, trace := r.trace } := by
  obtain ⟨h1, h2, h3⟩ := h
  refine ⟨?_, h2, h3⟩
  intro s hs
  obtain ⟨t, ht, rfl⟩ := List.mem_map.1 hs
  exact hf t (h1 t ht).1 (h1 t ht).2

theorem radiusNonneg_update (exp : ℚ → ℚ) (hexp : ∀ x, 0 ≤ exp x) (r1 : Run)
    (h : radiusNonneg r1) (tail : List TrainEvent)
    (htail : ∀ q, updateStates q tail = [] ∧ batchStates q tail = []) :
    radiusNonneg
      { world := updateRadius exp r1.world
        trace := r1.trace ++ [TrainEvent.update (updateRadius exp r1.world)] ++ tail } := by
  obtain ⟨h1, h2, h3⟩ := h
  have hnew : ∀ s ∈ updateRadius exp r1.world, 0 ≤ s.constants.nradius ∧ 0 ≤ s.nradius := by
    intro s hs
    obtain ⟨t, ht, rfl⟩ := List.mem_map.1 hs
    exact ⟨(h1 t ht).1, mul_nonneg (h1 t ht).1 (hexp _)⟩
  refine ⟨hnew, ?_, ?_⟩
  · intro q s hs
    rw [updateStates_append, updateStates_append, (htail q).1, List.append_nil,
      List.mem_append] at hs
    rcases hs with hs | hs
    · exact h2 q s hs
    · simp only [updateStates, List.filterMap_cons, List.filterMap_nil] at hs
      cases hw : (updateRadius exp r1.world)[q]? with
      | none => simp [hw] at hs
      | some t =>
        simp only [hw, List.mem_singleton] at hs
        subst hs
        exact (hnew _ (mem_of_getElem? _ _ _ hw)).2
  · intro q p hp
    rw [batchStates_append, batchStates_append, (htail q).2, List.append_nil] at hp
    simp only [batchStates, List.filterMap_cons, List.filterMap_nil, List.append_nil] at hp
    exact h3 q p hp

/-- The loop of the epochs keeps every radius non-negative when the
exponential is non-negative. -/
theorem run_epochs_radius (exp : ℚ → ℚ) (hexp : ∀ x, 0 ≤ exp x) (epcall : Bool)
    (fuelB fuel : Nat) (r r2 : Run) (hI : radiusNonneg r)
    (h : run_epochs exp epcall fuelB fuel r = Except.ok r2) : radiusNonneg r2 := by
  refine run_epochs_rule exp epcall fuelB radiusNonneg radiusNonneg radiusNonneg
    ?_ ?_ ?_ ?_ (fun r hI _ => hI) fuel r r2 hI h
  · intro r hI _
    exact radiusNonneg_map (fun s => { s with batch := 1 }) (fun s h1 h2 => ⟨h1, h2⟩) r hI
  · intro r after hJ _ hb
    obtain ⟨h1, h2, h3⟩ := hJ
    have hmem := world_batch_mem exp r.world after hb
    refine ⟨?_, ?_, ?_⟩
    · intro s hs
      obtain ⟨t, ht, rfl⟩ := List.mem_map.1 hs
      obtain ⟨s0, hs0, k1, -, -, k4⟩ := hmem t ht
      show 0 ≤ t.constants.nradius ∧ 0 ≤ t.nradius
      rw [k1, k4]
      exact h1 s0 hs0
    · intro q s hs
      rw [updateStates_append] at hs
      simp only [updateStates, List.filterMap_cons, List.filterMap_nil, List.append_nil] at hs
      exact h2 q s hs
    · intro q p hp
      rw [batchStates_append, List.mem_append] at hp
      rcases hp with hp | hp
      · exact h3 q p hp
      · simp only [batchStates, List.filterMap_cons, List.filterMap_nil] at hp
        cases hw : r.world[q]? with
        | none => simp [hw] at hp
        | some s =>
          cases ha : after[q]? with
          | none => simp [hw, ha] at hp
          | some t =>
            simp only [hw, ha, Option.some_bind, Option.map_some', List.mem_singleton] at hp
            subst hp
            exact (h1 s (mem_of_getElem? _ _ _ hw)).2
  · intro r1 hJ _ _
    have := radiusNonneg_update exp hexp r1 hJ [] (fun q => ⟨rfl, rfl⟩)
    simpa using this
  · intro r1 hJ _ _
    have hup := radiusNonneg_update exp hexp r1 hJ
      (if epcall then [TrainEvent.epcall (updateRadius exp r1.world)] else [])
      (fun q => by cases epcall <;> exact ⟨rfl, rfl⟩)
    exact radiusNonneg_map (fun s => { s with epoch := u32 (s.epoch + 1) })
      (fun s h1 h2 => ⟨h1, h2⟩) _ hup

theorem commit_fold_nonneg (num : Ptr) (den : ℚ) (off : Nat) (l : List Nat)
    (acc : Option (List ℚ × ℚ)) (hacc : ∀ md, acc = some md → 0 ≤ md.2) (md2 : List ℚ × ℚ)
    (h : l.foldl
        (fun acc idx => acc.bind (fun md : List ℚ × ℚ =>
          (ddiv (num.read idx) den).map (fun update =>
            (md.1.set (off + idx) (md.1.getD (off + idx) 0 + update), md.2 + |update|))))
        acc = some md2) :
    0 ≤ md2.2 := by
  induction l generalizing acc with
  | nil => exact hacc md2 h
  | cons idx rest ih =>
    rw [List.foldl_cons] at h
    refine ih _ ?_ h
    intro md hmd
    cases acc with
    | none => simp at hmd
    | some m =>
      simp only [Option.some_bind, Option.map_eq_some'] at hmd
      obtain ⟨u, -, hu⟩ := hmd
      subst hu
      have := hacc m rfl
      positivity

/-- The difference that `batch_fraction_commit` returns is a sum of absolute
values. -/
theorem commit_diff_nonneg (fraction : BatchFraction) (weights w : Weights) (d : ℚ)
    (h : batch_fraction_commit fraction weights = some (w, d)) : 0 ≤ d := by
  unfold batch_fraction_commit at h
  simp only [Option.map_eq_some', Prod.mk.injEq] at h
  obtain ⟨md, hmd, -, hd⟩ := h
  subst hd
  exact commit_fold_nonneg _ _ _ _ _ (fun m hm => by cases hm; exact le_refl _) md hmd

/-- The `diff` that the end of `batch_present` stores has the sign of
`valmean`. -/
theorem batch_finish_sign (state t : TrainState) (h : batch_finish state = some t) :
    (0 < state.constants.valmean → 0 ≤ t.diff) ∧ (state.constants.valmean < 0 → t.diff ≤ 0) := by
  simp only [batch_finish] at h
  cases hc : batch_fraction_commit state.bfraction state.weights with
  | none => simp [hc] at h
  | some wd =>
    simp only [hc, Option.some_bind] at h
    have hnn : 0 ≤ wd.2 := commit_diff_nonneg _ _ wd.1 wd.2 hc
    by_cases hz : state.constants.valmean * (state.weights.size3 : ℚ) = 0
    · simp [ddiv, hz] at h
    · simp only [ddiv, if_neg hz, Option.map_some', Option.some.injEq] at h
      subst h
      have hs : (0 : ℚ) ≤ (state.weights.size3 : ℚ) := Nat.cast_nonneg _
      constructor
      · intro hv
        exact div_nonneg hnn (mul_nonneg hv.le hs)
      · intro hv
        exact div_nonpos_of_nonneg_of_nonpos hnn (mul_nonpos_of_nonpos_of_nonneg hv.le hs)

theorem negative_local :
    (batch_local (fun _ => 1) negativeMeanState).1
      = some { negativeMeanState with
          bfraction := { (gridState 1 1 1).bfraction with
            numerator := { mrows := 1, mcols := 1, mdimensions := 1, mem := [-2] }
            denominator := 2 } } := by
  have hb : batch_bounds negativeMeanState = (0, 2) := by
    simp [batch_bounds, negativeMeanState, sampleState, gridState, usub, u32]
  rw [batch_local_fst, hb]
  simp only [Nat.sub_zero, List.range', List.foldl_cons, List.foldl_nil, Option.some_bind,
    present_record, bmu_find_eq]
  rw [accumulate_eq]
  · simp only [Option.some_bind]
    rw [accumulate_eq]
    · norm_num [accumulate_cells, accumulate_bounds, negativeMeanState, sampleState, gridState,
        toUnsigned_one, u32,
        loop_cells, accumulate_list, accumulate_cell, cell_weight, BatchFraction.init, memsetZero,
        Weights.size3, Weights.size2, accumulate_dims, Weights.index, Weights.offset,
        Weights.entry, Ptr.read, Dataset.rrecord, List.range_succ]
    · simp [negativeMeanState, sampleState, gridState]
  · simp [negativeMeanState, sampleState, gridState]

/-- The `diff` that a call of `batch_present` stores on a rank has the sign of
the mean value `valmean` of the data set. -/
theorem batch_present_sign (exp : ℚ → ℚ) (world : List TrainState) (q : Nat)
    (s t : TrainState) (hs : world[q]? = some s)
    (h : (batch_present exp world q).1 = some t) :
    (0 < s.constants.valmean → 0 ≤ t.diff) ∧ (s.constants.valmean < 0 → t.diff ≤ 0) := by
  have hq : q < world.length := by
    by_contra hcon
    rw [List.getElem?_eq_none (by omega)] at hs
    cases hs
  have hsq : world[q] = s := by
    rw [List.getElem?_eq_getElem hq] at hs
    exact Option.some.inj hs
  cases hf : batch_fractions exp world with
  | none => rw [batch_present_none exp world hf q] at h; cases h
  | some fracs =>
    obtain ⟨lq, hlq, hpq⟩ := batch_present_some exp world fracs hf q hq
    obtain ⟨-, k2, -⟩ := batch_local_keeps exp _ _ hlq
    rw [hpq] at h
    have := batch_finish_sign _ t h
    simp only [k2, hsq] at this
    exact this

theorem negative_batch :
    (batch_present (fun _ => 1) [negativeMeanState] 0).1.map (fun s => (s.weights.mem, s.diff))
      = some ([-2], -1 / 2) := by
  have hf : batch_fractions (fun _ => 1) [negativeMeanState]
      = some [{ (gridState 1 1 1).bfraction with
                numerator := { mrows := 1, mcols := 1, mdimensions := 1, mem := [-2] }
                denominator := 2 }] := by
    simp only [batch_fractions, List.map_cons, List.map_nil, negative_local, Option.map_some',
      allSome]
  obtain ⟨lq, hlq, hpq⟩ := batch_present_some (fun _ => 1) _ _ hf 0 (by simp)
  rw [hpq]
  simp only [List.getElem_cons_zero, negative_local, Option.some.injEq] at hlq
  subst hlq
  norm_num [batch_finish, batch_fraction_commit, BatchFraction.reduce, Weights.swap,
    parallel.sum_all_double, negativeMeanState, sampleState, gridState, Weights.size3,
    Weights.size2, Weights.entry, Weights.offset, Ptr.read, ddiv, List.range_succ]

theorem map_sum_index (world : List TrainState) (f : TrainState → Nat) (g : Nat → Nat)
    (h : ∀ q (hq : q < world.length), f world[q] = g q) :
    (world.map f).sum = ∑ q in Finset.range world.length, g q := by
  rw [← list_range_sum]
  congr 1
  apply List.ext_getElem
  · simp
  · intro i h1 h2
    simp only [List.getElem_map, List.getElem_range]
    exact h i (by simpa using h1)

/-- What the constructors capture for a requested batch size of 1: on one rank
the batch size stays 1 and an epoch has `N` batches; on two ranks or more the
batch size is below the number of ranks and is replaced by `N`, so that an
epoch has one batch and the rank holds as many records as its share of that
batch. -/
theorem batch_one_constants (st : parallel.State) (lattice : Lattice) (settings : TrainSettings)
    (t : TrainState) (D : Nat) (h : TrainState.ctor st lattice settings = some t)
    (hD : dataset_dimensions settings.mdataset = some D) (hR : 1 ≤ st.mranks)
    (hrank : st.mrank < st.mranks) (hb : settings.mbatchsize = 1)
    (hN : settings.mdataset.length < UINT_MAX) :
    (st.mranks = 1 →
      t.constants.batches = settings.mdataset.length ∧ t.constants.rbatchsize = 1 ∧
      t.constants.dataset.mrrecords = settings.mdataset.length) ∧
    (2 ≤ st.mranks →
      t.constants.batches = 1 ∧
      t.constants.rbatchsize = t.constants.dataset.mrrecords ∧
      t.constants.dataset.mrrecords
        = Nat.count (fun i => (i % UINT_MAX) % st.mranks = st.mrank) settings.mdataset.length) ∧
    t.constants.dataset.mrrecords ≤ settings.mdataset.length := by
  obtain ⟨-, -, -, hmb, -, hrb, hK, hrr, -, -⟩ :=
    ctor_constants st lattice settings t D h hD hR (le_of_lt hN)
  obtain ⟨-, hN1⟩ := dataset_dimensions_pos _ _ hD
  have hU : UINT_MAX = 4294967295 := rfl
  rw [hb] at hmb hrr
  refine ⟨?_, ?_, ?_⟩
  · intro h1
    have hl : loopBatchsize 1 st.mranks = 1 := by simp [loopBatchsize, h1]
    rw [hl] at hmb hrr
    rw [if_pos (by decide)] at hmb
    rw [hmb] at hK hrb
    have hr0 : st.mrank = 0 := by omega
    refine ⟨?_, ?_, ?_⟩
    · rw [hK]
      have hc := (batches_ceil settings.mdataset.length 1 (le_of_lt hN) (le_refl 1)).1
      rw [hc]
      simp
    · rw [hrb, distribute_eq, h1, hr0]
      simp
    · rw [hrr, h1, hr0]
      have := count_mod_eq 1 0 settings.mdataset.length (by decide) (by decide)
      have h2 : Nat.count (fun i => (i % 1) % 1 = 0) settings.mdataset.length
          = Nat.count (fun i => i % 1 = 0) settings.mdataset.length := by
        apply count_congr_lt
        intro i _
        simp
      rw [h2, this]
      simp [Nat.mod_one]
  · intro h2
    have hl : loopBatchsize 1 st.mranks = UINT_MAX := by
      simp only [loopBatchsize]
      rw [if_pos (by omega)]
    rw [hl] at hmb hrr
    rw [if_neg (lt_irrefl _)] at hmb
    rw [hmb] at hK hrb
    have hcount : Nat.count (fun i => (i % UINT_MAX) % st.mranks = st.mrank)
          settings.mdataset.length
        = Nat.count (fun i => i % st.mranks = st.mrank) settings.mdataset.length := by
      apply count_congr_lt
      intro i hi
      rw [Nat.mod_eq_of_lt (lt_trans hi hN)]
    refine ⟨?_, ?_, hrr⟩
    · rw [hK]
      have hc := (batches_ceil settings.mdataset.length settings.mdataset.length (le_of_lt hN)
        hN1).1
      rw [hc]
      have hne : (settings.mdataset.length : ℚ) ≠ 0 := by
        have : (0 : ℚ) < (settings.mdataset.length : ℚ) := by exact_mod_cast hN1
        exact ne_of_gt this
      rw [div_self hne]
      simp
    · rw [hrb, hrr, hcount, distribute_eq, count_mod_eq _ _ _ (by omega) hrank]
  · rw [hrr]
    exact Nat.count_le _

/-- The steps of a call of `batch_present`: the fraction is zeroed, the local
records of the batch are presented, and the fraction is reduced once and
committed once. -/
theorem batch_present_events (exp : ℚ → ℚ) (world : List TrainState) (q : Nat)
    (s : TrainState) (hs : world[q]? = some s) :
    (batch_present exp world q).2
      = [BatchEvent.init]
        ++ (List.range' (batch_bounds s).1 ((batch_bounds s).2 - (batch_bounds s).1)).map
            BatchEvent.present
        ++ [BatchEvent.reduce, BatchEvent.commit] ∧
    (batch_present exp world q).2.count BatchEvent.reduce = 1 := by
  have hloc : (batch_local exp s).2
      = [BatchEvent.init] ++ (List.range' (batch_bounds s).1
            ((batch_bounds s).2 - (batch_bounds s).1)).map BatchEvent.present := by
    simp only [batch_local]
    rw [foldl_pair (fun (o : Option TrainState) (lidx : Nat) => o.bind (present_record exp lidx))
      BatchEvent.present]
  have hev : (batch_present exp world q).2
      = [BatchEvent.init]
        ++ (List.range' (batch_bounds s).1 ((batch_bounds s).2 - (batch_bounds s).1)).map
            BatchEvent.present
        ++ [BatchEvent.reduce, BatchEvent.commit] := by
    simp only [batch_present, hs, hloc]
  refine ⟨hev, ?_⟩
  rw [hev]
  have hz : ∀ l : List Nat, (l.map BatchEvent.present).count BatchEvent.reduce = 0 := by
    intro l
    rw [List.count_eq_zero]
    intro hmem
    simp at hmem
  simp only [List.count_append, hz]
  decide

/-- The bounds of the loop of `batch_present` for a requested batch size of 1:
on one rank the batch `t` presents the record `t - 1`; on two ranks or more the
only batch presents all the records of the rank. -/
theorem batch_one_bounds (st : parallel.State) (lattice : Lattice) (settings : TrainSettings)
    (t : TrainState) (D : Nat) (h : TrainState.ctor st lattice settings = some t)
    (hD : dataset_dimensions settings.mdataset = some D) (hR : 1 ≤ st.mranks)
    (hrank : st.mrank < st.mranks) (hb : settings.mbatchsize = 1)
    (hN : settings.mdataset.length < UINT_MAX) (s : TrainState)
    (hs : s.constants = t.constants) :
    (st.mranks = 1 → 1 ≤ s.batch → s.batch ≤ settings.mdataset.length →
      batch_bounds s = (s.batch - 1, s.batch)) ∧
    (2 ≤ st.mranks → s.batch = 1 → batch_bounds s = (0, s.constants.dataset.mrrecords)) := by
  obtain ⟨k1, k2, k3⟩ := batch_one_constants st lattice settings t D h hD hR hrank hb hN
  have hU : UINT_MAX = 4294967295 := rfl
  constructor
  · intro h1 ht1 ht2
    obtain ⟨-, hrb, hrr⟩ := k1 h1
    have hus : usub s.batch 1 = s.batch - 1 := usub_one s.batch ht1 (by omega)
    simp only [batch_bounds, hs, hrb, hrr, hus, Nat.mul_one]
    rw [u32_of_le _ (show s.batch - 1 ≤ UINT_MAX by omega),
      u32_of_le _ (show s.batch - 1 + 1 ≤ UINT_MAX by omega)]
    have : s.batch - 1 + 1 = s.batch := by omega
    rw [this, Nat.min_eq_right ht2]
  · intro h2 ht
    obtain ⟨-, hrb, -⟩ := k2 h2
    have hus : usub 1 1 = 0 := by decide
    simp only [batch_bounds, hs, hrb, ht, hus, Nat.zero_mul, Nat.zero_add]
    have h0 : u32 0 = 0 := by decide
    rw [h0, Nat.zero_add, u32_of_le _ (show t.constants.dataset.mrrecords ≤ UINT_MAX by omega),
      Nat.min_self]

/-- The batches of an epoch for a requested batch size of 1, on the states
`world` of ranks that hold the constants of the constructors and the batch
cursor `t`. -/
theorem batch_one_world (R : Nat) (lattice : Lattice) (settings : TrainSettings) (D : Nat)
    (world0 : List TrainState) (h0 : initialWorld R lattice settings = some world0)
    (hD : dataset_dimensions settings.mdataset = some D)
    (hb : settings.mbatchsize = 1) (hN : settings.mdataset.length < UINT_MAX) (hR : 1 ≤ R)
    (world : List TrainState) (t : Nat) (hw : world.length = world0.length)
    (hc : ∀ q (h1 : q < world.length) (h2 : q < world0.length),
      world[q].constants = world0[q].constants ∧ world[q].batch = t) :
    (∀ s ∈ world, s.constants.batches = if R = 1 then settings.mdataset.length else 1) ∧
    (1 ≤ t → t ≤ (if R = 1 then settings.mdataset.length else 1) →
      (world.map (fun s => (batch_bounds s).2 - (batch_bounds s).1)).sum
        = (if R = 1 then 1 else settings.mdataset.length) ∧
      (R = 1 → ∀ s ∈ world, batch_bounds s = (t - 1, t)) ∧
      (2 ≤ R → ∀ s ∈ world, batch_bounds s = (0, s.constants.dataset.mrrecords))) := by
  obtain ⟨hlen, hctor⟩ := initialWorld_spec R lattice settings world0 h0
  have hall : ∀ q (h1 : q < world.length),
      (R = 1 → world[q].constants.batches = settings.mdataset.length ∧
        (1 ≤ t → t ≤ settings.mdataset.length → batch_bounds world[q] = (t - 1, t))) ∧
      (2 ≤ R → world[q].constants.batches = 1 ∧
        (t = 1 → batch_bounds world[q] = (0, world[q].constants.dataset.mrrecords)) ∧
        world[q].constants.dataset.mrrecords
          = Nat.count (fun i => (i % UINT_MAX) % R = q) settings.mdataset.length) := by
    intro q h1
    have h2 : q < world0.length := hw ▸ h1
    obtain ⟨hcq, htq⟩ := hc q h1 h2
    have hqR : q < R := hlen ▸ h2
    obtain ⟨k1, k2, -⟩ := batch_one_constants ⟨q, R⟩ lattice settings world0[q] D (hctor q h2) hD
      hR hqR hb hN
    obtain ⟨b1, b2⟩ := batch_one_bounds ⟨q, R⟩ lattice settings world0[q] D (hctor q h2) hD
      hR hqR hb hN world[q] hcq
    constructor
    · intro hR1
      refine ⟨by rw [hcq]; exact (k1 hR1).1, ?_⟩
      intro ht1 ht2
      have := b1 hR1 (by rw [htq]; exact ht1) (by rw [htq]; exact ht2)
      rw [htq] at this
      exact this
    · intro hR2
      obtain ⟨k21, -, k23⟩ := k2 hR2
      refine ⟨by rw [hcq]; exact k21, ?_, by rw [hcq]; exact k23⟩
      intro ht
      exact b2 hR2 (by rw [htq]; exact ht)
  constructor
  · intro s hs
    obtain ⟨q, hq, rfl⟩ := List.getElem_of_mem hs
    by_cases hR1 : R = 1
    · rw [if_pos hR1]; exact ((hall q hq).1 hR1).1
    · rw [if_neg hR1]; exact ((hall q hq).2 (by omega)).1
  · intro ht1 ht2
    by_cases hR1 : R = 1
    · rw [if_pos hR1] at ht2
      rw [if_pos hR1]
      refine ⟨?_, ?_, fun h2 => by omega⟩
      · rw [map_sum_index world _ (fun _ => 1)]
        · simp [hw, hlen, hR1]
        · intro q hq
          rw [((hall q hq).1 hR1).2 ht1 ht2]
          show t - (t - 1) = 1
          omega
      · intro _ s hs
        obtain ⟨q, hq, rfl⟩ := List.getElem_of_mem hs
        exact ((hall q hq).1 hR1).2 ht1 ht2
    · rw [if_neg hR1] at ht2
      rw [if_neg hR1]
      have hR2 : 2 ≤ R := by omega
      have ht : t = 1 := by omega
      refine ⟨?_, fun h1 => absurd h1 hR1, ?_⟩
      · rw [map_sum_index world _
          (fun q => Nat.count (fun i => (i % UINT_MAX) % R = q) settings.mdataset.length)]
        · rw [hw, hlen]
          exact sum_counts UINT_MAX R settings.mdataset.length hR
        · intro q hq
          obtain ⟨-, hb1, hrr⟩ := (hall q hq).2 hR2
          rw [hb1 ht]
          show world[q].constants.dataset.mrrecords - 0 = _
          rw [Nat.sub_zero, hrr]
      · intro _ s hs
        obtain ⟨q, hq, rfl⟩ := List.getElem_of_mem hs
        exact ((hall q hq).2 hR2).2.1 ht

theorem memsetZero_length (mem : List ℚ) (count : Nat) :
    (memsetZero mem count).length = mem.length := by
  simp only [memsetZero, List.length_append, List.length_map, List.length_take,
    List.length_drop]
  omega

theorem memsetZero_getD (mem : List ℚ) (count p : Nat) (h : mem.length ≤ count) :
    (memsetZero mem count).getD p 0 = 0 := by
  have ht : mem.take count = mem := List.take_of_length_le h
  have hd : mem.drop count = [] := List.drop_of_length_le h
  simp only [memsetZero, ht, hd, List.append_nil]
  rw [List.getD_eq_getElem?_getD, List.getElem?_map]
  cases mem[p]? <;> rfl

theorem recordTerm_congr (exp : ℚ → ℚ) (s1 s2 : TrainState) (lidx p : Nat)
    (hw : s1.weights = s2.weights) (hr : s1.nradius = s2.nradius)
    (hc : s1.constants = s2.constants)
    (hd : s1.bfraction.numerator.mdimensions = s2.bfraction.numerator.mdimensions)
    (hl : s1.bfraction.numerator.mem.length = s2.bfraction.numerator.mem.length) :
    recordTerm exp s1 lidx p = recordTerm exp s2 lidx p := by
  have hcells : accumulate_cells s1 0 0 = accumulate_cells s2 0 0 := by
    simp only [accumulate_cells, hw, hr]
  simp only [recordTerm, hcells, hw, hr, hc]
  congr 1
  apply List.map_congr_left
  intro rc _
  exact cell_term_congr _ _ _ _ _ _ _ _ _ hd hl

theorem recordWeight_congr (exp : ℚ → ℚ) (s1 s2 : TrainState)
    (hw : s1.weights = s2.weights) (hr : s1.nradius = s2.nradius) :
    recordWeight exp s1 = recordWeight exp s2 := by
  have hcells : accumulate_cells s1 0 0 = accumulate_cells s2 0 0 := by
    simp only [accumulate_cells, hw, hr]
  simp only [recordWeight, hcells, hr]

/-- The loop of `batch_present` over the local records `l`, from a state whose
radius is not zero: the state it leaves, the denominator and the numerator. -/
theorem present_fold_num (exp : ℚ → ℚ) (l : List Nat) (st : TrainState)
    (hrho : st.nradius ≠ 0) :
    ∃ t, l.foldl (fun (o : Option TrainState) (lidx : Nat) => o.bind (present_record exp lidx))
        (some st) = some t ∧
      t.weights = st.weights ∧ t.nradius = st.nradius ∧ t.constants = st.constants ∧
      t.epoch = st.epoch ∧ t.batch = st.batch ∧ t.diff = st.diff ∧
      t.bfraction.numerator.mrows = st.bfraction.numerator.mrows ∧
      t.bfraction.numerator.mcols = st.bfraction.numerator.mcols ∧
      t.bfraction.numerator.mdimensions = st.bfraction.numerator.mdimensions ∧
      t.bfraction.numerator.mem.length = st.bfraction.numerator.mem.length ∧
      t.bfraction.numbuffer = st.bfraction.numbuffer ∧
      t.bfraction.denbuffer = st.bfraction.denbuffer ∧
      t.bfraction.denominator
        = st.bfraction.denominator + (l.length : ℚ) * recordWeight exp st ∧
      ∀ p, t.bfraction.numerator.mem.getD p 0
        = st.bfraction.numerator.mem.getD p 0
          + (l.map (fun lidx => recordTerm exp st lidx p)).sum := by
  induction l generalizing st with
  | nil => exact ⟨st, rfl, rfl, rfl, rfl, rfl, rfl, rfl, rfl, rfl, rfl, rfl, rfl, rfl, by simp,
      by simp⟩
  | cons lidx rest ih =>
    obtain ⟨a1, a2, a3, a4, a5, a6, a7, a8⟩ := accumulate_list_spec st.weights
      st.weights.mdimensions (st.constants.dataset.rrecord lidx) (cell_weight exp st.nradius 0 0)
      (accumulate_cells st 0 0) st.bfraction
    obtain ⟨t, ht, k1, k2, k3, k4, k5, k6, k7, k8, k9, k10, k11, k12, k13, k14⟩ :=
      ih { st with
        bfraction := accumulate_list st.weights st.weights.mdimensions
          (st.constants.dataset.rrecord lidx) (cell_weight exp st.nradius 0 0)
          (accumulate_cells st 0 0) st.bfraction } hrho
    refine ⟨t, ?_, k1, k2, k3, k4, k5, k6, k7.trans a1, k8.trans a2, k9.trans a3, k10.trans a4,
      k11.trans a5, k12.trans a6, ?_, ?_⟩
    · rw [List.foldl_cons, Option.some_bind, present_record_eq exp lidx st hrho]
      exact ht
    · rw [k13]
      show (accumulate_list _ _ _ _ _ st.bfraction).denominator + _ = _
      rw [a7]
      have hw : recordWeight exp { st with
          bfraction := accumulate_list st.weights st.weights.mdimensions
            (st.constants.dataset.rrecord lidx) (cell_weight exp st.nradius 0 0)
            (accumulate_cells st 0 0) st.bfraction } = recordWeight exp st :=
        recordWeight_congr exp _ _ rfl rfl
      rw [hw]
      simp only [List.length_cons, Nat.cast_add, Nat.cast_one, recordWeight]
      ring
    · intro p
      rw [k14 p]
      show (accumulate_list _ _ _ _ _ st.bfraction).numerator.mem.getD p 0 + _ = _
      rw [a8 p]
      have hterm : ∀ j, recordTerm exp { st with
          bfraction := accumulate_list st.weights st.weights.mdimensions
            (st.constants.dataset.rrecord lidx) (cell_weight exp st.nradius 0 0)
            (accumulate_cells st 0 0) st.bfraction } j p = recordTerm exp st j p :=
        fun j => recordTerm_congr exp _ _ j p rfl rfl rfl a3 a4
      simp only [hterm]
      simp only [List.map_cons, List.sum_cons, recordTerm]
      ring

/-- The part of `batch_present` before the collective, on a state whose radius
is not zero and whose numerator holds no more than `size3()` scalars: the
state it leaves, the denominator and the numerator. -/
theorem batch_local_num (exp : ℚ → ℚ) (s : TrainState) (hrho : s.nradius ≠ 0)
    (hlen : s.bfraction.numerator.mem.length ≤ s.bfraction.numerator.size3) :
    ∃ t, (batch_local exp s).1 = some t ∧
      t.weights = s.weights ∧ t.nradius = s.nradius ∧ t.constants = s.constants ∧
      t.epoch = s.epoch ∧ t.batch = s.batch ∧ t.diff = s.diff ∧
      t.bfraction.numerator.mrows = s.bfraction.numerator.mrows ∧
      t.bfraction.numerator.mcols = s.bfraction.numerator.mcols ∧
      t.bfraction.numerator.mdimensions = s.bfraction.numerator.mdimensions ∧
      t.bfraction.numerator.mem.length = s.bfraction.numerator.mem.length ∧
      t.bfraction.numbuffer = s.bfraction.numbuffer ∧
      t.bfraction.denominator
        = (((batch_bounds s).2 - (batch_bounds s).1 : ℕ) : ℚ) * recordWeight exp s ∧
      ∀ p, t.bfraction.numerator.mem.getD p 0 = localNumerator exp s p := by
  obtain ⟨t, ht, k1, k2, k3, k4, k5, k6, k7, k8, k9, k10, k11, -, k13, k14⟩ :=
    present_fold_num exp
      (List.range' (batch_bounds s).1 ((batch_bounds s).2 - (batch_bounds s).1))
      { s with bfraction := s.bfraction.init } hrho
  have hl0 : (s.bfraction.init).numerator.mem.length = s.bfraction.numerator.mem.length :=
    memsetZero_length _ _
  refine ⟨t, ?_, k1, k2, k3, k4, k5, k6, k7, k8, k9, k10.trans hl0, k11, ?_, ?_⟩
  · rw [batch_local_fst]
    exact ht
  · rw [k13]
    have hw : recordWeight exp { s with bfraction := s.bfraction.init } = recordWeight exp s :=
      recordWeight_congr exp _ _ rfl rfl
    rw [hw]
    show (0 : ℚ) + _ = _
    rw [List.length_range', zero_add]
  · intro p
    rw [k14 p]
    have hz : (s.bfraction.init).numerator.mem.getD p 0 = 0 := memsetZero_getD _ _ p hlen
    have hterm : ∀ j, recordTerm exp { s with bfraction := s.bfraction.init } j p
        = recordTerm exp s j p :=
      fun j => recordTerm_congr exp _ _ j p rfl rfl rfl rfl hl0
    show (s.bfraction.init).numerator.mem.getD p 0 + _ = _
    rw [hz, zero_add]
    simp only [hterm, localNumerator]

theorem allSome_pointwise {α β γ : Type} (f : α → Option β) (h : β → γ) (k : α → γ)
    (l : List α) (ys : List β) (hys : allSome (l.map f) = some ys)
    (hall : ∀ x ∈ l, ∀ y, f x = some y → h y = k x) :
    ys.map h = l.map k := by
  induction l generalizing ys with
  | nil =>
    simp only [List.map_nil, allSome, Option.some.injEq] at hys
    subst hys
    rfl
  | cons a t ih =>
    simp only [List.map_cons] at hys
    cases hfa : f a with
    | none => simp [hfa, allSome] at hys
    | some y =>
      simp only [hfa, allSome, Option.map_eq_some'] at hys
      obtain ⟨zs, hzs, rfl⟩ := hys
      simp only [List.map_cons]
      rw [hall a (List.mem_cons_self a t) y hfa,
        ih zs hzs (fun x hx => hall x (List.mem_cons_of_mem a hx))]

/-- What `BatchFraction::reduce` leaves beside the sums. -/
theorem reduce_shape (all : List BatchFraction) (f : BatchFraction) :
    (f.reduce all).numerator.mrows = f.numerator.mrows ∧
    (f.reduce all).numerator.mcols = f.numerator.mcols ∧
    (f.reduce all).numerator.mdimensions = f.numerator.mdimensions ∧
    (f.reduce all).numerator.mem.length
      = f.numerator.size3 + (f.numbuffer.mem.length - f.numerator.size3) ∧
    (f.reduce all).numbuffer = { f.numbuffer with mem := f.numerator.mem } ∧
    (f.reduce all).denominator = (all.map (fun g => g.denominator)).sum ∧
    (f.reduce all).denbuffer = f.denominator := by
  refine ⟨rfl, rfl, rfl, ?_, rfl, rfl, rfl⟩
  simp [BatchFraction.reduce, Weights.swap, parallel.sum_all_double]

theorem shaped_size3 (rows cols D : Nat) (s : TrainState) (h : shaped rows cols D s) :
    s.weights.size3 = rows * cols * D ∧ s.bfraction.numerator.size3 = rows * cols * D := by
  obtain ⟨⟨a1, a2, a3, -⟩, ⟨b1, b2, b3, -⟩, -⟩ := h
  simp only [Weights.size3, Weights.size2, a1, a2, a3, b1, b2, b3, and_self]

/-- A call of `batch_present` on the ranks of a world of shaped states whose
radii are not zero, when the reduced denominator and `valmean * size3()` are
not zero: every scalar of the weights of a rank receives the quotient of the
reduced numerator by the reduced denominator, and `diff` the normalised sum of
the absolute quotients; the shapes, the constants and the cursors stay. -/
theorem batch_present_formula (exp : ℚ → ℚ) (world : List TrainState) (rows cols D : Nat)
    (hsh : ∀ s ∈ world, shaped rows cols D s) (hrho : ∀ s ∈ world, s.nradius ≠ 0)
    (q : Nat) (hq : q < world.length) (hden : batchDenominator exp world ≠ 0)
    (hnorm : world[q].constants.valmean * ((rows * cols * D : ℕ) : ℚ) ≠ 0) :
    ∃ t, (batch_present exp world q).1 = some t ∧ shaped rows cols D t ∧
      t.constants = world[q].constants ∧ t.epoch = world[q].epoch ∧
      t.batch = world[q].batch ∧ t.nradius = world[q].nradius ∧
      t.bfraction.denominator = batchDenominator exp world ∧
      (∀ p, p < rows * cols * D →
        t.bfraction.numerator.mem.getD p 0 = batchNumerator exp world p) ∧
      (∀ p, p < rows * cols * D →
        t.weights.mem.getD p 0
          = world[q].weights.mem.getD p 0
            + batchNumerator exp world p / batchDenominator exp world) ∧
      t.diff
        = ((List.range (rows * cols * D)).map
            (fun i => |batchNumerator exp world i / batchDenominator exp world|)).sum
          / (world[q].constants.valmean * ((rows * cols * D : ℕ) : ℚ)) := by
  have hlen : ∀ s ∈ world, s.bfraction.numerator.mem.length ≤ s.bfraction.numerator.size3 := by
    intro s hs
    rw [(shaped_size3 rows cols D s (hsh s hs)).2, (hsh s hs).2.1.2.2.2]
  -- the fractions of the ranks at the collective
  obtain ⟨fracs, hf, hdens⟩ := allSome_map_values
    (fun s => ((batch_local exp s).1).map (fun t => t.bfraction))
    (fun f : BatchFraction => f.denominator)
    (fun s => (((batch_bounds s).2 - (batch_bounds s).1 : ℕ) : ℚ) * recordWeight exp s)
    world (by
      intro s hs
      obtain ⟨t, ht, -, -, -, -, -, -, -, -, -, -, -, hd, -⟩ :=
        batch_local_num exp s (hrho s hs) (hlen s hs)
      exact ⟨t.bfraction, by simp only [ht, Option.map_some'], hd⟩)
  have hf2 : batch_fractions exp world = some fracs := hf
  have hnums : ∀ p, fracs.map (fun g : BatchFraction => g.numerator.mem.getD p 0)
      = world.map (fun s => localNumerator exp s p) := by
    intro p
    apply allSome_pointwise
      (fun s => ((batch_local exp s).1).map (fun t => t.bfraction))
      (fun g : BatchFraction => g.numerator.mem.getD p 0)
      (fun s => localNumerator exp s p) world fracs hf
    intro s hs y hy
    obtain ⟨t, ht, -, -, -, -, -, -, -, -, -, -, -, -, hn⟩ :=
      batch_local_num exp s (hrho s hs) (hlen s hs)
    simp only [ht, Option.map_some', Option.some.injEq] at hy
    subst hy
    exact hn p
  -- this rank
  have hsq := hsh _ (List.getElem_mem hq)
  obtain ⟨lq, hlq, hpq⟩ := batch_present_some exp world fracs hf2 q hq
  obtain ⟨t, ht, k1, k2, k3, k4, k5, k6, k7, k8, k9, k10, k11, -, -⟩ :=
    batch_local_num exp world[q] (hrho _ (List.getElem_mem hq)) (hlen _ (List.getElem_mem hq))
  have hlt : lq = t := Option.some.inj (hlq.symm.trans ht)
  subst hlt
  obtain ⟨⟨a1, a2, a3, a4⟩, ⟨b1, b2, b3, b4⟩, ⟨c1, c2, c3, c4⟩⟩ := hsq
  obtain ⟨r1, r2, r3, r4, r5, r6, -⟩ := reduce_shape fracs lq.bfraction
  have hs3 : lq.bfraction.numerator.size3 = rows * cols * D := by
    simp only [Weights.size3, Weights.size2, k7, k8, k9, b1, b2, b3]
  have hrs3 : (lq.bfraction.reduce fracs).numerator.size3 = rows * cols * D := by
    simp only [Weights.size3, Weights.size2, r1, r2, r3, k7, k8, k9, b1, b2, b3]
  have hrden : (lq.bfraction.reduce fracs).denominator = batchDenominator exp world := by
    rw [r6, hdens]
    rfl
  have hrnum : ∀ p, p < rows * cols * D →
      (lq.bfraction.reduce fracs).numerator.mem.getD p 0 = batchNumerator exp world p := by
    intro p hp
    rw [reduce_numerator_getD fracs lq.bfraction p (by rw [hs3]; exact hp), hnums p]
    rfl
  have hden2 : (lq.bfraction.reduce fracs).denominator ≠ 0 := by rw [hrden]; exact hden
  obtain ⟨w, hc, w1, w2, w3, w4, w5⟩ := commit_spec (lq.bfraction.reduce fracs) lq.weights hden2
  have hws3 : (lq.weights.size3 : ℚ) = ((rows * cols * D : ℕ) : ℚ) := by
    simp only [Weights.size3, Weights.size2, k1, a1, a2, a3]
  have hnorm2 : lq.constants.valmean * (lq.weights.size3 : ℚ) ≠ 0 := by
    rw [k3, hws3]; exact hnorm
  refine ⟨{ lq with
      bfraction := lq.bfraction.reduce fracs
      weights := w
      diff := ((List.range (lq.bfraction.reduce fracs).numerator.size3).map
          (fun i => |(lq.bfraction.reduce fracs).numerator.mem.getD i 0
            / (lq.bfraction.reduce fracs).denominator|)).sum
        / (lq.constants.valmean * (lq.weights.size3 : ℚ)) },
    ?_, ?_, k3, k4, k5, k2, hrden, hrnum, ?_, ?_⟩
  · rw [hpq]
    simp only [batch_finish, hc, Option.some_bind, ddiv, if_neg hnorm2, Option.map_some']
  · refine ⟨⟨?_, ?_, ?_, ?_⟩, ⟨?_, ?_, ?_, ?_⟩, ⟨?_, ?_, ?_, ?_⟩⟩
    · show w.mrows = rows
      rw [w1, k1, a1]
    · show w.mcols = cols
      rw [w2, k1, a2]
    · show w.mdimensions = D
      rw [w3, k1, a3]
    · show w.mem.length = rows * cols * D
      rw [w4, k1, a4]
    · show (lq.bfraction.reduce fracs).numerator.mrows = rows
      rw [r1, k7, b1]
    · show (lq.bfraction.reduce fracs).numerator.mcols = cols
      rw [r2, k8, b2]
    · show (lq.bfraction.reduce fracs).numerator.mdimensions = D
      rw [r3, k9, b3]
    · show (lq.bfraction.reduce fracs).numerator.mem.length = rows * cols * D
      rw [r4, hs3, k11, c4]
      omega
    · show (lq.bfraction.reduce fracs).numbuffer.mrows = rows
      rw [r5, k11]
      exact c1
    · show (lq.bfraction.reduce fracs).numbuffer.mcols = cols
      rw [r5, k11]
      exact c2
    · show (lq.bfraction.reduce fracs).numbuffer.mdimensions = D
      rw [r5, k11]
      exact c3
    · show (lq.bfraction.reduce fracs).numbuffer.mem.length = rows * cols * D
      rw [r5]
      show lq.bfraction.numerator.mem.length = rows * cols * D
      rw [k10, b4]
  · intro p hp
    show w.mem.getD p 0 = _
    rw [w5 p, if_pos ⟨by rw [hrs3]; exact hp, by rw [k1, a4]; exact hp⟩, hrnum p hp, hrden, k1]
  · show ((List.range (lq.bfraction.reduce fracs).numerator.size3).map
        (fun i => |(lq.bfraction.reduce fracs).numerator.mem.getD i 0
          / (lq.bfraction.reduce fracs).denominator|)).sum
        / (lq.constants.valmean * (lq.weights.size3 : ℚ)) = _
    rw [hrs3, hrden, k3, hws3]
    congr 2
    apply List.map_congr_left
    intro i hi
    rw [hrnum i (List.mem_range.1 hi)]

/-- The start of a run of `Lattice::train` on a well-formed file: the states
that the constructors build are ready for the loops, `weights_random_init`
returns on every rank, and the states at the first test of the loop of the
epochs are shaped for the lattice and hold, cell after cell, the fields of the
lines `rand k mod N`. -/
theorem train_start (exp : ℚ → ℚ) (hexp : ∀ x, 0 < exp x) (rand : Nat → Nat)
    (R : Nat) (lattice : Lattice) (settings : TrainSettings)
    (hwf : wellFormed settings.mdataset = true)
    (hNB : settings.mdataset.length + settings.mbatchsize < UINT_MAX) (hR : 1 ≤ R)
    (hrows : 1 ≤ lattice.mrows) (hcols : 1 ≤ lattice.mcols)
    (hsum : scalarSum settings.mdataset ≠ 0)
    (hE : epochCap settings < UINT_MAX)
    (hrad0 : startRadius lattice settings < 4294967295)
    (hrad : ∀ e, 1 ≤ e → e < epochCap settings →
      startRadius lattice settings * exp ((e : ℚ) * settings.mrdecay) < 4294967295) :
    ∃ D world0 world1 s0,
      dataset_dimensions settings.mdataset = some D ∧
      (∀ line ∈ settings.mdataset, line.length = D) ∧
      initialWorld R lattice settings = some world0 ∧ world0.length = R ∧
      loadedWorld settings.mdataset settings.mbatchsize world0 ∧
      world_init rand world0 = some world1 ∧ world1.length = R ∧
      world0[0]? = some s0 ∧
      s0.constants.epochs = epochCap settings ∧
      s0.constants.nradius = startRadius lattice settings ∧
      s0.constants.rdecay = settings.mrdecay ∧
      s0.constants.batches ≤ settings.mdataset.length ∧
      runReady exp s0.constants lattice.mrows lattice.mcols D world0 ∧
      inRun lattice.mrows lattice.mcols D world0 1 0 (radiusDuring exp s0.constants 1)
        (setEpoch 1 (setEpoch 0 world1)) ∧
      (∀ s ∈ setEpoch 1 (setEpoch 0 world1), shaped lattice.mrows lattice.mcols D s) ∧
      (∀ s ∈ setEpoch 1 (setEpoch 0 world1), ∀ p, p < lattice.mrows * lattice.mcols * D →
        s.weights.mem.getD p 0
          = (settings.mdataset.getD (rand (p / D) % settings.mdataset.length) []).getD
              (p % D) 0) := by
  have hN : settings.mdataset.length ≤ UINT_MAX := by omega
  obtain ⟨D, hD, hall⟩ := (wellFormed_iff settings.mdataset).1 hwf
  obtain ⟨world0, h0, hlen0, hload, hfields⟩ :=
    initialWorld_loaded R lattice settings D hD hN hR
  obtain ⟨world1, h1⟩ := world_init_some settings.mdataset settings.mbatchsize world0 rand hwf hN
    hload
  obtain ⟨s0, hs0, e0, n0, r0, k0, hready⟩ := initialWorld_ready exp hexp R lattice settings D
    world0 h0 hD hall hNB hR hrows hcols hsum hE hrad0 hrad
  obtain ⟨hl1, hfr⟩ := world_init_frame rand world0 world1 h1
  obtain ⟨-, hsw1⟩ := trainRun_uniform exp rand R lattice settings world0 world1 hwf hN h0
    (trainRun.init world1 h1)
  have hready' := hready
  obtain ⟨-, -, -, -, -, -, -, hconst, -, -⟩ := hready'
  -- the state of a rank after the initialisation
  have hstate : ∀ q (hq : q < world0.length) (t : TrainState), world1[q]? = some t →
      t.constants = world0[q].constants ∧ t.batch = 0 ∧ t.nradius = world0[q].constants.nradius ∧
      t.diff = 1 ∧ shaped lattice.mrows lattice.mcols D t ∧
      ∀ p, p < lattice.mrows * lattice.mcols * D →
        t.weights.mem.getD p 0
          = (settings.mdataset.getD (rand (p / D) % settings.mdataset.length) []).getD
              (p % D) 0 := by
    intro q hq t ht
    obtain ⟨t', ht', hinit, tc, tb, -, tbt, tr, td⟩ := hfr q _ (List.getElem?_eq_getElem hq)
    rw [ht, Option.some.injEq] at ht'
    subst ht'
    obtain ⟨f1, f2, -, f4, f5, f6⟩ := hfields q hq
    obtain ⟨mem, hs, hl, hg⟩ := init_spec settings.mdataset settings.mbatchsize D world0 rand
      hload hD hall hN q hq
    have htw : t = { world0[q] with weights := { world0[q].weights with mem := mem } } :=
      Option.some.inj (hinit.symm.trans hs)
    have hwl : world0[q].weights.mem.length = lattice.mrows * lattice.mcols * D := by
      rw [f1]; simp [Weights.ctor]
    refine ⟨tc, by rw [tbt, f4], by rw [tr, f6], by rw [td, f5], ⟨⟨?_, ?_, ?_, ?_⟩, ?_, ?_⟩, ?_⟩
    · rw [htw]; show world0[q].weights.mrows = _; rw [f1]; rfl
    · rw [htw]; show world0[q].weights.mcols = _; rw [f1]; rfl
    · rw [htw]; show world0[q].weights.mdimensions = _; rw [f1]; rfl
    · rw [htw]; show mem.length = _; rw [hl, hwl]
    · rw [tb, f2]
      exact ⟨rfl, rfl, rfl, by simp [BatchFraction.ctor, Weights.ctor]⟩
    · rw [tb, f2]
      exact ⟨rfl, rfl, rfl, by simp [BatchFraction.ctor, Weights.ctor]⟩
    · intro p hp
      rw [htw]
      show mem.getD p 0 = _
      rw [hg p, f1]
      have hp2 : p < (Weights.ctor lattice.mrows lattice.mcols D).mrows
          * (Weights.ctor lattice.mrows lattice.mcols D).mcols * D
          ∧ p < (Weights.ctor lattice.mrows lattice.mcols D).mem.length := by
        constructor
        · exact hp
        · simp only [Weights.ctor, List.length_replicate]; exact hp
      rw [if_pos hp2]
  have hmem1 : ∀ s ∈ setEpoch 1 (setEpoch 0 world1), ∃ q, ∃ hq : q < world0.length,
      ∃ t, world1[q]? = some t ∧ s = { t with epoch := 1 } := by
    intro s hs
    simp only [setEpoch, List.map_map, List.mem_map, Function.comp] at hs
    obtain ⟨t, ht, rfl⟩ := hs
    obtain ⟨q, hq, rfl⟩ := List.getElem_of_mem ht
    exact ⟨q, hl1 ▸ hq, world1[q], List.getElem?_eq_getElem hq, rfl⟩
  refine ⟨D, world0, world1, s0, hD, hall, h0, hlen0, hload, h1, hl1.trans hlen0, hs0, e0, n0, r0,
    k0, hready, ?_, ?_, ?_⟩
  · refine ⟨by simp [setEpoch, hl1], ?_, ?_, ?_⟩
    · intro q s hs
      simp only [setEpoch, List.map_map, List.getElem?_map, Option.map_eq_some'] at hs
      obtain ⟨t, ht, rfl⟩ := hs
      obtain ⟨hq1, -⟩ := List.getElem?_eq_some_iff.1 ht
      have hq : q < world0.length := hl1 ▸ hq1
      obtain ⟨tc, tb, tr, -, ⟨⟨w1, w2, w3, w4⟩, ⟨b1, b2, b3, b4⟩, -⟩, -⟩ := hstate q hq t ht
      refine ⟨world0[q], List.getElem?_eq_getElem hq, tc, rfl, tb, ?_, w1, w2, w3, ?_⟩
      · show t.nradius = radiusDuring exp s0.constants 1
        rw [tr, (hconst _ (List.getElem_mem hq)).2.2.2.1]
        simp [radiusDuring]
      · show t.bfraction.numerator.size3 = lattice.mrows * lattice.mcols * D
        simp only [Weights.size3, Weights.size2, b1, b2, b3]
    · have := sameWeights_map (fun s => { s with epoch := 1 }) (fun _ => rfl) _
        (sameWeights_map (fun s => { s with epoch := 0 }) (fun _ => rfl) world1 hsw1)
      exact this
    · intro p q hp hq
      simp only [setEpoch, List.map_map, List.getElem_map, Function.comp]
      have hp1 : p < world1.length := by simpa [setEpoch] using hp
      have hq1 : q < world1.length := by simpa [setEpoch] using hq
      have hp0 : p < world0.length := hl1 ▸ hp1
      have hq0 : q < world0.length := hl1 ▸ hq1
      obtain ⟨-, -, -, dp, -⟩ := hstate p hp0 _ (List.getElem?_eq_getElem hp1)
      obtain ⟨-, -, -, dq, -⟩ := hstate q hq0 _ (List.getElem?_eq_getElem hq1)
      show world1[p].diff = world1[q].diff
      rw [dp, dq]
  · intro s hs
    obtain ⟨q, hq, t, ht, rfl⟩ := hmem1 s hs
    exact (hstate q hq t ht).2.2.2.2.1
  · intro s hs
    obtain ⟨q, hq, t, ht, rfl⟩ := hmem1 s hs
    exact (hstate q hq t ht).2.2.2.2.2

/-- In a run that is ready, at a batch `b` of an epoch: no radius is zero, the
reduced denominator is positive, and `valmean * size3()` is not zero. -/
theorem inRun_denominator (exp : ℚ → ℚ) (hexp : ∀ x, 0 < exp x) (c : Constants)
    (rows cols D : Nat) (world0 : List TrainState) {exp2 : ℚ → ℚ}
    (hready : runReady exp2 c rows cols D world0)
    (e b : Nat) (rho : ℚ) (world : List TrainState)
    (hin : inRun rows cols D world0 e b rho world)
    (hb1 : 1 ≤ b) (hbK : b ≤ c.batches) (hrho0 : 0 < rho) (hrho1 : rho < 4294967295) :
    0 < batchDenominator exp world ∧ (∀ s ∈ world, s.nradius ≠ 0) ∧
    (∀ s ∈ world, s.constants.valmean = c.valmean) ∧
    c.valmean * ((rows * cols * D : ℕ) : ℚ) ≠ 0 := by
  obtain ⟨hne, hE, hK, hval, hrows, hcols, hD, hconst, hrank0, hrad⟩ := hready
  obtain ⟨hlen, hst, hsw, hdiff⟩ := hin
  have hfacts : ∀ s ∈ world, s.nradius = rho ∧ s.weights.mrows = rows ∧ s.weights.mcols = cols ∧
      s.weights.mdimensions = D ∧ s.constants.valmean = c.valmean := by
    intro s hs
    obtain ⟨q, hq, rfl⟩ := List.getElem_of_mem hs
    obtain ⟨s0, hs0, cq, -, -, rq, r1, r2, r3, -⟩ := hst q _ (List.getElem?_eq_getElem hq)
    exact ⟨rq, r1, r2, r3, by rw [cq]; exact (hconst s0 (mem_of_getElem? _ _ _ hs0)).2.2.2.2.2⟩
  have hpos : ∀ s ∈ world, 0 < recordWeight exp s := by
    intro s hs
    obtain ⟨f1, f2, f3, -, -⟩ := hfacts s hs
    exact recordWeight_pos exp hexp s (by omega) (by omega) (by rw [f1]; exact le_of_lt hrho0)
      (by rw [f1]; exact hrho1)
  refine ⟨?_, ?_, fun s hs => (hfacts s hs).2.2.2.2, ?_⟩
  · have hlen0 : 0 < world.length := by
      rw [hlen]
      exact List.length_pos.2 hne
    obtain ⟨s, rest, hw⟩ : ∃ s rest, world = s :: rest := by
      cases hwd : world with
      | nil => rw [hwd] at hlen0; simp at hlen0
      | cons s rest => exact ⟨s, rest, rfl⟩
    have hs0 : world[0]? = some s := by rw [hw]; simp
    obtain ⟨s0, hs0', cq, -, bq, -⟩ := hst 0 s hs0
    have hcnt := hrank0 s ⟨s0, hs0', cq⟩ (by omega) (by omega)
    have hmem : s ∈ world := by rw [hw]; exact List.mem_cons_self s rest
    unfold batchDenominator
    rw [hw, List.map_cons, List.sum_cons]
    have hterm : 0 < (((batch_bounds s).2 - (batch_bounds s).1 : ℕ) : ℚ) * recordWeight exp s := by
      apply mul_pos _ (hpos s hmem)
      exact_mod_cast Nat.sub_pos_of_lt hcnt
    have hrest : 0 ≤ (rest.map (fun s =>
        (((batch_bounds s).2 - (batch_bounds s).1 : ℕ) : ℚ) * recordWeight exp s)).sum := by
      apply List.sum_nonneg
      intro x hx
      obtain ⟨s', hs', rfl⟩ := List.mem_map.1 hx
      apply mul_nonneg (Nat.cast_nonneg _)
      exact le_of_lt (hpos s' (by rw [hw]; exact List.mem_cons_of_mem s hs'))
    linarith
  · intro s hs
    rw [(hfacts s hs).1]
    exact ne_of_gt hrho0
  · apply mul_ne_zero hval
    have : 0 < rows * cols * D := Nat.mul_pos (Nat.mul_pos (by omega) (by omega)) (by omega)
    exact_mod_cast ne_of_gt this

/-- A batch of a run that is ready, on shaped states: the states after the
call of `batch_present` are those of the next batch, and every rank holds the
weights and the `diff` that the reduced fraction gives. -/
theorem inRun_step (exp : ℚ → ℚ) (hexp : ∀ x, 0 < exp x) (c : Constants)
    (rows cols D : Nat) (world0 : List TrainState) {exp2 : ℚ → ℚ}
    (hready : runReady exp2 c rows cols D world0)
    (e b : Nat) (rho : ℚ) (world : List TrainState)
    (hin : inRun rows cols D world0 e b rho world)
    (hsh : ∀ s ∈ world, shaped rows cols D s)
    (hb1 : 1 ≤ b) (hbK : b ≤ c.batches) (hrho0 : 0 < rho) (hrho1 : rho < 4294967295)
    (after : List TrainState) (h : world_batch exp world = some after) :
    after.length = world.length ∧
    inRun rows cols D world0 e (b + 1) rho (nextBatch after) ∧
    0 < batchDenominator exp world ∧
    ∀ q (hq : q < world.length) (hq2 : q < after.length),
      shaped rows cols D after[q] ∧ after[q].constants = world[q].constants ∧
      after[q].epoch = world[q].epoch ∧ after[q].batch = world[q].batch ∧
      after[q].nradius = world[q].nradius ∧
      (∀ p, p < rows * cols * D →
        after[q].weights.mem.getD p 0
          = world[q].weights.mem.getD p 0
            + batchNumerator exp world p / batchDenominator exp world) ∧
      after[q].diff
        = ((List.range (rows * cols * D)).map
            (fun i => |batchNumerator exp world i / batchDenominator exp world|)).sum
          / (c.valmean * ((rows * cols * D : ℕ) : ℚ)) := by
  obtain ⟨after2, ha2, hin2⟩ := inRun_batch exp hexp c rows cols D world0 hready e b rho world hin
    hb1 hbK hrho0 hrho1
  have hsame : after2 = after := Option.some.inj (ha2.symm.trans h)
  subst hsame
  obtain ⟨hden, hrho, hval, hnorm⟩ := inRun_denominator exp hexp c rows cols D world0 hready e b
    rho world hin hb1 hbK hrho0 hrho1
  obtain ⟨hal, hbp⟩ := world_batch_spec exp world after2 h
  refine ⟨hal, hin2, hden, ?_⟩
  intro q hq hq2
  obtain ⟨t, ht, k1, k2, k3, k4, k5, -, -, k8, k9⟩ := batch_present_formula exp world rows cols D
    hsh hrho q hq (ne_of_gt hden)
    (by rw [hval _ (List.getElem_mem hq)]; exact hnorm)
  have hta : t = after2[q] := Option.some.inj (ht.symm.trans (hbp q hq2))
  subst hta
  refine ⟨k1, k2, k3, k4, k5, k8, ?_⟩
  rw [k9, hval _ (List.getElem_mem hq)]

/-- On a file whose lines are all the record `x` of `D` fields, the values
that the reading loop of a rank stores repeat the fields of `x`. -/
theorem loadLoop_constant (D B r R : Nat) (hB : 1 ≤ B) (x : Line) (hx : x.length = D)
    (file : List Line) (hfile : ∀ line ∈ file, line = x) :
    ∀ i, i < (loadLoop D B r R file).values.length →
      (loadLoop D B r R file).values.getD i 0 = x.getD (i % D) 0 := by
  induction file using List.reverseRecOn with
  | nil =>
    intro i hi
    simp [loadLoop, loadInit] at hi
  | append_singleton l a ih =>
    have ha : a = x := hfile a (by simp)
    have ihl := ih (fun line hl => hfile line (by simp [hl]))
    intro i hi
    rw [loadLoop_snoc, loadStep_values_of_length D B r R _ a (by rw [ha]; exact hx)] at hi ⊢
    have hlen := loadLoop_values_length D B r R hB l
    by_cases hil : i < (loadLoop D B r R l).values.length
    · rw [List.getD_eq_getElem?_getD, List.getElem?_append_left hil,
        ← List.getD_eq_getElem?_getD]
      exact ihl i hil
    · have hge : (loadLoop D B r R l).values.length ≤ i := by omega
      rw [List.getD_eq_getElem?_getD, List.getElem?_append_right hge,
        ← List.getD_eq_getElem?_getD]
      split_ifs at hi ⊢ with hown
      · rw [List.length_append, ha, hx] at hi
        rw [ha]
        have hmod : i % D = i - (loadLoop D B r R l).values.length := by
          rw [hlen] at hi hge ⊢
          have h1 : i = (i - D * Nat.count (fun i => (i % B) % R = r) l.length)
              + D * Nat.count (fun i => (i % B) % R = r) l.length := by omega
          conv_lhs => rw [h1]
          rw [Nat.add_mul_mod_self_left]
          exact Nat.mod_eq_of_lt (by omega)
        rw [hmod]
      · simp at hi
        omega

/-- On a file whose lines are all the record `x`, every local record of the
data set of a rank holds the fields of `x`. -/
theorem ctor_constant (st : parallel.State) (file : List Line) (b D : Nat) (ds : Dataset)
    (hc : Dataset.ctor st file b = some ds)
    (hD : dataset_dimensions file = some D) (hR : 1 ≤ st.mranks) (hN : file.length ≤ UINT_MAX)
    (x : Line) (hfile : ∀ line ∈ file, line = x) :
    ∀ lidx k, lidx < ds.mrrecords → k < D → (ds.rrecord lidx).read k = x.getD k 0 := by
  obtain ⟨ds2, hc2, hd, -, hrr, hdata, -, -, -⟩ := ctor_fields st file b D hD hR hN
  have hsame : ds2 = ds := Option.some.inj (hc2.symm.trans hc)
  subst hsame
  have hB := loopBatchsize_pos b st.mranks hR
  obtain ⟨-, hN1⟩ := dataset_dimensions_pos file D hD
  have hx : x.length = D := by
    cases file with
    | nil => simp at hN1
    | cons first rest =>
      have h1 : first = x := hfile first (List.mem_cons_self _ _)
      simp only [dataset_dimensions] at hD
      split_ifs at hD with h
      simp only [Option.some.injEq] at hD
      rw [← h1]; exact hD
  intro lidx k hl hk
  have hlen := loadLoop_values_length D (loopBatchsize b st.mranks) st.mrank st.mranks hB file
  have hlt : lidx * D + k < (loadLoop D (loopBatchsize b st.mranks) st.mrank st.mranks
      file).values.length := by
    rw [hlen, ← hrr]
    calc lidx * D + k < lidx * D + D := by omega
      _ = D * (lidx + 1) := by ring
      _ ≤ D * ds2.mrrecords := Nat.mul_le_mul_left D hl
  simp only [Dataset.rrecord, Ptr.read, hdata, hd]
  rw [loadLoop_constant D _ _ _ hB x hx file hfile _ hlt]
  congr 1
  rw [Nat.mul_comm, Nat.mul_add_mod]
  exact Nat.mod_eq_of_lt hk

/-- On a state whose cells and records all hold the same fields, the
presentation of the records of a batch adds nothing to the numerator. -/
theorem constant_numerator (exp : ℚ → ℚ) (x : List ℚ) (rows cols D : Nat) (s : TrainState)
    (hsh : shaped rows cols D s) (hcs : constantState x rows cols D s) (p : Nat) :
    localNumerator exp s p = 0 := by
  obtain ⟨⟨a1, a2, a3, a4⟩, ⟨b1, b2, b3, b4⟩, -⟩ := hsh
  obtain ⟨hw, hr⟩ := hcs
  unfold localNumerator
  apply List.sum_eq_zero
  intro v hv
  obtain ⟨lidx, hl, rfl⟩ := List.mem_map.1 hv
  rw [List.mem_range'_1] at hl
  have hlast : (batch_bounds s).2 ≤ s.constants.dataset.mrrecords := by
    simp only [batch_bounds]
    exact Nat.min_le_left _ _
  have hlidx : lidx < s.constants.dataset.mrrecords := by omega
  unfold recordTerm
  apply List.sum_eq_zero
  intro u hu
  obtain ⟨rc, hrc, rfl⟩ := List.mem_map.1 hu
  obtain ⟨c1, c2, -⟩ := accumulate_cells_box s 0 0 rc hrc
  rw [a1] at c1
  rw [a2] at c2
  simp only [cell_term, Weights.offset, Weights.index, Weights.entry, Ptr.read, a2, a3, b3]
  split_ifs with hin
  · obtain ⟨h1, h2, -⟩ := hin
    have hk : p - (rc.1 * cols + rc.2) * D < D := by omega
    have hidx : rc.1 * cols + rc.2 < rows * cols := by
      calc rc.1 * cols + rc.2 < rc.1 * cols + cols := by omega
        _ = (rc.1 + 1) * cols := by ring
        _ ≤ rows * cols := Nat.mul_le_mul_right cols c1
    have hpos : (rc.1 * cols + rc.2) * D + (p - (rc.1 * cols + rc.2) * D) < rows * cols * D := by
      calc (rc.1 * cols + rc.2) * D + (p - (rc.1 * cols + rc.2) * D)
          < (rc.1 * cols + rc.2) * D + D := by omega
        _ = (rc.1 * cols + rc.2 + 1) * D := by ring
        _ ≤ rows * cols * D := Nat.mul_le_mul_right D hidx
    have h3 := hr lidx _ hlidx hk
    simp only [Ptr.read] at h3
    rw [h3, hw _ hpos]
    have hmod : ((rc.1 * cols + rc.2) * D + (p - (rc.1 * cols + rc.2) * D)) % D
        = p - (rc.1 * cols + rc.2) * D := by
      rw [Nat.add_comm, Nat.add_mul_mod_self_right]
      exact Nat.mod_eq_of_lt hk
    rw [hmod]
    ring
  · rfl

theorem constant_batch (exp : ℚ → ℚ) (x : List ℚ) (rows cols D : Nat) (world : List TrainState)
    (h : ∀ s ∈ world, shaped rows cols D s ∧ constantState x rows cols D s) (p : Nat) :
    batchNumerator exp world p = 0 := by
  unfold batchNumerator
  apply List.sum_eq_zero
  intro v hv
  obtain ⟨s, hs, rfl⟩ := List.mem_map.1 hv
  exact constant_numerator exp x rows cols D s (h s hs).1 (h s hs).2 p

theorem weights_ext (w1 w2 : Weights) (h1 : w1.mrows = w2.mrows) (h2 : w1.mcols = w2.mcols)
    (h3 : w1.mdimensions = w2.mdimensions) (h4 : w1.mem = w2.mem) : w1 = w2 := by
  cases w1
  cases w2
  simp only [Weights.mk.injEq]
  exact ⟨h1, h2, h3, h4⟩

/-- The loops of `Lattice::train` make one epoch and one batch at least. -/
theorem ctor_loops_pos (st : parallel.State) (lattice : Lattice) (settings : TrainSettings)
    (t : TrainState) (D : Nat) (h : TrainState.ctor st lattice settings = some t)
    (hD : dataset_dimensions settings.mdataset = some D) (hR : 1 ≤ st.mranks)
    (hN : settings.mdataset.length ≤ UINT_MAX) :
    1 ≤ t.constants.epochs ∧ 1 ≤ t.constants.batches := by
  obtain ⟨c1, -, -, c4, -, -, c7, -, -, -⟩ := ctor_constants st lattice settings t D h hD hR hN
  obtain ⟨-, hN1⟩ := dataset_dimensions_pos _ _ hD
  have hBl := loopBatchsize_pos settings.mbatchsize st.mranks hR
  have hB1 : 1 ≤ (if loopBatchsize settings.mbatchsize st.mranks < UINT_MAX
      then loopBatchsize settings.mbatchsize st.mranks else settings.mdataset.length) := by
    split_ifs <;> omega
  obtain ⟨hceil, -, hiff⟩ := batches_ceil settings.mdataset.length _ hN hB1
  constructor
  · rw [c1]
    split_ifs with hm <;> omega
  · rw [c7, c4, hceil]
    exact (hiff 1 (le_refl 1)).2 (by simpa using hN1)

theorem batchStates_batch (q : Nat) (trace : List TrainEvent) (before after : List TrainState)
    (p : TrainState × TrainState)
    (hp : p ∈ batchStates q (trace ++ [TrainEvent.batch before after])) :
    p ∈ batchStates q trace ∨ (before[q]? = some p.1 ∧ after[q]? = some p.2) := by
  rw [batchStates_append, List.mem_append] at hp
  rcases hp with hp | hp
  · exact Or.inl hp
  · right
    simp only [batchStates, List.filterMap_cons, List.filterMap_nil] at hp
    cases hb : before[q]? with
    | none => simp [hb] at hp
    | some s =>
      cases ha : after[q]? with
      | none => simp [hb, ha] at hp
      | some t =>
        simp only [hb, ha, Option.some_bind, Option.map_some', List.mem_singleton] at hp
        subst hp
        exact ⟨rfl, rfl⟩

theorem allSome_none {α : Type} (l : List (Option α)) (h : none ∈ l) : allSome l = none := by
  induction l with
  | nil => cases h
  | cons a t ih =>
    cases a with
    | none => rfl
    | some v =>
      have ht : none ∈ t := by
        rcases List.mem_cons.1 h with h1 | h1
        · cases h1
        · exact h1
      simp only [allSome, ih ht, Option.map_none']

/-- With a mean value of zero the end of `batch_present` divides by zero: the
call leaves no number of the model. -/
theorem batch_present_zero_mean (exp : ℚ → ℚ) (world : List TrainState) (q : Nat)
    (s : TrainState) (hs : world[q]? = some s) (hv : s.constants.valmean = 0) :
    (batch_present exp world q).1 = none := by
  have hq : q < world.length := (List.getElem?_eq_some_iff.1 hs).1
  have hsq : world[q] = s := (List.getElem?_eq_some_iff.1 hs).2
  cases hf : batch_fractions exp world with
  | none => exact batch_present_none exp world hf q
  | some fracs =>
    obtain ⟨lq, hlq, hpq⟩ := batch_present_some exp world fracs hf q hq
    obtain ⟨-, k2, -⟩ := batch_local_keeps exp _ _ hlq
    rw [hpq]
    simp only [batch_finish]
    cases batch_fraction_commit (lq.bfraction.reduce fracs) lq.weights with
    | none => rfl
    | some wd =>
      simp only [Option.some_bind, k2, hsq, hv, zero_mul, ddiv, if_true, Option.map_none']

theorem world_batch_zero_mean (exp : ℚ → ℚ) (world : List TrainState) (hne : world ≠ [])
    (hv : ∀ s ∈ world, s.constants.valmean = 0) : world_batch exp world = none := by
  unfold world_batch
  apply allSome_none
  have h0 : 0 < world.length := List.length_pos.2 hne
  rw [List.mem_map]
  refine ⟨0, List.mem_range.2 h0, ?_⟩
  exact batch_present_zero_mean exp world 0 world[0] (List.getElem?_eq_getElem h0)
    (hv _ (List.getElem_mem h0))

/-- On a well-formed file whose scalars sum to zero, the first batch of
`Lattice::train` divides by the mean value zero, and the run has no result in
the model. -/
theorem train_zero_mean (exp : ℚ → ℚ) (rand : Nat → Nat) (fuelE fuelB R : Nat)
    (lattice : Lattice) (settings : TrainSettings)
    (hwf : wellFormed settings.mdataset = true)
    (hN : settings.mdataset.length ≤ UINT_MAX) (hR : 1 ≤ R)
    (hsum : scalarSum settings.mdataset = 0) :
    Lattice.train exp rand (fuelE + 1) (fuelB + 1) R lattice settings
      = Except.error TrainError.nan := by
  obtain ⟨D, hD, hall⟩ := (wellFormed_iff settings.mdataset).1 hwf
  obtain ⟨world0, h0, hlen0, hload, hfields⟩ :=
    initialWorld_loaded R lattice settings D hD hN hR
  obtain ⟨world1, h1⟩ := world_init_some settings.mdataset settings.mbatchsize world0 rand hwf hN
    hload
  obtain ⟨hl1, hfr⟩ := world_init_frame rand world0 world1 h1
  obtain ⟨-, hctor⟩ := initialWorld_spec R lattice settings world0 h0
  -- the constants of the ranks when the loops start
  have hconst : ∀ s ∈ world1, 1 ≤ s.constants.epochs ∧ 1 ≤ s.constants.batches ∧
      s.constants.valmean = 0 := by
    intro s hs
    obtain ⟨q, hq, rfl⟩ := List.getElem_of_mem hs
    have hq0 : q < world0.length := hl1 ▸ hq
    obtain ⟨t, ht, -, tc, -⟩ := hfr q _ (List.getElem?_eq_getElem hq0)
    rw [List.getElem?_eq_getElem hq, Option.some.injEq] at ht
    rw [ht, tc]
    obtain ⟨k1, k2⟩ := ctor_loops_pos ⟨q, R⟩ lattice settings _ D (hctor q hq0) hD hR hN
    obtain ⟨f1, -, -, f4, -⟩ := ctor_state_fields _ _ _ _ (hctor q hq0)
    obtain ⟨ds, hds, hvm⟩ := ctor_valmean ⟨q, R⟩ settings.mdataset settings.mbatchsize hwf hR hN
    have hsame : world0[q].constants.dataset = ds := Option.some.inj (f1.symm.trans hds)
    refine ⟨k1, k2, ?_⟩
    rw [f4, hsame, hvm, hsum, zero_div]
  have hne1 : world1 ≠ [] := by
    intro hnil
    rw [hnil] at hl1
    simp at hl1
    omega
  have hne : setBatch 1 (setEpoch 1 (setEpoch 0 world1)) ≠ [] := by
    simpa [setBatch, setEpoch] using hne1
  have hne2 : setEpoch 1 (setEpoch 0 world1) ≠ [] := by
    simpa [setEpoch] using hne1
  have hu1 : unanimous (setEpoch 1 (setEpoch 0 world1))
      (fun s => decide (s.epoch ≤ s.constants.epochs)) = Except.ok true := by
    apply unanimous_of_agree _ _ _ _ hne2
    intro s hs
    simp only [setEpoch, List.map_map, List.mem_map, Function.comp] at hs
    obtain ⟨t, ht, rfl⟩ := hs
    simpa using (hconst t ht).1
  have hu2 : unanimous (setBatch 1 (setEpoch 1 (setEpoch 0 world1)))
      (fun s => decide (s.batch ≤ s.constants.batches)) = Except.ok true := by
    apply unanimous_of_agree _ _ _ _ hne
    intro s hs
    simp only [setBatch, setEpoch, List.map_map, List.mem_map, Function.comp] at hs
    obtain ⟨t, ht, rfl⟩ := hs
    simpa using (hconst t ht).2.1
  have hb : world_batch exp (setBatch 1 (setEpoch 1 (setEpoch 0 world1))) = none := by
    apply world_batch_zero_mean exp _ hne
    intro s hs
    simp only [setBatch, setEpoch, List.map_map, List.mem_map, Function.comp] at hs
    obtain ⟨t, ht, rfl⟩ := hs
    exact (hconst t ht).2.2
  simp only [Lattice.train, h0, h1, run_epochs, hu1, run_batches, hu2, hb]

theorem square_values :
    (loadLoop 2 4 0 1 squareSettings.mdataset).values = [0, 0, 1, 0, 0, 1, 1, 1] := by
  simp [loadLoop, loadStep, loadInit, parseLine, nextBidx, squareSettings]

theorem square_cells (s : TrainState) (h1 : s.nradius = 1) (h2 : s.weights.mrows = 2)
    (h3 : s.weights.mcols = 2) :
    accumulate_cells s 0 0 = [(0, 0), (0, 1), (1, 0), (1, 1)] := by
  simp only [accumulate_cells, accumulate_bounds, h1, h2, h3, toUnsigned_one]
  decide

/-- The numerator and the weight of a record for the batch of the four records
of the square on a lattice of two rows and two columns with the radius 1. -/
theorem square_numerator (exp : ℚ → ℚ) (s : TrainState) (hsh : shaped 2 2 2 s)
    (hr : s.nradius = 1) (hb : batch_bounds s = (0, 4))
    (hdim : s.constants.dataset.mdimensions = 2)
    (hdata : s.constants.dataset.mdata = [0, 0, 1, 0, 0, 1, 1, 1]) :
    (∀ p, p < 8 → localNumerator exp s p
      = cell_weight exp 1 0 0 (p / 4) (p / 2 % 2) * (2 - 4 * s.weights.mem.getD p 0)) ∧
    recordWeight exp s = squareWeight exp := by
  obtain ⟨⟨a1, a2, a3, a4⟩, ⟨b1, b2, b3, b4⟩, -⟩ := hsh
  have hcells := square_cells s hr a1 a2
  constructor
  · intro p hp
    simp only [localNumerator, hb, recordTerm, hcells, cell_term, Weights.offset, Weights.index,
      Weights.entry, Ptr.read, Dataset.rrecord, hdata, hdim, a2, a3, b3, b4, hr]
    interval_cases p <;> norm_num [List.range'] <;> ring
  · simp only [recordWeight, hcells, hr, squareWeight]
    simp only [List.map_cons, List.map_nil, List.sum_cons, List.sum_nil]
    ring

/-- The constants that the constructor captures on the single rank of the run
on the square. -/
theorem square_constants (t : TrainState)
    (h : TrainState.ctor ⟨0, 1⟩ ⟨2, 2⟩ squareSettings = some t) :
    t.constants.epochs = 1 ∧ t.constants.batches = 1 ∧ t.constants.diffmin = 0 ∧
    t.constants.nradius = 1 ∧ t.constants.rdecay = 0 ∧ t.constants.valmean = 1 ∧
    t.constants.rbatchsize = 4 ∧ t.constants.dataset.mrrecords = 4 ∧
    t.constants.dataset.mdimensions = 2 ∧
    t.constants.dataset.mdata = [0, 0, 1, 0, 0, 1, 1, 1] := by
  have hD : dataset_dimensions squareSettings.mdataset = some 2 := by decide
  have hN : squareSettings.mdataset.length ≤ UINT_MAX := by decide
  obtain ⟨c1, c2, c3, c4, -, c6, c7, c8, c9, -⟩ :=
    ctor_constants ⟨0, 1⟩ ⟨2, 2⟩ squareSettings t 2 h hD (le_refl 1) hN
  obtain ⟨f1, -, -, f4, f5, -⟩ := ctor_state_fields _ _ _ _ h
  obtain ⟨ds, hds, -, -, -, hdata, -, -, -⟩ :=
    ctor_fields ⟨0, 1⟩ squareSettings.mdataset squareSettings.mbatchsize 2 hD (le_refl 1) hN
  obtain ⟨ds2, hds2, hvm⟩ := ctor_valmean ⟨0, 1⟩ squareSettings.mdataset
    squareSettings.mbatchsize (by decide) (le_refl 1) hN
  have e1 : t.constants.dataset = ds := Option.some.inj (f1.symm.trans hds)
  have e2 : t.constants.dataset = ds2 := Option.some.inj (f1.symm.trans hds2)
  have hlb : loopBatchsize squareSettings.mbatchsize 1 = 4 := by decide
  have hmb : t.constants.dataset.mbatchsize = 4 := by
    rw [c4]
    show (if loopBatchsize squareSettings.mbatchsize 1 < UINT_MAX
      then loopBatchsize squareSettings.mbatchsize 1 else squareSettings.mdataset.length) = 4
    rw [hlb]
    decide
  refine ⟨?_, ?_, ?_, ?_, c3, ?_, ?_, ?_, c9, ?_⟩
  · rw [c1]; decide
  · rw [c7, hmb]
    obtain ⟨hc, -, hiff⟩ := batches_ceil 4 4 (by decide) (by decide)
    have hlen : squareSettings.mdataset.length = 4 := rfl
    rw [hlen]
    have h1 := (hiff 1 (le_refl 1)).2 (by decide)
    have h2 : ¬ 2 ≤ ⌈((4 : ℕ) : ℚ) / ((4 : ℕ) : ℚ)⌉₊ := fun hle => by
      have := (hiff 2 (by decide)).1 hle
      omega
    rw [hc]
    omega
  · rw [c2]
    norm_num [squareSettings]
  · rw [f5]
    norm_num [squareSettings]
  · rw [f4, e2, hvm]
    norm_num [scalarSum, squareSettings]
  · rw [c6, hmb, distribute_eq]
    decide
  · rw [c8]
    show Nat.count (fun i => (i % loopBatchsize squareSettings.mbatchsize 1) % 1 = 0)
      squareSettings.mdataset.length = 4
    rw [hlb]
    decide
  · rw [e1, hdata]
    show (loadLoop 2 (loopBatchsize squareSettings.mbatchsize 1) 0 1
      squareSettings.mdataset).values = _
    rw [hlb]
    exact square_values

theorem square_bounds (s : TrainState) (hb : s.batch = 1) (hrb : s.constants.rbatchsize = 4)
    (hrr : s.constants.dataset.mrrecords = 4) : batch_bounds s = (0, 4) := by
  simp only [batch_bounds, hb, hrb, hrr]
  decide

theorem squareInit_values (rand : Nat → Nat) (p : Nat) :
    squareInit rand p = 0 ∨ squareInit rand p = 1 := by
  unfold squareInit
  have h1 : rand (p / 2) % 4 < 4 := Nat.mod_lt _ (by decide)
  have h2 : p % 2 < 2 := Nat.mod_lt _ (by decide)
  generalize rand (p / 2) % 4 = a at h1
  generalize p % 2 = b at h2
  interval_cases a <;> interval_cases b <;> simp [squareSettings]

theorem cell_weight_pos (exp : ℚ → ℚ) (hexp : ∀ x, 0 < exp x) (rho : ℚ) (a b c d : Nat) :
    0 < cell_weight exp rho a b c d := hexp _

theorem squareWeight_pos (exp : ℚ → ℚ) (hexp : ∀ x, 0 < exp x) : 0 < squareWeight exp := by
  unfold squareWeight
  have h1 := cell_weight_pos exp hexp 1 0 0 0 0
  have h2 := cell_weight_pos exp hexp 1 0 0 0 1
  have h3 := cell_weight_pos exp hexp 1 0 0 1 0
  have h4 := cell_weight_pos exp hexp 1 0 0 1 1
  linarith

/-- The update of a scalar of the weights in the batch of the run on the
square, and its absolute value. -/
theorem square_update (exp : ℚ → ℚ) (hexp : ∀ x, 0 < exp x) (rand : Nat → Nat) (p : Nat) :
    squareInit rand p
        + cell_weight exp 1 0 0 (p / 4) (p / 2 % 2) * (2 - 4 * squareInit rand p)
          / (4 * squareWeight exp)
      = squareFinal exp rand p ∧
    |cell_weight exp 1 0 0 (p / 4) (p / 2 % 2) * (2 - 4 * squareInit rand p)
        / (4 * squareWeight exp)|
      = cell_weight exp 1 0 0 (p / 4) (p / 2 % 2) / (2 * squareWeight exp) ∧
    squareFinal exp rand p ≠ squareInit rand p := by
  have hS := squareWeight_pos exp hexp
  have hc := cell_weight_pos exp hexp 1 0 0 (p / 4) (p / 2 % 2)
  have hSne : squareWeight exp ≠ 0 := ne_of_gt hS
  refine ⟨?_, ?_, ?_⟩
  · unfold squareFinal
    field_simp
    ring
  · rcases squareInit_values rand p with h | h
    · rw [h]
      have : cell_weight exp 1 0 0 (p / 4) (p / 2 % 2) * (2 - 4 * 0) / (4 * squareWeight exp)
          = cell_weight exp 1 0 0 (p / 4) (p / 2 % 2) / (2 * squareWeight exp) := by
        field_simp
        ring
      rw [this, abs_of_pos (div_pos hc (by linarith))]
    · rw [h]
      have : cell_weight exp 1 0 0 (p / 4) (p / 2 % 2) * (2 - 4 * 1) / (4 * squareWeight exp)
          = -(cell_weight exp 1 0 0 (p / 4) (p / 2 % 2) / (2 * squareWeight exp)) := by
        field_simp
        ring
      rw [this, abs_neg, abs_of_pos (div_pos hc (by linarith))]
  · unfold squareFinal
    intro heq
    have hz : cell_weight exp 1 0 0 (p / 4) (p / 2 % 2) * (1 / 2 - squareInit rand p)
        / squareWeight exp = 0 := by linarith
    rw [div_eq_zero_iff] at hz
    rcases hz with hz | hz
    · rcases mul_eq_zero.1 hz with h1 | h1
      · exact (ne_of_gt hc) h1
      · rcases squareInit_values rand p with h | h <;> rw [h] at h1 <;> norm_num at h1
    · exact hSne hz

/-- The sum of the absolute updates of the batch of the run on the square. -/
theorem square_diff (exp : ℚ → ℚ) (hexp : ∀ x, 0 < exp x) (rand : Nat → Nat) :
    ((List.range 8).map (fun i =>
      |cell_weight exp 1 0 0 (i / 4) (i / 2 % 2) * (2 - 4 * squareInit rand i)
        / (4 * squareWeight exp)|)).sum = 1 := by
  have hS := squareWeight_pos exp hexp
  have hSne : squareWeight exp ≠ 0 := ne_of_gt hS
  have hrange : List.range 8 = [0, 1, 2, 3, 4, 5, 6, 7] := by decide
  simp only [(square_update exp hexp rand _).2.1, hrange, List.map_cons, List.map_nil,
    List.sum_cons, List.sum_nil]
  norm_num
  unfold squareWeight at hSne ⊢
  field_simp
  ring

/-- The batch of the run on the square, on the single rank: the weights move
from `squareInit` to `squareFinal`, and the stored `diff` is `1/8`. -/
theorem square_step (exp : ℚ → ℚ) (hexp : ∀ x, 0 < exp x) (rand : Nat → Nat) (c : Constants)
    (world0 : List TrainState) (hready : runReady exp c 2 2 2 world0)
    (hlen : world0.length = 1)
    (hc : ∀ s0 ∈ world0, s0.constants.rbatchsize = 4 ∧ s0.constants.dataset.mrrecords = 4 ∧
      s0.constants.dataset.mdimensions = 2 ∧
      s0.constants.dataset.mdata = [0, 0, 1, 0, 0, 1, 1, 1])
    (hK : c.batches = 1) (hv : c.valmean = 1)
    (world after : List TrainState)
    (hin : inRun 2 2 2 world0 1 1 1 world)
    (hw : ∀ s ∈ world, shaped 2 2 2 s ∧ ∀ p, p < 8 → s.weights.mem.getD p 0 = squareInit rand p)
    (h : world_batch exp world = some after) :
    after.length = world.length ∧
    inRun 2 2 2 world0 1 2 1 (nextBatch after) ∧
    ∀ q (hq : q < world.length) (hq2 : q < after.length),
      shaped 2 2 2 after[q] ∧ after[q].diff = 1 / 8 ∧
      ∀ p, p < 8 → after[q].weights.mem.getD p 0 = squareFinal exp rand p := by
  obtain ⟨hal, hin2, hden, hq⟩ := inRun_step exp hexp c 2 2 2 world0 hready 1 1 1 world hin
    (fun s hs => (hw s hs).1) (le_refl 1) (by rw [hK]) (by norm_num) (by norm_num) after h
  have hin' := hin
  obtain ⟨hlw, hst, -, -⟩ := hin'
  obtain ⟨s, rfl⟩ := List.length_eq_one.1 (hlw.trans hlen)
  obtain ⟨s0, hs0, hcs, -, hbs, hrs, -⟩ := hst 0 s rfl
  obtain ⟨c1, c2, c3, c4⟩ := hc s0 (mem_of_getElem? _ _ _ hs0)
  have hb : batch_bounds s = (0, 4) :=
    square_bounds s hbs (by rw [hcs]; exact c1) (by rw [hcs]; exact c2)
  obtain ⟨hnum, hrw⟩ := square_numerator exp s (hw s (List.mem_singleton_self s)).1 hrs hb
    (by rw [hcs]; exact c3) (by rw [hcs]; exact c4)
  have hbn : ∀ p, p < 8 → batchNumerator exp [s] p
      = cell_weight exp 1 0 0 (p / 4) (p / 2 % 2) * (2 - 4 * squareInit rand p) := by
    intro p hp
    simp only [batchNumerator, List.map_cons, List.map_nil, List.sum_cons, List.sum_nil,
      add_zero]
    rw [hnum p hp, (hw s (List.mem_singleton_self s)).2 p hp]
  have hbd : batchDenominator exp [s] = 4 * squareWeight exp := by
    simp only [batchDenominator, List.map_cons, List.map_nil, List.sum_cons, List.sum_nil,
      add_zero, hb, hrw]
    norm_num
  refine ⟨hal, hin2, ?_⟩
  intro q hq1 hq2
  obtain ⟨k1, -, -, -, -, k6, k7⟩ := hq q hq1 hq2
  have hq0 : q = 0 := by simpa using hq1
  subst hq0
  refine ⟨k1, ?_, ?_⟩
  · rw [k7, hbd, hv]
    have hsum : ((List.range (2 * 2 * 2)).map
        (fun i => |batchNumerator exp [s] i / (4 * squareWeight exp)|)).sum = 1 := by
      rw [← square_diff exp hexp rand]
      show ((List.range 8).map _).sum = _
      congr 1
      apply List.map_congr_left
      intro i hi
      rw [hbn i (List.mem_range.1 hi)]
    rw [hsum]
    norm_num
  · intro p hp
    rw [k6 p hp, hbn p hp, hbd]
    show s.weights.mem.getD p 0 + _ = _
    rw [(hw s (List.mem_singleton_self s)).2 p hp]
    exact (square_update exp hexp rand p).1

/-- The loop of the epochs of the run on the square, from its first test: the
only batch moves the weights from `squareInit` to `squareFinal` and stores the
`diff` 1/8, which is not below the tolerance 0, and the loop is left at the
test of the epoch 2. -/
theorem square_epochs (exp : ℚ → ℚ) (hexp : ∀ x, 0 < exp x) (rand : Nat → Nat) (c : Constants)
    (world0 : List TrainState) (hready : runReady exp c 2 2 2 world0)
    (hlen : world0.length = 1)
    (hc : ∀ s0 ∈ world0, s0.constants.rbatchsize = 4 ∧ s0.constants.dataset.mrrecords = 4 ∧
      s0.constants.dataset.mdimensions = 2 ∧
      s0.constants.dataset.mdata = [0, 0, 1, 0, 0, 1, 1, 1])
    (hE : c.epochs = 1) (hK : c.batches = 1) (hdm : c.diffmin = 0) (hv : c.valmean = 1)
    (epcall : Bool) (fuelB fuel : Nat) (r r2 : Run)
    (hin : inRun 2 2 2 world0 1 0 1 r.world)
    (hw : ∀ s ∈ r.world, shaped 2 2 2 s ∧
      ∀ p, p < 8 → s.weights.mem.getD p 0 = squareInit rand p)
    (hgood : ∀ q, ∀ p ∈ batchStates q r.trace,
      (∀ i, i < 8 → p.1.weights.mem.getD i 0 = squareInit rand i) ∧
      (∀ i, i < 8 → p.2.weights.mem.getD i 0 = squareFinal exp rand i) ∧ p.2.diff = 1 / 8)
    (h : run_epochs exp epcall fuelB fuel r = Except.ok r2) :
    (∀ q, ∀ p ∈ batchStates q r2.trace,
      (∀ i, i < 8 → p.1.weights.mem.getD i 0 = squareInit rand i) ∧
      (∀ i, i < 8 → p.2.weights.mem.getD i 0 = squareFinal exp rand i) ∧ p.2.diff = 1 / 8) ∧
    r2.world ≠ [] ∧
    ∀ s ∈ r2.world, s.epoch = 2 ∧ s.diff = 1 / 8 ∧
      ∀ p, p < 8 → s.weights.mem.getD p 0 = squareFinal exp rand p := by
  refine run_epochs_rule exp epcall fuelB
    (fun r => (∀ q, ∀ p ∈ batchStates q r.trace,
        (∀ i, i < 8 → p.1.weights.mem.getD i 0 = squareInit rand i) ∧
        (∀ i, i < 8 → p.2.weights.mem.getD i 0 = squareFinal exp rand i) ∧ p.2.diff = 1 / 8) ∧
      ((inRun 2 2 2 world0 1 0 1 r.world ∧
        ∀ s ∈ r.world, shaped 2 2 2 s ∧
          ∀ p, p < 8 → s.weights.mem.getD p 0 = squareInit rand p) ∨
       (r.world ≠ [] ∧ ∀ s ∈ r.world, s.epoch = 2 ∧ s.constants.epochs = 1 ∧ s.diff = 1 / 8 ∧
          ∀ p, p < 8 → s.weights.mem.getD p 0 = squareFinal exp rand p)))
    (fun r => (∀ q, ∀ p ∈ batchStates q r.trace,
        (∀ i, i < 8 → p.1.weights.mem.getD i 0 = squareInit rand i) ∧
        (∀ i, i < 8 → p.2.weights.mem.getD i 0 = squareFinal exp rand i) ∧ p.2.diff = 1 / 8) ∧
      ∃ b, 1 ≤ b ∧ inRun 2 2 2 world0 1 b 1 r.world ∧
        (b = 1 → ∀ s ∈ r.world, shaped 2 2 2 s ∧
          ∀ p, p < 8 → s.weights.mem.getD p 0 = squareInit rand p) ∧
        (2 ≤ b → ∀ s ∈ r.world, s.diff = 1 / 8 ∧
          ∀ p, p < 8 → s.weights.mem.getD p 0 = squareFinal exp rand p))
    (fun r => (∀ q, ∀ p ∈ batchStates q r.trace,
        (∀ i, i < 8 → p.1.weights.mem.getD i 0 = squareInit rand i) ∧
        (∀ i, i < 8 → p.2.weights.mem.getD i 0 = squareFinal exp rand i) ∧ p.2.diff = 1 / 8) ∧
      r.world ≠ [] ∧
      ∀ s ∈ r.world, s.epoch = 2 ∧ s.diff = 1 / 8 ∧
        ∀ p, p < 8 → s.weights.mem.getD p 0 = squareFinal exp rand p)
    ?_ ?_ ?_ ?_ ?_ fuel r r2 ⟨hgood, Or.inl ⟨hin, hw⟩⟩ h
  · -- the head of an epoch
    rintro r ⟨hgood, hI⟩ hall
    refine ⟨hgood, ?_⟩
    rcases hI with ⟨hin, hw⟩ | ⟨hne, hfin⟩
    · obtain ⟨-, hmem⟩ := inRun_mem exp c 2 2 2 world0 hready 1 0 _ r.world hin
      refine ⟨1, le_refl 1, ?_, ?_, ?_⟩
      · exact inRun_map 2 2 2 world0 (fun s => { s with batch := 1 }) (fun _ => rfl)
          (fun _ => rfl) (fun _ => rfl) (fun _ => rfl) 1 0 1 1 _ _ r.world
          (fun s hs => ⟨(hmem s hs).1, rfl, (hmem s hs).2.2.1⟩) hin
      · intro _ s hs
        simp only [setBatch, List.mem_map] at hs
        obtain ⟨t, ht, rfl⟩ := hs
        exact hw t ht
      · intro h2
        omega
    · exfalso
      obtain ⟨s1, hs1⟩ := List.exists_mem_of_ne_nil _ hne
      have := hall s1 hs1
      rw [(hfin s1 hs1).1, (hfin s1 hs1).2.1] at this
      omega
  · -- the batch
    rintro r after ⟨hgood, b, hb1, hin, hw0, hw1⟩ hall hbatch
    obtain ⟨hne, hmem⟩ := inRun_mem exp c 2 2 2 world0 hready 1 b _ r.world hin
    obtain ⟨s1, hs1⟩ := List.exists_mem_of_ne_nil _ hne
    have hb : b = 1 := by
      have := hall s1 hs1
      rw [(hmem s1 hs1).2.1, (hmem s1 hs1).2.2.2.2.1, hK] at this
      omega
    subst hb
    obtain ⟨hal, hin2, hq⟩ := square_step exp hexp rand c world0 hready hlen hc hK hv r.world
      after hin (hw0 rfl) hbatch
    constructor
    · intro q p hp
      rcases batchStates_batch q r.trace r.world after p hp with hold | ⟨hbq, haq⟩
      · exact hgood q p hold
      · obtain ⟨h1, e1⟩ := List.getElem?_eq_some_iff.1 hbq
        obtain ⟨h2, e2⟩ := List.getElem?_eq_some_iff.1 haq
        obtain ⟨-, m2, m3⟩ := hq q h1 h2
        rw [← e1, ← e2]
        exact ⟨(hw0 rfl _ (List.getElem_mem h1)).2, m3, m2⟩
    · refine ⟨2, by decide, hin2, fun h2 => by omega, ?_⟩
      intro _ s hs
      simp only [nextBatch, List.mem_map] at hs
      obtain ⟨t, ht, rfl⟩ := hs
      obtain ⟨q, hq2, rfl⟩ := List.getElem_of_mem ht
      obtain ⟨-, m2, m3⟩ := hq q (hal ▸ hq2) hq2
      exact ⟨m2, m3⟩
  · -- no exit by convergence
    rintro r1 ⟨hgood, b, hb1, hin, hw0, hw1⟩ hdone hconv
    exfalso
    obtain ⟨hne, hmem⟩ := inRun_mem exp c 2 2 2 world0 hready 1 b _ r1.world hin
    obtain ⟨s1, hs1⟩ := List.exists_mem_of_ne_nil _ hne
    have hb2 : 2 ≤ b := by
      have := hdone s1 hs1
      rw [(hmem s1 hs1).2.1, (hmem s1 hs1).2.2.2.2.1, hK] at this
      omega
    obtain ⟨s2, hs2, hd2, hc2⟩ : ∃ s2 ∈ updateRadius exp r1.world,
        s2.diff = s1.diff ∧ s2.constants = s1.constants :=
      ⟨_, List.mem_map.2 ⟨s1, hs1, rfl⟩, rfl, rfl⟩
    have := hconv s2 hs2
    rw [hd2, hc2, (hw1 hb2 s1 hs1).1, (hmem s1 hs1).2.2.2.2.2.1, hdm] at this
    norm_num at this
  · -- the end of the epoch
    rintro r1 ⟨hgood, b, hb1, hin, hw0, hw1⟩ hdone -
    obtain ⟨hne, hmem⟩ := inRun_mem exp c 2 2 2 world0 hready 1 b _ r1.world hin
    obtain ⟨s1, hs1⟩ := List.exists_mem_of_ne_nil _ hne
    have hb2 : 2 ≤ b := by
      have := hdone s1 hs1
      rw [(hmem s1 hs1).2.1, (hmem s1 hs1).2.2.2.2.1, hK] at this
      omega
    constructor
    · intro q p hp
      rw [batchStates_append, batchStates_append] at hp
      cases epcall <;>
        simp only [batchStates, List.filterMap_cons, List.filterMap_nil, List.append_nil,
          if_true, if_false, Bool.false_eq_true] at hp <;>
        exact hgood q p hp
    · right
      constructor
      · simpa [nextEpoch, updateRadius] using hne
      · intro s hs
        simp only [nextEpoch, updateRadius, List.map_map, List.mem_map, Function.comp] at hs
        obtain ⟨t, ht, rfl⟩ := hs
        refine ⟨?_, ?_, (hw1 hb2 t ht).1, (hw1 hb2 t ht).2⟩
        · show u32 (t.epoch + 1) = 2
          rw [(hmem t ht).1]
          decide
        · show t.constants.epochs = 1
          rw [(hmem t ht).2.2.2.1, hE]
  · -- the exit at the test of the epoch 2
    rintro r ⟨hgood, hI⟩ hex
    rcases hI with ⟨hin, hw⟩ | ⟨hne, hfin⟩
    · exfalso
      obtain ⟨hne, hmem⟩ := inRun_mem exp c 2 2 2 world0 hready 1 0 _ r.world hin
      obtain ⟨s1, hs1⟩ := List.exists_mem_of_ne_nil _ hne
      have := hex s1 hs1
      rw [(hmem s1 hs1).1, (hmem s1 hs1).2.2.2.1, hE] at this
      omega
    · exact ⟨hgood, hne, fun s hs => ⟨(hfin s hs).1, (hfin s hs).2.2.1, (hfin s hs).2.2.2⟩⟩

/-- The run of `Lattice::train` on the square with one rank: it returns, its
only call of `batch_present` moves the weights from `squareInit` to
`squareFinal` and stores the `diff` 1/8, and the run ends with these weights
and the epoch cursor 2. -/
theorem square_run (exp : ℚ → ℚ) (hexp : ∀ x, 0 < exp x) (rand : Nat → Nat)
    (fuelE fuelB : Nat) (hfE : 1 < fuelE) (hfB : 4 < fuelB) :
    ∃ r, Lattice.train exp rand fuelE fuelB 1 ⟨2, 2⟩ squareSettings = Except.ok r ∧
      (batchStates 0 r.trace).length = 1 ∧
      (batchStates 0 r.trace).map (fun p => (p.1.epoch, p.1.batch, p.1.nradius))
        = [(1, 1, 1)] ∧
      (∀ p ∈ batchStates 0 r.trace,
        (∀ i, i < 8 → p.1.weights.mem.getD i 0 = squareInit rand i) ∧
        (∀ i, i < 8 → p.2.weights.mem.getD i 0 = squareFinal exp rand i) ∧ p.2.diff = 1 / 8) ∧
      r.world ≠ [] ∧
      ∀ s ∈ r.world, s.epoch = 2 ∧ s.diff = 1 / 8 ∧
        ∀ p, p < 8 → s.weights.mem.getD p 0 = squareFinal exp rand p := by
  have hwf : wellFormed squareSettings.mdataset = true := by decide
  have hNB : squareSettings.mdataset.length + squareSettings.mbatchsize < UINT_MAX := by decide
  have hsum : scalarSum squareSettings.mdataset ≠ 0 := by norm_num [scalarSum, squareSettings]
  have hE : epochCap squareSettings < UINT_MAX := by decide
  have hcap : epochCap squareSettings = 1 := by decide
  have hrad0 : startRadius ⟨2, 2⟩ squareSettings < 4294967295 := by
    norm_num [startRadius, squareSettings]
  have hrad : ∀ e, 1 ≤ e → e < epochCap squareSettings →
      startRadius ⟨2, 2⟩ squareSettings * exp ((e : ℚ) * squareSettings.mrdecay)
        < 4294967295 := by
    intro e he1 he2
    omega
  obtain ⟨r, h⟩ := train_total exp hexp rand fuelE fuelB 1 ⟨2, 2⟩ squareSettings hwf hNB
    (le_refl 1) (by decide) (by decide) hsum hE hrad0 hrad (by omega) (by
      show 4 < fuelB
      exact hfB)
  obtain ⟨D, world0, world1, s0, hD, hall, h0, hlen0, hload, h1, hlen1, hs0, e0, n0, r0, k0, hready,
    hin, hsh, hwt⟩ := train_start exp hexp rand 1 ⟨2, 2⟩ squareSettings hwf hNB (le_refl 1)
      (by decide) (by decide) hsum hE hrad0 hrad
  have hD2 : D = 2 := by
    have : dataset_dimensions squareSettings.mdataset = some 2 := by decide
    rw [this] at hD
    exact (Option.some.inj hD).symm
  subst hD2
  obtain ⟨w0, w1, r2, h0', h1', hrun, hr⟩ := train_rule exp rand fuelE fuelB 1 ⟨2, 2⟩
    squareSettings r h
  have e0' : w0 = world0 := Option.some.inj (h0'.symm.trans h0)
  subst e0'
  have e1' : w1 = world1 := Option.some.inj (h1'.symm.trans h1)
  subst e1'
  obtain ⟨-, hctor⟩ := initialWorld_spec 1 ⟨2, 2⟩ squareSettings w0 h0
  have hq0 : 0 < w0.length := by omega
  have hs0' : w0[0] = s0 := by
    rw [List.getElem?_eq_getElem hq0] at hs0
    exact Option.some.inj hs0
  obtain ⟨q1, q2, q3, q4, q5, q6, q7, q8, q9, q10⟩ := square_constants w0[0] (hctor 0 hq0)
  rw [hs0'] at q1 q2 q3 q4 q5 q6 q7 q8 q9 q10
  have hrho : radiusDuring exp s0.constants 1 = 1 := by
    simp [radiusDuring, q4]
  rw [hrho] at hin
  have hc : ∀ t ∈ w0, t.constants.rbatchsize = 4 ∧ t.constants.dataset.mrrecords = 4 ∧
      t.constants.dataset.mdimensions = 2 ∧
      t.constants.dataset.mdata = [0, 0, 1, 0, 0, 1, 1, 1] := by
    intro t ht
    obtain ⟨q, hq, rfl⟩ := List.getElem_of_mem ht
    have hq' : q = 0 := by omega
    subst hq'
    rw [hs0']
    exact ⟨q7, q8, q9, q10⟩
  have hw : ∀ s ∈ setEpoch 1 (setEpoch 0 w1), shaped 2 2 2 s ∧
      ∀ p, p < 8 → s.weights.mem.getD p 0 = squareInit rand p := by
    intro s hs
    refine ⟨hsh s hs, ?_⟩
    intro p hp
    rw [hwt s hs p hp]
    rfl
  have hgood0 : ∀ q, ∀ p ∈ batchStates q
      ([TrainEvent.init (setEpoch 0 w1), TrainEvent.print (setEpoch 0 w1)]
        ++ (if squareSettings.mepcall then [TrainEvent.epcall (setEpoch 0 w1)] else [])),
      (∀ i, i < 8 → p.1.weights.mem.getD i 0 = squareInit rand i) ∧
      (∀ i, i < 8 → p.2.weights.mem.getD i 0 = squareFinal exp rand i) ∧ p.2.diff = 1 / 8 := by
    intro q p hp
    exfalso
    simp [batchStates, squareSettings] at hp
  obtain ⟨hgood, hne, hfinal⟩ := square_epochs exp hexp rand s0.constants w0 hready hlen0 hc q1 q2
    q3 q6 squareSettings.mepcall fuelB fuelE _ r2 hin hw hgood0 hrun
  have hbs : batchStates 0 r.trace = batchStates 0 r2.trace := by
    rw [hr, batchStates_append]
    simp [batchStates]
  have hgrid : (batchStates 0 r.trace).map (fun p => (p.1.epoch, p.1.batch, p.1.nradius))
      = [(1, 1, 1)] := by
    have hready2 := hready
    obtain ⟨-, hEmax, hKmax, -⟩ := hready2
    obtain ⟨n, conv, s, hs, hcs, hn, hct, hcf, -, hb, -⟩ :=
      train_end exp rand fuelE fuelB 1 ⟨2, 2⟩ squareSettings r h w0 h0 0 hq0
        (by rw [hs0']; exact hEmax) (by rw [hs0']; exact hKmax)
    have hse : s.epoch = 2 := by
      have hmem : s ∈ r.world := mem_of_getElem? _ _ _ hs
      rw [hr] at hmem
      exact (hfinal s hmem).1
    rw [hs0', q1] at hn hcf
    have hn1 : n = 1 := by
      cases conv with
      | true =>
        obtain ⟨-, h2⟩ := hct rfl
        omega
      | false => exact (hcf rfl).1
    subst hn1
    rw [hb, hs0']
    simp [epochGrid, q2, hrho]
  refine ⟨r, h, ?_, hgrid, ?_, by rw [hr]; exact hne, by rw [hr]; exact hfinal⟩
  · have hl := congrArg List.length hgrid
    rw [List.length_map] at hl
    exact hl
  · intro p hp
    rw [hbs] at hp
    exact hgood 0 p hp

theorem toUnsigned_max : toUnsigned 4294967295 = 4294967295 := by
  have : ⌊(4294967295 : ℚ)⌋₊ = 4294967295 := by
    rw [Nat.floor_eq_iff (by norm_num)]
    norm_num
  simp [toUnsigned, u32, this]

theorem updateStates_update (q : Nat) (trace : List TrainEvent) (world : List TrainState)
    (s : TrainState) (hs : s ∈ updateStates q (trace ++ [TrainEvent.update world])) :
    s ∈ updateStates q trace ∨ s ∈ world := by
  rw [updateStates_append, List.mem_append] at hs
  rcases hs with hs | hs
  · exact Or.inl hs
  · right
    simp only [updateStates, List.filterMap_cons, List.filterMap_nil] at hs
    cases hw : world[q]? with
    | none => simp [hw] at hs
    | some t =>
      simp only [hw, List.mem_singleton] at hs
      subst hs
      exact mem_of_getElem? _ _ _ hw

/-- The loop of the epochs keeps every `diff` non-negative when the mean value
is positive. -/
theorem run_epochs_diff (exp : ℚ → ℚ) (epcall : Bool) (fuelB fuel : Nat) (r r2 : Run)
    (hI : diffNonneg r) (h : run_epochs exp epcall fuelB fuel r = Except.ok r2) :
    diffNonneg r2 := by
  refine run_epochs_rule exp epcall fuelB diffNonneg diffNonneg diffNonneg
    ?_ ?_ ?_ ?_ (fun r hI _ => hI) fuel r r2 hI h
  · rintro r ⟨h1, h2⟩ -
    refine ⟨?_, h2⟩
    intro s hs
    obtain ⟨t, ht, rfl⟩ := List.mem_map.1 hs
    exact h1 t ht
  · rintro r after ⟨h1, h2⟩ - hb
    obtain ⟨hal, hbp⟩ := world_batch_spec exp r.world after hb
    refine ⟨?_, ?_⟩
    · intro s hs
      obtain ⟨t, ht, rfl⟩ := List.mem_map.1 hs
      obtain ⟨q, hq, rfl⟩ := List.getElem_of_mem ht
      have hq0 : q < r.world.length := hal ▸ hq
      have hsign := batch_present_sign exp r.world q r.world[q] after[q]
        (List.getElem?_eq_getElem hq0) (hbp q hq)
      obtain ⟨kc, -⟩ := batch_present_cursor exp r.world q hq0 after[q] (hbp q hq)
      have hv := (h1 _ (List.getElem_mem hq0)).1
      exact ⟨by show 0 < after[q].constants.valmean; rw [kc]; exact hv, hsign.1 hv⟩
    · intro q s hs
      rw [updateStates_append] at hs
      simp only [updateStates, List.filterMap_cons, List.filterMap_nil, List.append_nil] at hs
      exact h2 q s hs
  · rintro r1 ⟨h1, h2⟩ - -
    have hnew : ∀ s ∈ updateRadius exp r1.world, 0 < s.constants.valmean ∧ 0 ≤ s.diff := by
      intro s hs
      obtain ⟨t, ht, rfl⟩ := List.mem_map.1 hs
      exact h1 t ht
    refine ⟨hnew, ?_⟩
    intro q s hs
    rcases updateStates_update q _ _ s hs with hold | hin
    · exact h2 q s hold
    · exact (hnew s hin).2
  · rintro r1 ⟨h1, h2⟩ - -
    have hnew : ∀ s ∈ updateRadius exp r1.world, 0 < s.constants.valmean ∧ 0 ≤ s.diff := by
      intro s hs
      obtain ⟨t, ht, rfl⟩ := List.mem_map.1 hs
      exact h1 t ht
    refine ⟨?_, ?_⟩
    · intro s hs
      simp only [nextEpoch, List.mem_map] at hs
      obtain ⟨t, ht, rfl⟩ := hs
      exact hnew t ht
    · intro q s hs
      rw [updateStates_append] at hs
      have hz : updateStates q (if epcall then [TrainEvent.epcall (updateRadius exp r1.world)]
          else []) = [] := by
        cases epcall <;> simp [updateStates]
      rw [hz, List.append_nil] at hs
      rcases updateStates_update q _ _ s hs with hold | hin
      · exact h2 q s hold
      · exact (hnew s hin).2

/-- In a run of `Lattice::train` on a well-formed file whose scalars have a
positive sum, the `diff` that a convergence test reads is never negative. -/
theorem train_diff_nonneg (exp : ℚ → ℚ) (rand : Nat → Nat) (fuelE fuelB R : Nat)
    (lattice : Lattice) (settings : TrainSettings)
    (hwf : wellFormed settings.mdataset = true)
    (hN : settings.mdataset.length ≤ UINT_MAX) (hR : 1 ≤ R)
    (hsum : 0 < scalarSum settings.mdataset)
    (r : Run) (h : Lattice.train exp rand fuelE fuelB R lattice settings = Except.ok r) :
    diffNonneg r := by
  obtain ⟨D, hD, hall⟩ := (wellFormed_iff settings.mdataset).1 hwf
  obtain ⟨world0, world1, r2, h0, h1, hrun, hr⟩ := train_rule exp rand fuelE fuelB R lattice
    settings r h
  obtain ⟨hlen0, hctor⟩ := initialWorld_spec R lattice settings world0 h0
  obtain ⟨hl1, hfr⟩ := world_init_frame rand world0 world1 h1
  obtain ⟨-, hN1⟩ := dataset_dimensions_pos _ _ hD
  have hconst : ∀ s ∈ world1, 0 < s.constants.valmean ∧ 0 ≤ s.diff := by
    intro s hs
    obtain ⟨q, hq, rfl⟩ := List.getElem_of_mem hs
    have hq0 : q < world0.length := hl1 ▸ hq
    obtain ⟨t, ht, -, tc, -, -, -, -, td⟩ := hfr q _ (List.getElem?_eq_getElem hq0)
    rw [List.getElem?_eq_getElem hq, Option.some.injEq] at ht
    rw [ht, tc, td]
    obtain ⟨f1, -, -, f4, -, -, -, -, -, -, f11⟩ := ctor_state_fields _ _ _ _ (hctor q hq0)
    obtain ⟨ds, hds, hvm⟩ := ctor_valmean ⟨q, R⟩ settings.mdataset settings.mbatchsize hwf hR hN
    have hsame : world0[q].constants.dataset = ds := Option.some.inj (f1.symm.trans hds)
    refine ⟨?_, by rw [f11]; norm_num⟩
    rw [f4, hsame, hvm]
    apply div_pos hsum
    exact_mod_cast hN1
  have hI : diffNonneg
      { world := setEpoch 1 (setEpoch 0 world1)
        trace := [TrainEvent.init (setEpoch 0 world1), TrainEvent.print (setEpoch 0 world1)]
          ++ (if settings.mepcall then [TrainEvent.epcall (setEpoch 0 world1)] else []) } := by
    refine ⟨?_, ?_⟩
    · intro s hs
      simp only [setEpoch, List.map_map, List.mem_map, Function.comp] at hs
      obtain ⟨t, ht, rfl⟩ := hs
      exact hconst t ht
    · intro q s hs
      exfalso
      cases hcall : settings.mepcall <;> simp [updateStates, hcall] at hs
  obtain ⟨k1, k2⟩ := run_epochs_diff exp settings.mepcall fuelB fuelE _ r2 hI hrun
  rw [hr]
  refine ⟨k1, ?_⟩
  intro q s hs
  rw [updateStates_append] at hs
  simp only [updateStates, List.filterMap_cons, List.filterMap_nil, List.append_nil] at hs
  exact k2 q s hs

theorem origin_mem_cells (s : TrainState) (hrows : 1 ≤ s.weights.mrows)
    (hcols : 1 ≤ s.weights.mcols) (hfl : ⌊s.nradius⌋₊ < 4294967295) :
    ((0 : Nat), (0 : Nat)) ∈ accumulate_cells s 0 0 := by
  have hshare : toUnsigned s.nradius = ⌊s.nradius⌋₊ := by
    unfold toUnsigned
    exact u32_of_le _ (by simp only [UINT_MAX]; omega)
  simp only [accumulate_cells, accumulate_bounds, mem_loop_cells, hshare]
  have hu : u32 (0 + ⌊s.nradius⌋₊ + 1) = ⌊s.nradius⌋₊ + 1 := by
    rw [Nat.zero_add]
    exact u32_of_le _ (by simp only [UINT_MAX]; omega)
  rw [hu]
  refine ⟨⟨?_, ?_⟩, ⟨?_, ?_⟩⟩
  · split_ifs <;> omega
  · exact lt_min (by omega) (by omega)
  · split_ifs <;> omega
  · exact lt_min (by omega) (by omega)

theorem cell_weight_origin (exp : ℚ → ℚ) (rho : ℚ) (r c : Nat) :
    cell_weight exp rho r c r c = exp 0 := by
  simp only [cell_weight, grid_sqdist_self, neg_zero, zero_div]

/-- The weights `h` that one presented record adds to the denominator sum to
at least 1: the cell of the best-matching unit adds `exp 0 = 1` and no cell
adds a negative weight. -/
theorem recordWeight_ge_one (exp : ℚ → ℚ) (hexp : ∀ x, 0 ≤ exp x) (hexp0 : exp 0 = 1)
    (s : TrainState) (hrows : 1 ≤ s.weights.mrows) (hcols : 1 ≤ s.weights.mcols)
    (hfl : ⌊s.nradius⌋₊ < 4294967295) : 1 ≤ recordWeight exp s := by
  unfold recordWeight
  have hmem : cell_weight exp s.nradius 0 0 0 0 ∈ (accumulate_cells s 0 0).map
      (fun rc => cell_weight exp s.nradius 0 0 rc.1 rc.2) :=
    List.mem_map.2 ⟨(0, 0), origin_mem_cells s hrows hcols hfl, rfl⟩
  have hle := List.single_le_sum (by
    intro x hx
    obtain ⟨rc, -, rfl⟩ := List.mem_map.1 hx
    exact hexp _) _ hmem
  rw [cell_weight_origin, hexp0] at hle
  exact hle

theorem presented_le_denominator (exp : ℚ → ℚ) (world : List TrainState)
    (h : ∀ s ∈ world, 1 ≤ recordWeight exp s) :
    ((presentedCount world : ℕ) : ℚ) ≤ batchDenominator exp world := by
  unfold presentedCount batchDenominator
  induction world with
  | nil => simp
  | cons s rest ih =>
    simp only [List.map_cons, List.sum_cons, Nat.cast_add]
    have h1 := h s (List.mem_cons_self s rest)
    have h2 := ih (fun t ht => h t (List.mem_cons_of_mem s ht))
    have h3 : (0 : ℚ) ≤ (((batch_bounds s).2 - (batch_bounds s).1 : ℕ) : ℚ) := Nat.cast_nonneg _
    nlinarith

theorem presented_pos (world : List TrainState)
    (h : ∃ s ∈ world, (batch_bounds s).1 < (batch_bounds s).2) : 1 ≤ presentedCount world := by
  obtain ⟨s, hs, hlt⟩ := h
  unfold presentedCount
  have hmem : (batch_bounds s).2 - (batch_bounds s).1
      ∈ world.map (fun s => (batch_bounds s).2 - (batch_bounds s).1) :=
    List.mem_map.2 ⟨s, hs, rfl⟩
  have := List.single_le_sum (fun x _ => Nat.zero_le x) _ hmem
  omega

/-- The fractions of a world of shaped states whose radii are not zero: every
rank reaches the collective, and the reduced denominator is the sum over the
ranks of the number of records presented times the weights of one record. -/
theorem batch_reduced_denominator (exp : ℚ → ℚ) (world : List TrainState) (rows cols D : Nat)
    (hsh : ∀ s ∈ world, shaped rows cols D s) (hrho : ∀ s ∈ world, s.nradius ≠ 0) :
    ∃ fracs, batch_fractions exp world = some fracs ∧
      (fracs.map (fun f : BatchFraction => f.denominator)).sum = batchDenominator exp world ∧
      ∀ q (hq : q < world.length), ∃ lq, (batch_local exp world[q]).1 = some lq ∧
        (batch_present exp world q).1
          = batch_finish { lq with bfraction := lq.bfraction.reduce fracs } ∧
        (lq.bfraction.reduce fracs).denominator = batchDenominator exp world := by
  have hlen : ∀ s ∈ world, s.bfraction.numerator.mem.length ≤ s.bfraction.numerator.size3 := by
    intro s hs
    rw [(shaped_size3 rows cols D s (hsh s hs)).2, (hsh s hs).2.1.2.2.2]
  obtain ⟨fracs, hf, hdens⟩ := allSome_map_values
    (fun s => ((batch_local exp s).1).map (fun t => t.bfraction))
    (fun f : BatchFraction => f.denominator)
    (fun s => (((batch_bounds s).2 - (batch_bounds s).1 : ℕ) : ℚ) * recordWeight exp s)
    world (by
      intro s hs
      obtain ⟨t, ht, -, -, -, -, -, -, -, -, -, -, -, hd, -⟩ :=
        batch_local_num exp s (hrho s hs) (hlen s hs)
      exact ⟨t.bfraction, by simp only [ht, Option.map_some'], hd⟩)
  have hf2 : batch_fractions exp world = some fracs := hf
  have hsum : (fracs.map (fun f : BatchFraction => f.denominator)).sum
      = batchDenominator exp world := by
    rw [hdens]
    rfl
  refine ⟨fracs, hf2, hsum, ?_⟩
  intro q hq
  obtain ⟨lq, hlq, hpq⟩ := batch_present_some exp world fracs hf2 q hq
  obtain ⟨-, -, -, -, -, r6, -⟩ := reduce_shape fracs lq.bfraction
  exact ⟨lq, hlq, hpq, r6.trans hsum⟩

theorem cell_position_inj (cols D r c d a b p : Nat) (hc : c < cols) (hb : b < cols)
    (hd : d < D) (hp : p = (r * cols + c) * D + d) (h1 : (a * cols + b) * D ≤ p)
    (h2 : p < (a * cols + b) * D + D) : r = a ∧ c = b := by
  subst hp
  have hij : r * cols + c = a * cols + b := by
    rcases Nat.lt_trichotomy (r * cols + c) (a * cols + b) with hlt | heq | hgt
    · have : (r * cols + c + 1) * D ≤ (a * cols + b) * D := Nat.mul_le_mul_right D hlt
      rw [Nat.add_mul, Nat.one_mul] at this
      omega
    · exact heq
    · have : (a * cols + b + 1) * D ≤ (r * cols + c) * D := Nat.mul_le_mul_right D hgt
      rw [Nat.add_mul, Nat.one_mul] at this
      omega
  have hra : r = a := by
    rcases Nat.lt_trichotomy r a with hlt | heq | hgt
    · have : (r + 1) * cols ≤ a * cols := Nat.mul_le_mul_right cols hlt
      rw [Nat.add_mul, Nat.one_mul] at this
      omega
    · exact heq
    · have : (a + 1) * cols ≤ r * cols := Nat.mul_le_mul_right cols hgt
      rw [Nat.add_mul, Nat.one_mul] at this
      omega
  subst hra
  exact ⟨rfl, by omega⟩

/-- A presented record adds nothing to the numerator of a cell `(r, c)` that
lies more than `share` rows or columns from the origin, for a radius whose
integer part is at most `share`. -/
theorem recordTerm_outside (exp : ℚ → ℚ) (rows cols D : Nat) (s : TrainState)
    (hsh : shaped rows cols D s) (share : Nat) (hshare : toUnsigned s.nradius ≤ share)
    (lidx r c d : Nat) (hc : c < cols) (hd : d < D) (hout : share < r ∨ share < c) :
    recordTerm exp s lidx ((r * cols + c) * D + d) = 0 := by
  obtain ⟨⟨a1, a2, a3, a4⟩, ⟨b1, b2, b3, b4⟩, -⟩ := hsh
  unfold recordTerm
  apply List.sum_eq_zero
  intro u hu
  obtain ⟨rc, hrc, rfl⟩ := List.mem_map.1 hu
  obtain ⟨-, c2, c3, -, c5, -⟩ := accumulate_cells_box s 0 0 rc hrc
  rw [a2] at c2
  simp only [cell_term, Weights.offset, Weights.index, a2, a3, b3]
  rw [if_neg]
  rintro ⟨h1, h2, -⟩
  obtain ⟨e1, e2⟩ := cell_position_inj cols D r c d rc.1 rc.2 _ hc c2 hd rfl h1 h2
  omega

theorem localNumerator_outside (exp : ℚ → ℚ) (rows cols D : Nat) (s : TrainState)
    (hsh : shaped rows cols D s) (share : Nat) (hshare : toUnsigned s.nradius ≤ share)
    (r c d : Nat) (hc : c < cols) (hd : d < D) (hout : share < r ∨ share < c) :
    localNumerator exp s ((r * cols + c) * D + d) = 0 := by
  unfold localNumerator
  apply List.sum_eq_zero
  intro u hu
  obtain ⟨lidx, -, rfl⟩ := List.mem_map.1 hu
  exact recordTerm_outside exp rows cols D s hsh share hshare lidx r c d hc hd hout

/-- The reduced numerator of a batch is zero at every scalar of a cell
`(r, c)` that lies more than `share` rows or columns from the origin, when
the integer part of the radius of every rank is at most `share`. -/
theorem batchNumerator_outside (exp : ℚ → ℚ) (rows cols D : Nat) (world : List TrainState)
    (hsh : ∀ s ∈ world, shaped rows cols D s) (share : Nat)
    (hshare : ∀ s ∈ world, toUnsigned s.nradius ≤ share)
    (r c d : Nat) (hc : c < cols) (hd : d < D) (hout : share < r ∨ share < c) :
    batchNumerator exp world ((r * cols + c) * D + d) = 0 := by
  unfold batchNumerator
  apply List.sum_eq_zero
  intro u hu
  obtain ⟨s, hs, rfl⟩ := List.mem_map.1 hu
  exact localNumerator_outside exp rows cols D s (hsh s hs) share (hshare s hs) r c d hc hd hout

theorem cell_position_lt (rows cols D r c d : Nat) (hr : r < rows) (hc : c < cols)
    (hd : d < D) : (r * cols + c) * D + d < rows * cols * D := by
  have h1 : r * cols + c + 1 ≤ rows * cols := by
    have : (r + 1) * cols ≤ rows * cols := Nat.mul_le_mul_right cols hr
    rw [Nat.add_mul, Nat.one_mul] at this
    omega
  have h2 : (r * cols + c + 1) * D ≤ rows * cols * D := Nat.mul_le_mul_right D h1
  rw [Nat.add_mul, Nat.one_mul] at h2
  omega

theorem toUnsigned_le (x : ℚ) : toUnsigned x ≤ ⌊x⌋₊ := u32_le _

/-- On a single rank the loop of `Dataset::print` prints the records from
`idx` on, one per iteration. -/
theorem print_loop_single (self : Dataset) (hN : self.mtrecords ≤ UINT_MAX) (fuel idx : Nat)
    (out : List (List ℚ)) (hidx : idx ≤ self.mtrecords) (hfuel : self.mtrecords - idx < fuel) :
    Dataset.print_loop ⟨0, 1⟩ self fuel idx out
      = some (out ++ (List.range' idx (self.mtrecords - idx)).map
          (fun i => (self.rrecord i).slice self.mdimensions)) := by
  induction fuel generalizing idx out with
  | zero => omega
  | succ fuel ih =>
    unfold Dataset.print_loop
    by_cases hlt : idx < self.mtrecords
    · rw [if_pos hlt]
      rw [if_pos (show (0 : Nat) = idx % 1 by omega)]
      simp only [Nat.div_one]
      have hu : u32 (idx + 1) = idx + 1 :=
        u32_of_le _ (by simp only [UINT_MAX] at hN ⊢; omega)
      rw [hu, ih (idx + 1) _ (by omega) (by omega)]
      have hcnt : self.mtrecords - idx = (self.mtrecords - (idx + 1)) + 1 := by omega
      rw [hcnt, List.range'_succ, List.map_cons, List.append_assoc]
      rfl
    · rw [if_neg hlt]
      have h0 : self.mtrecords - idx = 0 := by omega
      simp [h0]

/-- On a rank `r >= 1` that has a record index of its own (`r < trecords`),
the counter of the loop of `Dataset::print` never passes `r`: the loop does
not end. -/
theorem print_loop_stuck (st : parallel.State) (self : Dataset) (h1 : 1 ≤ st.mrank)
    (hR : st.mrank < st.mranks) (hN : st.mrank < self.mtrecords) (fuel idx : Nat)
    (out : List (List ℚ)) (hidx : idx ≤ st.mrank) :
    Dataset.print_loop st self fuel idx out = none := by
  induction fuel generalizing idx out with
  | zero => rfl
  | succ fuel ih =>
    unfold Dataset.print_loop
    rw [if_pos (by omega)]
    have hmod : idx % st.mranks = idx := Nat.mod_eq_of_lt (by omega)
    by_cases he : st.mrank = idx
    · rw [if_pos (by rw [hmod]; exact he)]
      have hdiv : idx / st.mranks = 0 := Nat.div_eq_of_lt (by omega)
      rw [hdiv]
      exact ih _ _ (by
        have : u32 (0 + 1) = 1 := by decide
        rw [this]
        exact h1)
    · rw [if_neg (by rw [hmod]; exact he)]
      exact ih _ _ (le_trans (u32_le _) (by omega))

/-- On the rank 0 of `R >= 2` ranks with more than `R` records, the counter of
the loop of `Dataset::print` never passes `R`: the loop does not end. -/
theorem print_loop_stuck_root (R : Nat) (self : Dataset) (hR : 2 ≤ R)
    (hN : R < self.mtrecords) (fuel idx : Nat) (out : List (List ℚ)) (hidx : idx ≤ R) :
    Dataset.print_loop ⟨0, R⟩ self fuel idx out = none := by
  induction fuel generalizing idx out with
  | zero => rfl
  | succ fuel ih =>
    unfold Dataset.print_loop
    rw [if_pos (by omega)]
    by_cases he : (0 : Nat) = idx % R
    · rw [if_pos he]
      apply ih
      apply le_trans (u32_le _)
      show idx / R + 1 ≤ R
      have : idx / R ≤ 1 := by
        rcases Nat.lt_or_ge idx R with hlt | hge
        · rw [Nat.div_eq_of_lt hlt]; omega
        · have : idx = R := by omega
          rw [this, Nat.div_self (by omega)]
      omega
    · rw [if_neg he]
      apply ih
      apply le_trans (u32_le _)
      have : idx ≠ R := by
        intro h
        rw [h, Nat.mod_self] at he
        exact he rfl
      omega

theorem distribute_le (st : parallel.State) (hR : 1 ≤ st.mranks) (total rank : Nat) :
    parallel.distribute st total rank ≤ total := by
  rw [distribute_eq]
  have hdm := Nat.div_add_mod total st.mranks
  have hmul : total / st.mranks ≤ st.mranks * (total / st.mranks) := Nat.le_mul_of_pos_left _ hR
  generalize total / st.mranks = d at hdm hmul ⊢
  generalize total % st.mranks = m at hdm ⊢
  split_ifs <;> omega

/-- The position `j / R` of the index `j < B` of a batch on the rank `j % R`
is below the share of that rank in the batch. -/
theorem div_lt_distribute (st : parallel.State) (hR : 1 ≤ st.mranks) (B j : Nat) (hj : j < B) :
    j / st.mranks < parallel.distribute st B (j % st.mranks) := by
  rw [distribute_eq]
  have h1 := Nat.div_add_mod B st.mranks
  have h2 := Nat.div_add_mod j st.mranks
  have h3 : j / st.mranks ≤ B / st.mranks := Nat.div_le_div_right (le_of_lt hj)
  have h4 : j % st.mranks < st.mranks := Nat.mod_lt _ hR
  rcases Nat.lt_or_ge (j / st.mranks) (B / st.mranks) with hlt | hge
  · omega
  · have he : j / st.mranks = B / st.mranks := le_antisymm h3 hge
    rw [he] at h2
    have : j % st.mranks < B % st.mranks := by omega
    rw [if_pos this]
    omega

/-- The local index `g * Bq + m` with `m < Bq` lies in the window of the batch
`t` exactly when `g = t - 1`. -/
theorem window_iff (Bq g m t : Nat) (hm : m < Bq) (ht : 1 ≤ t) :
    ((t - 1) * Bq ≤ g * Bq + m ∧ g * Bq + m < (t - 1) * Bq + Bq) ↔ g + 1 = t := by
  constructor
  · rintro ⟨h1, h2⟩
    rcases Nat.lt_trichotomy g (t - 1) with hlt | heq | hgt
    · have : (g + 1) * Bq ≤ (t - 1) * Bq := Nat.mul_le_mul_right Bq hlt
      rw [Nat.add_mul, Nat.one_mul] at this
      omega
    · omega
    · have : (t - 1 + 1) * Bq ≤ g * Bq := Nat.mul_le_mul_right Bq hgt
      rw [Nat.add_mul, Nat.one_mul] at this
      omega
  · intro h
    have hg : g = t - 1 := by omega
    rw [hg]
    omega

theorem div_window_iff (B G t : Nat) (hB : 1 ≤ B) (ht : 1 ≤ t) :
    G / B + 1 = t ↔ ((t - 1) * B ≤ G ∧ G < t * B) := by
  have h1 := Nat.div_add_mod G B
  have h2 : G % B < B := Nat.mod_lt _ hB
  have h3 : B * (G / B) = (G / B) * B := Nat.mul_comm _ _
  constructor
  · intro h
    have hg : G / B = t - 1 := by omega
    have ht2 : t * B = (t - 1) * B + B := by
      have : t = (t - 1) + 1 := by omega
      nth_rewrite 1 [this]
      rw [Nat.add_mul, Nat.one_mul]
    rw [hg] at h1 h3
    omega
  · rintro ⟨ha, hb⟩
    have h4 : t - 1 ≤ G / B := (Nat.le_div_iff_mul_le hB).2 ha
    have h5 : G / B < t := (Nat.div_lt_iff_lt_mul hB).2 hb
    omega

/-- Every rank below a count of a predicate is the count at an index that
satisfies the predicate. -/
theorem count_surjective (p : Nat → Prop) [DecidablePred p] (N l : Nat)
    (hl : l < Nat.count p N) : ∃ G, G < N ∧ p G ∧ Nat.count p G = l := by
  induction N with
  | zero => simp at hl
  | succ N ih =>
    rw [Nat.count_succ] at hl
    by_cases hlt : l < Nat.count p N
    · obtain ⟨G, hG, hp, hc⟩ := ih hlt
      exact ⟨G, by omega, hp, hc⟩
    · by_cases hp : p N
      · rw [if_pos hp] at hl
        exact ⟨N, by omega, hp, by omega⟩
      · rw [if_neg hp] at hl
        omega

/-- The bounds of the loop of `batch_present` in the batch `t <= K` of a state
built for the rank `q` of `R` ranks: no product or sum wraps. -/
theorem batch_window (s : TrainState) (b R N q B : Nat) (hR : 1 ≤ R)
    (hNB : N + b ≤ UINT_MAX)
    (hB : B = (if loopBatchsize b R < UINT_MAX then loopBatchsize b R else N))
    (hrb : s.constants.rbatchsize = parallel.distribute ⟨q, R⟩ B q)
    (ht1 : 1 ≤ s.batch) (ht : (s.batch - 1) * B < N) :
    1 ≤ B ∧ s.constants.rbatchsize ≤ B ∧
    batch_bounds s
      = ((s.batch - 1) * s.constants.rbatchsize,
          min s.constants.dataset.mrrecords
            ((s.batch - 1) * s.constants.rbatchsize + s.constants.rbatchsize)) := by
  have hU : UINT_MAX = 4294967295 := rfl
  have hBl := loopBatchsize_pos b R hR
  have hN1 : 1 ≤ N := by
    rcases Nat.eq_zero_or_pos N with h | h
    · rw [h] at ht; omega
    · exact h
  have hB1 : 1 ≤ B := by
    rw [hB]
    split_ifs <;> omega
  have hd2 : s.constants.rbatchsize ≤ B := by
    rw [hrb]
    exact distribute_le ⟨q, R⟩ hR B q
  have htN : s.batch - 1 < N := by
    calc s.batch - 1 = (s.batch - 1) * 1 := (Nat.mul_one _).symm
      _ ≤ (s.batch - 1) * B := Nat.mul_le_mul_left _ hB1
      _ < N := ht
  have hus : usub s.batch 1 = s.batch - 1 := usub_one s.batch ht1 (by omega)
  have hfirst_le : (s.batch - 1) * s.constants.rbatchsize < N :=
    lt_of_le_of_lt (Nat.mul_le_mul_left _ hd2) ht
  have hfirst : (batch_bounds s).1 = (s.batch - 1) * s.constants.rbatchsize := by
    simp only [batch_bounds, hus]
    exact u32_of_le _ (by omega)
  have hsum : (s.batch - 1) * s.constants.rbatchsize + s.constants.rbatchsize ≤ UINT_MAX := by
    by_cases hcase : loopBatchsize b R < UINT_MAX
    · rw [if_pos hcase] at hB
      have hlb : loopBatchsize b R = b := by
        unfold loopBatchsize at hcase ⊢
        split_ifs at hcase ⊢ with h1
        · omega
        · rfl
      rw [hlb] at hB
      rw [hB] at hd2
      omega
    · rw [if_neg hcase] at hB
      rw [hB] at ht hd2
      have h0 : s.batch - 1 = 0 := by
        rcases Nat.eq_zero_or_pos (s.batch - 1) with h | h
        · exact h
        · have : N ≤ (s.batch - 1) * N := Nat.le_mul_of_pos_left _ h
          omega
      rw [h0, Nat.zero_mul, Nat.zero_add]
      omega
  have hlast : (batch_bounds s).2
      = min s.constants.dataset.mrrecords
          ((s.batch - 1) * s.constants.rbatchsize + s.constants.rbatchsize) := by
    have := hfirst
    simp only [batch_bounds] at this ⊢
    rw [this, u32_of_le _ hsum]
  exact ⟨hB1, hd2, Prod.ext hfirst hlast⟩

theorem dimensions_length (file : List Line) (D : Nat) (hD : dataset_dimensions file = some D) :
    1 ≤ file.length := by
  cases file with
  | nil => simp [dataset_dimensions] at hD
  | cons a rest => simp

/-- The records of the batch `t <= K` on the rank `q`: a record `G < N` that
`global_to_local` places on the rank `q` at the local index `l` is one of the
local records `[first, end)` of `batch_bounds` exactly when `G` lies in
`[(t - 1) * B, min(N, t * B))`. -/
theorem batch_owned (q R : Nat) (lattice : Lattice) (settings : TrainSettings)
    (t0 : TrainState) (D : Nat) (h : TrainState.ctor ⟨q, R⟩ lattice settings = some t0)
    (hD : dataset_dimensions settings.mdataset = some D) (hR : 1 ≤ R)
    (hNB : settings.mdataset.length + settings.mbatchsize ≤ UINT_MAX)
    (s : TrainState) (hs : s.constants = t0.constants) (ht1 : 1 ≤ s.batch)
    (htK : s.batch ≤ t0.constants.batches) :
    1 ≤ t0.constants.dataset.mbatchsize ∧
    (s.batch - 1) * t0.constants.dataset.mbatchsize < settings.mdataset.length ∧
    batch_bounds s
      = ((s.batch - 1) * s.constants.rbatchsize,
          min s.constants.dataset.mrrecords
            ((s.batch - 1) * s.constants.rbatchsize + s.constants.rbatchsize)) ∧
    ∀ G l, G < settings.mdataset.length →
      Dataset.global_to_local ⟨q, R⟩ t0.constants.dataset G = (q, l) →
      l < t0.constants.dataset.mrrecords ∧
      (l ∈ List.range' (batch_bounds s).1 ((batch_bounds s).2 - (batch_bounds s).1)
        ↔ G / t0.constants.dataset.mbatchsize + 1 = s.batch) := by
  have hU : UINT_MAX = 4294967295 := rfl
  have hN : settings.mdataset.length ≤ UINT_MAX := by omega
  have hN1 := dimensions_length _ D hD
  obtain ⟨-, -, -, c4, -, c6, c7, c8, -, -⟩ := ctor_constants ⟨q, R⟩ lattice settings t0 D h hD
    hR hN
  simp only at c4 c6 c7 c8
  have hB1 : 1 ≤ t0.constants.dataset.mbatchsize := by
    rw [c4]
    have := loopBatchsize_pos settings.mbatchsize R hR
    split_ifs <;> omega
  obtain ⟨k1, -, k3⟩ := batches_ceil settings.mdataset.length t0.constants.dataset.mbatchsize
    hN hB1
  have htlt : (s.batch - 1) * t0.constants.dataset.mbatchsize < settings.mdataset.length := by
    apply (k3 s.batch ht1).1
    rw [← k1, ← c7]
    exact htK
  obtain ⟨-, -, hbb⟩ := batch_window s settings.mbatchsize R settings.mdataset.length q
    t0.constants.dataset.mbatchsize hR hNB c4 (by rw [hs]; exact c6) ht1 htlt
  refine ⟨hB1, htlt, hbb, ?_⟩
  intro G l hG hgl
  -- the local index is below the number of local records
  have hcount := global_to_local_count ⟨q, R⟩ t0.constants.dataset settings.mbatchsize
    settings.mdataset.length G hR hN hG c4
  rw [hgl] at hcount
  simp only [Prod.mk.injEq] at hcount
  obtain ⟨hown, hl⟩ := hcount
  have hlN : l < t0.constants.dataset.mrrecords := by
    rw [c8, hl, ← hown]
    exact count_owned_lt _ G _ hG hown.symm
  refine ⟨hlN, ?_⟩
  -- the local index in the words of `global_to_local`
  have hdef : Dataset.global_to_local ⟨q, R⟩ t0.constants.dataset G
      = ((G % t0.constants.dataset.mbatchsize) % R,
          G / t0.constants.dataset.mbatchsize
              * parallel.distribute ⟨q, R⟩ t0.constants.dataset.mbatchsize
                  ((G % t0.constants.dataset.mbatchsize) % R)
            + (G % t0.constants.dataset.mbatchsize) / R) := by
    have hmod : G - G / t0.constants.dataset.mbatchsize * t0.constants.dataset.mbatchsize
        = G % t0.constants.dataset.mbatchsize := by
      have := Nat.div_add_mod G t0.constants.dataset.mbatchsize
      rw [Nat.mul_comm] at this
      omega
    simp only [Dataset.global_to_local, hmod]
  rw [hgl] at hdef
  simp only [Prod.mk.injEq] at hdef
  obtain ⟨hq2, hl2⟩ := hdef
  have hm := div_lt_distribute ⟨q, R⟩ hR t0.constants.dataset.mbatchsize
    (G % t0.constants.dataset.mbatchsize) (Nat.mod_lt _ hB1)
  simp only at hm
  rw [← hq2] at hm hl2
  rw [← c6] at hm hl2
  have hrb : s.constants.rbatchsize = t0.constants.rbatchsize := by rw [hs]
  have hrr : s.constants.dataset.mrrecords = t0.constants.dataset.mrrecords := by rw [hs]
  have hw := window_iff t0.constants.rbatchsize (G / t0.constants.dataset.mbatchsize)
    ((G % t0.constants.dataset.mbatchsize) / R) s.batch hm ht1
  rw [← hl2] at hw
  rw [hbb, List.mem_range'_1, hrb, hrr]
  simp only
  rw [← hw]
  constructor
  · rintro ⟨a1, a2⟩
    exact ⟨a1, by omega⟩
  · rintro ⟨a1, a2⟩
    exact ⟨a1, by omega⟩

/-- Every local index of the rank `q` is the local index that
`global_to_local` gives to a record of the file on that rank. -/
theorem local_has_global (q R : Nat) (lattice : Lattice) (settings : TrainSettings)
    (t0 : TrainState) (D : Nat) (h : TrainState.ctor ⟨q, R⟩ lattice settings = some t0)
    (hD : dataset_dimensions settings.mdataset = some D) (hR : 1 ≤ R)
    (hN : settings.mdataset.length ≤ UINT_MAX) (l : Nat)
    (hl : l < t0.constants.dataset.mrrecords) :
    ∃ G, G < settings.mdataset.length ∧
      Dataset.global_to_local ⟨q, R⟩ t0.constants.dataset G = (q, l) := by
  obtain ⟨-, -, -, c4, -, -, -, c8, -, -⟩ := ctor_constants ⟨q, R⟩ lattice settings t0 D h hD
    hR hN
  simp only at c4 c8
  rw [c8] at hl
  obtain ⟨G, hG, hp, hc⟩ := count_surjective _ _ l hl
  refine ⟨G, hG, ?_⟩
  rw [global_to_local_count ⟨q, R⟩ t0.constants.dataset settings.mbatchsize
    settings.mdataset.length G hR hN hG c4]
  simp only at hp ⊢
  rw [hp, hc]

/-- A batch of the first epoch on states whose cells and records all hold the
fields `x`: the reduced numerator is zero, so the batch leaves the weights as
they were and stores the `diff` 0. -/
theorem constant_step (exp : ℚ → ℚ) (hexp : ∀ x, 0 < exp x) (c : Constants)
    (rows cols D : Nat) (world0 : List TrainState) {exp2 : ℚ → ℚ}
    (hready : runReady exp2 c rows cols D world0) (x : List ℚ) (rho : ℚ)
    (hrho0 : 0 < rho) (hrho1 : rho < 4294967295) (r : Run) (after : List TrainState)
    (hJ : constantLoop x rows cols D world0 rho r)
    (hall : ∀ s ∈ r.world, s.batch ≤ s.constants.batches)
    (hbatch : world_batch exp r.world = some after) :
    constantLoop x rows cols D world0 rho
      { world := nextBatch after, trace := r.trace ++ [TrainEvent.batch r.world after] } := by
  obtain ⟨b, hb1, hin, hcs, hdz, hgood⟩ := hJ
  obtain ⟨hne, hmem⟩ := inRun_mem exp2 c rows cols D world0 hready 1 b _ r.world hin
  obtain ⟨s1, hs1⟩ := List.exists_mem_of_ne_nil _ hne
  have hbK : b ≤ c.batches := by
    have := hall s1 hs1
    rw [(hmem s1 hs1).2.1, (hmem s1 hs1).2.2.2.2.1] at this
    exact this
  obtain ⟨hal, hin2, hden, hq⟩ := inRun_step exp hexp c rows cols D world0 hready 1 b _ r.world
    hin (fun s hs => (hcs s hs).1) hb1 hbK hrho0 hrho1 after hbatch
  have hzero : ∀ p, batchNumerator exp r.world p = 0 :=
    fun p => constant_batch exp x rows cols D r.world hcs p
  have hafter : ∀ q (h1 : q < r.world.length) (h2 : q < after.length),
      shaped rows cols D after[q] ∧ constantState x rows cols D after[q] ∧
      after[q].weights = r.world[q].weights ∧ after[q].diff = 0 := by
    intro q h1 h2
    obtain ⟨k1, k2, -, -, -, k6, k7⟩ := hq q h1 h2
    obtain ⟨hsq, hcq⟩ := hcs _ (List.getElem_mem h1)
    have hmemeq : ∀ p, p < rows * cols * D →
        after[q].weights.mem.getD p 0 = r.world[q].weights.mem.getD p 0 := by
      intro p hp
      rw [k6 p hp, hzero p, zero_div, add_zero]
    refine ⟨k1, ⟨?_, ?_⟩, ?_, ?_⟩
    · intro p hp
      rw [hmemeq p hp]
      exact hcq.1 p hp
    · rw [k2]
      exact hcq.2
    · apply weights_ext
      · rw [k1.1.1, hsq.1.1]
      · rw [k1.1.2.1, hsq.1.2.1]
      · rw [k1.1.2.2.1, hsq.1.2.2.1]
      · apply list_ext_getD
        · rw [k1.1.2.2.2, hsq.1.2.2.2]
        · intro p hp
          rw [k1.1.2.2.2] at hp
          exact hmemeq p hp
    · rw [k7]
      simp only [hzero, zero_div, abs_zero]
      rw [List.sum_eq_zero (by
        intro v hv
        obtain ⟨i, -, rfl⟩ := List.mem_map.1 hv
        rfl), zero_div]
  refine ⟨b + 1, by omega, hin2, ?_, ?_, ?_⟩
  · intro s hs
    simp only [nextBatch, List.mem_map] at hs
    obtain ⟨t, ht, rfl⟩ := hs
    obtain ⟨q, hq2, rfl⟩ := List.getElem_of_mem ht
    obtain ⟨m1, m2, -, -⟩ := hafter q (hal ▸ hq2) hq2
    exact ⟨m1, m2⟩
  · intro _ s hs
    simp only [nextBatch, List.mem_map] at hs
    obtain ⟨t, ht, rfl⟩ := hs
    obtain ⟨q, hq2, rfl⟩ := List.getElem_of_mem ht
    exact (hafter q (hal ▸ hq2) hq2).2.2.2
  · intro q p hp
    rcases batchStates_batch q r.trace r.world after p hp with hold | ⟨hb, ha⟩
    · exact hgood q p hold
    · obtain ⟨h1, e1⟩ := List.getElem?_eq_some_iff.1 hb
      obtain ⟨h2, e2⟩ := List.getElem?_eq_some_iff.1 ha
      obtain ⟨-, -, m3, m4⟩ := hafter q h1 h2
      rw [← e1, ← e2]
      exact ⟨(hmem _ (List.getElem_mem h1)).1, m3, m4⟩

/-- The head of the first epoch: the assignment `batch = 1` starts the loop of
the batches. -/
theorem constant_head (c : Constants) (rows cols D : Nat) (world0 : List TrainState)
    {exp2 : ℚ → ℚ} (hready : runReady exp2 c rows cols D world0) (x : List ℚ) (rho : ℚ)
    (r : Run) (hin : inRun rows cols D world0 1 0 rho r.world)
    (hcs : ∀ s ∈ r.world, shaped rows cols D s ∧ constantState x rows cols D s)
    (hgood : ∀ q, ∀ p ∈ batchStates q r.trace,
      p.1.epoch = 1 ∧ p.2.weights = p.1.weights ∧ p.2.diff = 0) :
    constantLoop x rows cols D world0 rho { world := setBatch 1 r.world, trace := r.trace } := by
  obtain ⟨-, hmem⟩ := inRun_mem exp2 c rows cols D world0 hready 1 0 _ r.world hin
  refine ⟨1, le_refl 1, ?_, ?_, ?_, hgood⟩
  · exact inRun_map rows cols D world0 (fun s => { s with batch := 1 }) (fun _ => rfl)
      (fun _ => rfl) (fun _ => rfl) (fun _ => rfl) 1 0 1 1 _ _ r.world
      (fun s hs => ⟨(hmem s hs).1, rfl, (hmem s hs).2.2.1⟩) hin
  · intro s hs
    simp only [setBatch, List.mem_map] at hs
    obtain ⟨t, ht, rfl⟩ := hs
    exact hcs t ht
  · intro h2
    omega

/-- The loop of the epochs from the first epoch of a run that is ready, on
states whose cells and records all hold the fields `x`, with the tolerance
`diffmin = 1e-5`: every batch leaves the weights as they were and stores the
`diff` 0, and the loop is left in the first epoch. -/
theorem constant_first_epoch (exp : ℚ → ℚ) (hexp : ∀ x, 0 < exp x) (epcall : Bool)
    (c : Constants) (rows cols D : Nat) (world0 : List TrainState) {exp2 : ℚ → ℚ}
    (hready : runReady exp2 c rows cols D world0)
    (x : List ℚ) (hK : 1 ≤ c.batches) (hE1 : 1 ≤ c.epochs) (hdm : c.diffmin = 1 / 100000)
    (rho : ℚ) (hrho0 : 0 < rho) (hrho1 : rho < 4294967295)
    (fuelB fuel : Nat) (r r2 : Run)
    (hin : inRun rows cols D world0 1 0 rho r.world)
    (hcs : ∀ s ∈ r.world, shaped rows cols D s ∧ constantState x rows cols D s)
    (hgood : ∀ q, ∀ p ∈ batchStates q r.trace,
      p.1.epoch = 1 ∧ p.2.weights = p.1.weights ∧ p.2.diff = 0)
    (h : run_epochs exp epcall fuelB fuel r = Except.ok r2) :
    (∀ q, ∀ p ∈ batchStates q r2.trace,
      p.1.epoch = 1 ∧ p.2.weights = p.1.weights ∧ p.2.diff = 0) ∧
    ∀ s ∈ r2.world, s.epoch = 1 ∧ s.diff = 0 ∧ shaped rows cols D s ∧
      constantState x rows cols D s := by
  refine run_epochs_rule exp epcall fuelB
    (fun r => inRun rows cols D world0 1 0 rho r.world ∧
      (∀ s ∈ r.world, shaped rows cols D s ∧ constantState x rows cols D s) ∧
      (∀ q, ∀ p ∈ batchStates q r.trace,
        p.1.epoch = 1 ∧ p.2.weights = p.1.weights ∧ p.2.diff = 0))
    (constantLoop x rows cols D world0 rho)
    (fun r => (∀ q, ∀ p ∈ batchStates q r.trace,
        p.1.epoch = 1 ∧ p.2.weights = p.1.weights ∧ p.2.diff = 0) ∧
      ∀ s ∈ r.world, s.epoch = 1 ∧ s.diff = 0 ∧ shaped rows cols D s ∧
        constantState x rows cols D s)
    ?_ ?_ ?_ ?_ ?_ fuel r r2 ⟨hin, hcs, hgood⟩ h
  · -- the head of an epoch
    rintro r ⟨hin, hcs, hgood⟩ -
    exact constant_head c rows cols D world0 hready x rho r hin hcs hgood
  · -- a batch
    intro r after hJ hall hbatch
    exact constant_step exp hexp c rows cols D world0 hready x rho hrho0 hrho1 r after hJ hall
      hbatch
  · -- the exit by convergence
    rintro r1 ⟨b, hb1, hin, hcs, hdz, hgood⟩ hdone -
    obtain ⟨hne, hmem⟩ := inRun_mem exp2 c rows cols D world0 hready 1 b _ r1.world hin
    obtain ⟨s1, hs1⟩ := List.exists_mem_of_ne_nil _ hne
    have hb2 : 2 ≤ b := by
      have := hdone s1 hs1
      rw [(hmem s1 hs1).2.1, (hmem s1 hs1).2.2.2.2.1] at this
      omega
    constructor
    · intro q p hp
      rw [batchStates_append] at hp
      simp only [batchStates, List.filterMap_cons, List.filterMap_nil, List.append_nil] at hp
      exact hgood q p hp
    · intro s hs
      simp only [updateRadius, List.mem_map] at hs
      obtain ⟨t, ht, rfl⟩ := hs
      exact ⟨(hmem t ht).1, hdz hb2 t ht, (hcs t ht).1, (hcs t ht).2⟩
  · -- no second epoch
    rintro r1 ⟨b, hb1, hin, hcs, hdz, hgood⟩ hdone hnc
    exfalso
    obtain ⟨hne, hmem⟩ := inRun_mem exp2 c rows cols D world0 hready 1 b _ r1.world hin
    obtain ⟨s1, hs1⟩ := List.exists_mem_of_ne_nil _ hne
    have hb2 : 2 ≤ b := by
      have := hdone s1 hs1
      rw [(hmem s1 hs1).2.1, (hmem s1 hs1).2.2.2.2.1] at this
      omega
    obtain ⟨s2, hs2, hd2, hc2⟩ : ∃ s2 ∈ updateRadius exp r1.world,
        s2.diff = s1.diff ∧ s2.constants = s1.constants :=
      ⟨_, List.mem_map.2 ⟨s1, hs1, rfl⟩, rfl, rfl⟩
    apply hnc s2 hs2
    rw [hd2, hc2, hdz hb2 s1 hs1, (hmem s1 hs1).2.2.2.2.2.1, hdm]
    norm_num
  · -- the loop is not left at its first test
    rintro r ⟨hin, hcs, hgood⟩ hex
    exfalso
    obtain ⟨hne, hmem⟩ := inRun_mem exp2 c rows cols D world0 hready 1 0 _ r.world hin
    obtain ⟨s1, hs1⟩ := List.exists_mem_of_ne_nil _ hne
    have := hex s1 hs1
    rw [(hmem s1 hs1).1, (hmem s1 hs1).2.2.2.1] at this
    exact this hE1

/-- The loop of the epochs returns on states whose cells and records all hold
the fields `x`, with the tolerance `diffmin = 1e-5`, when it has fuel for one
test of its own and for `K + 1` tests of the loop of the batches: it is left
at the end of the first epoch, whatever the radii of the later epochs. -/
theorem constant_first_total (exp : ℚ → ℚ) (hexp : ∀ x, 0 < exp x) (epcall : Bool)
    (c : Constants) (rows cols D : Nat) (world0 : List TrainState) {exp2 : ℚ → ℚ}
    (hready : runReady exp2 c rows cols D world0)
    (x : List ℚ) (hK : 1 ≤ c.batches) (hE1 : 1 ≤ c.epochs) (hdm : c.diffmin = 1 / 100000)
    (rho : ℚ) (hrho0 : 0 < rho) (hrho1 : rho < 4294967295)
    (fuelB fuel : Nat) (hfB : c.batches < fuelB) (hf : 1 ≤ fuel) (r : Run)
    (hin : inRun rows cols D world0 1 0 rho r.world)
    (hcs : ∀ s ∈ r.world, shaped rows cols D s ∧ constantState x rows cols D s)
    (hgood : ∀ q, ∀ p ∈ batchStates q r.trace,
      p.1.epoch = 1 ∧ p.2.weights = p.1.weights ∧ p.2.diff = 0) :
    ∃ r2, run_epochs exp epcall fuelB fuel r = Except.ok r2 := by
  obtain ⟨f, rfl⟩ : ∃ f, fuel = f + 1 := ⟨fuel - 1, by omega⟩
  obtain ⟨hne, hmem⟩ := inRun_mem exp2 c rows cols D world0 hready 1 0 _ r.world hin
  have hu1 : unanimous r.world (fun s => decide (s.epoch ≤ s.constants.epochs))
      = Except.ok true := by
    apply unanimous_of_agree _ _ _ _ hne
    intro s hs
    obtain ⟨h1, -, -, h4, -⟩ := hmem s hs
    simp only [decide_eq_true_eq, h1, h4]
    exact hE1
  have hJ0 := constant_head c rows cols D world0 hready x rho r hin hcs hgood
  have hin1 : inRun rows cols D world0 1 1 rho (setBatch 1 r.world) := by
    obtain ⟨b, hb1, hinb, -, hdz, -⟩ := hJ0
    exact inRun_map rows cols D world0 (fun s => { s with batch := 1 }) (fun _ => rfl)
      (fun _ => rfl) (fun _ => rfl) (fun _ => rfl) 1 0 1 1 _ _ r.world
      (fun s hs => ⟨(hmem s hs).1, rfl, (hmem s hs).2.2.1⟩) hin
  obtain ⟨r1, hr1, hin2⟩ := run_batches_total exp hexp c rows cols D world0 hready 1 rho hrho0
    hrho1 c.batches fuelB { world := setBatch 1 r.world, trace := r.trace } 1 (by omega)
    (le_refl 1) hfB hin1
  obtain ⟨⟨b, hb1, hinb, hcsb, hdz, -⟩, hdone⟩ := run_batches_rule exp
    (constantLoop x rows cols D world0 rho)
    (fun r after hJ hall hbatch =>
      constant_step exp hexp c rows cols D world0 hready x rho hrho0 hrho1 r after hJ hall hbatch)
    fuelB _ r1 hJ0 hr1
  obtain ⟨hne1, hmem1⟩ := inRun_mem exp2 c rows cols D world0 hready 1 b _ r1.world hinb
  obtain ⟨s1, hs1⟩ := List.exists_mem_of_ne_nil _ hne1
  have hb2 : 2 ≤ b := by
    have := hdone s1 hs1
    rw [(hmem1 s1 hs1).2.1, (hmem1 s1 hs1).2.2.2.2.1] at this
    omega
  have hu2 : unanimous (updateRadius exp r1.world)
      (fun s => decide (s.diff < s.constants.diffmin)) = Except.ok true := by
    apply unanimous_of_agree
    · intro s hs
      simp only [updateRadius, List.mem_map] at hs
      obtain ⟨t, ht, rfl⟩ := hs
      simp only [decide_eq_true_eq]
      rw [hdz hb2 t ht, (hmem1 t ht).2.2.2.2.2.1, hdm]
      norm_num
    · intro hnil
      simp only [updateRadius, List.map_eq_nil_iff] at hnil
      exact hne1 hnil
  refine ⟨{ world := updateRadius exp r1.world
            trace := r1.trace ++ [TrainEvent.update (updateRadius exp r1.world)] }, ?_⟩
  unfold run_epochs
  rw [hu1]
  simp only [hr1]
  rw [hu2]

/-- The run of `Lattice::train` on a file whose lines are all the record `x`
and whose scalars do not sum to zero, with the tolerance `diffmin = 1e-5`: it
returns with fuel for one test of the loop of the epochs, every batch leaves
the weights as they were and stores the `diff` 0, and the run ends in the
first epoch.  Only the radius of the first epoch is cast to `unsigned`. -/
theorem constant_file_run (exp : ℚ → ℚ) (hexp : ∀ x, 0 < exp x) (rand : Nat → Nat)
    (fuelE fuelB R : Nat) (lattice : Lattice) (settings : TrainSettings)
    (hwf : wellFormed settings.mdataset = true)
    (hNB : settings.mdataset.length + settings.mbatchsize < UINT_MAX) (hR : 1 ≤ R)
    (hrows : 1 ≤ lattice.mrows) (hcols : 1 ≤ lattice.mcols)
    (hsum : scalarSum settings.mdataset ≠ 0)
    (hE : epochCap settings < UINT_MAX)
    (hrad0 : startRadius lattice settings < 4294967295)
    (hfuelE : 1 ≤ fuelE) (hfuelB : settings.mdataset.length < fuelB)
    (x : Line) (hfile : ∀ line ∈ settings.mdataset, line = x)
    (hdiffmin : settings.mdiffmin = 1 / 100000) :
    ∃ r D world0, Lattice.train exp rand fuelE fuelB R lattice settings = Except.ok r ∧
      dataset_dimensions settings.mdataset = some D ∧
      initialWorld R lattice settings = some world0 ∧ world0.length = R ∧
      (∀ q (hq : q < world0.length),
        1 ≤ world0[q].constants.batches ∧ world0[q].constants.batches < UINT_MAX ∧
        1 ≤ world0[q].constants.epochs ∧ world0[q].constants.epochs < UINT_MAX) ∧
      (∀ q, ∀ p ∈ batchStates q r.trace,
        p.1.epoch = 1 ∧ p.2.weights = p.1.weights ∧ p.2.diff = 0) ∧
      ∀ s ∈ r.world, s.epoch = 1 ∧ s.diff = 0 ∧
        shaped lattice.mrows lattice.mcols D s ∧
        constantState x lattice.mrows lattice.mcols D s := by
  have hN : settings.mdataset.length ≤ UINT_MAX := by omega
  obtain ⟨D, world0, world1, s0, hD, hall, h0, hlen0, hload, h1, hlen1, hs0, e0, n0, r0, k0, hready,
    hin, hsh, hwt⟩ := train_start (fun _ => (1 : ℚ)) (fun _ => one_pos) rand R lattice settings
      hwf hNB hR hrows hcols hsum hE hrad0 (fun e _ _ => by rw [mul_one]; exact hrad0)
  obtain ⟨hlenw, hctor⟩ := initialWorld_spec R lattice settings world0 h0
  have hq0 : 0 < world0.length := by omega
  have hs0' : world0[0] = s0 := by
    rw [List.getElem?_eq_getElem hq0] at hs0
    exact Option.some.inj hs0
  obtain ⟨hE1, hK1⟩ := ctor_loops_pos ⟨0, R⟩ lattice settings world0[0] D (hctor 0 hq0) hD hR hN
  rw [hs0'] at hE1 hK1
  obtain ⟨-, c2, -⟩ := ctor_constants ⟨0, R⟩ lattice settings world0[0] D (hctor 0 hq0) hD hR hN
  rw [hs0'] at c2
  have hdm : s0.constants.diffmin = 1 / 100000 := by
    rw [c2, hdiffmin, if_pos (by norm_num)]
  obtain ⟨-, hx1⟩ := dataset_dimensions_pos _ _ hD
  have hready2 := hready
  obtain ⟨-, hEmax, hKmax, -, -, -, -, hconst, -, hrad⟩ := hready2
  obtain ⟨hrho0, hrho1⟩ := hrad 1 (le_refl 1) hE1
  -- the states at the first test hold the record in every cell
  have hcs : ∀ s ∈ setEpoch 1 (setEpoch 0 world1),
      shaped lattice.mrows lattice.mcols D s ∧ constantState x lattice.mrows lattice.mcols D s := by
    intro s hs
    refine ⟨hsh s hs, ?_, ?_⟩
    · intro p hp
      rw [hwt s hs p hp]
      have hlt : rand (p / D) % settings.mdataset.length < settings.mdataset.length :=
        Nat.mod_lt _ (by omega)
      have hline : settings.mdataset.getD (rand (p / D) % settings.mdataset.length) [] = x := by
        rw [List.getD_eq_getElem?_getD, List.getElem?_eq_getElem hlt]
        exact hfile _ (List.getElem_mem hlt)
      rw [hline]
    · obtain ⟨q, hq, rfl⟩ := List.getElem_of_mem hs
      obtain ⟨-, hst, -, -⟩ := hin
      obtain ⟨sq, hsq, hcq, -⟩ := hst q _ (List.getElem?_eq_getElem hq)
      obtain ⟨hq2, rfl⟩ := List.getElem?_eq_some_iff.1 hsq
      rw [hcq]
      obtain ⟨f1, -⟩ := ctor_state_fields _ _ _ _ (hctor q hq2)
      exact ctor_constant ⟨q, R⟩ settings.mdataset settings.mbatchsize D _ f1 hD hR hN x hfile
  have hgood0 : ∀ q, ∀ p ∈ batchStates q
      ([TrainEvent.init (setEpoch 0 world1), TrainEvent.print (setEpoch 0 world1)]
        ++ (if settings.mepcall then [TrainEvent.epcall (setEpoch 0 world1)] else [])),
      p.1.epoch = 1 ∧ p.2.weights = p.1.weights ∧ p.2.diff = 0 := by
    intro q p hp
    exfalso
    cases hcall : settings.mepcall <;> simp [batchStates, hcall] at hp
  -- the loop of the epochs returns
  obtain ⟨r2, hr2⟩ := constant_first_total exp hexp settings.mepcall s0.constants lattice.mrows
    lattice.mcols D world0 hready x hK1 hE1 hdm _ hrho0 hrho1 fuelB fuelE (by omega) hfuelE
    { world := setEpoch 1 (setEpoch 0 world1)
      trace := [TrainEvent.init (setEpoch 0 world1), TrainEvent.print (setEpoch 0 world1)]
        ++ (if settings.mepcall then [TrainEvent.epcall (setEpoch 0 world1)] else []) }
    hin hcs hgood0
  obtain ⟨hgood, hfinal⟩ := constant_first_epoch exp hexp settings.mepcall s0.constants
    lattice.mrows lattice.mcols D world0 hready x hK1 hE1 hdm _ hrho0 hrho1 fuelB fuelE _ r2 hin
    hcs hgood0 hr2
  have htrain : Lattice.train exp rand fuelE fuelB R lattice settings
      = Except.ok { world := r2.world, trace := r2.trace ++ [TrainEvent.print r2.world] } := by
    unfold Lattice.train
    rw [h0]
    dsimp only
    rw [h1]
    dsimp only
    rw [hr2]
  refine ⟨_, D, world0, htrain, hD, h0, hlen0, ?_, ?_, ?_⟩
  · intro q hq
    obtain ⟨k1, k2, -⟩ := hconst _ (List.getElem_mem hq)
    rw [k1, k2]
    exact ⟨hK1, hKmax, hE1, hEmax⟩
  · intro q p hp
    rw [batchStates_append] at hp
    simp only [batchStates, List.filterMap_cons, List.filterMap_nil, List.append_nil] at hp
    exact hgood q p hp
  · intro s hs
    exact hfinal s hs

end som

/-! ## The properties -/
namespace som

/-- Claim C1 (partition completeness).  For a file of `N ≥ 1` lines whose first
line has a field, `R ≥ 1` ranks and any requested batch size, the constructor
succeeds on every rank, every rank reports `trecords = N`, the local record
counts `rrecords` of the ranks `0, ..., R-1` sum to `N`, and every global index
below `N` is owned (non-null `grecord`) on exactly one rank.  `N` is the value of
the `unsigned` counter `trecords`, hence at most `UINT_MAX`. -/
theorem partition_complete (file : List Line) (batchsize ranks D : Nat)
    (hD : dataset_dimensions file = some D) (hR : 1 ≤ ranks)
    (hN : file.length ≤ UINT_MAX) :
    1 ≤ file.length ∧
    ∃ ds : Nat → Dataset,
      (∀ r, r < ranks →
        Dataset.ctor ⟨r, ranks⟩ file batchsize = some (ds r) ∧
        (ds r).mtrecords = file.length) ∧
      ((List.range ranks).map (fun r => (ds r).mrrecords)).sum = file.length ∧
      (∀ G, G < file.length →
        ∃! r, r < ranks ∧ (Dataset.grecord ⟨r, ranks⟩ (ds r) G).isSome) := by
  refine ⟨(dataset_dimensions_pos file D hD).2, ?_⟩
  choose ds hds using
    fun r : Nat => ctor_fields ⟨r, ranks⟩ file batchsize D hD hR hN
  refine ⟨ds, fun r _ => ⟨(hds r).1, (hds r).2.2.1⟩, ?_, ?_⟩
  · rw [list_range_sum]
    have h : ∀ r, (ds r).mrrecords
        = Nat.count (fun i => (i % loopBatchsize batchsize ranks) % ranks = r) file.length :=
      fun r => (hds r).2.2.2.1
    simp only [h]
    exact sum_counts _ _ _ hR
  · intro G hG
    have hg : ∀ r, (Dataset.global_to_local ⟨r, ranks⟩ (ds r) G).1
        = (G % loopBatchsize batchsize ranks) % ranks := by
      intro r
      rw [global_to_local_count ⟨r, ranks⟩ (ds r) batchsize file.length G hR hN hG
        (hds r).2.2.2.2.2.1]
    refine ⟨(G % loopBatchsize batchsize ranks) % ranks, ⟨Nat.mod_lt _ hR, ?_⟩, ?_⟩
    · rw [grecord_isSome_iff, hg]
    · rintro r ⟨_, hr⟩
      rw [grecord_isSome_iff, hg] at hr
      exact hr

/-- A run of the loader on a three-line file over two ranks, where the
hypotheses of `partition_complete` hold. -/
theorem partition_complete_witness :
    1 ≤ [[(1 : ℚ), 2], [3, 4], [5, 6]].length ∧
    ∃ ds : Nat → Dataset,
      (∀ r, r < 2 →
        Dataset.ctor ⟨r, 2⟩ [[(1 : ℚ), 2], [3, 4], [5, 6]] 0 = some (ds r) ∧
        (ds r).mtrecords = [[(1 : ℚ), 2], [3, 4], [5, 6]].length) ∧
      ((List.range 2).map (fun r => (ds r).mrrecords)).sum
        = [[(1 : ℚ), 2], [3, 4], [5, 6]].length ∧
      (∀ G, G < [[(1 : ℚ), 2], [3, 4], [5, 6]].length →
        ∃! r, r < 2 ∧ (Dataset.grecord ⟨r, 2⟩ (ds r) G).isSome) :=
  partition_complete [[1, 2], [3, 4], [5, 6]] 0 2 2 rfl (by decide) (by decide)

/-- Claim C2 (global to local).  For a well-formed file, `R ≥ 1` ranks, any
requested batch size and any global index `G < N`, `global_to_local(G)`,
called on any rank `q`, returns a pair `(rank, lidx)` with `rank < R` such that
the constructor run on rank `rank` holds the fields of line `G` at its local
record `lidx`, with `lidx` below its `rrecords`; no other global index below `N`
gets the same pair; `grecord(G)` is non-null on rank `q` exactly when `q` is that
rank, and then it points at the fields of line `G`. -/
theorem global_to_local_owner (file : List Line) (batchsize ranks q G : Nat)
    (hwf : wellFormed file = true) (hR : 1 ≤ ranks) (hN : file.length ≤ UINT_MAX)
    (hG : G < file.length) :
    ∃ dsq rank lidx,
      Dataset.ctor ⟨q, ranks⟩ file batchsize = some dsq ∧
      Dataset.global_to_local ⟨q, ranks⟩ dsq G = (rank, lidx) ∧
      rank < ranks ∧
      (∃ dso, Dataset.ctor ⟨rank, ranks⟩ file batchsize = some dso ∧
        lidx < dso.mrrecords ∧
        (dso.rrecord lidx).slice dso.mdimensions = file[G]) ∧
      (∀ G2, G2 < file.length →
        Dataset.global_to_local ⟨q, ranks⟩ dsq G2 = (rank, lidx) → G2 = G) ∧
      ((Dataset.grecord ⟨q, ranks⟩ dsq G).isSome ↔ q = rank) ∧
      (∀ p, Dataset.grecord ⟨q, ranks⟩ dsq G = some p →
        p.slice dsq.mdimensions = file[G]) := by
  obtain ⟨D, hD, hall⟩ := (wellFormed_iff file).mp hwf
  have hB := loopBatchsize_pos batchsize ranks hR
  obtain ⟨dsq, hq, -, -, -, -, hqb, -, -⟩ :=
    ctor_fields ⟨q, ranks⟩ file batchsize D hD hR hN
  have hx : file[G].length = D := hall _ (List.getElem_mem hG)
  have hg := global_to_local_count ⟨q, ranks⟩ dsq batchsize file.length G hR hN hG hqb
  obtain ⟨dso, ho, hlt, hslice⟩ := ctor_stores file batchsize ranks G D hD hR hN hG hx
  refine ⟨dsq, _, _, hq, hg, Nat.mod_lt _ hR, ⟨dso, ho, hlt, hslice⟩, ?_, ?_, ?_⟩
  · intro G2 hG2 h2
    rw [global_to_local_count ⟨q, ranks⟩ dsq batchsize file.length G2 hR hN hG2 hqb] at h2
    simp only [Prod.mk.injEq] at h2
    obtain ⟨hr, hc⟩ := h2
    rw [hr] at hc
    rcases Nat.lt_trichotomy G2 G with h | h | h
    · have := count_owned_lt (fun i => (i % loopBatchsize batchsize ranks) % ranks
        = (G % loopBatchsize batchsize ranks) % ranks) G2 G h hr
      omega
    · exact h
    · have := count_owned_lt (fun i => (i % loopBatchsize batchsize ranks) % ranks
        = (G % loopBatchsize batchsize ranks) % ranks) G G2 h rfl
      omega
  · rw [grecord_isSome_iff, hg]
  · intro p hp
    simp only [Dataset.grecord, hg] at hp
    split_ifs at hp with h
    simp only at h
    have hsame : dsq = dso := by
      have := ho
      rw [← h, hq] at this
      exact Option.some.inj this
    simp only [Option.some.injEq] at hp
    rw [← hp, hsame]
    exact hslice

/-- The hypotheses of `global_to_local_owner` hold for line 5 of a seven-line
file on three ranks with batches of four records. -/
theorem global_to_local_owner_witness :
    ∃ dsq rank lidx,
      Dataset.ctor ⟨0, 3⟩ [[0], [1], [2], [3], [4], [5], [6]] 4 = some dsq ∧
      Dataset.global_to_local ⟨0, 3⟩ dsq 5 = (rank, lidx) ∧
      rank < 3 ∧
      (∃ dso, Dataset.ctor ⟨rank, 3⟩ [[0], [1], [2], [3], [4], [5], [6]] 4 = some dso ∧
        lidx < dso.mrrecords ∧
        (dso.rrecord lidx).slice dso.mdimensions = [5]) ∧
      (∀ G2, G2 < 7 →
        Dataset.global_to_local ⟨0, 3⟩ dsq G2 = (rank, lidx) → G2 = 5) ∧
      ((Dataset.grecord ⟨0, 3⟩ dsq 5).isSome ↔ 0 = rank) ∧
      (∀ p, Dataset.grecord ⟨0, 3⟩ dsq 5 = some p → p.slice dsq.mdimensions = [5]) :=
  global_to_local_owner [[0], [1], [2], [3], [4], [5], [6]] 4 3 0 5 rfl (by decide)
    (by decide) (by decide)

/-- Claim C3 (partitioning function).  For every data set with batch size
`B ≥ 1`, every rank count `R ≥ 1` and every `G < N`, `global_to_local(G)` is the
pair the specification defines: `rank = (G mod B) mod R` and
`local = (G div B) * distribute(B, rank) + (G mod B) div R`; and the source
`distribute` is the `distribute(T, r) = ⌊T/R⌋ + (1 if r < T mod R else 0)` of
the specification.  The hypotheses are those under which the divisions of the
source are defined and its assertion `gidx < trecords()` holds. -/
theorem global_to_local_spec (st : parallel.State) (ds : Dataset) (G : Nat)
    (_hB : 1 ≤ ds.mbatchsize) (_hR : 1 ≤ st.mranks) (_hG : G < ds.mtrecords) :
    Dataset.global_to_local st ds G = spec_partition st.mranks ds.mbatchsize G ∧
    (Dataset.global_to_local st ds G).1 = (G % ds.mbatchsize) % st.mranks ∧
    (Dataset.global_to_local st ds G).2
      = (G / ds.mbatchsize)
          * parallel.distribute st ds.mbatchsize ((G % ds.mbatchsize) % st.mranks)
        + (G % ds.mbatchsize) / st.mranks ∧
    ∀ T r, parallel.distribute st T r = spec_distribute st.mranks T r := by
  have hmod : G - G / ds.mbatchsize * ds.mbatchsize = G % ds.mbatchsize := by
    have := Nat.div_add_mod G ds.mbatchsize
    rw [Nat.mul_comm] at this
    omega
  have hdist : ∀ T r, parallel.distribute st T r = spec_distribute st.mranks T r :=
    fun T r => distribute_eq st T r
  refine ⟨?_, ?_, ?_, hdist⟩
  · simp only [Dataset.global_to_local, spec_partition, hmod, hdist]
  · simp only [Dataset.global_to_local, hmod]
  · simp only [Dataset.global_to_local, hmod]

/-- The hypotheses of `global_to_local_spec` hold for the data set that rank 0
of 3 holds for seven one-field records in batches of four. -/
theorem global_to_local_spec_witness :
    Dataset.global_to_local ⟨0, 3⟩ ⟨4, 2, 7, 3, 1, 3, [0, 3, 4]⟩ 5 = spec_partition 3 4 5 ∧
    (Dataset.global_to_local ⟨0, 3⟩ ⟨4, 2, 7, 3, 1, 3, [0, 3, 4]⟩ 5).1 = (5 % 4) % 3 ∧
    (Dataset.global_to_local ⟨0, 3⟩ ⟨4, 2, 7, 3, 1, 3, [0, 3, 4]⟩ 5).2
      = (5 / 4) * parallel.distribute ⟨0, 3⟩ 4 ((5 % 4) % 3) + (5 % 4) / 3 ∧
    ∀ T r, parallel.distribute ⟨0, 3⟩ T r = spec_distribute 3 T r :=
  global_to_local_spec ⟨0, 3⟩ ⟨4, 2, 7, 3, 1, 3, [0, 3, 4]⟩ 5 (by decide) (by decide)
    (by decide)

/-- Claim C4, as stated, fails: for seven records on three ranks with batch
size 4 the constructor reports `trecords = 7` and `batchsize = 4`, and
`global_to_local(5)` is `(1, 1)`, not `(1, 2)`. -/
theorem global_to_local_five_counterexample :
    ∃ ds, Dataset.ctor ⟨0, 3⟩ [[0], [1], [2], [3], [4], [5], [6]] 4 = some ds ∧
      ds.mtrecords = 7 ∧ ds.mbatchsize = 4 ∧
      Dataset.global_to_local ⟨0, 3⟩ ds 5 ≠ (1, 2) :=
  ⟨_, rfl, rfl, rfl, by decide⟩

/-- Claim C4, amended.  With `N = 7` records (the first with a field), `R = 3`
ranks and batch size `B = 4`, on every rank `q` the constructor reports
`trecords = 7` and `batchsize = 4`, and `global_to_local(5)` yields rank 1 and
local index 1. -/
theorem global_to_local_five (file : List Line) (D q : Nat)
    (hD : dataset_dimensions file = some D) (hN : file.length = 7) :
    ∃ ds, Dataset.ctor ⟨q, 3⟩ file 4 = some ds ∧
      ds.mtrecords = 7 ∧ ds.mbatchsize = 4 ∧
      Dataset.global_to_local ⟨q, 3⟩ ds 5 = (1, 1) := by
  obtain ⟨ds, hc, -, ht, -, -, hb, -, -⟩ :=
    ctor_fields ⟨q, 3⟩ file 4 D hD (by simp) (by rw [hN]; decide)
  have hb4 : ds.mbatchsize = 4 := by
    rw [hb]; simp [loopBatchsize, UINT_MAX]
  refine ⟨ds, hc, by rw [ht, hN], hb4, ?_⟩
  simp only [Dataset.global_to_local, parallel.distribute, hb4]
  decide

/-- The hypotheses of `global_to_local_five` hold for the file of the seven
records `0, ..., 6`, on rank 2. -/
theorem global_to_local_five_witness :
    ∃ ds, Dataset.ctor ⟨2, 3⟩ [[0], [1], [2], [3], [4], [5], [6]] 4 = some ds ∧
      ds.mtrecords = 7 ∧ ds.mbatchsize = 4 ∧
      Dataset.global_to_local ⟨2, 3⟩ ds 5 = (1, 1) :=
  global_to_local_five [[0], [1], [2], [3], [4], [5], [6]] 1 2 rfl rfl

/-- Claim C5, as stated, fails: for eight records on three ranks with a
requested batch size of 4, rank 0 stores the records 0, 3, 4 and 7, so its
local record count is 4, while `⌈(8 - 0)/3⌉ = 3`. -/
theorem rrecords_ceil_counterexample :
    ∃ ds, Dataset.ctor ⟨0, 3⟩ [[0], [1], [2], [3], [4], [5], [6], [7]] 4 = some ds ∧
      ds.mtrecords = 8 ∧ ds.mrrecords = 4 ∧ ds.mdata = [0, 3, 4, 7] ∧
      (ds.mrrecords : ℤ) ≠ ⌈(((8 : ℕ) : ℚ) - ((0 : ℕ) : ℚ)) / ((3 : ℕ) : ℚ)⌉ := by
  refine ⟨_, rfl, rfl, rfl, rfl, ?_⟩
  have h : ⌈(((8 : ℕ) : ℚ) - ((0 : ℕ) : ℚ)) / ((3 : ℕ) : ℚ)⌉ = 3 := by
    rw [Int.ceil_eq_iff]; norm_num
  rw [h]
  decide

/-- Claim C5, amended.  For a file of `N` records, `R ≥ 1` ranks, a rank
`r < R` and a requested batch size `b`, the local record count is
`(N div B) * distribute(B, r) + distribute(N mod B, r)`, where `B` is the batch
size the reading loop works with; it equals `⌈(N - r)/R⌉` when `b < R` (no
batching), when `N ≤ b` (a single batch) or when `R` divides `b`. -/
theorem rrecords_ceil (file : List Line) (batchsize ranks r D : Nat)
    (hD : dataset_dimensions file = some D) (hR : 1 ≤ ranks) (hr : r < ranks)
    (hN : file.length ≤ UINT_MAX) :
    ∃ ds, Dataset.ctor ⟨r, ranks⟩ file batchsize = some ds ∧
      ds.mrrecords
        = (file.length / loopBatchsize batchsize ranks)
            * parallel.distribute ⟨r, ranks⟩ (loopBatchsize batchsize ranks) r
          + parallel.distribute ⟨r, ranks⟩ (file.length % loopBatchsize batchsize ranks) r ∧
      (batchsize < ranks ∨ file.length ≤ batchsize ∨ ranks ∣ batchsize →
        (ds.mrrecords : ℤ) = ⌈((file.length : ℚ) - (r : ℚ)) / (ranks : ℚ)⌉) := by
  have hB := loopBatchsize_pos batchsize ranks hR
  obtain ⟨ds, hc, -, -, hrr, -, -, -, -⟩ :=
    ctor_fields ⟨r, ranks⟩ file batchsize D hD hR hN
  simp only at hrr
  refine ⟨ds, hc, ?_, ?_⟩
  · rw [hrr]
    exact count_rank _ _ _ _ hB hR hr r
  · intro hcase
    rw [hrr, ← count_mod_ceil ranks r file.length hR hr]
    congr 1
    apply count_congr_lt
    intro i hi
    have hmod : (i % loopBatchsize batchsize ranks) % ranks = i % ranks := by
      unfold loopBatchsize
      split_ifs with hlt
      · rw [Nat.mod_eq_of_lt (show i < UINT_MAX by omega)]
      · rcases hcase with h | h | h
        · omega
        · rw [Nat.mod_eq_of_lt (show i < batchsize by omega)]
        · exact Nat.mod_mod_of_dvd i h
    rw [hmod]

/-- The hypotheses of `rrecords_ceil` hold on rank 1 of 2 for a file of three
records and no batching. -/
theorem rrecords_ceil_witness :
    ∃ ds, Dataset.ctor ⟨1, 2⟩ [[1, 2], [3, 4], [5, 6]] 0 = some ds ∧
      ds.mrrecords
        = ([[(1 : ℚ), 2], [3, 4], [5, 6]].length / loopBatchsize 0 2)
            * parallel.distribute ⟨1, 2⟩ (loopBatchsize 0 2) 1
          + parallel.distribute ⟨1, 2⟩
              ([[(1 : ℚ), 2], [3, 4], [5, 6]].length % loopBatchsize 0 2) 1 ∧
      (0 < 2 ∨ [[(1 : ℚ), 2], [3, 4], [5, 6]].length ≤ 0 ∨ 2 ∣ 0 →
        (ds.mrrecords : ℤ)
          = ⌈(([[(1 : ℚ), 2], [3, 4], [5, 6]].length : ℚ) - ((1 : ℕ) : ℚ)) / ((2 : ℕ) : ℚ)⌉) :=
  rrecords_ceil [[1, 2], [3, 4], [5, 6]] 0 2 1 2 rfl (by decide) (by decide) (by decide)

/-- Claim C6 (mean over the records).  For a well-formed file, any rank count
`R ≥ 1`, any rank and any requested batch size, the constructor stores as
`valmean` the sum of all scalars of the file divided by the number `N` of
records, the same value on every rank; for the file with the lines `1 2`, `3 4`,
`5 6` this value is 7 on every rank of a run with one or with two ranks. -/
theorem valmean_over_records (file : List Line) (batchsize ranks r : Nat)
    (hwf : wellFormed file = true) (hR : 1 ≤ ranks) (hN : file.length ≤ UINT_MAX) :
    (∃ ds, Dataset.ctor ⟨r, ranks⟩ file batchsize = some ds ∧
      ds.mvalmean = scalarSum file / (file.length : ℚ)) ∧
    (∀ R0 r0, R0 = 1 ∨ R0 = 2 →
      ∃ ds, Dataset.ctor ⟨r0, R0⟩ [[1, 2], [3, 4], [5, 6]] batchsize = some ds ∧
        ds.mvalmean = 7) := by
  refine ⟨ctor_valmean ⟨r, ranks⟩ file batchsize hwf hR hN, ?_⟩
  intro R0 r0 hR0
  obtain ⟨ds, hc, hm⟩ := ctor_valmean ⟨r0, R0⟩ [[1, 2], [3, 4], [5, 6]] batchsize rfl
    (by rcases hR0 with h | h <;> simp [h]) (by decide)
  refine ⟨ds, hc, ?_⟩
  rw [hm]
  norm_num [scalarSum]

/-- The hypotheses of `valmean_over_records` hold for a file of two records of
three fields on rank 1 of 2. -/
theorem valmean_over_records_witness :
    (∃ ds, Dataset.ctor ⟨1, 2⟩ [[1, 2, 3], [4, 5, 6]] 0 = some ds ∧
      ds.mvalmean = scalarSum [[1, 2, 3], [4, 5, 6]]
        / (([[1, 2, 3], [4, 5, 6]] : List Line).length : ℚ)) ∧
    (∀ R0 r0, R0 = 1 ∨ R0 = 2 →
      ∃ ds, Dataset.ctor ⟨r0, R0⟩ [[1, 2], [3, 4], [5, 6]] 0 = some ds ∧
        ds.mvalmean = 7) :=
  valmean_over_records [[1, 2, 3], [4, 5, 6]] 0 2 1 rfl (by decide) (by decide)

/-- Claim C7 on the file with the lines `1 2`, `3 4`, `5 6` read by a single
rank: the constructor stores `valmean = 7`, while the arithmetic mean of the six
scalars of the file is `7/2`. -/
theorem valmean_not_arithmetic_mean :
    ∃ ds, Dataset.ctor ⟨0, 1⟩ [[1, 2], [3, 4], [5, 6]] 0 = some ds ∧
      ds.mdimensions = 2 ∧ ds.mtrecords = 3 ∧
      ds.mvalmean = 7 ∧
      scalarSum [[1, 2], [3, 4], [5, 6]]
        / ((scalarCount [[1, 2], [3, 4], [5, 6]] : ℕ) : ℚ) = 7 / 2 ∧
      ds.mvalmean ≠ scalarSum [[1, 2], [3, 4], [5, 6]]
        / ((scalarCount [[1, 2], [3, 4], [5, 6]] : ℕ) : ℚ) := by
  obtain ⟨ds, hc, hd, ht, -, -, -, -, -⟩ :=
    ctor_fields ⟨0, 1⟩ [[1, 2], [3, 4], [5, 6]] 0 2 rfl (by decide) (by decide)
  obtain ⟨ds2, hc2, hm⟩ := ctor_valmean ⟨0, 1⟩ [[1, 2], [3, 4], [5, 6]] 0 rfl
    (by decide) (by decide)
  have hsame : ds2 = ds := by
    rw [hc] at hc2
    exact (Option.some.inj hc2).symm
  subst hsame
  have h7 : ds2.mvalmean = 7 := by
    rw [hm]; norm_num [scalarSum]
  have hmean : scalarSum [[1, 2], [3, 4], [5, 6]]
      / ((scalarCount [[1, 2], [3, 4], [5, 6]] : ℕ) : ℚ) = 7 / 2 := by
    norm_num [scalarSum, scalarCount]
  refine ⟨ds2, hc, hd, ht, h7, hmean, ?_⟩
  rw [h7, hmean]
  norm_num

/-- Claim C8 (rewriting of the batch size).  For a file of `N` records whose
first line has a field, `R ≥ 1` ranks and a requested batch size `b`, on every
rank: if `b < R` (in particular `b = 0`) the reported `batchsize()` is `N`,
`global_to_local(G)` is `(G mod R, G div R)` for every `G < N`, and on a
well-formed file rank `G mod R` holds the fields of line `G` at its local
record `G div R`; if `R ≤ b < UINT_MAX` the reported `batchsize()` is `b`; in
both cases `rbatchsize() = distribute(batchsize(), rank)`. -/
theorem batchsize_reported (file : List Line) (batchsize ranks r D : Nat)
    (hD : dataset_dimensions file = some D) (hR : 1 ≤ ranks)
    (hN : file.length ≤ UINT_MAX) :
    ∃ ds, Dataset.ctor ⟨r, ranks⟩ file batchsize = some ds ∧
      (batchsize < ranks →
        ds.mbatchsize = file.length ∧
        ∀ G (hG : G < file.length),
          Dataset.global_to_local ⟨r, ranks⟩ ds G = (G % ranks, G / ranks) ∧
          (wellFormed file = true →
            ∃ dso, Dataset.ctor ⟨G % ranks, ranks⟩ file batchsize = some dso ∧
              G / ranks < dso.mrrecords ∧
              (dso.rrecord (G / ranks)).slice dso.mdimensions = file[G])) ∧
      (ranks ≤ batchsize → batchsize < UINT_MAX → ds.mbatchsize = batchsize) ∧
      ds.mrbatchsize = parallel.distribute ⟨r, ranks⟩ ds.mbatchsize r := by
  obtain ⟨ds, hc, -, -, -, -, hb, hrb, -⟩ :=
    ctor_fields ⟨r, ranks⟩ file batchsize D hD hR hN
  refine ⟨ds, hc, ?_, ?_, hrb⟩
  · intro hlt
    have hB : loopBatchsize batchsize ranks = UINT_MAX := by
      simp [loopBatchsize, hlt]
    have hbN : ds.mbatchsize = file.length := by
      rw [hb]; simp [hB]
    refine ⟨hbN, ?_⟩
    intro G hG
    have hGU : G < UINT_MAX := lt_of_lt_of_le hG hN
    have hg := global_to_local_count ⟨r, ranks⟩ ds batchsize file.length G hR hN hG hb
    have hcnt := count_owner (loopBatchsize batchsize ranks) ranks G
      (loopBatchsize_pos batchsize ranks hR) hR r
    simp only [hB, Nat.mod_eq_of_lt hGU, Nat.div_eq_of_lt hGU, Nat.zero_mul,
      Nat.zero_add] at hg hcnt
    rw [hcnt] at hg
    refine ⟨hg, ?_⟩
    intro hwf
    obtain ⟨D2, hD2, hall⟩ := (wellFormed_iff file).mp hwf
    have hx : file[G].length = D2 := hall _ (List.getElem_mem hG)
    obtain ⟨dso, ho, h1, h2⟩ := ctor_stores file batchsize ranks G D2 hD2 hR hN hG hx
    simp only [hB, Nat.mod_eq_of_lt hGU, hcnt] at ho h1 h2
    exact ⟨dso, ho, h1, h2⟩
  · intro hle hlt
    have hB : loopBatchsize batchsize ranks = batchsize := by
      simp [loopBatchsize, Nat.not_lt.mpr hle]
    rw [hb, hB]
    simp [hlt]

/-- The hypotheses of `batchsize_reported` hold on rank 0 of 2 for a file of
three records and a requested batch size of 0. -/
theorem batchsize_reported_witness :
    ∃ ds, Dataset.ctor ⟨0, 2⟩ [[1, 2], [3, 4], [5, 6]] 0 = some ds ∧
      (0 < 2 →
        ds.mbatchsize = ([[1, 2], [3, 4], [5, 6]] : List Line).length ∧
        ∀ G (hG : G < ([[1, 2], [3, 4], [5, 6]] : List Line).length),
          Dataset.global_to_local ⟨0, 2⟩ ds G = (G % 2, G / 2) ∧
          (wellFormed [[1, 2], [3, 4], [5, 6]] = true →
            ∃ dso, Dataset.ctor ⟨G % 2, 2⟩ [[1, 2], [3, 4], [5, 6]] 0 = some dso ∧
              G / 2 < dso.mrrecords ∧
              (dso.rrecord (G / 2)).slice dso.mdimensions
                = ([[1, 2], [3, 4], [5, 6]] : List Line)[G])) ∧
      (2 ≤ 0 → 0 < UINT_MAX → ds.mbatchsize = 0) ∧
      ds.mrbatchsize = parallel.distribute ⟨0, 2⟩ ds.mbatchsize 0 :=
  batchsize_reported [[1, 2], [3, 4], [5, 6]] 0 2 0 2 rfl (by decide) (by decide)

/-- Claim C9 on a lattice of one row and two columns with the weights `5`
and `0`, for the record `0`: the cell `(0, 1)` is at squared distance 0 and the
cell `(0, 0)` at squared distance 25, yet `bmu_find` returns `(0, 0)`, which is
not the best-matching unit. -/
theorem bmu_find_misses_minimum :
    bmu_find ⟨1, 2, 1, [5, 0]⟩ ⟨[0], 0⟩ = (0, 0) ∧
    cellDistance ⟨1, 2, 1, [5, 0]⟩ ⟨[0], 0⟩ 0 0 = 25 ∧
    cellDistance ⟨1, 2, 1, [5, 0]⟩ ⟨[0], 0⟩ 0 1 = 0 ∧
    isBestMatch ⟨1, 2, 1, [5, 0]⟩ ⟨[0], 0⟩ 0 1 ∧
    ¬ isBestMatch ⟨1, 2, 1, [5, 0]⟩ ⟨[0], 0⟩
        (bmu_find ⟨1, 2, 1, [5, 0]⟩ ⟨[0], 0⟩).1 (bmu_find ⟨1, 2, 1, [5, 0]⟩ ⟨[0], 0⟩).2 := by
  have h00 : cellDistance ⟨1, 2, 1, [5, 0]⟩ ⟨[0], 0⟩ 0 0 = 25 := by
    norm_num [cellDistance, squared_distance, square, Ptr.read, Weights.entry, Weights.offset,
      Weights.index, List.range_succ]
  have h01 : cellDistance ⟨1, 2, 1, [5, 0]⟩ ⟨[0], 0⟩ 0 1 = 0 := by
    norm_num [cellDistance, squared_distance, square, Ptr.read, Weights.entry, Weights.offset,
      Weights.index, List.range_succ]
  refine ⟨bmu_find_eq _ _, h00, h01, ⟨by decide, by decide, ?_⟩, ?_⟩
  · intro r c hr hc
    have hr0 : r = 0 := by simpa using hr
    subst hr0
    have hc2 : c = 0 ∨ c = 1 := by
      have : c < 2 := hc
      omega
    rcases hc2 with h | h <;> subst h
    · rw [h00, h01]
      exact ⟨by norm_num, by norm_num⟩
    · exact ⟨le_refl _, fun _ => le_refl _⟩
  · rw [bmu_find_eq]
    intro h
    have := (h.2.2 0 1 (by decide) (by decide)).1
    rw [h00, h01] at this
    norm_num at this

/-- Claim C10 (the search always answers the origin).  For every lattice with
`ROWS, COLS ≥ 1`, every weights grid and every record, no iteration of the
loops of `bmu_find` changes `row`, `col` or `mindist`, since each measures the
distance of the cell `(0, 0)` again, and `bmu_find` returns `(0, 0)`; so it does
on a lattice of one row and one column. -/
theorem bmu_find_origin (weights : Weights) (record : Ptr)
    (_hrows : 1 ≤ weights.mrows) (_hcols : 1 ≤ weights.mcols) :
    (∀ r c, bmu_step weights record r c
        { row := 0, col := 0, mindist := cellDistance weights record 0 0 }
      = { row := 0, col := 0, mindist := cellDistance weights record 0 0 }) ∧
    bmu_find weights record = (0, 0) ∧
    (weights.mrows = 1 → weights.mcols = 1 → bmu_find weights record = (0, 0)) :=
  ⟨bmu_step_init weights record, bmu_find_eq weights record,
    fun _ _ => bmu_find_eq weights record⟩

/-- The hypotheses of `bmu_find_origin` hold for a lattice of two rows and two
columns whose cell `(1, 1)` is the record itself. -/
theorem bmu_find_origin_witness :
    (∀ r c, bmu_step ⟨2, 2, 1, [4, 3, 2, 1]⟩ ⟨[1], 0⟩ r c
        { row := 0, col := 0, mindist := cellDistance ⟨2, 2, 1, [4, 3, 2, 1]⟩ ⟨[1], 0⟩ 0 0 }
      = { row := 0, col := 0,
          mindist := cellDistance ⟨2, 2, 1, [4, 3, 2, 1]⟩ ⟨[1], 0⟩ 0 0 }) ∧
    bmu_find ⟨2, 2, 1, [4, 3, 2, 1]⟩ ⟨[1], 0⟩ = (0, 0) ∧
    ((2 : Nat) = 1 → (2 : Nat) = 1 → bmu_find ⟨2, 2, 1, [4, 3, 2, 1]⟩ ⟨[1], 0⟩ = (0, 0)) :=
  bmu_find_origin ⟨2, 2, 1, [4, 3, 2, 1]⟩ ⟨[1], 0⟩ (by decide) (by decide)

/-- Claim C12 (neighbourhood locality).  For a best-matching unit inside the
lattice, a radius `ρ ≥ 0` and a numerator shaped as the weights: every cell
that `batch_fraction_accumulate` visits lies in the lattice and within `⌊ρ⌋`
rows and columns of the best-matching unit; whatever weights the visited cells
get, the accumulation leaves every scalar of the numerator outside the cells
of that box as it was; and for `ρ > 0` the function returns a state whose
weights are those of the state before and whose numerator has the same length
and the same scalars outside the cells of the box. -/
theorem accumulate_frame (exp : ℚ → ℚ) (state : TrainState) (record : Ptr) (brow bcol : Nat)
    (_hbrow : brow < state.weights.mrows) (_hbcol : bcol < state.weights.mcols)
    (hrho : 0 ≤ state.nradius)
    (hcols : state.bfraction.numerator.mcols = state.weights.mcols)
    (hdims : state.bfraction.numerator.mdimensions = state.weights.mdimensions) :
    (∀ rc ∈ accumulate_cells state brow bcol, in_box state brow bcol rc.1 rc.2) ∧
    (∀ (w : Nat → Nat → ℚ) (p : Nat), outside_box state brow bcol p →
      (accumulate_list state.weights state.weights.mdimensions record w
          (accumulate_cells state brow bcol) state.bfraction).numerator.mem.getD p 0
        = state.bfraction.numerator.mem.getD p 0) ∧
    (0 < state.nradius →
      ∃ s, batch_fraction_accumulate exp state record brow bcol = some s ∧
        s.weights = state.weights ∧
        s.bfraction.numerator.mem.length = state.bfraction.numerator.mem.length ∧
        ∀ p, outside_box state brow bcol p →
          s.bfraction.numerator.mem.getD p 0 = state.bfraction.numerator.mem.getD p 0) := by
  refine ⟨fun rc h => accumulate_cells_in_box state brow bcol rc hrho h,
    fun w p hp => accumulate_list_outside state record brow bcol w p hrho hcols hdims hp, ?_⟩
  intro hpos
  have hne : 2 * state.nradius ≠ 0 := by
    have : 0 < 2 * state.nradius := by linarith
    exact ne_of_gt this
  refine ⟨_, accumulate_eq exp state record brow bcol hne, rfl, ?_, ?_⟩
  · exact (accumulate_list_spec state.weights state.weights.mdimensions record _
      (accumulate_cells state brow bcol) state.bfraction).2.2.2.1
  · intro p hp
    exact accumulate_list_outside state record brow bcol _ p hrho hcols hdims hp

/-- The hypotheses of `accumulate_frame` hold on a lattice of 5 by 5 cells for
the best-matching unit `(2, 2)` and the radius `7/5`. -/
theorem accumulate_frame_witness :
    (∀ rc ∈ accumulate_cells (gridState 5 5 (7 / 5)) 2 2,
      in_box (gridState 5 5 (7 / 5)) 2 2 rc.1 rc.2) ∧
    (∀ (w : Nat → Nat → ℚ) (p : Nat), outside_box (gridState 5 5 (7 / 5)) 2 2 p →
      (accumulate_list (gridState 5 5 (7 / 5)).weights (gridState 5 5 (7 / 5)).weights.mdimensions
          ⟨[1], 0⟩ w (accumulate_cells (gridState 5 5 (7 / 5)) 2 2)
          (gridState 5 5 (7 / 5)).bfraction).numerator.mem.getD p 0
        = (gridState 5 5 (7 / 5)).bfraction.numerator.mem.getD p 0) ∧
    (0 < (gridState 5 5 (7 / 5)).nradius →
      ∃ s, batch_fraction_accumulate (fun x => x) (gridState 5 5 (7 / 5)) ⟨[1], 0⟩ 2 2 = some s ∧
        s.weights = (gridState 5 5 (7 / 5)).weights ∧
        s.bfraction.numerator.mem.length
          = (gridState 5 5 (7 / 5)).bfraction.numerator.mem.length ∧
        ∀ p, outside_box (gridState 5 5 (7 / 5)) 2 2 p →
          s.bfraction.numerator.mem.getD p 0
            = (gridState 5 5 (7 / 5)).bfraction.numerator.mem.getD p 0) :=
  accumulate_frame (fun x => x) (gridState 5 5 (7 / 5)) ⟨[1], 0⟩ 2 2 (by decide) (by decide)
    (by norm_num [gridState]) rfl rfl

/-- Claim C11 on a lattice of two rows and one column with the best-matching
unit `(1, 0)` and the radius 1: for the cell `(0, 0)`, one row above the
best-matching unit, the source measures the squared distance
`(2^32 − 1)² = 18446744065119617025` instead of 1, so its weight is
`exp(−18446744065119617025/2)` and not `exp(−1/2)`; the denominator and the
numerator receive this weight. -/
theorem accumulate_unsigned_offsets (exp : ℚ → ℚ) :
    accumulate_cells (gridState 2 1 1) 1 0 = [(0, 0), (1, 0)] ∧
    grid_sqdist 1 0 0 0 = 18446744065119617025 ∧
    cell_weight exp 1 1 0 0 0 = exp (-18446744065119617025 / 2) ∧
    spec_cell_weight exp 1 1 0 0 0 = exp (-1 / 2) ∧
    (∃ s, batch_fraction_accumulate exp (gridState 2 1 1) ⟨[10], 0⟩ 1 0 = some s ∧
      s.bfraction.denominator = exp (-18446744065119617025 / 2) + exp 0 ∧
      s.bfraction.numerator.mem = [exp (-18446744065119617025 / 2) * 10, exp 0 * 10] ∧
      (Function.Injective exp →
        s.bfraction.denominator
          ≠ spec_cell_weight exp 1 1 0 0 0 + spec_cell_weight exp 1 1 0 1 0)) := by
  have hcells : accumulate_cells (gridState 2 1 1) 1 0 = [(0, 0), (1, 0)] := by
    simp only [accumulate_cells, gridState, toUnsigned_one]
    decide
  have hsq : grid_sqdist 1 0 0 0 = 18446744065119617025 := by
    norm_num [grid_sqdist, squared_hypot, square, usub, u32]
  have hw : cell_weight exp 1 1 0 0 0 = exp (-18446744065119617025 / 2) := by
    simp only [cell_weight, hsq]; norm_num
  have hs0 : spec_cell_weight exp 1 1 0 0 0 = exp (-1 / 2) := by
    simp only [spec_cell_weight]; norm_num
  have hs1 : spec_cell_weight exp 1 1 0 1 0 = exp 0 := by
    simp only [spec_cell_weight]; norm_num
  refine ⟨hcells, hsq, hw, hs0,
    _, accumulate_eq exp (gridState 2 1 1) ⟨[10], 0⟩ 1 0 (by norm_num [gridState]), ?_, ?_, ?_⟩
  · simp only [hcells, accumulate_list, List.foldl_cons, List.foldl_nil, accumulate_cell,
      cell_weight, hsq, grid_sqdist_self]
    simp [gridState]
  · simp only [hcells, accumulate_list, List.foldl_cons, List.foldl_nil, accumulate_cell,
      cell_weight, hsq, grid_sqdist_self]
    simp [gridState, accumulate_dims, Weights.offset, Weights.index, Weights.entry, Ptr.read,
      List.range_succ]
  · intro hinj
    simp only [hcells, accumulate_list, List.foldl_cons, List.foldl_nil, accumulate_cell,
      cell_weight, hsq, grid_sqdist_self, hs0, hs1]
    simp only [gridState, zero_add]
    intro heq
    have h2 : exp (-18446744065119617025 / (2 * 1)) = exp (-1 / 2) := by
      have h3 : (0 : ℚ) / (2 * 1) = 0 := by norm_num
      rw [neg_zero, h3] at heq
      exact add_right_cancel heq
    have h4 := hinj h2
    norm_num at h4

/-- Claim C13 on a lattice of 5 by 5 cells with the best-matching unit `(2, 2)`
and the radius `7/5`: the loops visit the 9 cells of the rows 1..3 and the
columns 1..3, but for the 5 cells above or to the left of the best-matching
unit the squared distance is measured on wrapped `unsigned` differences and
is at least `(2^32 − 1)²`.  For an exponential that is 0 below −746, as
`std::exp` is on doubles, and not 0 from −1 on, only the 4 cells `(2, 2)`,
`(2, 3)`, `(3, 2)`, `(3, 3)` get a weight that is not zero: the denominator
receives 4 contributions that are not zero and the numerator changes in these
4 cells only. -/
theorem accumulate_box_underflow (exp : ℚ → ℚ) (hunder : ∀ x, x < -746 → exp x = 0)
    (hpos : ∀ x, -1 ≤ x → exp x ≠ 0) :
    accumulate_cells (gridState 5 5 (7 / 5)) 2 2
      = [(1, 1), (1, 2), (1, 3), (2, 1), (2, 2), (2, 3), (3, 1), (3, 2), (3, 3)] ∧
    (accumulate_cells (gridState 5 5 (7 / 5)) 2 2).map
        (fun rc : Nat × Nat => grid_sqdist 2 2 rc.1 rc.2)
      = [36893488130239234050, 18446744065119617025, 18446744065119617026,
          18446744065119617025, 0, 1, 18446744065119617026, 1, 2] ∧
    (accumulate_cells (gridState 5 5 (7 / 5)) 2 2).filter
        (fun rc => decide (cell_weight exp (7 / 5) 2 2 rc.1 rc.2 ≠ 0))
      = [(2, 2), (2, 3), (3, 2), (3, 3)] ∧
    (∃ s, batch_fraction_accumulate exp (gridState 5 5 (7 / 5)) ⟨[1], 0⟩ 2 2 = some s ∧
      s.bfraction.denominator = exp 0 + exp (-5 / 14) + (exp (-5 / 14) + exp (-5 / 7)) ∧
      s.bfraction.numerator.mem
        = [0, 0, 0, 0, 0,
           0, 0, 0, 0, 0,
           0, 0, exp 0, exp (-5 / 14), 0,
           0, 0, exp (-5 / 14), exp (-5 / 7), 0,
           0, 0, 0, 0, 0]) := by
  have h := sqdists_5x5
  simp only [List.map_cons, List.map_nil, List.cons.injEq, and_true] at h
  obtain ⟨h11, h12, h13, h21, h22, h23, h31, h32, h33⟩ := h
  have w11 : cell_weight exp (7 / 5) 2 2 1 1 = 0 := by
    simp only [cell_weight, h11]; exact hunder _ (by norm_num)
  have w12 : cell_weight exp (7 / 5) 2 2 1 2 = 0 := by
    simp only [cell_weight, h12]; exact hunder _ (by norm_num)
  have w13 : cell_weight exp (7 / 5) 2 2 1 3 = 0 := by
    simp only [cell_weight, h13]; exact hunder _ (by norm_num)
  have w21 : cell_weight exp (7 / 5) 2 2 2 1 = 0 := by
    simp only [cell_weight, h21]; exact hunder _ (by norm_num)
  have w31 : cell_weight exp (7 / 5) 2 2 3 1 = 0 := by
    simp only [cell_weight, h31]; exact hunder _ (by norm_num)
  have w22 : cell_weight exp (7 / 5) 2 2 2 2 = exp 0 := by
    simp only [cell_weight, h22]; norm_num
  have w23 : cell_weight exp (7 / 5) 2 2 2 3 = exp (-5 / 14) := by
    simp only [cell_weight, h23]; norm_num
  have w32 : cell_weight exp (7 / 5) 2 2 3 2 = exp (-5 / 14) := by
    simp only [cell_weight, h32]; norm_num
  have w33 : cell_weight exp (7 / 5) 2 2 3 3 = exp (-5 / 7) := by
    simp only [cell_weight, h33]; norm_num
  have p22 : exp 0 ≠ 0 := hpos 0 (by norm_num)
  have p23 : exp (-5 / 14) ≠ 0 := hpos _ (by norm_num)
  have p33 : exp (-5 / 7) ≠ 0 := hpos _ (by norm_num)
  refine ⟨cells_5x5, by rw [cells_5x5]; exact sqdists_5x5, ?_, ?_⟩
  · rw [cells_5x5]
    simp [List.filter, w11, w12, w13, w21, w22, w23, w31, w32, w33, p22, p23, p33]
  refine ⟨_, accumulate_eq exp (gridState 5 5 (7 / 5)) ⟨[1], 0⟩ 2 2 (by norm_num [gridState]),
    ?_, ?_⟩
  · simp only [cells_5x5, accumulate_list, List.foldl_cons, List.foldl_nil, accumulate_cell]
    simp only [gridState, w11, w12, w13, w21, w22, w23, w31, w32, w33]
    ring
  · simp only [cells_5x5, accumulate_list, List.foldl_cons, List.foldl_nil, accumulate_cell]
    simp only [gridState, w11, w12, w13, w21, w22, w23, w31, w32, w33]
    simp [accumulate_dims, Weights.offset, Weights.index, Weights.entry, Ptr.read,
      List.range_succ, List.replicate]

/-- The hypotheses of `accumulate_box_underflow` hold for the function that is
0 below −746 and 1 elsewhere. -/
theorem accumulate_box_underflow_witness :
    accumulate_cells (gridState 5 5 (7 / 5)) 2 2
      = [(1, 1), (1, 2), (1, 3), (2, 1), (2, 2), (2, 3), (3, 1), (3, 2), (3, 3)] ∧
    (accumulate_cells (gridState 5 5 (7 / 5)) 2 2).map
        (fun rc : Nat × Nat => grid_sqdist 2 2 rc.1 rc.2)
      = [36893488130239234050, 18446744065119617025, 18446744065119617026,
          18446744065119617025, 0, 1, 18446744065119617026, 1, 2] ∧
    (accumulate_cells (gridState 5 5 (7 / 5)) 2 2).filter
        (fun rc => decide (cell_weight expUnderflow (7 / 5) 2 2 rc.1 rc.2 ≠ 0))
      = [(2, 2), (2, 3), (3, 2), (3, 3)] ∧
    (∃ s, batch_fraction_accumulate expUnderflow (gridState 5 5 (7 / 5)) ⟨[1], 0⟩ 2 2
        = some s ∧
      s.bfraction.denominator
        = expUnderflow 0 + expUnderflow (-5 / 14)
          + (expUnderflow (-5 / 14) + expUnderflow (-5 / 7)) ∧
      s.bfraction.numerator.mem
        = [0, 0, 0, 0, 0,
           0, 0, 0, 0, 0,
           0, 0, expUnderflow 0, expUnderflow (-5 / 14), 0,
           0, 0, expUnderflow (-5 / 14), expUnderflow (-5 / 7), 0,
           0, 0, 0, 0, 0]) :=
  accumulate_box_underflow expUnderflow
    (fun x hx => by simp [expUnderflow, hx])
    (fun x hx => by
      have h : ¬ x < -746 := by linarith
      simp [expUnderflow, h])

/-- Claim C14, as stated, fails: with the radius 0 the only visited cell is the
best-matching unit, and its weight is `exp(−0/0)`: the quotient is not a
number, so neither is the weight, and the function returns no state with a
denominator increased by 1. -/
theorem accumulate_radius_zero_counterexample :
    accumulate_cells (gridState 1 1 0) 0 0 = [(0, 0)] ∧
    ddiv (-(grid_sqdist 0 0 0 0)) (2 * (gridState 1 1 0).nradius) = none ∧
    (∀ exp : ℚ → ℚ, batch_fraction_accumulate exp (gridState 1 1 0) ⟨[1], 0⟩ 0 0 = none) := by
  refine ⟨?_, ?_, ?_⟩
  · exact accumulate_cells_share_zero _ 0 0 toUnsigned_zero (by decide) (by decide) (by decide)
      (by decide)
  · simp [ddiv, gridState]
  · intro exp
    have hcells : accumulate_cells (gridState 1 1 0) 0 0 = [(0, 0)] :=
      accumulate_cells_share_zero _ 0 0 toUnsigned_zero (by decide) (by decide) (by decide)
        (by decide)
    simp only [accumulate_cells] at hcells
    simp only [batch_fraction_accumulate, accumulate_loop_cells, hcells]
    simp [distfunc, ddiv, gridState]

/-- Claim C14, amended.  With a radius `0 < ρ < 1` (share 0), an exponential
with `exp 0 = 1`, a best-matching unit inside the lattice and a numerator
shaped as the weights, `batch_fraction_accumulate` visits the best-matching
unit only and gives it the weight 1: the denominator increases by exactly 1,
`numerator[BMU][d]` increases by `record[d] − weights[BMU][d]` for every
`d < D`, and every other scalar of the numerator and all weights are left as
they were. -/
theorem accumulate_share_zero (exp : ℚ → ℚ) (state : TrainState) (record : Ptr)
    (brow bcol : Nat) (hexp : exp 0 = 1)
    (hbrow : brow < state.weights.mrows) (hbcol : bcol < state.weights.mcols)
    (hpos : 0 < state.nradius) (hlt : state.nradius < 1)
    (hrows : state.weights.mrows ≤ UINT_MAX) (hcols : state.weights.mcols ≤ UINT_MAX)
    (hnr : state.bfraction.numerator.mrows = state.weights.mrows)
    (hnc : state.bfraction.numerator.mcols = state.weights.mcols)
    (hnd : state.bfraction.numerator.mdimensions = state.weights.mdimensions)
    (hlen : state.bfraction.numerator.mem.length = state.bfraction.numerator.size3) :
    accumulate_cells state brow bcol = [(brow, bcol)] ∧
    cell_weight exp state.nradius brow bcol brow bcol = 1 ∧
    ∃ s, batch_fraction_accumulate exp state record brow bcol = some s ∧
      s.weights = state.weights ∧
      s.bfraction.denominator = state.bfraction.denominator + 1 ∧
      (∀ d, d < state.weights.mdimensions →
        (s.bfraction.numerator.entry (s.bfraction.numerator.index brow bcol)).read d
          = (state.bfraction.numerator.entry (state.bfraction.numerator.index brow bcol)).read d
            + (record.read d - (state.weights.entry (state.weights.index brow bcol)).read d)) ∧
      (∀ p, (∀ d, d < state.bfraction.numerator.mdimensions →
          p ≠ state.bfraction.numerator.offset (state.bfraction.numerator.index brow bcol) + d) →
        s.bfraction.numerator.mem.getD p 0 = state.bfraction.numerator.mem.getD p 0) := by
  have hcells := accumulate_cells_share_zero state brow bcol
    (toUnsigned_lt_one _ hlt) hbrow hbcol hrows hcols
  have hw : cell_weight exp state.nradius brow bcol brow bcol = 1 := by
    simp only [cell_weight, grid_sqdist_self, neg_zero, zero_div, hexp]
  have hne : 2 * state.nradius ≠ 0 := by
    have : 0 < 2 * state.nradius := by linarith
    exact ne_of_gt this
  have hidx : state.bfraction.numerator.index brow bcol = state.weights.index brow bcol := by
    simp only [Weights.index, hnc]
  obtain ⟨-, h2, h3, -, -, -, h7, h8⟩ := accumulate_list_spec state.weights
    state.weights.mdimensions record (cell_weight exp state.nradius brow bcol)
    (accumulate_cells state brow bcol) state.bfraction
  rw [hcells] at h2 h3 h7 h8
  simp only [List.map_cons, List.map_nil, List.sum_cons, List.sum_nil, add_zero, hw] at h7 h8
  refine ⟨hcells, hw, _, accumulate_eq exp state record brow bcol hne, rfl, ?_, ?_, ?_⟩
  · rw [hcells]; exact h7
  · intro d hd
    have hin : state.bfraction.numerator.offset (state.weights.index brow bcol) + d
        < state.bfraction.numerator.mem.length := by
      rw [hlen]
      simp only [Weights.offset, Weights.index, Weights.size3, Weights.size2, hnr, hnc, hnd]
      exact cell_in_bounds _ _ _ _ _ _ hbrow hbcol hd
    have hcond : state.bfraction.numerator.offset (state.weights.index brow bcol)
          ≤ state.bfraction.numerator.offset (state.weights.index brow bcol) + d ∧
        state.bfraction.numerator.offset (state.weights.index brow bcol) + d
          < state.bfraction.numerator.offset (state.weights.index brow bcol)
            + state.weights.mdimensions ∧
        state.bfraction.numerator.offset (state.weights.index brow bcol) + d
          < state.bfraction.numerator.mem.length := ⟨by omega, by omega, hin⟩
    have h8d := h8 (state.bfraction.numerator.offset (state.weights.index brow bcol) + d)
    simp only [cell_term, if_pos hcond, Nat.add_sub_cancel_left, one_mul] at h8d
    simp only [Weights.entry, Ptr.read, Weights.index, Weights.offset, hcells, h2, h3, hnc]
    simp only [Weights.index, Weights.offset, hcells, Weights.entry, Ptr.read] at h8d
    exact h8d
  · intro p hp
    rw [hcells, h8 p]
    have hcond : ¬ (state.bfraction.numerator.offset (state.weights.index brow bcol) ≤ p ∧
        p < state.bfraction.numerator.offset (state.weights.index brow bcol)
            + state.weights.mdimensions ∧
        p < state.bfraction.numerator.mem.length) := by
      rintro ⟨h1, h2, -⟩
      apply hp (p - state.bfraction.numerator.offset (state.weights.index brow bcol))
      · rw [hnd]; omega
      · rw [hidx]; omega
    simp only [cell_term, if_neg hcond, add_zero]

/-- The hypotheses of `accumulate_share_zero` hold on a lattice of one cell with
the radius `1/2`, for the function `x ↦ x + 1`. -/
theorem accumulate_share_zero_witness :
    accumulate_cells (gridState 1 1 (1 / 2)) 0 0 = [(0, 0)] ∧
    cell_weight (fun x => x + 1) (gridState 1 1 (1 / 2)).nradius 0 0 0 0 = 1 ∧
    ∃ s, batch_fraction_accumulate (fun x => x + 1) (gridState 1 1 (1 / 2)) ⟨[3], 0⟩ 0 0
        = some s ∧
      s.weights = (gridState 1 1 (1 / 2)).weights ∧
      s.bfraction.denominator = (gridState 1 1 (1 / 2)).bfraction.denominator + 1 ∧
      (∀ d, d < (gridState 1 1 (1 / 2)).weights.mdimensions →
        (s.bfraction.numerator.entry (s.bfraction.numerator.index 0 0)).read d
          = ((gridState 1 1 (1 / 2)).bfraction.numerator.entry
              ((gridState 1 1 (1 / 2)).bfraction.numerator.index 0 0)).read d
            + ((⟨[3], 0⟩ : Ptr).read d
              - ((gridState 1 1 (1 / 2)).weights.entry
                  ((gridState 1 1 (1 / 2)).weights.index 0 0)).read d)) ∧
      (∀ p, (∀ d, d < (gridState 1 1 (1 / 2)).bfraction.numerator.mdimensions →
          p ≠ (gridState 1 1 (1 / 2)).bfraction.numerator.offset
                ((gridState 1 1 (1 / 2)).bfraction.numerator.index 0 0) + d) →
        s.bfraction.numerator.mem.getD p 0
          = (gridState 1 1 (1 / 2)).bfraction.numerator.mem.getD p 0) :=
  accumulate_share_zero (fun x => x + 1) (gridState 1 1 (1 / 2)) ⟨[3], 0⟩ 0 0 (by norm_num)
    (by decide) (by decide) (by norm_num [gridState]) (by norm_num [gridState])
    (by decide) (by decide) rfl rfl rfl rfl

/-- Claim C17 (reduce).  With the collective sum modelled as the exact sum over
the ranks, on every rank `r` of `R ≥ 1` ranks `BatchFraction::reduce` leaves in
`numerator[i]`, for every `i` below the size of the numerator, the sum over the
ranks of the values `numerator[i]` held before the call, in `denominator` the
sum over the ranks of the denominators held before the call, and in
`numbuffer` and `denbuffer` the numerator and the denominator that the rank
itself held before the call; the shapes of the two grids are kept. -/
theorem reduce_sums (world : List BatchFraction) (r : Nat) (hr : r < world.length) :
    (∀ i, i < world[r].numerator.size3 →
      (world[r].reduce world).numerator.mem.getD i 0
        = (world.map (fun f => f.numerator.mem.getD i 0)).sum) ∧
    (world[r].reduce world).denominator = (world.map (fun f => f.denominator)).sum ∧
    (world[r].reduce world).numbuffer.mem = world[r].numerator.mem ∧
    (world[r].reduce world).denbuffer = world[r].denominator ∧
    (world[r].reduce world).numerator.size3 = world[r].numerator.size3 ∧
    (world[r].reduce world).numbuffer.size3 = world[r].numbuffer.size3 := by
  refine ⟨?_, rfl, rfl, rfl, rfl, rfl⟩
  intro i hi
  simp only [BatchFraction.reduce, Weights.swap]
  rw [sum_all_double_getD _ _ _ _ hi, List.map_map]
  rfl

/-- The hypothesis of `reduce_sums` holds for the second of two ranks. -/
theorem reduce_sums_witness :
    (∀ i, i < [unitFraction 1 1, unitFraction 0 0][1].numerator.size3 →
      ([unitFraction 1 1, unitFraction 0 0][1].reduce
          [unitFraction 1 1, unitFraction 0 0]).numerator.mem.getD i 0
        = ([unitFraction 1 1, unitFraction 0 0].map
            (fun f => f.numerator.mem.getD i 0)).sum) ∧
    ([unitFraction 1 1, unitFraction 0 0][1].reduce
        [unitFraction 1 1, unitFraction 0 0]).denominator
      = ([unitFraction 1 1, unitFraction 0 0].map (fun f => f.denominator)).sum ∧
    ([unitFraction 1 1, unitFraction 0 0][1].reduce
        [unitFraction 1 1, unitFraction 0 0]).numbuffer.mem
      = [unitFraction 1 1, unitFraction 0 0][1].numerator.mem ∧
    ([unitFraction 1 1, unitFraction 0 0][1].reduce
        [unitFraction 1 1, unitFraction 0 0]).denbuffer
      = [unitFraction 1 1, unitFraction 0 0][1].denominator ∧
    ([unitFraction 1 1, unitFraction 0 0][1].reduce
        [unitFraction 1 1, unitFraction 0 0]).numerator.size3
      = [unitFraction 1 1, unitFraction 0 0][1].numerator.size3 ∧
    ([unitFraction 1 1, unitFraction 0 0][1].reduce
        [unitFraction 1 1, unitFraction 0 0]).numbuffer.size3
      = [unitFraction 1 1, unitFraction 0 0][1].numbuffer.size3 :=
  reduce_sums [unitFraction 1 1, unitFraction 0 0] 1 (by decide)

/-- Claim C18, as stated, fails: on two ranks that hold the numerators `1` and
`0` and the denominators `1` and `0`, the first `reduce` leaves the numerator
`1` and the denominator `1` on both ranks, and a second `reduce` leaves the
numerator `2` and the denominator `2`. -/
theorem reduce_twice_counterexample :
    ([unitFraction 1 1, unitFraction 0 0].map
        (fun f => f.reduce [unitFraction 1 1, unitFraction 0 0])).map
        (fun f => (f.numerator.mem, f.denominator))
      = [([1], 1), ([1], 1)] ∧
    (([unitFraction 1 1, unitFraction 0 0].map
        (fun f => f.reduce [unitFraction 1 1, unitFraction 0 0])).map
        (fun f => f.reduce ([unitFraction 1 1, unitFraction 0 0].map
          (fun f => f.reduce [unitFraction 1 1, unitFraction 0 0])))).map
        (fun f => (f.numerator.mem, f.denominator))
      = [([2], 2), ([2], 2)] := by
  constructor <;>
  norm_num [BatchFraction.reduce, unitFraction, parallel.sum_all_double, Weights.swap,
    Weights.size3, Weights.size2, List.range_succ]

/-- Claim C18, amended.  On `R ≥ 1` ranks whose numerators have the same
size, after a second `reduce` with no intervening write the numerator and the
denominator of every rank are `R` times what they were after the first
`reduce`; they are the same after the second call as after the first when
`R = 1`. -/
theorem reduce_twice (world : List BatchFraction) (n r : Nat) (hr : r < world.length)
    (hsize : ∀ f ∈ world, f.numerator.size3 = n) :
    (∀ i, i < n →
      ((world[r].reduce world).reduce (world.map (fun f => f.reduce world))).numerator.mem.getD i 0
        = (world.length : ℚ) * (world[r].reduce world).numerator.mem.getD i 0) ∧
    ((world[r].reduce world).reduce (world.map (fun f => f.reduce world))).denominator
      = (world.length : ℚ) * (world[r].reduce world).denominator ∧
    (world.length = 1 →
      (∀ i, i < n →
        ((world[r].reduce world).reduce (world.map (fun f => f.reduce world))).numerator.mem.getD
            i 0
          = (world[r].reduce world).numerator.mem.getD i 0) ∧
      ((world[r].reduce world).reduce (world.map (fun f => f.reduce world))).denominator
        = (world[r].reduce world).denominator) := by
  have hrn : world[r].numerator.size3 = n := hsize _ (List.getElem_mem hr)
  have hnum : ∀ i, i < n →
      ((world[r].reduce world).reduce (world.map (fun f => f.reduce world))).numerator.mem.getD i 0
        = (world.length : ℚ) * (world[r].reduce world).numerator.mem.getD i 0 := by
    intro i hi
    have h1 : i < (world[r].reduce world).numerator.size3 := by
      have : (world[r].reduce world).numerator.size3 = world[r].numerator.size3 := rfl
      omega
    rw [reduce_numerator_getD _ _ i h1, List.map_map,
      reduce_numerator_getD world world[r] i (by omega)]
    have hconst : List.map ((fun g : BatchFraction => g.numerator.mem.getD i 0)
          ∘ fun f => f.reduce world) world
        = world.map (fun _ => (world.map (fun g => g.numerator.mem.getD i 0)).sum) := by
      apply List.map_congr_left
      intro f hf
      exact reduce_numerator_getD world f i (by rw [hsize f hf]; exact hi)
    rw [hconst, sum_map_const]
  have hden : ((world[r].reduce world).reduce (world.map (fun f => f.reduce world))).denominator
      = (world.length : ℚ) * (world[r].reduce world).denominator := by
    simp only [BatchFraction.reduce, List.map_map]
    exact sum_map_const world _
  refine ⟨hnum, hden, ?_⟩
  intro h1
  refine ⟨fun i hi => ?_, ?_⟩
  · rw [hnum i hi, h1]; simp
  · rw [hden, h1]; simp

/-- The hypotheses of `reduce_twice` hold for the first of two ranks that hold
numerators of one scalar: the second `reduce` doubles the denominator. -/
theorem reduce_twice_witness :
    (([unitFraction 1 1, unitFraction 0 0][0].reduce
        [unitFraction 1 1, unitFraction 0 0]).reduce
        ([unitFraction 1 1, unitFraction 0 0].map
          (fun f => f.reduce [unitFraction 1 1, unitFraction 0 0]))).denominator
      = (([unitFraction 1 1, unitFraction 0 0].length : ℕ) : ℚ)
        * ([unitFraction 1 1, unitFraction 0 0][0].reduce
            [unitFraction 1 1, unitFraction 0 0]).denominator :=
  (reduce_twice [unitFraction 1 1, unitFraction 0 0] 1 0 (by decide)
    (by
      intro f hf
      simp only [List.mem_cons, List.mem_singleton, List.not_mem_nil, or_false] at hf
      rcases hf with rfl | rfl <;> rfl)).2.1

/-- Claim C16 (commit).  For a state whose fraction has a denominator that is
not zero and whose numerator is shaped as the weights, `batch_fraction_commit`
returns new weights of the same shape with
`weights[i] + numerator[i] / denominator` at every scalar position
`i < ROWS*COLS*D`, and the difference `Σ_i |numerator[i] / denominator|`;
when `valmean * ROWS*COLS*D` is not zero, the end of `batch_present` stores
these weights and this difference divided by `valmean * ROWS*COLS*D` in the
state and leaves the fraction as it was; and `batch_present` ends with this
step, applied to the state that holds the reduced fraction. -/
theorem commit_updates (state : TrainState) (hden : state.bfraction.denominator ≠ 0)
    (hrows : state.bfraction.numerator.mrows = state.weights.mrows)
    (hcols : state.bfraction.numerator.mcols = state.weights.mcols)
    (hdims : state.bfraction.numerator.mdimensions = state.weights.mdimensions)
    (hlen : state.weights.mem.length = state.weights.size3) :
    ∃ w diff,
      batch_fraction_commit state.bfraction state.weights = some (w, diff) ∧
      w.mrows = state.weights.mrows ∧ w.mcols = state.weights.mcols ∧
      w.mdimensions = state.weights.mdimensions ∧
      w.mem.length = state.weights.mem.length ∧
      (∀ i, i < state.weights.mrows * state.weights.mcols * state.weights.mdimensions →
        w.mem.getD i 0
          = state.weights.mem.getD i 0
            + state.bfraction.numerator.mem.getD i 0 / state.bfraction.denominator) ∧
      diff = ((List.range
          (state.weights.mrows * state.weights.mcols * state.weights.mdimensions)).map
        (fun i => |state.bfraction.numerator.mem.getD i 0 / state.bfraction.denominator|)).sum ∧
      (state.constants.valmean
          * ((state.weights.mrows * state.weights.mcols * state.weights.mdimensions : ℕ) : ℚ) ≠ 0 →
        batch_finish state
          = some { state with
              weights := w
              diff := diff / (state.constants.valmean
                * ((state.weights.mrows * state.weights.mcols * state.weights.mdimensions : ℕ)
                    : ℚ)) }) ∧
      (∀ (exp : ℚ → ℚ) (world : List TrainState) (rank : Nat),
        (batch_present exp world rank).1
          = (world[rank]?.bind (batch_reduced exp world)).bind batch_finish) := by
  obtain ⟨w, hc, h1, h2, h3, h4, h5⟩ := commit_spec state.bfraction state.weights hden
  have hsize : state.bfraction.numerator.size3
      = state.weights.mrows * state.weights.mcols * state.weights.mdimensions := by
    simp only [Weights.size3, Weights.size2, hrows, hcols, hdims]
  have hsize2 : state.weights.size3
      = state.weights.mrows * state.weights.mcols * state.weights.mdimensions := rfl
  rw [hsize] at hc h5
  refine ⟨w, _, hc, h1, h2, h3, h4, ?_, rfl, ?_, ?_⟩
  · intro i hi
    rw [h5 i, if_pos ⟨hi, by rw [hlen, hsize2]; exact hi⟩]
  · intro hval
    simp only [batch_finish, hc, Option.some_bind, ddiv, hsize2, if_neg hval, Option.map_some']
  · intro exp world rank
    unfold batch_present
    cases world[rank]? <;> rfl

/-- The hypotheses of `commit_updates` hold for a lattice of one cell whose
fraction is `3 / 2`. -/
theorem commit_updates_witness :
    ∃ w diff,
      batch_fraction_commit (unitFraction 3 2) (gridState 1 1 1).weights = some (w, diff) ∧
      w.mem.getD 0 0 = (gridState 1 1 1).weights.mem.getD 0 0 + 3 / 2 ∧
      diff = |(3 : ℚ) / 2| ∧
      batch_finish { gridState 1 1 1 with bfraction := unitFraction 3 2 }
        = some { gridState 1 1 1 with
            bfraction := unitFraction 3 2, weights := w, diff := diff / (1 * ((1 : ℕ) : ℚ)) } := by
  obtain ⟨w, diff, h1, -, -, -, -, h6, h7, h8, -⟩ :=
    commit_updates { gridState 1 1 1 with bfraction := unitFraction 3 2 }
      (by norm_num [unitFraction]) rfl rfl rfl rfl
  refine ⟨w, diff, h1, ?_, ?_, ?_⟩
  · have := h6 0 (by decide)
    simpa [unitFraction] using this
  · rw [h7]
    simp [gridState, unitFraction, List.range_succ]
  · have := h8 (by norm_num [gridState])
    simpa [gridState] using this

/-- C20: in a run on a well-formed file of N records, whatever the number of
ranks, the requested batch size and the sequence `rand` of values of
`std::rand`, `weights_random_init` returns on every rank `q`, changes only the
block of the weights, and leaves in the `k`-th cell in row-major order the
record that `global_to_local` locates for the global index `rand k mod N` on
its owner `root`, which is the line `rand k mod N` of the file; every rank
whose lattice has the same shape ends with the same weights. -/
theorem weights_random_init_records (file : List Line) (b : Nat) (world : List TrainState)
    (rand : Nat → Nat) (hwf : wellFormed file = true) (hN : file.length ≤ UINT_MAX)
    (hload : loadedWorld file b world) (q : Nat) (hq : q < world.length) :
    ∃ s, weights_random_init rand world q = some s ∧
      s.constants = world[q].constants ∧ s.bfraction = world[q].bfraction ∧
      s.weights.mrows = world[q].weights.mrows ∧
      s.weights.mcols = world[q].weights.mcols ∧
      s.weights.mdimensions = world[q].weights.mdimensions ∧
      (∀ k, k < s.weights.mrows * s.weights.mcols →
        ∃ root lidx, ∃ h : root < world.length,
          Dataset.global_to_local world[q].parallelState world[q].constants.dataset
            (rand k % file.length) = (root, lidx) ∧
          lidx < world[root].constants.dataset.mrrecords ∧
          (s.weights.entry k).slice s.weights.mdimensions
            = (world[root].constants.dataset.rrecord lidx).slice
                world[root].constants.dataset.mdimensions ∧
          file[rand k % file.length]?
            = some ((s.weights.entry k).slice s.weights.mdimensions)) ∧
      (∀ p (hp : p < world.length),
        world[p].weights.mrows = world[q].weights.mrows →
        world[p].weights.mcols = world[q].weights.mcols →
        (weights_random_init rand world p).map (fun t => t.weights) = some s.weights) := by
  obtain ⟨D, hD, hall⟩ := (wellFormed_iff file).1 hwf
  have hN1 : 1 ≤ file.length := (dataset_dimensions_pos file D hD).2
  have hD1 : 1 ≤ D := (dataset_dimensions_pos file D hD).1
  obtain ⟨mem, hs, hl, hg⟩ := init_spec file b D world rand hload hD hall hN q hq
  obtain ⟨-, -, hdim, -, -⟩ := loadedWorld_dataset file b D world hload hD hN q hq
  obtain ⟨-, -, -, hwd, hwl⟩ := hload q hq
  have hwD : world[q].weights.mdimensions = D := by rw [hwd, hdim]
  refine ⟨_, hs, rfl, rfl, rfl, rfl, rfl, ?_, ?_⟩
  · intro k hk
    have hG : rand k % file.length < file.length := Nat.mod_lt _ (by omega)
    obtain ⟨root, lidx, hroot, h1, h2, h3⟩ :=
      owner_record file b D world hload hD hall hN q hq (rand k % file.length) hG
    have hx : file[rand k % file.length].length = D := hall _ (List.getElem_mem hG)
    have hcell : (({ world[q].weights with mem := mem } : Weights).entry k).slice
        world[q].weights.mdimensions = file[rand k % file.length] := by
      rw [hwD]
      simp only [Ptr.slice, Weights.entry, Weights.offset, hwD]
      rw [← range_map_getD file[rand k % file.length] D hx]
      apply List.map_congr_left
      intro i hi
      have hi2 : i < D := List.mem_range.1 hi
      have hlt : k * D + i < world[q].weights.mrows * world[q].weights.mcols * D := by
        have h5 : (k + 1) * D ≤ world[q].weights.mrows * world[q].weights.mcols * D :=
          Nat.mul_le_mul_right D hk
        have h6 : (k + 1) * D = k * D + D := by ring
        omega
      have hlen : k * D + i < world[q].weights.mem.length := by
        rw [hwl]
        simp only [Weights.size3, Weights.size2, hwD]
        exact hlt
      obtain ⟨hdv, hmd⟩ := block_div_mod D k (k * D + i) (by omega) (by omega)
      simp only [Ptr.read]
      rw [hg (k * D + i), if_pos ⟨hlt, hlen⟩, hdv, hmd, Nat.add_sub_cancel_left,
        List.getD_eq_getElem?_getD file, List.getElem?_eq_getElem hG]
      rfl
    refine ⟨root, lidx, hroot, h1, h2, ?_, ?_⟩
    · rw [h3]; exact hcell
    · rw [List.getElem?_eq_getElem hG]
      exact congrArg some hcell.symm
  · intro p hp hrows hcols
    obtain ⟨mem2, hs2, hl2, hg2⟩ := init_spec file b D world rand hload hD hall hN p hp
    obtain ⟨-, -, hdimp, -, -⟩ := loadedWorld_dataset file b D world hload hD hN p hp
    obtain ⟨-, -, -, hwdp, hwlp⟩ := hload p hp
    have hwDp : world[p].weights.mdimensions = D := by rw [hwdp, hdimp]
    have hlen : world[p].weights.mem.length = world[q].weights.mem.length := by
      rw [hwlp, hwl]
      simp only [Weights.size3, Weights.size2, hrows, hcols, hwD, hwDp]
    rw [hs2]
    simp only [Option.map_some', Option.some.injEq]
    have hmem : mem2 = mem := by
      apply list_ext_getD
      · rw [hl2, hl, hlen]
      · intro i hi
        rw [hg2 i, hg i, hrows, hcols, hlen]
        have hi2 : i < world[q].weights.mem.length := by rw [← hlen, ← hl2]; exact hi
        have hi3 : i < world[q].weights.mrows * world[q].weights.mcols * D := by
          have := hwl
          simp only [Weights.size3, Weights.size2, hwD] at this
          omega
        rw [if_pos ⟨hi3, hi2⟩, if_pos ⟨hi3, hi2⟩]
    cases hw : world[p].weights
    cases hv : world[q].weights
    simp only [hw, hv] at hrows hcols hwD hwDp
    simp only [hmem, hrows, hcols, hwD, hwDp]

/-- The hypotheses of `weights_random_init_records` hold on the rank 1 of the
two ranks of a run on a file of three records, where the calls of `std::rand`
return 1, 2, 3, ... -/
theorem weights_random_init_records_witness :
    wellFormed initSettings.mdataset = true ∧
    initSettings.mdataset.length ≤ UINT_MAX ∧
    loadedWorld initSettings.mdataset initSettings.mbatchsize initWorld ∧
    ∃ hq : 1 < initWorld.length,
      ∃ s, weights_random_init (fun k => k + 1) initWorld 1 = some s ∧
        s.constants = initWorld[1].constants ∧ s.bfraction = initWorld[1].bfraction ∧
        s.weights.mrows = initWorld[1].weights.mrows ∧
        s.weights.mcols = initWorld[1].weights.mcols ∧
        s.weights.mdimensions = initWorld[1].weights.mdimensions ∧
        (∀ k, k < s.weights.mrows * s.weights.mcols →
          ∃ root lidx, ∃ h : root < initWorld.length,
            Dataset.global_to_local initWorld[1].parallelState initWorld[1].constants.dataset
              ((fun k => k + 1) k % initSettings.mdataset.length) = (root, lidx) ∧
            lidx < initWorld[root].constants.dataset.mrrecords ∧
            (s.weights.entry k).slice s.weights.mdimensions
              = (initWorld[root].constants.dataset.rrecord lidx).slice
                  initWorld[root].constants.dataset.mdimensions ∧
            initSettings.mdataset[(fun k => k + 1) k % initSettings.mdataset.length]?
              = some ((s.weights.entry k).slice s.weights.mdimensions)) ∧
        (∀ p (hp : p < initWorld.length),
          initWorld[p].weights.mrows = initWorld[1].weights.mrows →
          initWorld[p].weights.mcols = initWorld[1].weights.mcols →
          (weights_random_init (fun k => k + 1) initWorld p).map (fun t => t.weights)
            = some s.weights) := by
  have hwf : wellFormed initSettings.mdataset = true := by decide
  have hN : initSettings.mdataset.length ≤ UINT_MAX := by decide
  obtain ⟨world, hw, hlen, hload, -⟩ :=
    initialWorld_loaded 2 ⟨1, 2⟩ initSettings 2 (by decide) hN (by decide)
  have hworld : initWorld = world := by simp only [initWorld, hw, Option.getD_some]
  have hload2 : loadedWorld initSettings.mdataset initSettings.mbatchsize initWorld := by
    rw [hworld]; exact hload
  have hq : 1 < initWorld.length := by rw [hworld, hlen]; decide
  exact ⟨hwf, hN, hload2, hq,
    weights_random_init_records initSettings.mdataset initSettings.mbatchsize initWorld
      (fun k => k + 1) hwf hN hload2 1 hq⟩

/-- C19: with the collective taken as one exact sum that every rank sees.
First, for ranks that hold the same mean value of the data set and numerators
of the same size: if the weights are the same on all ranks when a batch is
entered, then `batch_present` leaves the same weights and the same stored
`diff` on any two ranks, and the ranks are again in such a state.  Hence, in a
training run on a well-formed file, from the states that the constructors build
and `weights_random_init`, through any number of batches and whatever the
cursors and radii that the ranks assign in between, the weights of any two
ranks are equal. -/
theorem batch_present_uniform (exp : ℚ → ℚ) (rand : Nat → Nat) (R : Nat) (lattice : Lattice)
    (settings : TrainSettings) (world0 world : List TrainState)
    (hwf : wellFormed settings.mdataset = true) (hN : settings.mdataset.length ≤ UINT_MAX)
    (h0 : initialWorld R lattice settings = some world0)
    (hrun : trainRun exp rand world0 world) :
    (∀ w : List TrainState, sameRun w → sameWeights w →
      (∀ p q, p < w.length → q < w.length →
        (batch_present exp w p).1.map (fun s => (s.weights, s.diff))
          = (batch_present exp w q).1.map (fun s => (s.weights, s.diff))) ∧
      ∀ next, world_batch exp w = some next →
        sameRun next ∧ sameWeights next ∧
        ∀ p q (hp : p < next.length) (hq : q < next.length), next[p].diff = next[q].diff) ∧
    world.length = R ∧ sameRun world ∧
    ∀ p q (hp : p < world.length) (hq : q < world.length), world[p].weights = world[q].weights := by
  refine ⟨?_, ?_, ?_⟩
  · intro w hr hw
    exact ⟨fun p q hp hq => batch_step_uniform exp w hr hw p q hp hq,
      fun next hb => world_batch_uniform exp w next hr hw hb⟩
  · obtain ⟨hl, -⟩ := initialWorld_spec R lattice settings world0 h0
    rw [← hl]
    clear hl h0 hwf hN
    induction hrun with
    | init world hinit => exact (world_init_spec rand world0 world hinit).1
    | cursor world next _ hlen _ ih => rw [hlen]; exact ih
    | present world next _ hb ih => rw [(world_batch_spec exp world next hb).1]; exact ih
  · exact trainRun_uniform exp rand R lattice settings world0 world hwf hN h0 hrun

/-- The hypotheses of `batch_present_uniform` hold for the two ranks of a run on
a file of three records after `weights_random_init`; and two ranks of one cell
that enter a batch with the weight 0 and present the records 1 and 3 both leave
it with the weight 2 and the `diff` 2. -/
theorem batch_present_uniform_witness :
    wellFormed initSettings.mdataset = true ∧
    initSettings.mdataset.length ≤ UINT_MAX ∧
    (∃ world0 world, initialWorld 2 ⟨1, 2⟩ initSettings = some world0 ∧
      trainRun (fun _ => 1) (fun k => k + 1) world0 world ∧
      world.length = 2 ∧ sameRun world ∧
      ∀ p q (hp : p < world.length) (hq : q < world.length),
        world[p].weights = world[q].weights) ∧
    sameRun [sampleState [1] 1 1, sampleState [3] 1 1] ∧
    sameWeights [sampleState [1] 1 1, sampleState [3] 1 1] ∧
    (batch_present (fun _ => 1) [sampleState [1] 1 1, sampleState [3] 1 1] 0).1.map
        (fun s => (s.weights, s.diff))
      = (batch_present (fun _ => 1) [sampleState [1] 1 1, sampleState [3] 1 1] 1).1.map
        (fun s => (s.weights, s.diff)) ∧
    (batch_present (fun _ => 1) [sampleState [1] 1 1, sampleState [3] 1 1] 1).1.map
        (fun s => (s.weights, s.diff))
      = some ({ mrows := 1, mcols := 1, mdimensions := 1, mem := [2] }, 2) := by
  have hwf : wellFormed initSettings.mdataset = true := by decide
  have hN : initSettings.mdataset.length ≤ UINT_MAX := by decide
  obtain ⟨world0, h0, -, hload, -⟩ :=
    initialWorld_loaded 2 ⟨1, 2⟩ initSettings 2 (by decide) hN (by decide)
  obtain ⟨world, hinit⟩ := world_init_some initSettings.mdataset initSettings.mbatchsize world0
    (fun k => k + 1) hwf hN hload
  have hrun : trainRun (fun _ => 1) (fun k => k + 1) world0 world := trainRun.init world hinit
  have hsr : sameRun [sampleState [1] 1 1, sampleState [3] 1 1] := by
    intro p q hp hq
    have hp2 : p = 0 ∨ p = 1 := by simp at hp; omega
    have hq2 : q = 0 ∨ q = 1 := by simp at hq; omega
    rcases hp2 with rfl | rfl <;> rcases hq2 with rfl | rfl <;> exact ⟨rfl, rfl⟩
  have hsw : sameWeights [sampleState [1] 1 1, sampleState [3] 1 1] := by
    intro p q hp hq
    have hp2 : p = 0 ∨ p = 1 := by simp at hp; omega
    have hq2 : q = 0 ∨ q = 1 := by simp at hq; omega
    rcases hp2 with rfl | rfl <;> rcases hq2 with rfl | rfl <;> rfl
  obtain ⟨hstep, hlen, hsame, hweights⟩ :=
    batch_present_uniform (fun _ => 1) (fun k => k + 1) 2 ⟨1, 2⟩ initSettings world0 world
      hwf hN h0 hrun
  exact ⟨hwf, hN, ⟨world0, world, h0, hrun, hlen, hsame, hweights⟩, hsr, hsw,
    (hstep _ hsr hsw).1 0 1 (by decide) (by decide), sample_batch 1 (by decide)⟩

/-- C24: a run of `Lattice::train` that returns, seen from a rank `q` whose
epoch cap `E` and number of batches `K` are below `UINT_MAX`, has run the
epochs `1, ..., n` for an `n ≤ E` and has presented in each of them the batches
`1, ..., K`, in this order; each convergence test reads the `diff` that the
latest call of `batch_present` left; the test failed at the end of every epoch
before the last one; and either the run stopped by the test at the end of the
epoch `n ≥ 1` (`conv`), or `n = E` and no test succeeded. -/
theorem train_epochs (exp : ℚ → ℚ) (rand : Nat → Nat) (fuelE fuelB ranks : Nat)
    (lattice : Lattice) (settings : TrainSettings) (r : Run)
    (h : Lattice.train exp rand fuelE fuelB ranks lattice settings = Except.ok r)
    (world0 : List TrainState) (h0 : initialWorld ranks lattice settings = some world0)
    (q : Nat) (hq : q < world0.length)
    (hE : world0[q].constants.epochs < UINT_MAX)
    (hK : world0[q].constants.batches < UINT_MAX) :
    ∃ n conv, n ≤ world0[q].constants.epochs ∧
      (batchStates q r.trace).map (fun p => (p.1.epoch, p.1.batch))
        = (List.range' 1 n).flatMap (fun e =>
            (List.range' 1 world0[q].constants.batches).map (fun t => (e, t))) ∧
      (updateStates q r.trace).map (fun s => s.epoch) = List.range' 1 n ∧
      (1 ≤ world0[q].constants.batches → ∀ p ∈ diffTests q r.trace, p.1 = some p.2) ∧
      (∀ st ∈ (updateStates q r.trace).dropLast, ¬ st.diff < world0[q].constants.diffmin) ∧
      (conv = true → 1 ≤ n ∧ ∃ st, (updateStates q r.trace).getLast? = some st ∧
        st.diff < world0[q].constants.diffmin) ∧
      (conv = false → n = world0[q].constants.epochs ∧
        ∀ st ∈ updateStates q r.trace, ¬ st.diff < world0[q].constants.diffmin) := by
  obtain ⟨n, conv, s, -, -, hn, hct, hcf, -, hb, hu, -, -, ht, hd, hlast, hall⟩ :=
    train_end exp rand fuelE fuelB ranks lattice settings r h world0 h0 q hq hE hK
  refine ⟨n, conv, hn, ?_, ?_, ht, hd, fun hc => ⟨(hct hc).1, hlast hc⟩,
    fun hc => ⟨(hcf hc).1, hall hc⟩⟩
  · have := congrArg (List.map (fun x : Nat × Nat × ℚ => (x.1, x.2.1))) hb
    rw [List.map_map, epochGrid_cursors] at this
    exact this
  · have := congrArg (List.map (fun x : Nat × ℚ => x.1)) hu
    rw [List.map_map, List.map_map] at this
    have hid : ((fun x : Nat × ℚ => x.1) ∘ fun e => (e, radiusAfter exp world0[q].constants e))
        = id := rfl
    rw [hid, List.map_id] at this
    exact this

/-- The hypotheses of `train_epochs` hold for the rank 0 of the two ranks of a
run of two epochs on a file of three records. -/
theorem train_epochs_witness :
    ∃ r world0, ∃ hq : 0 < world0.length,
      Lattice.train expLinear (fun k => k) 3 4 2 ⟨1, 2⟩ callSettings = Except.ok r ∧
      initialWorld 2 ⟨1, 2⟩ callSettings = some world0 ∧
      world0[0].constants.epochs < UINT_MAX ∧ world0[0].constants.batches < UINT_MAX ∧
      ∃ n conv, n ≤ world0[0].constants.epochs ∧
        (batchStates 0 r.trace).map (fun p => (p.1.epoch, p.1.batch))
          = (List.range' 1 n).flatMap (fun e =>
              (List.range' 1 world0[0].constants.batches).map (fun t => (e, t))) ∧
        (updateStates 0 r.trace).map (fun s => s.epoch) = List.range' 1 n ∧
        (1 ≤ world0[0].constants.batches → ∀ p ∈ diffTests 0 r.trace, p.1 = some p.2) ∧
        (∀ st ∈ (updateStates 0 r.trace).dropLast, ¬ st.diff < world0[0].constants.diffmin) ∧
        (conv = true → 1 ≤ n ∧ ∃ st, (updateStates 0 r.trace).getLast? = some st ∧
          st.diff < world0[0].constants.diffmin) ∧
        (conv = false → n = world0[0].constants.epochs ∧
          ∀ st ∈ updateStates 0 r.trace, ¬ st.diff < world0[0].constants.diffmin) := by
  obtain ⟨r, hr⟩ := callSettings_run (fun k => k)
  obtain ⟨world0, h0, hq, he, hk, -, -⟩ := callSettings_world
  have hE : world0[0].constants.epochs < UINT_MAX := by rw [he]; decide
  have hK : world0[0].constants.batches < UINT_MAX := by
    have : (3 : Nat) < UINT_MAX := by decide
    omega
  exact ⟨r, world0, hq, hr, h0, hE, hK,
    train_epochs expLinear (fun k => k) 3 4 2 ⟨1, 2⟩ callSettings r hr world0 h0 0 hq hE hK⟩

/-- C25: in a run of `Lattice::train` that returns, seen from a rank `q` whose
epoch cap and number of batches are below `UINT_MAX`, with `n` the number of
epochs run and `conv` telling whether the run stopped by the convergence test:
without a callback no call is made; with a callback, the calls see the epochs
`0, 1, ..., n` in this order when the run stops at the cap (`n + 1` calls) and
`0, 1, ..., n - 1` when it stops by the test at the end of the epoch `n`
(`n` calls); so the callback of `src/tests/epcall.cpp` prints at an epoch `e`
exactly when `e` is 1 or 20 and the epoch `e` was run and did not end the run
by the test. -/
theorem train_callbacks (exp : ℚ → ℚ) (rand : Nat → Nat) (fuelE fuelB ranks : Nat)
    (lattice : Lattice) (settings : TrainSettings) (r : Run)
    (h : Lattice.train exp rand fuelE fuelB ranks lattice settings = Except.ok r)
    (world0 : List TrainState) (h0 : initialWorld ranks lattice settings = some world0)
    (q : Nat) (hq : q < world0.length)
    (hE : world0[q].constants.epochs < UINT_MAX)
    (hK : world0[q].constants.batches < UINT_MAX) :
    ∃ n conv, n ≤ world0[q].constants.epochs ∧
      (updateStates q r.trace).map (fun s => s.epoch) = List.range' 1 n ∧
      (conv = true → 1 ≤ n ∧ ∃ st, (updateStates q r.trace).getLast? = some st ∧
        st.diff < world0[q].constants.diffmin) ∧
      (conv = false → n = world0[q].constants.epochs ∧
        ∀ st ∈ updateStates q r.trace, ¬ st.diff < world0[q].constants.diffmin) ∧
      (settings.mepcall = false → epcallStates q r.trace = []) ∧
      (settings.mepcall = true →
        (epcallStates q r.trace).map (fun s => s.epoch)
          = 0 :: List.range' 1 (if conv then n - 1 else n) ∧
        (epcallStates q r.trace).length = (if conv then n else n + 1) ∧
        ∀ e, e ∈ ((epcallStates q r.trace).map (fun s => s.epoch)).filter epcallPrints ↔
          (e = 1 ∨ e = 20) ∧ (e < n ∨ (e = n ∧ conv = false))) := by
  obtain ⟨n, conv, s, -, -, hn, hct, hcf, -, -, hu, hcalls, -, -, -, hlast, hall⟩ :=
    train_end exp rand fuelE fuelB ranks lattice settings r h world0 h0 q hq hE hK
  refine ⟨n, conv, hn, ?_, fun hc => ⟨(hct hc).1, hlast hc⟩, fun hc => ⟨(hcf hc).1, hall hc⟩,
    ?_, ?_⟩
  · have := congrArg (List.map (fun x : Nat × ℚ => x.1)) hu
    rw [List.map_map, List.map_map] at this
    have hid : ((fun x : Nat × ℚ => x.1) ∘ fun e => (e, radiusAfter exp world0[q].constants e))
        = id := rfl
    rw [hid, List.map_id] at this
    exact this
  · intro hno
    rw [hno] at hcalls
    simpa using hcalls
  · intro hyes
    rw [hyes] at hcalls
    simp only [if_true] at hcalls
    refine ⟨hcalls, ?_, ?_⟩
    · have := congrArg List.length hcalls
      rw [List.length_map, List.length_cons, List.length_range'] at this
      rw [this]
      cases hconv : conv with
      | true =>
        have := (hct hconv).1
        simp only [if_true]
        omega
      | false => simp
    · intro e
      rw [hcalls, List.mem_filter, List.mem_cons, List.mem_range'_1]
      simp only [epcallPrints, Bool.or_eq_true, beq_iff_eq]
      cases hconv : conv with
      | true =>
        have := (hct hconv).1
        simp only [if_true]
        constructor
        · rintro ⟨h1, h2⟩
          exact ⟨h2, Or.inl (by omega)⟩
        · rintro ⟨h1, h2⟩
          refine ⟨?_, h1⟩
          rcases h2 with h2 | ⟨-, h2⟩
          · omega
          · cases h2
      | false =>
        simp only [Bool.false_eq_true, if_false]
        constructor
        · rintro ⟨h1, h2⟩
          refine ⟨h2, ?_⟩
          by_cases hen : e < n
          · exact Or.inl hen
          · exact Or.inr ⟨by omega, trivial⟩
        · rintro ⟨h1, h2⟩
          refine ⟨?_, h1⟩
          rcases h2 with h2 | ⟨h2, -⟩ <;> omega

/-- The hypotheses of `train_callbacks` hold for the rank 0 of the two ranks of
a run of two epochs with a callback on a file of three records. -/
theorem train_callbacks_witness :
    ∃ r world0, ∃ hq : 0 < world0.length,
      Lattice.train expLinear (fun k => k + 1) 3 4 2 ⟨1, 2⟩ callSettings = Except.ok r ∧
      initialWorld 2 ⟨1, 2⟩ callSettings = some world0 ∧
      world0[0].constants.epochs < UINT_MAX ∧ world0[0].constants.batches < UINT_MAX ∧
      ∃ n conv, n ≤ world0[0].constants.epochs ∧
        (updateStates 0 r.trace).map (fun s => s.epoch) = List.range' 1 n ∧
        (conv = true → 1 ≤ n ∧ ∃ st, (updateStates 0 r.trace).getLast? = some st ∧
          st.diff < world0[0].constants.diffmin) ∧
        (conv = false → n = world0[0].constants.epochs ∧
          ∀ st ∈ updateStates 0 r.trace, ¬ st.diff < world0[0].constants.diffmin) ∧
        (callSettings.mepcall = false → epcallStates 0 r.trace = []) ∧
        (callSettings.mepcall = true →
          (epcallStates 0 r.trace).map (fun s => s.epoch)
            = 0 :: List.range' 1 (if conv then n - 1 else n) ∧
          (epcallStates 0 r.trace).length = (if conv then n else n + 1) ∧
          ∀ e, e ∈ ((epcallStates 0 r.trace).map (fun s => s.epoch)).filter epcallPrints ↔
            (e = 1 ∨ e = 20) ∧ (e < n ∨ (e = n ∧ conv = false))) := by
  obtain ⟨r, hr⟩ := callSettings_run (fun k => k + 1)
  obtain ⟨world0, h0, hq, he, hk, -, -⟩ := callSettings_world
  have hE : world0[0].constants.epochs < UINT_MAX := by rw [he]; decide
  have hK : world0[0].constants.batches < UINT_MAX := by
    have : (3 : Nat) < UINT_MAX := by decide
    omega
  exact ⟨r, world0, hq, hr, h0, hE, hK,
    train_callbacks expLinear (fun k => k + 1) 3 4 2 ⟨1, 2⟩ callSettings r hr world0 h0 0 hq
      hE hK⟩

/-- C21: in a run of `Lattice::train` that returns, seen from a rank `q` whose
epoch cap and number of batches are below `UINT_MAX`, with `ρ₀` and `λ` the
radius and the decay of the constants (and `ρ₀` the radius the state was built
with): the assignments of the radius at the ends of the epochs `1, ..., n` that
were run give `ρ₀ · exp(e · λ)` at the end of the epoch `e`; and every call of
`batch_present` is made in an epoch `1 ≤ e ≤ n` with the radius `ρ₀` when
`e = 1` and `ρ₀ · exp((e − 1) · λ)` when `e ≥ 2`, which is
`ρ₀ · exp((e − 1) · λ)` for every `e` when `exp 0 = 1`. -/
theorem radius_schedule (exp : ℚ → ℚ) (rand : Nat → Nat) (fuelE fuelB ranks : Nat)
    (lattice : Lattice) (settings : TrainSettings) (r : Run)
    (h : Lattice.train exp rand fuelE fuelB ranks lattice settings = Except.ok r)
    (world0 : List TrainState) (h0 : initialWorld ranks lattice settings = some world0)
    (q : Nat) (hq : q < world0.length)
    (hE : world0[q].constants.epochs < UINT_MAX)
    (hK : world0[q].constants.batches < UINT_MAX) :
    world0[q].nradius = world0[q].constants.nradius ∧
    ∃ n, n ≤ world0[q].constants.epochs ∧
      (updateStates q r.trace).map (fun s => (s.epoch, s.nradius))
        = (List.range' 1 n).map (fun e : ℕ =>
            (e, world0[q].constants.nradius * exp ((e : ℚ) * world0[q].constants.rdecay))) ∧
      ∀ p ∈ batchStates q r.trace,
        1 ≤ p.1.epoch ∧ p.1.epoch ≤ n ∧
        (p.1.epoch = 1 → p.1.nradius = world0[q].constants.nradius) ∧
        (2 ≤ p.1.epoch → p.1.nradius
          = world0[q].constants.nradius
            * exp (((p.1.epoch - 1 : ℕ) : ℚ) * world0[q].constants.rdecay)) ∧
        (exp 0 = 1 → p.1.nradius
          = world0[q].constants.nradius
            * exp (((p.1.epoch - 1 : ℕ) : ℚ) * world0[q].constants.rdecay)) := by
  obtain ⟨n, conv, s, -, -, hn, -, -, -, hb, hu, -⟩ :=
    train_end exp rand fuelE fuelB ranks lattice settings r h world0 h0 q hq hE hK
  obtain ⟨-, hctor⟩ := initialWorld_spec ranks lattice settings world0 h0
  obtain ⟨-, -, -, -, -, hrad, -⟩ := ctor_state_fields _ _ _ _ (hctor q hq)
  refine ⟨hrad, n, hn, hu, ?_⟩
  intro p hp
  have hmem : (p.1.epoch, p.1.batch, p.1.nradius) ∈ epochGrid exp world0[q].constants n := by
    rw [← hb]
    exact List.mem_map.2 ⟨p, hp, rfl⟩
  obtain ⟨h1, h2, -, -, h5⟩ := mem_epochGrid exp _ n _ hmem
  dsimp only at h1 h2 h5
  refine ⟨h1, h2, ?_, ?_, ?_⟩
  · intro he
    rw [h5, he]
    simp [radiusDuring]
  · intro he
    rw [h5]
    have hne : ¬ p.1.epoch ≤ 1 := by omega
    simp only [radiusDuring, if_neg hne, radiusAfter]
  · intro hexp
    rw [h5]
    by_cases he : p.1.epoch ≤ 1
    · have he1 : p.1.epoch = 1 := by omega
      rw [he1]
      simp [radiusDuring, hexp]
    · simp only [radiusDuring, if_neg he, radiusAfter]

/-- The hypotheses of `radius_schedule` hold for the rank 0 of the two ranks of
a run of two epochs on a file of three records, with the initial radius 1 and
the decay `1/10`. -/
theorem radius_schedule_witness :
    ∃ r world0, ∃ hq : 0 < world0.length,
      Lattice.train expLinear (fun k => 2 * k) 3 4 2 ⟨1, 2⟩ callSettings = Except.ok r ∧
      initialWorld 2 ⟨1, 2⟩ callSettings = some world0 ∧
      world0[0].constants.epochs < UINT_MAX ∧ world0[0].constants.batches < UINT_MAX ∧
      world0[0].constants.nradius = 1 ∧ world0[0].constants.rdecay = 1 / 10 ∧
      world0[0].nradius = world0[0].constants.nradius ∧
      ∃ n, n ≤ world0[0].constants.epochs ∧
        (updateStates 0 r.trace).map (fun s => (s.epoch, s.nradius))
          = (List.range' 1 n).map (fun e : ℕ =>
              (e, world0[0].constants.nradius
                * expLinear ((e : ℚ) * world0[0].constants.rdecay))) ∧
        ∀ p ∈ batchStates 0 r.trace,
          1 ≤ p.1.epoch ∧ p.1.epoch ≤ n ∧
          (p.1.epoch = 1 → p.1.nradius = world0[0].constants.nradius) ∧
          (2 ≤ p.1.epoch → p.1.nradius
            = world0[0].constants.nradius
              * expLinear (((p.1.epoch - 1 : ℕ) : ℚ) * world0[0].constants.rdecay)) ∧
          (expLinear 0 = 1 → p.1.nradius
            = world0[0].constants.nradius
              * expLinear (((p.1.epoch - 1 : ℕ) : ℚ) * world0[0].constants.rdecay)) := by
  obtain ⟨r, hr⟩ := callSettings_run (fun k => 2 * k)
  obtain ⟨world0, h0, hq, he, hk, hn, hd⟩ := callSettings_world
  have hE : world0[0].constants.epochs < UINT_MAX := by rw [he]; decide
  have hK : world0[0].constants.batches < UINT_MAX := by
    have : (3 : Nat) < UINT_MAX := by decide
    omega
  exact ⟨r, world0, hq, hr, h0, hE, hK, hn, hd,
    radius_schedule expLinear (fun k => 2 * k) 3 4 2 ⟨1, 2⟩ callSettings r hr world0 h0 0 hq
      hE hK⟩

/-- C22: for an exponential that is never negative, every `TrainSettings` and
every lattice shape: the radius of a state that the constructor builds is the
radius of its constants and is not negative; and in a run of `Lattice::train`
that returns, on every rank the radius is not negative after every
end-of-epoch assignment, at every call of `batch_present`, and at the end. -/
theorem radius_nonneg (exp : ℚ → ℚ) (hexp : ∀ x, 0 ≤ exp x) (rand : Nat → Nat)
    (fuelE fuelB ranks : Nat) (lattice : Lattice) (settings : TrainSettings) (r : Run)
    (h : Lattice.train exp rand fuelE fuelB ranks lattice settings = Except.ok r) :
    (∀ st t, TrainState.ctor st lattice settings = some t →
      t.nradius = t.constants.nradius ∧ 0 ≤ t.nradius) ∧
    (∀ q, ∀ s ∈ updateStates q r.trace, 0 ≤ s.nradius) ∧
    (∀ q, ∀ p ∈ batchStates q r.trace, 0 ≤ p.1.nradius) ∧
    ∀ s ∈ r.world, 0 ≤ s.nradius := by
  have hctor : ∀ st t, TrainState.ctor st lattice settings = some t →
      t.nradius = t.constants.nradius ∧ 0 ≤ t.nradius := by
    intro st t ht
    obtain ⟨k1, k2⟩ := ctor_radius_nonneg st lattice settings t ht
    exact ⟨k2, by rw [k2]; exact k1⟩
  obtain ⟨world0, world1, r2, h0, h1, h2, hr⟩ :=
    train_rule exp rand fuelE fuelB ranks lattice settings r h
  have hw1 : ∀ t ∈ world1, 0 ≤ t.constants.nradius ∧ 0 ≤ t.nradius := by
    intro t ht
    obtain ⟨s, hs, k1, k2⟩ := world_init_mem rand world0 world1 h1 t ht
    obtain ⟨q, hq⟩ := initialWorld_mem ranks lattice settings world0 h0 s hs
    obtain ⟨c1, c2⟩ := hctor _ s hq
    rw [k1, k2]
    exact ⟨by rw [← c1]; exact c2, c2⟩
  have hI : radiusNonneg
      { world := setEpoch 1 (setEpoch 0 world1)
        trace := [TrainEvent.init (setEpoch 0 world1), TrainEvent.print (setEpoch 0 world1)]
          ++ (if settings.mepcall then [TrainEvent.epcall (setEpoch 0 world1)] else []) } := by
    refine ⟨?_, ?_, ?_⟩
    · intro s hs
      simp only [setEpoch, List.map_map, List.mem_map] at hs
      obtain ⟨t, ht, rfl⟩ := hs
      exact hw1 t ht
    · intro q s hs
      cases hcall : settings.mepcall <;> simp [updateStates, hcall] at hs
    · intro q p hp
      cases hcall : settings.mepcall <;> simp [batchStates, hcall] at hp
  obtain ⟨k1, k2, k3⟩ := run_epochs_radius exp hexp settings.mepcall fuelB fuelE _ r2 hI h2
  subst hr
  refine ⟨hctor, ?_, ?_, fun s hs => (k1 s hs).2⟩
  · intro q s hs
    rw [updateStates_append] at hs
    simp only [updateStates, List.filterMap_cons, List.filterMap_nil, List.append_nil] at hs
    exact k2 q s hs
  · intro q p hp
    rw [batchStates_append] at hp
    simp only [batchStates, List.filterMap_cons, List.filterMap_nil, List.append_nil] at hp
    exact k3 q p hp

/-- The hypotheses of `radius_nonneg` hold for a run of two epochs on two
ranks, with a positive stand-in for the exponential. -/
theorem radius_nonneg_witness :
    (∀ x, 0 ≤ expLinear x) ∧
    ∃ r, Lattice.train expLinear (fun k => 3 * k) 3 4 2 ⟨1, 2⟩ callSettings = Except.ok r ∧
      (∀ st t, TrainState.ctor st ⟨1, 2⟩ callSettings = some t →
        t.nradius = t.constants.nradius ∧ 0 ≤ t.nradius) ∧
      (∀ q, ∀ s ∈ updateStates q r.trace, 0 ≤ s.nradius) ∧
      (∀ q, ∀ p ∈ batchStates q r.trace, 0 ≤ p.1.nradius) ∧
      ∀ s ∈ r.world, 0 ≤ s.nradius := by
  obtain ⟨r, hr⟩ := callSettings_run (fun k => 3 * k)
  exact ⟨fun x => le_of_lt (expLinear_pos x), r, hr,
    radius_nonneg expLinear (fun x => le_of_lt (expLinear_pos x)) (fun k => 3 * k) 3 4 2 ⟨1, 2⟩
      callSettings r hr⟩

/-- C29: for every `TrainSettings` and lattice, the state that the constructor
of `TrainState` builds holds in its constants the radius `settings.nradius`
when `settings.nradius > 1e-6`, and `0.5 * min(rows, cols)` otherwise, in
particular when `settings.nradius` is zero or negative; and the radius of
the state starts equal to the radius of the constants. -/
theorem initial_radius (st : parallel.State) (lattice : Lattice) (settings : TrainSettings)
    (t : TrainState) (h : TrainState.ctor st lattice settings = some t) :
    (settings.mnradius > 1 / 1000000 → t.constants.nradius = settings.mnradius) ∧
    (settings.mnradius ≤ 1 / 1000000 →
      t.constants.nradius = (1 / 2) * ((min lattice.mrows lattice.mcols : ℕ) : ℚ)) ∧
    (settings.mnradius ≤ 0 →
      t.constants.nradius = (1 / 2) * ((min lattice.mrows lattice.mcols : ℕ) : ℚ)) ∧
    t.nradius = t.constants.nradius := by
  obtain ⟨-, -, -, -, h5, h6, -⟩ := ctor_state_fields st lattice settings t h
  have hsmall : settings.mnradius ≤ 1 / 1000000 →
      t.constants.nradius = (1 / 2) * ((min lattice.mrows lattice.mcols : ℕ) : ℚ) := by
    intro hle
    rw [h5, if_neg (not_lt.2 hle)]
  refine ⟨?_, hsmall, ?_, h6⟩
  · intro hgt
    rw [h5, if_pos hgt]
  · intro hle
    apply hsmall
    have : (0 : ℚ) ≤ 1 / 1000000 := by norm_num
    linarith

/-- The hypothesis of `initial_radius` holds for the state that the constructor
builds on the rank 0 of two for the settings `callSettings`, whose radius is
1. -/
theorem initial_radius_witness :
    ∃ t, TrainState.ctor ⟨0, 2⟩ ⟨1, 2⟩ callSettings = some t ∧
      (callSettings.mnradius > 1 / 1000000 → t.constants.nradius = callSettings.mnradius) ∧
      (callSettings.mnradius ≤ 1 / 1000000 →
        t.constants.nradius = (1 / 2) * ((min 1 2 : ℕ) : ℚ)) ∧
      (callSettings.mnradius ≤ 0 →
        t.constants.nradius = (1 / 2) * ((min 1 2 : ℕ) : ℚ)) ∧
      t.nradius = t.constants.nradius := by
  obtain ⟨world0, h0, hq, -⟩ := callSettings_world
  obtain ⟨-, hctor⟩ := initialWorld_spec 2 ⟨1, 2⟩ callSettings world0 h0
  exact ⟨world0[0], hctor 0 hq,
    initial_radius ⟨0, 2⟩ ⟨1, 2⟩ callSettings world0[0] (hctor 0 hq)⟩

/-- C30: for weights of shape `ROWS × COLS × D` with `D ≥ 1` and
`ROWS · COLS · D ≤ UINT_MAX`, in the arithmetic of `unsigned`: `index(r, c)` is
`r · COLS + c`, a bijection from the pairs `r < ROWS`, `c < COLS` onto
`[0, ROWS · COLS)`; `offset(i)` is `i · D`; the ranges
`[offset(i), offset(i) + D)` of two distinct cells are disjoint and lie in
`[0, ROWS · COLS · D) = [0, size3())`; so `entry(index(r, c))[d]` with `d < D`
is inside a block of `size3()` scalars and is no scalar of another cell.  The
methods agree with their versions on unbounded naturals. -/
theorem weights_layout (w : Weights) (hD : 1 ≤ w.mdimensions)
    (hsize : w.mrows * w.mcols * w.mdimensions ≤ UINT_MAX) :
    w.size2_u32 = w.mrows * w.mcols ∧
    w.size3_u32 = w.mrows * w.mcols * w.mdimensions ∧
    (∀ r c, r < w.mrows → c < w.mcols →
      w.index_u32 r c = r * w.mcols + c ∧ w.index_u32 r c < w.mrows * w.mcols ∧
      w.index_u32 r c = w.index r c) ∧
    (∀ r c r2 c2, r < w.mrows → c < w.mcols → r2 < w.mrows → c2 < w.mcols →
      w.index_u32 r c = w.index_u32 r2 c2 → r = r2 ∧ c = c2) ∧
    (∀ i, i < w.mrows * w.mcols →
      ∃ r c, r < w.mrows ∧ c < w.mcols ∧ w.index_u32 r c = i) ∧
    (∀ i, i < w.mrows * w.mcols →
      w.offset_u32 i = i * w.mdimensions ∧ w.offset_u32 i = w.offset i) ∧
    (∀ i j d d2, i < w.mrows * w.mcols → j < w.mrows * w.mcols →
      d < w.mdimensions → d2 < w.mdimensions → i ≠ j →
      w.offset_u32 i + d ≠ w.offset_u32 j + d2) ∧
    (∀ i d, i < w.mrows * w.mcols → d < w.mdimensions →
      w.offset_u32 i + d < w.size3_u32) ∧
    (∀ r c d, r < w.mrows → c < w.mcols → d < w.mdimensions →
      w.mem.length = w.size3_u32 →
      (w.entry_u32 (w.index_u32 r c)).off + d < w.mem.length ∧
      ∀ r2 c2 d2, r2 < w.mrows → c2 < w.mcols → d2 < w.mdimensions →
        (w.entry_u32 (w.index_u32 r c)).off + d = (w.entry_u32 (w.index_u32 r2 c2)).off + d2 →
        r = r2 ∧ c = c2 ∧ d = d2) := by
  have hU : UINT_MAX = 4294967295 := rfl
  have h2le : w.mrows * w.mcols ≤ w.mrows * w.mcols * w.mdimensions :=
    Nat.le_mul_of_pos_right _ hD
  have hs2 : w.size2_u32 = w.mrows * w.mcols := u32_of_le _ (by omega)
  have hs3 : w.size3_u32 = w.mrows * w.mcols * w.mdimensions := by
    unfold Weights.size3_u32
    rw [hs2]
    exact u32_of_le _ hsize
  have hidx_lt : ∀ r c, r < w.mrows → c < w.mcols → r * w.mcols + c < w.mrows * w.mcols := by
    intro r c hr hc
    have h1 : (r + 1) * w.mcols ≤ w.mrows * w.mcols := Nat.mul_le_mul_right _ hr
    have h2 : (r + 1) * w.mcols = r * w.mcols + w.mcols := by ring
    omega
  have hidx : ∀ r c, r < w.mrows → c < w.mcols → w.index_u32 r c = r * w.mcols + c := by
    intro r c hr hc
    have := hidx_lt r c hr hc
    exact u32_of_le _ (by omega)
  have hoff_lt : ∀ i d, i < w.mrows * w.mcols → d < w.mdimensions →
      i * w.mdimensions + d < w.mrows * w.mcols * w.mdimensions := by
    intro i d hi hd
    have h1 : (i + 1) * w.mdimensions ≤ w.mrows * w.mcols * w.mdimensions :=
      Nat.mul_le_mul_right _ hi
    have h2 : (i + 1) * w.mdimensions = i * w.mdimensions + w.mdimensions := by ring
    omega
  have hoff : ∀ i, i < w.mrows * w.mcols → w.offset_u32 i = i * w.mdimensions := by
    intro i hi
    have := hoff_lt i 0 hi (by omega)
    exact u32_of_le _ (by omega)
  have hinj : ∀ r c r2 c2, r < w.mrows → c < w.mcols → r2 < w.mrows → c2 < w.mcols →
      w.index_u32 r c = w.index_u32 r2 c2 → r = r2 ∧ c = c2 := by
    intro r c r2 c2 hr hc hr2 hc2 heq
    rw [hidx r c hr hc, hidx r2 c2 hr2 hc2] at heq
    have hcpos : 0 < w.mcols := by omega
    have e1 : (r * w.mcols + c) / w.mcols = r := by
      rw [Nat.add_comm, Nat.add_mul_div_right _ _ hcpos, Nat.div_eq_of_lt hc, Nat.zero_add]
    have e2 : (r2 * w.mcols + c2) / w.mcols = r2 := by
      rw [Nat.add_comm, Nat.add_mul_div_right _ _ hcpos, Nat.div_eq_of_lt hc2, Nat.zero_add]
    have hrr : r = r2 := by rw [← e1, ← e2, heq]
    subst hrr
    exact ⟨rfl, by omega⟩
  have hdisj : ∀ i j d d2, i < w.mrows * w.mcols → j < w.mrows * w.mcols →
      d < w.mdimensions → d2 < w.mdimensions →
      w.offset_u32 i + d = w.offset_u32 j + d2 → i = j ∧ d = d2 := by
    intro i j d d2 hi hj hd hd2 heq
    rw [hoff i hi, hoff j hj] at heq
    have hDpos : 0 < w.mdimensions := by omega
    have e1 : (i * w.mdimensions + d) / w.mdimensions = i := by
      rw [Nat.add_comm, Nat.add_mul_div_right _ _ hDpos, Nat.div_eq_of_lt hd, Nat.zero_add]
    have e2 : (j * w.mdimensions + d2) / w.mdimensions = j := by
      rw [Nat.add_comm, Nat.add_mul_div_right _ _ hDpos, Nat.div_eq_of_lt hd2, Nat.zero_add]
    have hij : i = j := by rw [← e1, ← e2, heq]
    subst hij
    exact ⟨rfl, by omega⟩
  refine ⟨hs2, hs3, ?_, hinj, ?_, ?_, ?_, ?_, ?_⟩
  · intro r c hr hc
    exact ⟨hidx r c hr hc, by rw [hidx r c hr hc]; exact hidx_lt r c hr hc, hidx r c hr hc⟩
  · intro i hi
    have hcpos : 0 < w.mcols := by
      rcases Nat.eq_zero_or_pos w.mcols with h | h
      · rw [h, Nat.mul_zero] at hi; omega
      · exact h
    refine ⟨i / w.mcols, i % w.mcols, ?_, Nat.mod_lt _ hcpos, ?_⟩
    · exact Nat.div_lt_of_lt_mul (by rw [Nat.mul_comm]; exact hi)
    · rw [hidx _ _ (Nat.div_lt_of_lt_mul (by rw [Nat.mul_comm]; exact hi)) (Nat.mod_lt _ hcpos)]
      rw [Nat.mul_comm]
      exact Nat.div_add_mod i w.mcols
  · intro i hi
    exact ⟨hoff i hi, hoff i hi⟩
  · intro i j d d2 hi hj hd hd2 hne heq
    exact hne (hdisj i j d d2 hi hj hd hd2 heq).1
  · intro i d hi hd
    rw [hoff i hi, hs3]
    exact hoff_lt i d hi hd
  · intro r c d hr hc hd hlen
    have hi := hidx_lt r c hr hc
    rw [← hidx r c hr hc] at hi
    constructor
    · show w.offset_u32 (w.index_u32 r c) + d < w.mem.length
      rw [hlen, hoff _ hi, hs3]
      exact hoff_lt _ d hi hd
    · intro r2 c2 d2 hr2 hc2 hd2 heq
      have hj := hidx_lt r2 c2 hr2 hc2
      rw [← hidx r2 c2 hr2 hc2] at hj
      obtain ⟨e1, e2⟩ := hdisj _ _ d d2 hi hj hd hd2 heq
      obtain ⟨e3, e4⟩ := hinj r c r2 c2 hr hc hr2 hc2 e1
      exact ⟨e3, e4, e2⟩

/-- The hypotheses of `weights_layout` hold for weights of 2 rows, 3 columns
and dimension 2. -/
theorem weights_layout_witness :
    (Weights.ctor 2 3 2).size3_u32 = 12 ∧
    (∀ r c, r < 2 → c < 3 →
      (Weights.ctor 2 3 2).index_u32 r c = r * 3 + c ∧
      (Weights.ctor 2 3 2).index_u32 r c < 6) ∧
    (∀ i d, i < 6 → d < 2 →
      (Weights.ctor 2 3 2).offset_u32 i + d < (Weights.ctor 2 3 2).size3_u32) := by
  obtain ⟨-, h2, h3, -, -, -, -, h8, -⟩ :=
    weights_layout (Weights.ctor 2 3 2) (by decide) (by decide)
  exact ⟨h2, fun r c hr hc => ⟨(h3 r c hr hc).1, (h3 r c hr hc).2.1⟩, fun i d hi hd => h8 i d hi hd⟩

/-- C23 (code bug): the convergence `diff` that `batch_present` stores is the
sum of the absolute updates divided by `valmean * ROWS*COLS*D`, so it has the
sign of `valmean`: it is non-negative for a positive mean value and
non-positive for a negative one.  For the file of the two records `-1` and
`-3` (mean value `-2`) and one cell holding `-1`, the batch moves the cell to
`-2` and stores `diff = -1/2`, a negative value, which is below the tolerance
`diffmin = 0` of the state, so that the test `diff < diffmin` of the training
loop succeeds. -/
theorem diff_sign :
    (∀ (exp : ℚ → ℚ) (world : List TrainState) (q : Nat) (s t : TrainState),
      world[q]? = some s → (batch_present exp world q).1 = some t →
      (0 < s.constants.valmean → 0 ≤ t.diff) ∧ (s.constants.valmean < 0 → t.diff ≤ 0)) ∧
    negativeMeanState.constants.valmean = -2 ∧
    negativeMeanState.constants.diffmin = 0 ∧
    (batch_present (fun _ => 1) [negativeMeanState] 0).1.map (fun s => (s.weights.mem, s.diff))
      = some ([-2], -1 / 2) ∧
    ∃ t, (batch_present (fun _ => 1) [negativeMeanState] 0).1 = some t ∧
      t.diff < 0 ∧ t.diff < t.constants.diffmin := by
  refine ⟨fun exp world q s t hs h => batch_present_sign exp world q s t hs h, rfl, rfl,
    negative_batch, ?_⟩
  have h := negative_batch
  cases ht : (batch_present (fun _ => 1) [negativeMeanState] 0).1 with
  | none => rw [ht] at h; cases h
  | some t =>
    rw [ht] at h
    simp only [Option.map_some', Option.some.injEq, Prod.mk.injEq] at h
    have hc := (batch_present_cursor (fun _ => 1) [negativeMeanState] 0 (by simp) t ht).1
    refine ⟨t, rfl, ?_, ?_⟩
    · rw [h.2]; norm_num
    · rw [h.2, hc]
      show (-1 / 2 : ℚ) < 0
      norm_num

/-- C28 (counterexample): with the requested batch size 1 on two ranks, the
file of three records gives epochs of one batch, not of three, and this batch
presents the three records, not one. -/
theorem batch_size_one_counterexample :
    singleSettings.mbatchsize = 1 ∧ singleSettings.mdataset.length = 3 ∧
    ∃ world0, initialWorld 2 ⟨1, 2⟩ singleSettings = some world0 ∧ world0.length = 2 ∧
      (∀ s ∈ setBatch 1 world0, s.constants.batches = 1 ∧ s.batch = 1) ∧
      ((setBatch 1 world0).map (fun s => (batch_bounds s).2 - (batch_bounds s).1)).sum = 3 := by
  obtain ⟨world0, h0, hlen, -, -⟩ := initialWorld_loaded 2 ⟨1, 2⟩ singleSettings 2 (by decide)
    (by decide) (by decide)
  obtain ⟨hK, hsum⟩ := batch_one_world 2 ⟨1, 2⟩ singleSettings 2 world0 h0 (by decide) rfl
    (by decide) (by decide) (setBatch 1 world0) 1 (by simp [setBatch])
    (by intro q h1 h2; simp [setBatch])
  refine ⟨rfl, rfl, world0, h0, hlen, ?_, ?_⟩
  · intro s hs
    refine ⟨hK s hs, ?_⟩
    simp only [setBatch, List.mem_map] at hs
    obtain ⟨a, -, rfl⟩ := hs
    rfl
  · exact (hsum (le_refl 1) (le_refl 1)).1

/-- C28 (amended): for a file of `N < UINT_MAX` records and a requested batch
size of 1, take the states `world` of the `R` ranks at a batch `t`, with the
constants that the constructors have captured.  On one rank (`R = 1`) an
epoch has `K = N` batches and the batch `t` presents exactly the record
`t - 1`.  On two ranks or more the batch size 1 is below the number of ranks
and is replaced by `N`: an epoch has `K = 1` batch, in which every rank
presents all its records, `N` records over all ranks.  In both cases every
rank performs exactly one reduce in a batch. -/
theorem batch_size_one (exp : ℚ → ℚ) (R : Nat) (lattice : Lattice) (settings : TrainSettings)
    (D : Nat) (world0 : List TrainState) (h0 : initialWorld R lattice settings = some world0)
    (hD : dataset_dimensions settings.mdataset = some D)
    (hb : settings.mbatchsize = 1) (hN : settings.mdataset.length < UINT_MAX) (hR : 1 ≤ R)
    (world : List TrainState) (t : Nat) (hw : world.length = world0.length)
    (hc : ∀ q (h1 : q < world.length) (h2 : q < world0.length),
      world[q].constants = world0[q].constants ∧ world[q].batch = t) :
    world.length = R ∧
    (∀ s ∈ world, s.constants.batches = if R = 1 then settings.mdataset.length else 1) ∧
    (1 ≤ t → t ≤ (if R = 1 then settings.mdataset.length else 1) →
      (world.map (fun s => (batch_bounds s).2 - (batch_bounds s).1)).sum
        = (if R = 1 then 1 else settings.mdataset.length) ∧
      (R = 1 → ∀ s ∈ world, batch_bounds s = (t - 1, t)) ∧
      (2 ≤ R → ∀ s ∈ world, batch_bounds s = (0, s.constants.dataset.mrrecords))) ∧
    (∀ q s, world[q]? = some s →
      (batch_present exp world q).2
        = [BatchEvent.init]
          ++ (List.range' (batch_bounds s).1 ((batch_bounds s).2 - (batch_bounds s).1)).map
              BatchEvent.present
          ++ [BatchEvent.reduce, BatchEvent.commit] ∧
      (batch_present exp world q).2.count BatchEvent.reduce = 1) := by
  obtain ⟨hK, hsum⟩ := batch_one_world R lattice settings D world0 h0 hD hb hN hR world t hw hc
  refine ⟨?_, hK, hsum, ?_⟩
  · rw [hw]
    exact (initialWorld_spec R lattice settings world0 h0).1
  · intro q s hs
    exact batch_present_events exp world q s hs

/-- The hypotheses of `batch_size_one` hold for the file of three records on
one rank, at the second batch: an epoch has three batches, and the batch
presents the record 1 only. -/
theorem batch_size_one_witness :
    ∃ world0, initialWorld 1 ⟨1, 2⟩ singleSettings = some world0 ∧
      (∀ s ∈ setBatch 2 world0, s.constants.batches = 3 ∧ batch_bounds s = (1, 2)) ∧
      ((setBatch 2 world0).map (fun s => (batch_bounds s).2 - (batch_bounds s).1)).sum = 1 := by
  obtain ⟨world0, h0, -, -, -⟩ := initialWorld_loaded 1 ⟨1, 2⟩ singleSettings 2 (by decide)
    (by decide) (by decide)
  obtain ⟨-, hK, hsum, -⟩ := batch_size_one expLinear 1 ⟨1, 2⟩ singleSettings 2 world0 h0
    (by decide) rfl (by decide) (by decide) (setBatch 2 world0) 2 (by simp [setBatch])
    (by intro q h1 h2; simp [setBatch])
  obtain ⟨h1, h2, -⟩ := hsum (by decide) (by decide)
  exact ⟨world0, h0, fun s hs => ⟨hK s hs, h2 rfl s hs⟩, h1⟩

/-- C26 (code bug): on a well-formed file whose lines are all the same record
`x`, with the tolerance `diffmin = 1e-5`, a lattice of one row and one column
at least, `R ≥ 1` ranks, any sequence `rand` of random numbers, an
exponential function with positive values, counters and an initial radius in
the range of `unsigned`: when the scalars of the file do not sum to zero,
`Lattice::train` returns, its calls of `batch_present` are the `K ≥ 1` batches
of the epoch 1 and no other, each of them leaves the weights as they were and
stores the `diff` 0, the radius is updated once, and the run ends with the
epoch cursor 1.  When the scalars sum to zero the mean value `valmean` is 0,
`batch_present` divides the difference by `valmean * size3() = 0` and the
`diff` it stores is not a number: the run does not end the epoch 1 with a
`diff` of 0.  This is the case of the file of three lines `1 -1`. -/
theorem constant_file_exit :
    (∀ (exp : ℚ → ℚ) (rand : Nat → Nat) (fuelE fuelB R : Nat) (lattice : Lattice)
      (settings : TrainSettings) (x : Line),
      (∀ y, 0 < exp y) → wellFormed settings.mdataset = true →
      settings.mdataset.length + settings.mbatchsize < UINT_MAX → 1 ≤ R →
      1 ≤ lattice.mrows → 1 ≤ lattice.mcols → scalarSum settings.mdataset ≠ 0 →
      epochCap settings < UINT_MAX → startRadius lattice settings < 4294967295 →
      1 ≤ fuelE → settings.mdataset.length < fuelB →
      (∀ line ∈ settings.mdataset, line = x) → settings.mdiffmin = 1 / 100000 →
      ∃ r world0, Lattice.train exp rand fuelE fuelB R lattice settings = Except.ok r ∧
        initialWorld R lattice settings = some world0 ∧ world0.length = R ∧
        ∀ q (hq : q < world0.length),
          1 ≤ world0[q].constants.batches ∧
          (batchStates q r.trace).map (fun p => (p.1.epoch, p.1.batch))
            = (List.range' 1 world0[q].constants.batches).map (fun t => (1, t)) ∧
          (∀ p ∈ batchStates q r.trace, p.2.weights = p.1.weights ∧ p.2.diff = 0) ∧
          (updateStates q r.trace).map (fun s => s.epoch) = [1] ∧
          ∃ s, r.world[q]? = some s ∧ s.epoch = 1 ∧ s.diff = 0 ∧
            s.diff < s.constants.diffmin) ∧
    (∀ (exp : ℚ → ℚ) (world : List TrainState) (q : Nat) (s : TrainState),
      world[q]? = some s → s.constants.valmean = 0 → (batch_present exp world q).1 = none) ∧
    (∀ (exp : ℚ → ℚ) (rand : Nat → Nat) (fuelE fuelB R : Nat) (lattice : Lattice)
      (settings : TrainSettings),
      wellFormed settings.mdataset = true → settings.mdataset.length ≤ UINT_MAX → 1 ≤ R →
      scalarSum settings.mdataset = 0 →
      Lattice.train exp rand (fuelE + 1) (fuelB + 1) R lattice settings
        = Except.error TrainError.nan) ∧
    (∀ line ∈ zeroSettings.mdataset, line = [1, -1]) ∧
    zeroSettings.mdiffmin = 1 / 100000 ∧ scalarSum zeroSettings.mdataset = 0 ∧
    Lattice.train expLinear (fun k => k) 3 4 2 ⟨1, 2⟩ zeroSettings
      = Except.error TrainError.nan := by
  refine ⟨?_, fun exp world q s hs hv => batch_present_zero_mean exp world q s hs hv,
    fun exp rand fuelE fuelB R lattice settings hwf hN hR hsum =>
      train_zero_mean exp rand fuelE fuelB R lattice settings hwf hN hR hsum, ?_, rfl,
    by norm_num [scalarSum, zeroSettings], ?_⟩
  · intro exp rand fuelE fuelB R lattice settings x hexp hwf hNB hR hrows hcols hsum hE hrad0
      hfuelE hfuelB hfile hdiffmin
    obtain ⟨r, D, world0, h, hD, h0, hlen0, hloops, hgood, hfinal⟩ := constant_file_run exp hexp
      rand fuelE fuelB R lattice settings hwf hNB hR hrows hcols hsum hE hrad0 hfuelE hfuelB x
      hfile hdiffmin
    refine ⟨r, world0, h, h0, hlen0, ?_⟩
    intro q hq
    obtain ⟨hK1, hKmax, hE1, hEmax⟩ := hloops q hq
    obtain ⟨n, conv, s, hs, hc, hn, hct, hcf, -, hb, hu, -, -, -, -, hlast, -⟩ :=
      train_end exp rand fuelE fuelB R lattice settings r h world0 h0 q hq hEmax hKmax
    obtain ⟨he, hd, -, -⟩ := hfinal s (mem_of_getElem? _ _ _ hs)
    have hn1 : n = 1 ∧ conv = true := by
      cases conv with
      | true =>
        obtain ⟨-, h2⟩ := hct rfl
        exact ⟨by omega, rfl⟩
      | false =>
        obtain ⟨-, h2⟩ := hcf rfl
        omega
    obtain ⟨hn1, hconv⟩ := hn1
    subst hn1
    refine ⟨hK1, ?_, fun p hp => (hgood q p hp).2, ?_, s, hs, he, hd, ?_⟩
    · have := congrArg (List.map (fun x : Nat × Nat × ℚ => (x.1, x.2.1))) hb
      rw [List.map_map, epochGrid_cursors] at this
      simpa [Function.comp] using this
    · have := congrArg (List.map (fun x : Nat × ℚ => x.1)) hu
      rw [List.map_map] at this
      simpa [Function.comp] using this
    · obtain ⟨st, hst, hlt⟩ := hlast hconv
      obtain ⟨-, c2, -⟩ := ctor_constants ⟨q, R⟩ lattice settings world0[q] D
        ((initialWorld_spec R lattice settings world0 h0).2 q hq) hD hR (by omega)
      rw [hd, hc, c2, hdiffmin, if_pos (by norm_num)]
      norm_num
  · intro line hl
    simp only [zeroSettings, List.mem_cons, List.mem_singleton, List.not_mem_nil, or_false,
      or_self] at hl
    exact hl
  · exact train_zero_mean expLinear (fun k => k) 2 3 2 ⟨1, 2⟩ zeroSettings (by decide)
      (by decide) (by decide) (by norm_num [scalarSum, zeroSettings])

/-- The first part of `constant_file_exit` applies to the file of three lines
`2 3` on two ranks, with a lattice of one row and two columns and the default
decay: the run ends in the epoch 1 with a `diff` of 0. -/
theorem constant_file_exit_witness :
    ∃ r world0, Lattice.train expLinear (fun k => k) 3 4 2 ⟨1, 2⟩ constantSettings = Except.ok r ∧
      initialWorld 2 ⟨1, 2⟩ constantSettings = some world0 ∧ world0.length = 2 ∧
      ∀ q (hq : q < world0.length),
        1 ≤ world0[q].constants.batches ∧
        (batchStates q r.trace).map (fun p => (p.1.epoch, p.1.batch))
          = (List.range' 1 world0[q].constants.batches).map (fun t => (1, t)) ∧
        (∀ p ∈ batchStates q r.trace, p.2.weights = p.1.weights ∧ p.2.diff = 0) ∧
        (updateStates q r.trace).map (fun s => s.epoch) = [1] ∧
        ∃ s, r.world[q]? = some s ∧ s.epoch = 1 ∧ s.diff = 0 ∧ s.diff < s.constants.diffmin :=
  constant_file_exit.1 expLinear (fun k => k) 3 4 2 ⟨1, 2⟩ constantSettings [2, 3]
    expLinear_pos (by decide) (by decide) (by decide) (by decide) (by decide)
    (by norm_num [scalarSum, constantSettings]) (by decide)
    (by norm_num [startRadius, constantSettings, callSettings]) (by decide) (by decide)
    (by
      intro line hl
      simp only [constantSettings, List.mem_cons, List.mem_singleton, List.not_mem_nil, or_false,
        or_self] at hl
      exact hl)
    rfl

/-- C27 (counterexample): in the run on the square in which every cell
receives the record `(0, 0)` at the initialisation, for the positive function
`expLinear` in the place of `std::exp`, the first scalar of the cell `(0, 0)`
is `3/17` after the single epoch, not the `0` of its record: the radius
`nradius = 0` of the settings is replaced by `0.5 * min(2, 2) = 1`, and the
batch moves every cell towards the mean of the four records. -/
theorem square_one_epoch_counterexample :
    squareSettings.mnradius = 0 ∧ startRadius ⟨2, 2⟩ squareSettings = 1 ∧
    squareInit (fun _ => 0) 0 = 0 ∧
    ∃ r, Lattice.train expLinear (fun _ => 0) 2 5 1 ⟨2, 2⟩ squareSettings = Except.ok r ∧
      r.world ≠ [] ∧ ∀ s ∈ r.world, s.weights.mem.getD 0 0 = 3 / 17 := by
  obtain ⟨r, h, -, -, -, hne, hfinal⟩ := square_run expLinear expLinear_pos (fun _ => 0) 2 5
    (by decide) (by decide)
  refine ⟨rfl, by norm_num [startRadius, squareSettings], by simp [squareInit, squareSettings],
    r, h, hne, ?_⟩
  intro s hs
  rw [(hfinal s hs).2.2 0 (by decide)]
  norm_num [squareFinal, squareInit, squareWeight, cell_weight, grid_sqdist, squared_hypot,
    square, usub, u32, expLinear, squareSettings]

/-- C27 (amended): for the input of the 4 records `(0,0)`, `(1,0)`, `(0,1)`,
`(1,1)` with a lattice of 2 by 2 cells, `epochs = 1`, `batchsize = 4`,
`nradius = 0` and `rdecay = 0` on one rank, for every sequence `rand` of
random numbers and every exponential function with positive values: the
radius that the constructor captures is `0.5 * min(2, 2) = 1`, not the `0` of
the settings; `Lattice::train` returns after one call of `batch_present`,
made in the epoch 1 with the radius 1; before the call the scalar `p` of the
weights is the field `p mod 2` of the record `rand (p / 2) mod 4` selected
for its cell at the initialisation; and after the call, and at the end of the
run, every scalar of every cell differs from that field. -/
theorem square_one_epoch (exp : ℚ → ℚ) (hexp : ∀ x, 0 < exp x) (rand : Nat → Nat)
    (fuelE fuelB : Nat) (hfE : 1 < fuelE) (hfB : 4 < fuelB) :
    squareSettings.mnradius = 0 ∧ startRadius ⟨2, 2⟩ squareSettings = 1 ∧
    (∀ p, squareInit rand p
      = (squareSettings.mdataset.getD (rand (p / 2) % 4) []).getD (p % 2) 0) ∧
    ∃ r, Lattice.train exp rand fuelE fuelB 1 ⟨2, 2⟩ squareSettings = Except.ok r ∧
      (batchStates 0 r.trace).map (fun p => (p.1.epoch, p.1.batch, p.1.nradius))
        = [(1, 1, 1)] ∧
      (∀ p ∈ batchStates 0 r.trace, ∀ i, i < 8 →
        p.1.weights.mem.getD i 0 = squareInit rand i ∧
        p.2.weights.mem.getD i 0 ≠ squareInit rand i) ∧
      r.world ≠ [] ∧
      ∀ s ∈ r.world, ∀ p, p < 8 → s.weights.mem.getD p 0 ≠ squareInit rand p := by
  obtain ⟨r, h, -, hgrid, hgood, hne, hfinal⟩ := square_run exp hexp rand fuelE fuelB hfE hfB
  refine ⟨rfl, by norm_num [startRadius, squareSettings], fun p => rfl, r, h, hgrid, ?_, hne, ?_⟩
  · intro p hp i hi
    obtain ⟨k1, k2, -⟩ := hgood p hp
    refine ⟨k1 i hi, ?_⟩
    rw [k2 i hi]
    exact (square_update exp hexp rand i).2.2
  · intro s hs p hp
    rw [(hfinal s hs).2.2 p hp]
    exact (square_update exp hexp rand p).2.2

/-- The hypotheses of `square_one_epoch` hold for the function `expLinear` and
the sequence of random numbers `0, 1, 2, ...`, which gives each cell its own
record. -/
theorem square_one_epoch_witness :
    ∃ r, Lattice.train expLinear (fun k => k) 2 5 1 ⟨2, 2⟩ squareSettings = Except.ok r ∧
      (batchStates 0 r.trace).map (fun p => (p.1.epoch, p.1.batch, p.1.nradius))
        = [(1, 1, 1)] ∧
      r.world ≠ [] ∧
      ∀ s ∈ r.world, ∀ p, p < 8 → s.weights.mem.getD p 0 ≠ squareInit (fun k => k) p := by
  obtain ⟨-, -, -, r, h, hgrid, -, hne, hfinal⟩ :=
    square_one_epoch expLinear expLinear_pos (fun k => k) 2 5 (by decide) (by decide)
  exact ⟨r, h, hgrid, hne, hfinal⟩

/-- C38: for every total `T` and every number of ranks `R ≥ 1`, the shares
`distribute(T, r)` of the ranks `r = 0, ..., R - 1` sum to `T`, any two of
them differ by at most 1, and they do not increase with `r`; each share is
`T / R`, plus one for the first `T mod R` ranks. -/
theorem distribute_shares (st : parallel.State) (T : Nat) (hR : 1 ≤ st.mranks) :
    ((List.range st.mranks).map (fun r => parallel.distribute st T r)).sum = T ∧
    (∀ r r2, r < st.mranks → r2 < st.mranks →
      parallel.distribute st T r ≤ parallel.distribute st T r2 + 1) ∧
    (∀ r r2, r ≤ r2 → parallel.distribute st T r2 ≤ parallel.distribute st T r) ∧
    (∀ r, parallel.distribute st T r
      = T / st.mranks + (if r < T % st.mranks then 1 else 0)) := by
  refine ⟨?_, ?_, ?_, fun r => distribute_eq st T r⟩
  · rw [list_range_sum]
    refine Eq.trans ?_ (sum_counts (T + 1) st.mranks T hR)
    apply Finset.sum_congr rfl
    intro r hr
    have hr2 : r < st.mranks := Finset.mem_range.1 hr
    rw [distribute_eq, ← count_mod_eq st.mranks r T (by omega) hr2]
    apply count_congr_lt
    intro i hi
    rw [Nat.mod_eq_of_lt (show i < T + 1 by omega)]
  · intro r r2 _ _
    rw [distribute_eq, distribute_eq]
    split_ifs <;> omega
  · intro r r2 hle
    rw [distribute_eq, distribute_eq]
    split_ifs <;> omega

/-- The hypothesis of `distribute_shares` holds for three ranks: the shares of
the total 7 are 3, 2 and 2. -/
theorem distribute_shares_witness :
    ((List.range 3).map (fun r => parallel.distribute ⟨0, 3⟩ 7 r)).sum = 7 ∧
    (List.range 3).map (fun r => parallel.distribute ⟨0, 3⟩ 7 r) = [3, 2, 2] :=
  ⟨(distribute_shares ⟨0, 3⟩ 7 (by decide)).1, by decide⟩

/-- C39 (code bug): the bounds `r2 = min(brow + share + 1, rows)` and
`c2 = min(bcol + share + 1, cols)` of `batch_fraction_accumulate` are computed
on `unsigned` values.  When the sums do not leave the range of `unsigned`, the
cell of the best-matching unit is among the cells visited; when
`brow + share + 1` (or `bcol + share + 1`) exceeds `UINT_MAX` the sum wraps to
a value that is at most `brow` (`bcol`), and no cell of the row (column) of the
best-matching unit is visited.  For the share `2^32 - 1` and the unit `(0, 0)`
of a lattice of one cell the bounds are `(0, 0, 0, 0)`: no cell is visited, and
the call leaves the fraction as it was, so the record is not accounted for. -/
theorem accumulate_bounds_bmu :
    (∀ share brow bcol rows cols : Nat, brow < rows → bcol < cols →
      rows ≤ UINT_MAX → cols ≤ UINT_MAX → share ≤ UINT_MAX →
      (brow + share + 1 ≤ UINT_MAX → bcol + share + 1 ≤ UINT_MAX →
        (brow, bcol) ∈ loop_cells (accumulate_bounds share brow bcol rows cols).1
          (accumulate_bounds share brow bcol rows cols).2.1
          (accumulate_bounds share brow bcol rows cols).2.2.1
          (accumulate_bounds share brow bcol rows cols).2.2.2) ∧
      (UINT_MAX < brow + share + 1 →
        (accumulate_bounds share brow bcol rows cols).2.1 ≤ brow ∧
        ∀ c, (brow, c) ∉ loop_cells (accumulate_bounds share brow bcol rows cols).1
          (accumulate_bounds share brow bcol rows cols).2.1
          (accumulate_bounds share brow bcol rows cols).2.2.1
          (accumulate_bounds share brow bcol rows cols).2.2.2) ∧
      (UINT_MAX < bcol + share + 1 →
        (accumulate_bounds share brow bcol rows cols).2.2.2 ≤ bcol ∧
        ∀ r, (r, bcol) ∉ loop_cells (accumulate_bounds share brow bcol rows cols).1
          (accumulate_bounds share brow bcol rows cols).2.1
          (accumulate_bounds share brow bcol rows cols).2.2.1
          (accumulate_bounds share brow bcol rows cols).2.2.2)) ∧
    accumulate_bounds 4294967295 0 0 1 1 = (0, 0, 0, 0) ∧
    accumulate_cells (gridState 1 1 4294967295) 0 0 = [] ∧
    ∀ (exp : ℚ → ℚ) (record : Ptr),
      batch_fraction_accumulate exp (gridState 1 1 4294967295) record 0 0
        = some (gridState 1 1 4294967295) := by
  have hcells : accumulate_cells (gridState 1 1 4294967295) 0 0 = [] := by
    simp only [accumulate_cells, accumulate_bounds, gridState, toUnsigned_max]
    decide
  refine ⟨?_, by decide, hcells, ?_⟩
  · intro share brow bcol rows cols hb1 hb2 hrows hcols hshare
    have hU : UINT_MAX = 4294967295 := rfl
    refine ⟨?_, ?_, ?_⟩
    · intro h1 h2
      rw [mem_loop_cells]
      simp only [accumulate_bounds, u32_of_le _ h1, u32_of_le _ h2]
      refine ⟨⟨?_, ?_⟩, ?_, ?_⟩
      · split_ifs <;> omega
      · exact lt_min (by omega) hb1
      · split_ifs <;> omega
      · exact lt_min (by omega) hb2
    · intro h1
      have hle : (accumulate_bounds share brow bcol rows cols).2.1 ≤ brow := by
        simp only [accumulate_bounds]
        apply le_trans (Nat.min_le_left _ _)
        unfold u32
        omega
      refine ⟨hle, ?_⟩
      intro c hc
      rw [mem_loop_cells] at hc
      have := hc.1.2
      simp only at this
      omega
    · intro h1
      have hle : (accumulate_bounds share brow bcol rows cols).2.2.2 ≤ bcol := by
        simp only [accumulate_bounds]
        apply le_trans (Nat.min_le_left _ _)
        unfold u32
        omega
      refine ⟨hle, ?_⟩
      intro r hr
      rw [mem_loop_cells] at hr
      have := hr.2.2
      simp only at this
      omega
  · intro exp record
    rw [accumulate_eq exp _ record 0 0 (by simp [gridState])]
    rw [hcells]
    rfl

/-- C40: in a run of `Lattice::train` that returns, seen from the rank 0 with
an epoch cap `E` and a number of batches below `UINT_MAX`, `print` is called
twice: right after the initialisation with the epoch cursor 0, and at the end
with the epoch cursor `E + 1` when the run reached the cap without a
convergence exit, and with the cursor `n` when the run stopped by the
convergence test at the end of the epoch `n`.  So the default names of the two
dumps are `lattice0.out` and then `lattice<E+1>.out` or `lattice<n>.out`. -/
theorem final_dump_epoch (exp : ℚ → ℚ) (rand : Nat → Nat) (fuelE fuelB ranks : Nat)
    (lattice : Lattice) (settings : TrainSettings) (r : Run)
    (h : Lattice.train exp rand fuelE fuelB ranks lattice settings = Except.ok r)
    (world0 : List TrainState) (h0 : initialWorld ranks lattice settings = some world0)
    (hq : 0 < world0.length)
    (hE : world0[0].constants.epochs < UINT_MAX)
    (hK : world0[0].constants.batches < UINT_MAX) :
    Lattice.printName 0 = "lattice0.out" ∧
    ∃ n conv, n ≤ world0[0].constants.epochs ∧
      (updateStates 0 r.trace).map (fun s => s.epoch) = List.range' 1 n ∧
      (conv = true → 1 ≤ n ∧ ∃ st, (updateStates 0 r.trace).getLast? = some st ∧
        st.diff < world0[0].constants.diffmin) ∧
      (conv = false → n = world0[0].constants.epochs ∧
        ∀ st ∈ updateStates 0 r.trace, ¬ st.diff < world0[0].constants.diffmin) ∧
      (printStates 0 r.trace).map (fun s => s.epoch)
        = [0, if conv then n else world0[0].constants.epochs + 1] ∧
      dumpNames r.trace
        = ["lattice0.out",
            Lattice.printName (if conv then n else world0[0].constants.epochs + 1)] := by
  refine ⟨by decide, ?_⟩
  obtain ⟨n, conv, s, hs, hc, hn, hct, hcf, -, -, hu, -, hp, -, -, hlast, hall⟩ :=
    train_end exp rand fuelE fuelB ranks lattice settings r h world0 h0 0 hq hE hK
  have hse : s.epoch = if conv then n else world0[0].constants.epochs + 1 := by
    cases conv with
    | true => simpa using (hct rfl).2
    | false => simpa using (hcf rfl).2
  have hp2 : (printStates 0 r.trace).map (fun s => s.epoch)
      = [0, if conv then n else world0[0].constants.epochs + 1] := by
    rw [hp, hse]
  refine ⟨n, conv, hn, ?_, ?_, ?_, hp2, ?_⟩
  · have h1 : (updateStates 0 r.trace).map (fun s => s.epoch)
        = ((updateStates 0 r.trace).map (fun s => (s.epoch, s.nradius))).map
            (fun x : Nat × ℚ => x.1) := by
      rw [List.map_map]
      rfl
    have hid : ((fun x : Nat × ℚ => x.1)
        ∘ fun e : Nat => (e, radiusAfter exp world0[0].constants e)) = id := rfl
    rw [h1, hu, List.map_map, hid, List.map_id]
  · intro hconv
    exact ⟨(hct hconv).1, hlast hconv⟩
  · intro hconv
    exact ⟨(hcf hconv).1, hall hconv⟩
  · have hd : dumpNames r.trace
        = ((printStates 0 r.trace).map (fun s => s.epoch)).map Lattice.printName := by
      simp only [dumpNames, List.map_map]
      rfl
    rw [hd, hp2]
    simp only [List.map_cons, List.map_nil]
    congr 1

/-- The hypotheses of `final_dump_epoch` hold for the rank 0 of the two ranks
of a run of two epochs on a file of three records. -/
theorem final_dump_epoch_witness :
    ∃ r world0, ∃ hq : 0 < world0.length,
      Lattice.train expLinear (fun k => 5 * k) 3 4 2 ⟨1, 2⟩ callSettings = Except.ok r ∧
      initialWorld 2 ⟨1, 2⟩ callSettings = some world0 ∧
      world0[0].constants.epochs = 2 ∧
      ∃ (n : Nat) (conv : Bool), n ≤ world0[0].constants.epochs ∧
        dumpNames r.trace
          = ["lattice0.out",
              Lattice.printName (if conv then n else world0[0].constants.epochs + 1)] := by
  obtain ⟨r, hr⟩ := callSettings_run (fun k => 5 * k)
  obtain ⟨world0, h0, hq, he, hk, -, -⟩ := callSettings_world
  have hE : world0[0].constants.epochs < UINT_MAX := by rw [he]; decide
  have hK : world0[0].constants.batches < UINT_MAX := by
    have : (3 : Nat) < UINT_MAX := by decide
    omega
  obtain ⟨-, n, conv, hn, -, -, -, -, hd⟩ :=
    final_dump_epoch expLinear (fun k => 5 * k) 3 4 2 ⟨1, 2⟩ callSettings r hr world0 h0 hq hE hK
  exact ⟨r, world0, hq, hr, h0, he, n, conv, hn, hd⟩

/-- C37: take a well-formed file whose scalars have a positive sum (a positive
mean value), settings with `diffmin ≤ 1e-6`, a lattice of one row and one
column at least, `R ≥ 1` ranks, an exponential function with positive values,
and counters and radii in the range of `unsigned`.  Then the tolerance that
the constants hold is 0, `Lattice::train` returns, no test `diff < diffmin`
succeeds, and every rank runs the `K` batches of each of the epochs
`1, ..., E` and ends with the epoch cursor `E + 1`, where `E` is
`settings.epochs` when that is positive and the number `N` of records
otherwise. -/
theorem no_convergence_exit (exp : ℚ → ℚ) (hexp : ∀ x, 0 < exp x) (rand : Nat → Nat)
    (fuelE fuelB R : Nat) (lattice : Lattice) (settings : TrainSettings)
    (hwf : wellFormed settings.mdataset = true)
    (hNB : settings.mdataset.length + settings.mbatchsize < UINT_MAX) (hR : 1 ≤ R)
    (hrows : 1 ≤ lattice.mrows) (hcols : 1 ≤ lattice.mcols)
    (hsum : 0 < scalarSum settings.mdataset)
    (hE : epochCap settings < UINT_MAX)
    (hrad0 : startRadius lattice settings < 4294967295)
    (hrad : ∀ e, 1 ≤ e → e < epochCap settings →
      startRadius lattice settings * exp ((e : ℚ) * settings.mrdecay) < 4294967295)
    (hfuelE : epochCap settings < fuelE) (hfuelB : settings.mdataset.length < fuelB)
    (hdm : settings.mdiffmin ≤ 1 / 1000000) :
    epochCap settings
      = (if settings.mepochs > 0 then settings.mepochs else settings.mdataset.length) ∧
    ∃ r world0, Lattice.train exp rand fuelE fuelB R lattice settings = Except.ok r ∧
      initialWorld R lattice settings = some world0 ∧ world0.length = R ∧
      ∀ q (hq : q < world0.length),
        world0[q].constants.diffmin = 0 ∧
        world0[q].constants.epochs = epochCap settings ∧
        0 < world0[q].constants.valmean ∧
        (∀ st ∈ updateStates q r.trace, ¬ st.diff < world0[q].constants.diffmin) ∧
        (batchStates q r.trace).map (fun p => (p.1.epoch, p.1.batch))
          = (List.range' 1 (epochCap settings)).flatMap (fun e =>
              (List.range' 1 world0[q].constants.batches).map (fun t => (e, t))) ∧
        (updateStates q r.trace).map (fun s => s.epoch) = List.range' 1 (epochCap settings) ∧
        ∃ s, r.world[q]? = some s ∧ s.epoch = epochCap settings + 1 := by
  refine ⟨rfl, ?_⟩
  have hN : settings.mdataset.length ≤ UINT_MAX := by omega
  have hsum0 : scalarSum settings.mdataset ≠ 0 := ne_of_gt hsum
  obtain ⟨r, h⟩ := train_total exp hexp rand fuelE fuelB R lattice settings hwf hNB hR hrows hcols
    hsum0 hE hrad0 hrad hfuelE hfuelB
  obtain ⟨D, world0, world1, s0, hD, hall, h0, hlen0, hload, h1, hlen1, hs0, e0, n0, r0, k0, hready,
    -, -, -⟩ := train_start exp hexp rand R lattice settings hwf hNB hR hrows hcols hsum0 hE
      hrad0 hrad
  obtain ⟨-, hEmax, hKmax, -, -, -, -, hconst, -, -⟩ := hready
  obtain ⟨-, hctor⟩ := initialWorld_spec R lattice settings world0 h0
  obtain ⟨-, hupd⟩ := train_diff_nonneg exp rand fuelE fuelB R lattice settings hwf hN hR hsum r h
  obtain ⟨-, hN1⟩ := dataset_dimensions_pos _ _ hD
  refine ⟨r, world0, h, h0, hlen0, ?_⟩
  intro q hq
  obtain ⟨k1, k2, -⟩ := hconst _ (List.getElem_mem hq)
  obtain ⟨c1, c2, -⟩ := ctor_constants ⟨q, R⟩ lattice settings world0[q] D (hctor q hq) hD hR hN
  have hdiffmin : world0[q].constants.diffmin = 0 := by
    rw [c2, if_neg (not_lt.2 hdm)]
  have hepochs : world0[q].constants.epochs = epochCap settings := by
    rw [k1, e0]
  have hval : 0 < world0[q].constants.valmean := by
    obtain ⟨f1, -, -, f4, -⟩ := ctor_state_fields _ _ _ _ (hctor q hq)
    obtain ⟨ds, hds, hvm⟩ := ctor_valmean ⟨q, R⟩ settings.mdataset settings.mbatchsize hwf hR hN
    have hsame : world0[q].constants.dataset = ds := Option.some.inj (f1.symm.trans hds)
    rw [f4, hsame, hvm]
    apply div_pos hsum
    exact_mod_cast hN1
  obtain ⟨n, conv, s, hs, hc, hn, hct, hcf, -, hb, hu, -, -, -, -, hlast, -⟩ :=
    train_end exp rand fuelE fuelB R lattice settings r h world0 h0 q hq
      (by rw [k1]; exact hEmax) (by rw [k2]; exact hKmax)
  have hnever : ∀ st ∈ updateStates q r.trace, ¬ st.diff < world0[q].constants.diffmin := by
    intro st hst
    rw [hdiffmin]
    exact not_lt.2 (hupd q st hst)
  have hconv : conv = false := by
    cases conv with
    | false => rfl
    | true =>
      exfalso
      obtain ⟨st, hst, hlt⟩ := hlast rfl
      exact hnever st (List.mem_of_mem_getLast? hst) hlt
  subst hconv
  obtain ⟨hnE, hse⟩ := hcf rfl
  rw [hepochs] at hnE hse
  subst hnE
  refine ⟨hdiffmin, hepochs, hval, hnever, ?_, ?_, s, hs, hse⟩
  · have h2 := congrArg (List.map (fun x : Nat × Nat × ℚ => (x.1, x.2.1))) hb
    rw [List.map_map, epochGrid_cursors] at h2
    rw [← h2]
    rfl
  · have h3 : (updateStates q r.trace).map (fun s => s.epoch)
        = ((updateStates q r.trace).map (fun s => (s.epoch, s.nradius))).map
            (fun x : Nat × ℚ => x.1) := by
      rw [List.map_map]
      rfl
    have hid : ((fun x : Nat × ℚ => x.1)
        ∘ fun e : Nat => (e, radiusAfter exp world0[q].constants e)) = id := rfl
    rw [h3, hu, List.map_map, hid, List.map_id]

/-- The hypotheses of `no_convergence_exit` hold for the settings
`callSettings` (`diffmin = 0`, two epochs) on two ranks. -/
theorem no_convergence_exit_witness :
    ∃ r world0, Lattice.train expLinear (fun k => 7 * k) 3 4 2 ⟨1, 2⟩ callSettings = Except.ok r ∧
      initialWorld 2 ⟨1, 2⟩ callSettings = some world0 ∧ world0.length = 2 ∧
      ∀ q (hq : q < world0.length),
        world0[q].constants.diffmin = 0 ∧
        (updateStates q r.trace).map (fun s => s.epoch) = [1, 2] ∧
        ∃ s, r.world[q]? = some s ∧ s.epoch = 3 := by
  obtain ⟨-, r, world0, h, h0, hlen, hall⟩ :=
    no_convergence_exit expLinear expLinear_pos (fun k => 7 * k) 3 4 2 ⟨1, 2⟩ callSettings
      (by decide) (by decide) (by decide) (by decide) (by decide)
      (by norm_num [scalarSum, callSettings]) (by decide)
      (by norm_num [startRadius, callSettings])
      (by
        intro e he1 he2
        have he : e = 1 := by
          have : epochCap callSettings = 2 := by decide
          omega
        subst he
        norm_num [startRadius, callSettings, expLinear])
      (by decide) (by decide) (by norm_num [callSettings])
  refine ⟨r, world0, h, h0, hlen, ?_⟩
  intro q hq
  obtain ⟨k1, -, -, -, -, k6, s, hs, hse⟩ := hall q hq
  have hcap : epochCap callSettings = 2 := by decide
  rw [hcap] at k6 hse
  exact ⟨k1, k6, s, hs, hse⟩

/-- C35: for an exponential with `exp 0 = 1` and no negative value, ranks
whose states are shaped for a lattice of at least one row and one column, and
radii `rho > 0` with `floor(rho) < 2^32 - 1`: every rank reaches the
collective of `batch_present`, the weights `h` that one presented record adds
to the denominator sum to at least 1 (the cell of the best-matching unit adds
`exp 0 = 1`, and every cell a positive weight when `exp` is positive), so the
reduced denominator, by which `batch_fraction_commit` divides on every rank,
is at least the number `m` of records presented over all ranks; it is
strictly positive as soon as a rank presents a record, which the rank 0 does
in every batch `t` with `(t - 1) * B < N`, that is `t <= K`. -/
theorem denominator_positive (exp : ℚ → ℚ) (hexp : ∀ x, 0 ≤ exp x) (hexp0 : exp 0 = 1)
    (rows cols D : Nat) (hrows : 1 ≤ rows) (hcols : 1 ≤ cols) (world : List TrainState)
    (hsh : ∀ s ∈ world, shaped rows cols D s)
    (hrho : ∀ s ∈ world, 0 < s.nradius ∧ ⌊s.nradius⌋₊ < 4294967295) :
    (∀ s ∈ world, (0, 0) ∈ accumulate_cells s 0 0 ∧
      cell_weight exp s.nradius 0 0 0 0 = 1 ∧ 1 ≤ recordWeight exp s ∧
      ((∀ x, 0 < exp x) →
        ∀ rc ∈ accumulate_cells s 0 0, 0 < cell_weight exp s.nradius 0 0 rc.1 rc.2)) ∧
    ((presentedCount world : ℕ) : ℚ) ≤ batchDenominator exp world ∧
    (1 ≤ presentedCount world → 0 < batchDenominator exp world) ∧
    (∃ fracs, batch_fractions exp world = some fracs ∧
      ∀ q (hq : q < world.length), ∃ lq, (batch_local exp world[q]).1 = some lq ∧
        (batch_present exp world q).1
          = batch_finish { lq with bfraction := lq.bfraction.reduce fracs } ∧
        (lq.bfraction.reduce fracs).denominator = batchDenominator exp world ∧
        ((presentedCount world : ℕ) : ℚ) ≤ (lq.bfraction.reduce fracs).denominator) ∧
    (∀ s ∈ world, ∀ b R N : Nat, 1 ≤ R → N + b ≤ UINT_MAX →
      s.constants.rbatchsize
        = parallel.distribute ⟨0, R⟩
            (if loopBatchsize b R < UINT_MAX then loopBatchsize b R else N) 0 →
      s.constants.dataset.mrrecords
        = Nat.count (fun i => (i % loopBatchsize b R) % R = 0) N →
      1 ≤ s.batch →
      (s.batch - 1) * (if loopBatchsize b R < UINT_MAX then loopBatchsize b R else N) < N →
      1 ≤ presentedCount world ∧ 0 < batchDenominator exp world) := by
  have hw : ∀ s ∈ world, 1 ≤ recordWeight exp s := by
    intro s hs
    obtain ⟨⟨a1, a2, -⟩, -⟩ := hsh s hs
    exact recordWeight_ge_one exp hexp hexp0 s (by omega) (by omega) (hrho s hs).2
  have hle := presented_le_denominator exp world hw
  have hpos : 1 ≤ presentedCount world → 0 < batchDenominator exp world := by
    intro h1
    have : (1 : ℚ) ≤ ((presentedCount world : ℕ) : ℚ) := by exact_mod_cast h1
    linarith
  refine ⟨?_, hle, hpos, ?_, ?_⟩
  · intro s hs
    obtain ⟨⟨a1, a2, -⟩, -⟩ := hsh s hs
    refine ⟨origin_mem_cells s (by omega) (by omega) (hrho s hs).2, ?_, hw s hs,
      fun hp rc _ => hp _⟩
    rw [cell_weight_origin, hexp0]
  · obtain ⟨fracs, hf, -, hall⟩ := batch_reduced_denominator exp world rows cols D hsh
      (fun s hs => ne_of_gt (hrho s hs).1)
    refine ⟨fracs, hf, fun q hq => ?_⟩
    obtain ⟨lq, h1, h2, h3⟩ := hall q hq
    exact ⟨lq, h1, h2, h3, by rw [h3]; exact hle⟩
  · intro s hs b R N hR hNB hrb hrr ht1 ht
    have hm := presented_pos world ⟨s, hs, rank0_bounds s b R N hR hNB hrb hrr ht1 ht⟩
    exact ⟨hm, hpos hm⟩

/-- The hypotheses of `denominator_positive` hold for two ranks with a lattice
of one cell and the radius 1, in a batch in which the first rank presents two
records and the second one: the reduced denominator is at least 3. -/
theorem denominator_positive_witness :
    presentedCount [sampleState [3, 4, 5] 2 1, sampleState [7] 2 1] = 3 ∧
    (3 : ℚ) ≤ batchDenominator expLinear [sampleState [3, 4, 5] 2 1, sampleState [7] 2 1] := by
  have hc : presentedCount [sampleState [3, 4, 5] 2 1, sampleState [7] 2 1] = 3 := by decide
  have h := (denominator_positive expLinear (fun x => le_of_lt (expLinear_pos x))
    (by norm_num [expLinear]) 1 1 1 (by decide) (by decide)
    [sampleState [3, 4, 5] 2 1, sampleState [7] 2 1]
    (by
      intro s hs
      simp only [List.mem_cons, List.mem_singleton, List.not_mem_nil, or_false] at hs
      rcases hs with rfl | rfl <;>
        exact ⟨⟨rfl, rfl, rfl, rfl⟩, ⟨rfl, rfl, rfl, rfl⟩, ⟨rfl, rfl, rfl, rfl⟩⟩)
    (by
      intro s hs
      simp only [List.mem_cons, List.mem_singleton, List.not_mem_nil, or_false] at hs
      rcases hs with rfl | rfl <;>
        norm_num [sampleState, gridState])).2.1
  rw [hc] at h
  exact ⟨hc, by exact_mod_cast h⟩

/-- C36: for ranks whose states are shaped for a lattice of `rows x cols`
cells of dimension `D` and hold the same radius `rho > 0`, in a batch whose
reduced denominator and whose normalisation `valmean * size3()` are not zero
(so that no division yields a value that is not a number), the call of
`batch_present` returns a state, and with `s = floor(rho)`: `bmu_find` yields
`(0, 0)`, the cells that a record touches lie in the box `[0, s] x [0, s]`,
the reduced numerator is zero at every scalar of a cell `(r, c)` with `r > s`
or `c > s`, and the weight vector of such a cell is left as it was. -/
theorem outside_box_unchanged (exp : ℚ → ℚ) (world : List TrainState) (rows cols D : Nat)
    (hsh : ∀ s ∈ world, shaped rows cols D s) (rho : ℚ) (hrho0 : 0 < rho)
    (hrho : ∀ s ∈ world, s.nradius = rho) (q : Nat) (hq : q < world.length)
    (hden : batchDenominator exp world ≠ 0)
    (hnorm : world[q].constants.valmean * ((rows * cols * D : ℕ) : ℚ) ≠ 0) :
    (∀ (weights : Weights) (record : Ptr), bmu_find weights record = (0, 0)) ∧
    (∀ s ∈ world, ∀ rc ∈ accumulate_cells s 0 0, rc.1 ≤ ⌊rho⌋₊ ∧ rc.2 ≤ ⌊rho⌋₊) ∧
    ∃ t, (batch_present exp world q).1 = some t ∧
      ∀ r c d, r < rows → c < cols → d < D → (⌊rho⌋₊ < r ∨ ⌊rho⌋₊ < c) →
        batchNumerator exp world ((r * cols + c) * D + d) = 0 ∧
        (t.weights.entry (t.weights.index r c)).read d
          = (world[q].weights.entry (world[q].weights.index r c)).read d := by
  have hshare : ∀ s ∈ world, toUnsigned s.nradius ≤ ⌊rho⌋₊ := by
    intro s hs
    rw [hrho s hs]
    exact toUnsigned_le rho
  refine ⟨bmu_find_eq, ?_, ?_⟩
  · intro s hs rc hrc
    obtain ⟨-, -, c3, -, c5, -⟩ := accumulate_cells_box s 0 0 rc hrc
    have := hshare s hs
    omega
  · obtain ⟨t, ht, hts, -, -, -, -, -, -, hw, -⟩ := batch_present_formula exp world rows cols D
      hsh (fun s hs => by rw [hrho s hs]; exact ne_of_gt hrho0) q hq hden hnorm
    refine ⟨t, ht, ?_⟩
    intro r c d hr hc hd hout
    have hz := batchNumerator_outside exp rows cols D world hsh ⌊rho⌋₊ hshare r c d hc hd hout
    refine ⟨hz, ?_⟩
    obtain ⟨⟨a1, a2, a3, -⟩, -⟩ := hts
    obtain ⟨⟨b1, b2, b3, -⟩, -⟩ := hsh _ (List.getElem_mem hq)
    simp only [Weights.entry, Weights.index, Weights.offset, Ptr.read, a2, a3, b2, b3]
    rw [hw _ (cell_position_lt rows cols D r c d hr hc hd), hz, zero_div, add_zero]

/-- The hypotheses of `outside_box_unchanged` hold for the state `cornerState`
of a single rank, whose radius `1 / 2` has the integer part 0: the batch
returns, and the cell `(0, 1)` keeps its weight 0. -/
theorem outside_box_unchanged_witness :
    ∃ t, (batch_present expLinear [cornerState] 0).1 = some t ∧
      (t.weights.entry (t.weights.index 0 1)).read 0 = 0 := by
  have hsh : ∀ s ∈ [cornerState], shaped 1 2 1 s := by
    intro s hs
    rw [List.mem_singleton] at hs
    subst hs
    exact ⟨⟨rfl, rfl, rfl, rfl⟩, ⟨rfl, rfl, rfl, rfl⟩, ⟨rfl, rfl, rfl, rfl⟩⟩
  have hw : ∀ s ∈ [cornerState], 1 ≤ recordWeight expLinear s := by
    intro s hs
    rw [List.mem_singleton] at hs
    subst hs
    exact recordWeight_ge_one expLinear (fun x => le_of_lt (expLinear_pos x))
      (by norm_num [expLinear]) cornerState (by decide) (by decide)
      (by norm_num [cornerState, Nat.floor_eq_zero.2])
  have hle := presented_le_denominator expLinear [cornerState] hw
  have hc : presentedCount [cornerState] = 2 := by decide
  rw [hc] at hle
  obtain ⟨-, -, t, ht, hall⟩ := outside_box_unchanged expLinear [cornerState] 1 2 1 hsh (1 / 2)
    (by norm_num) (by
      intro s hs
      rw [List.mem_singleton] at hs
      subst hs
      rfl) 0 (by decide)
    (by
      intro h0
      rw [h0] at hle
      norm_num at hle)
    (by norm_num [cornerState, sampleState, gridState])
  refine ⟨t, ht, ?_⟩
  rw [(hall 0 1 0 (by decide) (by decide) (by decide) (Or.inr (by norm_num))).2]
  rfl

/-- C33 (code bug): `Dataset::print` ends and prints one line per record, in
order, on a single rank (`R = 1`, enough iterations given), but its body
assigns `idx = idx / ranks` to the counter of its own loop, so with several
ranks the counter falls back: on every rank `r` with `1 <= r < R` and
`r < N` the counter never passes `r`, and on the rank 0 of `R >= 2` ranks
with `N > R` it never passes `R`; the loop does not end for any number of
iterations.  For the file of the two records `1` and `2` on two ranks, the
rank 1 holds one local record and its `print` does not end. -/
theorem print_not_terminating :
    (∀ (self : Dataset) (fuel : Nat), self.mtrecords ≤ UINT_MAX → self.mtrecords < fuel →
      Dataset.print ⟨0, 1⟩ self fuel
        = some ((List.range self.mtrecords).map
            (fun i => (self.rrecord i).slice self.mdimensions))) ∧
    (∀ (st : parallel.State) (self : Dataset), 1 ≤ st.mrank → st.mrank < st.mranks →
      st.mrank < self.mtrecords → ∀ fuel, Dataset.print st self fuel = none) ∧
    (∀ (R : Nat) (self : Dataset), 2 ≤ R → R < self.mtrecords →
      ∀ fuel, Dataset.print ⟨0, R⟩ self fuel = none) ∧
    ∃ ds, Dataset.ctor ⟨1, 2⟩ [[1], [2]] 0 = some ds ∧ ds.mtrecords = 2 ∧ ds.mrrecords = 1 ∧
      ∀ fuel, Dataset.print ⟨1, 2⟩ ds fuel = none := by
  refine ⟨?_, ?_, ?_, ?_⟩
  · intro self fuel hN hfuel
    have h := print_loop_single self hN fuel 0 [] (Nat.zero_le _) (by omega)
    rw [Nat.sub_zero, List.nil_append, ← List.range_eq_range'] at h
    exact h
  · intro st self h1 hR hN fuel
    exact print_loop_stuck st self h1 hR hN fuel 0 [] (Nat.zero_le _)
  · intro R self hR hN fuel
    exact print_loop_stuck_root R self hR hN fuel 0 [] (Nat.zero_le _)
  · obtain ⟨ds, hds, -, ht, hr, -⟩ := ctor_fields ⟨1, 2⟩ [[1], [2]] 0 1 (by decide)
      (by decide) (by decide)
    refine ⟨ds, hds, ht, ?_, ?_⟩
    · rw [hr]
      decide
    · intro fuel
      exact print_loop_stuck ⟨1, 2⟩ ds (by decide) (by decide)
        (by rw [ht]; decide) fuel 0 [] (Nat.zero_le _)

/-- C32 (code bug): `Dataset::Dataset` checks the first line only.  For every
file whose first line has `D >= 1` fields, whatever the other lines hold, the
constructor returns a data set of `N` records of dimension `D` on every rank;
a line with fewer than `D` fields raises no error, the loop pushes the value
read last for each missing field.  For the file of the lines `1 2`, an empty
line and `3 4` on one rank it returns three records, the second being `2 2`,
which the file does not hold. -/
theorem malformed_file_accepted :
    (∀ (st : parallel.State) (file : List Line) (b D : Nat),
      dataset_dimensions file = some D → 1 ≤ st.mranks → file.length ≤ UINT_MAX →
      ∃ ds, Dataset.ctor st file b = some ds ∧ ds.mtrecords = file.length ∧
        ds.mdimensions = D) ∧
    wellFormed [[1, 2], [], [3, 4]] = false ∧
    dataset_dimensions [[1, 2], [], [3, 4]] = some 2 ∧
    (Dataset.ctor ⟨0, 1⟩ [[1, 2], [], [3, 4]] 0).map
        (fun ds => (ds.mtrecords, ds.mrrecords, ds.mdimensions, ds.mdata))
      = some (3, 3, 2, [1, 2, 2, 2, 3, 4]) := by
  refine ⟨?_, by decide, by decide, ?_⟩
  · intro st file b D hD hR hN
    obtain ⟨ds, hds, h1, h2, -⟩ := ctor_fields st file b D hD hR hN
    exact ⟨ds, hds, h2, h1⟩
  · obtain ⟨ds, hds, h1, h2, h3, h4, -⟩ := ctor_fields ⟨0, 1⟩ [[1, 2], [], [3, 4]] 0 2
      (by decide) (by decide) (by decide)
    rw [hds, Option.map_some', h1, h2, h3, h4]
    simp [loadLoop, loadStep, loadInit, parseLine, loopBatchsize, nextBidx, UINT_MAX, u32]
    decide

/-- C34: for the state that the constructor builds on the rank `q` of `R`
ranks for a file of `N` records and a requested batch size `b` with
`N + b <= UINT_MAX`, with `B` the batch size and `K = ceil(N / B)` the number
of batches of the data set: in every batch `t` with `1 <= t <= K` the loop of
`batch_present` presents the local records `[first, end)` of `batch_bounds`,
and a record `G < N` that `global_to_local` places on the rank `q` is among
them exactly when `(t - 1) * B <= G < min(N, t * B)`; every presented local
record is such a record; the rank 0 presents at least one record in every
batch; and every local record of the rank is presented in exactly one of the
`K` batches. -/
theorem batch_partition (q R : Nat) (lattice : Lattice) (settings : TrainSettings)
    (t0 : TrainState) (D : Nat) (h : TrainState.ctor ⟨q, R⟩ lattice settings = some t0)
    (hD : dataset_dimensions settings.mdataset = some D) (hR : 1 ≤ R)
    (hNB : settings.mdataset.length + settings.mbatchsize ≤ UINT_MAX) :
    1 ≤ t0.constants.dataset.mbatchsize ∧
    t0.constants.batches
      = ⌈(settings.mdataset.length : ℚ) / (t0.constants.dataset.mbatchsize : ℚ)⌉₊ ∧
    (∀ s : TrainState, s.constants = t0.constants → 1 ≤ s.batch →
      s.batch ≤ t0.constants.batches →
      (∀ (exp : ℚ → ℚ) (world : List TrainState), world[q]? = some s →
        (batch_present exp world q).2
          = [BatchEvent.init]
            ++ (List.range' (batch_bounds s).1 ((batch_bounds s).2 - (batch_bounds s).1)).map
                BatchEvent.present
            ++ [BatchEvent.reduce, BatchEvent.commit]) ∧
      (∀ G l, G < settings.mdataset.length →
        Dataset.global_to_local ⟨q, R⟩ t0.constants.dataset G = (q, l) →
        (l ∈ List.range' (batch_bounds s).1 ((batch_bounds s).2 - (batch_bounds s).1)
          ↔ ((s.batch - 1) * t0.constants.dataset.mbatchsize ≤ G ∧
              G < min settings.mdataset.length
                (s.batch * t0.constants.dataset.mbatchsize)))) ∧
      (∀ l ∈ List.range' (batch_bounds s).1 ((batch_bounds s).2 - (batch_bounds s).1),
        l < t0.constants.dataset.mrrecords ∧
        ∃ G, G < settings.mdataset.length ∧
          Dataset.global_to_local ⟨q, R⟩ t0.constants.dataset G = (q, l) ∧
          (s.batch - 1) * t0.constants.dataset.mbatchsize ≤ G ∧
          G < min settings.mdataset.length (s.batch * t0.constants.dataset.mbatchsize)) ∧
      (q = 0 → (batch_bounds s).1 < (batch_bounds s).2)) ∧
    (∀ l, l < t0.constants.dataset.mrrecords →
      ∃ t, 1 ≤ t ∧ t ≤ t0.constants.batches ∧
        ∀ s : TrainState, s.constants = t0.constants → 1 ≤ s.batch →
          s.batch ≤ t0.constants.batches →
          (l ∈ List.range' (batch_bounds s).1 ((batch_bounds s).2 - (batch_bounds s).1)
            ↔ s.batch = t)) := by
  have hU : UINT_MAX = 4294967295 := rfl
  have hN : settings.mdataset.length ≤ UINT_MAX := by omega
  obtain ⟨-, -, -, c4, -, c6, c7, c8, -, -⟩ := ctor_constants ⟨q, R⟩ lattice settings t0 D h hD
    hR hN
  simp only at c4 c6 c7 c8
  have hB1 : 1 ≤ t0.constants.dataset.mbatchsize := by
    rw [c4]
    have := loopBatchsize_pos settings.mbatchsize R hR
    have := dimensions_length _ D hD
    split_ifs <;> omega
  obtain ⟨k1, -, k3⟩ := batches_ceil settings.mdataset.length t0.constants.dataset.mbatchsize
    hN hB1
  have hK : t0.constants.batches
      = ⌈(settings.mdataset.length : ℚ) / (t0.constants.dataset.mbatchsize : ℚ)⌉₊ := by
    rw [c7, k1]
  refine ⟨hB1, hK, ?_, ?_⟩
  · intro s hs ht1 htK
    obtain ⟨-, htlt, hbb, hown⟩ := batch_owned q R lattice settings t0 D h hD hR hNB s hs ht1 htK
    have hiff : ∀ G l, G < settings.mdataset.length →
        Dataset.global_to_local ⟨q, R⟩ t0.constants.dataset G = (q, l) →
        (l ∈ List.range' (batch_bounds s).1 ((batch_bounds s).2 - (batch_bounds s).1)
          ↔ ((s.batch - 1) * t0.constants.dataset.mbatchsize ≤ G ∧
              G < min settings.mdataset.length
                (s.batch * t0.constants.dataset.mbatchsize))) := by
      intro G l hG hgl
      rw [(hown G l hG hgl).2, div_window_iff _ G s.batch hB1 ht1]
      constructor
      · rintro ⟨a1, a2⟩
        exact ⟨a1, lt_min hG a2⟩
      · rintro ⟨a1, a2⟩
        exact ⟨a1, lt_of_lt_of_le a2 (min_le_right _ _)⟩
    refine ⟨fun exp world hw => (batch_present_events exp world q s hw).1, hiff, ?_, ?_⟩
    · intro l hl
      have hlN : l < t0.constants.dataset.mrrecords := by
        have hl2 := hl
        rw [hbb, List.mem_range'_1] at hl2
        simp only at hl2
        have hrr : s.constants.dataset.mrrecords = t0.constants.dataset.mrrecords := by rw [hs]
        rw [hrr] at hl2
        omega
      obtain ⟨G, hG, hgl⟩ := local_has_global q R lattice settings t0 D h hD hR hN l hlN
      exact ⟨hlN, G, hG, hgl, (hiff G l hG hgl).1 hl⟩
    · intro hq0
      subst hq0
      exact rank0_bounds s settings.mbatchsize R settings.mdataset.length hR hNB
        (by rw [hs, c6, c4]) (by rw [hs, c8]) ht1 (by rw [← c4]; exact htlt)
  · intro l hl
    obtain ⟨G, hG, hgl⟩ := local_has_global q R lattice settings t0 D h hD hR hN l hl
    have ht : G / t0.constants.dataset.mbatchsize + 1 ≤ t0.constants.batches := by
      rw [hK]
      apply (k3 _ (Nat.le_add_left 1 _)).2
      rw [Nat.add_sub_cancel]
      exact lt_of_le_of_lt (Nat.div_mul_le_self _ _) hG
    refine ⟨G / t0.constants.dataset.mbatchsize + 1, Nat.le_add_left 1 _, ht, ?_⟩
    intro s hs ht1 htK
    obtain ⟨-, -, -, hown⟩ := batch_owned q R lattice settings t0 D h hD hR hNB s hs ht1 htK
    rw [(hown G l hG hgl).2]
    exact eq_comm

/-- The hypotheses of `batch_partition` hold on the second of two ranks for
the settings `initSettings`: three records in batches of two. -/
theorem batch_partition_witness :
    ∃ t0, TrainState.ctor ⟨1, 2⟩ ⟨1, 2⟩ initSettings = some t0 ∧
      1 ≤ t0.constants.dataset.mbatchsize ∧
      t0.constants.batches
        = ⌈((initSettings.mdataset.length : ℕ) : ℚ) / (t0.constants.dataset.mbatchsize : ℚ)⌉₊ := by
  obtain ⟨world, hw, hl, -, -⟩ := initialWorld_loaded 2 ⟨1, 2⟩ initSettings 2 (by decide)
    (by decide) (by decide)
  obtain ⟨-, hc⟩ := initialWorld_spec 2 ⟨1, 2⟩ initSettings world hw
  have h1 : 1 < world.length := by omega
  have hk := batch_partition 1 2 ⟨1, 2⟩ initSettings world[1] 2 (hc 1 h1) (by decide)
    (by decide) (by decide)
  exact ⟨world[1], hc 1 h1, hk.1, hk.2.1⟩

end som
